import Mathlib

/-!
# openskill.go: a shallow embedding of the rating models

The Go sources (`rater.go`, `errors.go`, `util.go`, `bradly_terry.go`,
`plackett_luce.go`, `thurstone_mosteller.go`, `predictor.go`) are transcribed function by
function.

Conventions of the embedding

* `float64` is read as an arbitrary linearly ordered field `F`: every arithmetic
  operation is exact, so rounding, overflow, infinities and NaN are not represented.
  In particular a division by zero has the field's value `x / 0 = 0`, where Go yields an
  infinity or NaN.
  The functions of Go's `math` package that are not field operations
  (`Sqrt`, `Exp`, `Log`, `Erf`, the constant `Pi`) are taken as a parameter
  `MathFns F`.  `RealMath` is their reading over the real numbers.
* Where the outcome depends on rounding, the function has a second transcription, named
  with the suffix `Fl`, that takes the rounding `fl : F → F` of float64 and applies it to
  the result of every arithmetic operation, one operation at a time as the Go compiler
  does on amd64 (no fused multiply-add).  With `fl = id` it is the exact transcription.
  `binary64 : ℚ → ℚ` is round-to-nearest, ties-to-even, with a significand of 53 bits; its
  exponent is unbounded, so it has no overflow, no subnormal numbers, no infinity and no
  NaN.  Theorems in this reading are stated for every `fl` that is monotone, idempotent and
  fixes 0 and 1 (`RoundsToNearest`), which `binary64` is, and, where a sum or a product
  could leave the range of float64, for inputs of a magnitude at which it does not.  A float64 NaN is shown through the operation that
  produces it: a quotient whose numerator and denominator are both zero.
* `int` is `Int`; the only integer arithmetic of the rating models is the negation of a
  score, which wraps at 64 bits (`negInt`).
* A slice is a `List`; a slice that may be `nil` and is tested against `nil` is an
  `Option (List _)`.
* A run-time panic (index out of range) is the `Except.error` of `Except Panic`.
  A Go `error` result is the `Option RateError` (for `checkRateParameters`) or the
  `RateResult.err` outcome (for `Rate`).
-/

set_option autoImplicit false
set_option linter.unusedSectionVars false

namespace OpenSkill

/-! ## Data model -/

/-- The functions of Go's `math` package used by the library that are not field operations. -/
structure MathFns (F : Type) where
  /-- Go `math.Sqrt`. -/
  sqrt : F → F
  /-- Go `math.Exp`. -/
  exp : F → F
  /-- Go `math.Log`. -/
  log : F → F
  /-- Go `math.Erf`. -/
  erf : F → F
  /-- Go `math.Pi`. -/
  pi : F

/-- Run-time panics of the Go program. -/
inductive Panic where
  | indexOutOfRange
  deriving DecidableEq, Repr

/-- The error values of `errors.go`. -/
inductive RateError where
  | ErrLessThanTwoTeams
  | ErrEmptyTeam
  | ErrNoRanksOrScores
  | ErrRanksAndScores
  | ErrRanksAndTeamsMismatch
  | ErrScoresAndTeamsMismatch
  | ErrWeightsAndTeamsMismatch
  deriving DecidableEq, Repr

/-- Go `Rating`: a skill as a Gaussian with mean `Mu` and standard deviation `Sigma`. -/
structure Rating (F : Type) where
  Mu : F
  Sigma : F
  deriving DecidableEq, Repr

/-- The two results `(updatedRatings, err)` of a `Rate` call. -/
inductive RateResult (F : Type) where
  | ratings (updated : List (List (Rating F)))
  | err (e : RateError)
  deriving DecidableEq, Repr

section Validation

variable {F : Type}

/-- The loop `for i, teamWeights := range weights` of `checkRateParameters`, from index `i`. -/
def checkWeightRows (teams : List (List (Rating F))) :
    Nat → List (List F) → Except Panic (Option RateError)
  | _, [] => .ok none
  | i, teamWeights :: rest =>
    match teams[i]? with
    | none => .error .indexOutOfRange
    | some team =>
      if team.length ≠ teamWeights.length then .ok (some .ErrWeightsAndTeamsMismatch)
      else checkWeightRows teams (i + 1) rest

/-- Go `checkRateParameters` (rater.go). `none` is the `nil` error. -/
def checkRateParameters (teams : List (List (Rating F))) (ranks scores : Option (List Int))
    (weights : Option (List (List F))) : Except Panic (Option RateError) :=
  if teams.length < 2 then .ok (some .ErrLessThanTwoTeams)
  else if teams.any (fun team => decide (team.length < 1)) then .ok (some .ErrEmptyTeam)
  else if ranks.isSome && scores.isSome then .ok (some .ErrRanksAndScores)
  else if ranks.isNone && scores.isNone then .ok (some .ErrNoRanksOrScores)
  else if (match ranks with
      | some r => decide (teams.length ≠ r.length)
      | none => false) then .ok (some .ErrRanksAndTeamsMismatch)
  else if (match scores with
      | some s => decide (teams.length ≠ s.length)
      | none => false) then .ok (some .ErrScoresAndTeamsMismatch)
  else
    match weights with
    | none => .ok none
    | some ws =>
      if teams.length ≠ ws.length then .ok (some .ErrWeightsAndTeamsMismatch)
      else checkWeightRows teams 0 ws

end Validation

/-! ## util.go -/

section Loops

variable {α β : Type}

/-- A `for i, x := range xs` loop, started at index `i`, whose body may panic and
otherwise produces the `i`-th entry of the slice being filled. -/
def traverseIdx (f : Nat → α → Except Panic β) : Nat → List α → Except Panic (List β)
  | _, [] => .ok []
  | i, x :: xs =>
    match f i x with
    | .error p => .error p
    | .ok y =>
      match traverseIdx f (i + 1) xs with
      | .error p => .error p
      | .ok ys => .ok (y :: ys)

/-- Go `sort.SliceStable(xs, less)`: a stable sort, here stable insertion sort
(an element moves in front of a later one only when `less` says so). -/
def sortSliceStable (less : α → α → Bool) (xs : List α) : List α :=
  xs.insertionSort (fun x y => less y x = false)

/-- Go `sort.Ints`. -/
def sortInts (xs : List Int) : List Int :=
  xs.insertionSort (fun x y => x ≤ y)

/-- Go unary minus on `int`: wraps at 64 bits. -/
def negInt (x : Int) : Int :=
  (-x).bmod (2 ^ 64)

/-- The slice `[0, 1, ..., n-1]` of Go ints, as built by
`tenet := make([]int, n); for i := range tenet { tenet[i] = i }`. -/
def rangeInt (n : Nat) : List Int :=
  (List.range n).map (fun (i : Nat) => (i : Int))

/-- The local type `pair` of `unwind`. -/
structure pair (α : Type) where
  Index : Int
  Tenet : Int
  Object : α

/-- The comparison function handed to `sort.SliceStable` in `unwind`. -/
def pairLess (p q : pair α) : Bool :=
  if p.Tenet ≠ q.Tenet then decide (p.Tenet < q.Tenet) else decide (p.Index < q.Index)

/-- The body of the first loop of `unwind`:
`pairs[i] = pair{Index: i, Tenet: tenet[i], Object: obj}`. -/
def unwindPair (tenet : List Int) (i : Nat) (obj : α) : Except Panic (pair α) :=
  match tenet[i]? with
  | none => .error .indexOutOfRange
  | some t => .ok (pair.mk (i : Int) t obj)

/-- Go `unwind` (util.go): sorts the objects by tenet (ties by index) and returns the
sorted objects with their original indices. `tenet[i]` panics when `tenet` is too short. -/
def unwind (tenet : List Int) (objects : List α) : Except Panic (List α × List Int) :=
  if objects.length = 0 then .ok ([], [])
  else
    match traverseIdx (unwindPair tenet) 0 objects with
    | .error p => .error p
    | .ok pairs =>
      let sorted := sortSliceStable pairLess pairs
      .ok (sorted.map (fun p => p.Object), sorted.map (fun p => p.Index))

/-- Go `ladderPairs` (util.go): the neighbours of every item of the list. All the
reads `list[k]` are in range, so `list[k]?.toList` is the one-element slice `{list[k]}`. -/
def ladderPairs (list : List α) : List (List α) :=
  let n := list.length
  if n ≤ 1 then [[]]
  else
    (List.range n).map (fun i =>
      if i = 0 then list[1]?.toList
      else if i < n - 1 then list[i - 1]?.toList ++ list[i + 1]?.toList
      else list[n - 2]?.toList)

end Loops

section Util

variable {F : Type} [LinearOrderedField F]

/-- Go `Rating.Ordinal` (rater.go). -/
def Rating.Ordinal (r : Rating F) : F :=
  r.Mu - 3 * r.Sigma

/-- Go `teamRating` (util.go). -/
structure teamRating (F : Type) where
  Mu : F
  SigmaSquared : F
  Team : List (Rating F)
  Rank : Int

/-- Go `math.SmallestNonzeroFloat64`, the number 2^(-1074). -/
def SmallestNonzeroFloat64 : F :=
  1 / 2 ^ 1074

/-- Go `phiMajor` (util.go); `math.Sqrt2` is the square root of 2. -/
def phiMajor (m : MathFns F) (x : F) : F :=
  (1 / 2) * (1 + m.erf (x / m.sqrt 2))

/-- Go `phiMinor` (util.go). -/
def phiMinor (m : MathFns F) (x : F) : F :=
  m.exp (-(1 / 2) * x * x) / m.sqrt (2 * m.pi)

/-- Go `v` (util.go). -/
def v (m : MathFns F) (x t : F) : F :=
  let xt := x - t
  let denominator := phiMajor m xt
  if denominator < SmallestNonzeroFloat64 then -xt
  else phiMinor m xt / denominator

/-- Go `vt` (util.go). -/
def vt (m : MathFns F) (x t : F) : F :=
  let xx := |x|
  let b := phiMajor m (t - xx) - phiMajor m (-t - xx)
  if b < 1 / 100000 then
    if x < 0 then -x - t else -x + t
  else
    let a := phiMinor m (-t - xx) - phiMinor m (t - xx)
    if x < 0 then -a / b else a / b

/-- Go `w` (util.go). -/
def w (m : MathFns F) (x t : F) : F :=
  let xt := x - t
  let denominator := phiMajor m xt
  if denominator < SmallestNonzeroFloat64 then
    if x < 0 then 1 else 0
  else v m x t * (v m x t + xt)

/-- Go `wt` (util.go). -/
def wt (m : MathFns F) (x t : F) : F :=
  let xx := |x|
  let b := phiMajor m (t - xx) - phiMajor m (-t - xx)
  if b < SmallestNonzeroFloat64 then 1
  else
    let numerator := (t - xx) * phiMinor m (t - xx) + (t + xx) * phiMinor m (-t - xx)
    numerator / b + vt m x t * vt m x t

/-- Go `normalize` (util.go); `vector[0]` panics on an empty vector. -/
def normalize (vector : List F) (targetMin targetMax : F) : Except Panic (List F) :=
  if vector.length = 1 then .ok [targetMax]
  else
    match vector[0]? with
    | none => .error .indexOutOfRange
    | some v0 =>
      let sourceMin := vector.foldl (fun acc x => if x < acc then x else acc) v0
      let sourceMax := vector.foldl (fun acc x => if x > acc then x else acc) v0
      let sourceRange := if sourceMax - sourceMin = 0 then 1 / 10000 else sourceMax - sourceMin
      let targetRange := targetMax - targetMin
      .ok (vector.map (fun value => ((value - sourceMin) / sourceRange) * targetRange + targetMin))

/-- Go `a` (util.go): the map `rankCount` is a function that is 0 off its keys. -/
def a (teamRatings : List (teamRating F)) : List Int :=
  let rankCount : Int → Int :=
    teamRatings.foldl (fun cnt t => Function.update cnt t.Rank (cnt t.Rank + 1)) (fun _ => 0)
  teamRatings.map (fun t => rankCount t.Rank)

/-- Go `c` (util.go). -/
def c (m : MathFns F) (teamRatings : List (teamRating F)) (beta : F) : F :=
  m.sqrt (teamRatings.foldl (fun teamSigma team => teamSigma + (team.SigmaSquared + beta * beta)) 0)

/-- Go `sumQ` (util.go); the slice `sumQ` has one entry per team rating, so the inner
loop `sumQ[j] += summed` runs over the two slices side by side. -/
def sumQ (m : MathFns F) (teamRatings : List (teamRating F)) (c : F) : List F :=
  teamRatings.foldl (fun acc t1 =>
      let summed := m.exp (t1.Mu / c)
      (acc.zip teamRatings).map (fun e => if t1.Rank ≥ e.2.Rank then e.1 + summed else e.1))
    (teamRatings.map (fun _ => 0))

/-- The second loop of `calculateRankings`, at index `i` with the running value `s`;
`prev` is `teamScores[i-1]` (absent at `i = 0`). -/
def calculateRankingsLoop : Option Int → Nat → Int → List Int → List Int
  | _, _, _, [] => []
  | prev, i, s, score :: rest =>
    let s1 : Int :=
      match prev with
      | some before => if before < score then (i : Int) else s
      | none => s
    s1 :: calculateRankingsLoop (some score) (i + 1) s1 rest

/-- The body of the loop `for i := range teams { teamScores[i] = ranks[i] }`. -/
def rankAt (ranks : List Int) (i : Nat) (_team : List (Rating F)) : Except Panic Int :=
  match ranks[i]? with
  | none => .error .indexOutOfRange
  | some x => .ok x

/-- Go `calculateRankings` (util.go); `ranks[i]` panics when `ranks` is too short. -/
def calculateRankings (teams : List (List (Rating F))) (ranks : Option (List Int)) :
    Except Panic (List Int) :=
  let teamScores : Except Panic (List Int) :=
    match ranks with
    | some r => traverseIdx (rankAt r) 0 teams
    | none => .ok (rangeInt teams.length)
  match teamScores with
  | .error p => .error p
  | .ok ts => .ok (calculateRankingsLoop none 0 0 ts)

/-- The inner loop `for _, player := range sortedTeam` of `calculateTeamRatings`; the
accumulator is `(muSummed, sigmaSqSummed)`. -/
def sumTeam (balance : Bool) (kappa maxOrdinal : F) (sortedTeam : List (Rating F)) : F × F :=
  sortedTeam.foldl (fun acc player =>
      let balanceWeight : F :=
        if balance then 1 + ((maxOrdinal - player.Ordinal) / (maxOrdinal + kappa)) else 1
      (acc.1 + player.Mu * balanceWeight,
        acc.2 + (player.Sigma * balanceWeight) * (player.Sigma * balanceWeight))) (0, 0)

/-- The body of the loop `for i, team := range teams` of `calculateTeamRatings`;
`sortedTeam[0]` panics on an empty team. -/
def teamRatingOf (rank : List Int) (balance : Bool) (kappa : F) (i : Nat)
    (team : List (Rating F)) : Except Panic (teamRating F) :=
  let sortedTeam := sortSliceStable (fun x y => decide (x.Ordinal > y.Ordinal)) team
  match sortedTeam[0]? with
  | none => .error .indexOutOfRange
  | some best =>
    let maxOrdinal := best.Ordinal
    let sums : F × F := sumTeam balance kappa maxOrdinal sortedTeam
    match rank[i]? with
    | none => .error .indexOutOfRange
    | some rk => .ok (teamRating.mk sums.1 sums.2 team rk)

/-- Go `calculateTeamRatings` (util.go). -/
def calculateTeamRatings (teams : List (List (Rating F))) (ranks : Option (List Int))
    (balance : Bool) (kappa : F) : Except Panic (List (teamRating F)) :=
  match calculateRankings teams ranks with
  | .error p => .error p
  | .ok rank => traverseIdx (teamRatingOf rank balance kappa) 0 teams

/-- The guarded weight lookup of the Bradley-Terry and Thurstone-Mosteller `compute`:
`weight := 1.0; if weights != nil && len(weights) > i && len(weights[i]) > j { weight = weights[i][j] }`. -/
def guardedWeight (weights : Option (List (List F))) (i j : Nat) : F :=
  match weights with
  | none => 1
  | some ws =>
    match ws[i]? with
    | none => 1
    | some row =>
      match row[j]? with
      | none => 1
      | some x => x

/-- The loop `for i := range weights { weights[i] = normalize(weights[i], 1, 2) }` of every `Rate`. -/
def normalizeWeights (weights : Option (List (List F))) : Except Panic (Option (List (List F))) :=
  match weights with
  | none => .ok none
  | some ws =>
    match traverseIdx (fun (_ : Nat) (row : List F) => normalize row 1 2) 0 ws with
    | .error p => .error p
    | .ok rows => .ok (some rows)

/-- The body of the inner `limitSigma` loop:
`player.Sigma = math.Min(player.Sigma, reference[teamIndex][playerIndex].Sigma)`;
the read panics when out of range. -/
def limitSigmaPlayer (reference : List (List (Rating F))) (teamIndex playerIndex : Nat)
    (player : Rating F) : Except Panic (Rating F) :=
  match reference[teamIndex]? with
  | none => .error .indexOutOfRange
  | some refTeam =>
    match refTeam[playerIndex]? with
    | none => .error .indexOutOfRange
    | some old => .ok (Rating.mk player.Mu (min player.Sigma old.Sigma))

/-- The body of the outer `limitSigma` loop. -/
def limitSigmaTeam (reference : List (List (Rating F))) (teamIndex : Nat)
    (team : List (Rating F)) : Except Panic (List (Rating F)) :=
  traverseIdx (limitSigmaPlayer reference teamIndex) 0 team

/-- The `limitSigma` loop of every `Rate`: each sigma of `result` is replaced by its minimum
with the sigma at the same position of `reference` (`originalTeams` or `teamsCopy`). -/
def limitSigmaLoop (result reference : List (List (Rating F))) :
    Except Panic (List (List (Rating F))) :=
  traverseIdx (limitSigmaTeam reference) 0 result

/-- The end of every `Rate`: `if limitSigma { ... }; return finalResult, nil`. -/
def finishRate (limitSigma : Bool) (result reference : List (List (Rating F))) :
    Except Panic (RateResult F) :=
  if limitSigma then
    match limitSigmaLoop result reference with
    | .error p => .error p
    | .ok limited => .ok (.ratings limited)
  else .ok (.ratings result)

/-- The block `if scores != nil { ranks = make([]int, len(scores)); ranks[i] = -score }` of the
Bradley-Terry and Plackett-Luce `Rate`. -/
def ranksFromScores (ranks scores : Option (List Int)) : Option (List Int) :=
  match scores with
  | some sc => some (sc.map negInt)
  | none => ranks

/-- The block `if ranks == nil && scores != nil { ... ranks[i] = -score }` of the
Thurstone-Mosteller `Rate`. -/
def ranksFromScoresIfNil (ranks scores : Option (List Int)) : Option (List Int) :=
  match ranks, scores with
  | none, some sc => some (sc.map negInt)
  | _, _ => ranks

/-- The block shared by `BradlyTerryFullModel.Rate` and `PlackettLuceModel.Rate`:
`if ranks != nil { orderedTeams, tenet = unwind(ranks, teamsCopy); teamsCopy = orderedTeams;
sort.Ints(ranks) }`, then `compute` on the reordered teams and `unwind(tenet, result)`.
After a successful validation `ranks` is not nil, and the `tenet` returned by `unwind` is
never nil, so the branch `ranks != nil && tenet != nil` is the branch `ranks != nil`. -/
def computeInRankOrder
    (compute : List (List (Rating F)) → Option (List Int) → Option (List (List F)) →
      Except Panic (List (List (Rating F))))
    (teamsCopy : List (List (Rating F))) (ranks : Option (List Int))
    (weights : Option (List (List F))) : Except Panic (List (List (Rating F))) :=
  match ranks with
  | some r =>
    match unwind r teamsCopy with
    | .error p => .error p
    | .ok (orderedTeams, tenet) =>
      match compute orderedTeams (some (sortInts r)) weights with
      | .error p => .error p
      | .ok result =>
        match unwind tenet result with
        | .error p => .error p
        | .ok (unwound, _) => .ok unwound
  | none => compute teamsCopy none weights

/-- The statement `processedResult[index] = team` for every `index, item` of `items`, on a
`processedResult` made with `n` entries: panics when `items` is longer than `n`. -/
def storeTeams (n : Nat) (items : List (List (Rating F))) : Except Panic (List (List (Rating F))) :=
  if items.length ≤ n then .ok (items ++ List.replicate (n - items.length) [])
  else .error .indexOutOfRange

/-- The block shared by the two Thurstone-Mosteller `Rate`: `tenet` is the identity on
`len(ranks)`, `sort.Ints(ranks)` sorts the ranks only (the teams keep their input
order), then `compute`, `unwind(tenet, result)` and the copy into `processedResult`,
which was made with `n = len(teams)` entries. -/
def computeInInputOrder
    (compute : List (List (Rating F)) → Option (List Int) → Option (List (List F)) →
      Except Panic (List (List (Rating F))))
    (n : Nat) (teamsCopy : List (List (Rating F))) (ranks : Option (List Int))
    (weights : Option (List (List F))) : Except Panic (List (List (Rating F))) :=
  match ranks with
  | some r =>
    let tenet : List Int := rangeInt r.length
    match compute teamsCopy (some (sortInts r)) weights with
    | .error p => .error p
    | .ok result =>
      match unwind tenet result with
      | .error p => .error p
      | .ok (unwoundResult, _) => storeTeams n unwoundResult
  | none =>
    match compute teamsCopy none weights with
    | .error p => .error p
    | .ok result => storeTeams n result

end Util

/-! ## bradly_terry.go -/

section BradlyTerry

variable {F : Type} [LinearOrderedField F]

/-- Go `BradlyTerryFullModel`. -/
structure BradlyTerryFullModel (F : Type) where
  mu : F
  sigma : F
  beta : F
  kappa : F
  tau : F
  limitSigma : Bool
  balance : Bool

/-- Go `DefaultBradlyTerryFullModel`. -/
def DefaultBradlyTerryFullModel : BradlyTerryFullModel F :=
  { mu := 25, sigma := 25 / 3, beta := 25 / 6, kappa := 1 / 10000, tau := 25 / 300,
    limitSigma := false, balance := false }

/-- The body of the loop `for q, t2 := range teamRatings` of `BradlyTerryFullModel.compute`
for the team `t1` at index `i`; the accumulator is `(omega, delta)`. -/
def BradlyTerryFullModel.accumulate (m : MathFns F) (b : BradlyTerryFullModel F) (i : Nat)
    (t1 : teamRating F) (acc : F × F) (e : Nat × teamRating F) : F × F :=
  let q := e.1
  let t2 := e.2
  if q = i then acc
  else
    let cIq := m.sqrt (t1.SigmaSquared + t2.SigmaSquared + 2 * b.beta ^ 2)
    let piq := 1 / (1 + m.exp ((t2.Mu - t1.Mu) / cIq))
    let sigmaSquaredToCiq := t1.SigmaSquared / cIq
    let s : F := if t2.Rank > t1.Rank then 1 else if t2.Rank = t1.Rank then 1 / 2 else 0
    let gammaValue := m.sqrt (t1.SigmaSquared / cIq)
    (acc.1 + sigmaSquaredToCiq * (s - piq),
      acc.2 + ((gammaValue * sigmaSquaredToCiq) / cIq) * piq * (1 - piq))

/-- The body of the loop `for j, r := range t1.Team` of `BradlyTerryFullModel.compute`.
The source updates the local `sigmaSq` and then stores `Rating{Mu: mu, Sigma: r.Sigma}`:
the updated `sigmaSq` is never read. -/
def BradlyTerryFullModel.updatePlayer (m : MathFns F) (b : BradlyTerryFullModel F)
    (t1 : teamRating F) (omega delta weight : F) (r : Rating F) : Rating F :=
  let mu := r.Mu
  let sigmaSq := r.Sigma * r.Sigma
  if omega > 0 then
    let mu1 := mu + (sigmaSq / t1.SigmaSquared) * omega * weight
    let _sigmaSq1 := sigmaSq * m.sqrt (max (1 - (sigmaSq / t1.SigmaSquared) * delta * weight) b.kappa)
    Rating.mk mu1 r.Sigma
  else
    let mu1 := mu + (sigmaSq / t1.SigmaSquared) * omega / weight
    let _sigmaSq1 := sigmaSq * m.sqrt (max (1 - (sigmaSq / t1.SigmaSquared) * delta / weight) b.kappa)
    Rating.mk mu1 r.Sigma

/-- Go `BradlyTerryFullModel.compute`. -/
def BradlyTerryFullModel.compute (m : MathFns F) (b : BradlyTerryFullModel F)
    (teams : List (List (Rating F))) (ranks : Option (List Int))
    (weights : Option (List (List F))) : Except Panic (List (List (Rating F))) :=
  match calculateTeamRatings teams ranks b.balance b.kappa with
  | .error p => .error p
  | .ok teamRatings =>
    .ok (teamRatings.enum.map (fun it =>
      let i := it.1
      let t1 := it.2
      let sums : F × F := teamRatings.enum.foldl (b.accumulate m i t1) (0, 0)
      t1.Team.enum.map (fun jr =>
        b.updatePlayer m t1 sums.1 sums.2 (guardedWeight weights i jr.1) jr.2)))

/-- Go `BradlyTerryFullModel.Rate`. -/
def BradlyTerryFullModel.Rate (m : MathFns F) (b : BradlyTerryFullModel F)
    (teams : List (List (Rating F))) (ranks scores : Option (List Int))
    (weights : Option (List (List F))) : Except Panic (RateResult F) :=
  match checkRateParameters teams ranks scores weights with
  | .error p => .error p
  | .ok (some err) => .ok (.err err)
  | .ok none =>
    let originalTeams := teams
    let teamsCopy := teams.map (fun team =>
      team.map (fun player => Rating.mk player.Mu (player.Sigma + b.tau * b.tau)))
    let ranks1 := ranksFromScores ranks scores
    match normalizeWeights weights with
    | .error p => .error p
    | .ok weights1 =>
      match computeInRankOrder (b.compute m) teamsCopy ranks1 weights1 with
      | .error p => .error p
      | .ok finalResult => finishRate b.limitSigma finalResult originalTeams

/-- Go `BradlyTerryPartialModel`. -/
structure BradlyTerryPartialModel (F : Type) where
  mu : F
  sigma : F
  beta : F
  kappa : F
  tau : F
  limitSigma : Bool
  balance : Bool

/-- Go `DefaultBradlyTerryPartialModel`. -/
def DefaultBradlyTerryPartialModel : BradlyTerryPartialModel F :=
  { mu := 25, sigma := 25 / 3, beta := 25 / 6, kappa := 1 / 10000, tau := 25 / 300,
    limitSigma := false, balance := false }

/-- The body of the loop `for q, t2 := range adjacentTeams[i]` of
`BradlyTerryPartialModel.compute`; `q` is the position inside `adjacentTeams[i]`. -/
def BradlyTerryPartialModel.accumulate (m : MathFns F) (b : BradlyTerryPartialModel F) (i : Nat)
    (t1 : teamRating F) (acc : F × F) (e : Nat × teamRating F) : F × F :=
  let q := e.1
  let t2 := e.2
  if q = i then acc
  else
    let cIq := m.sqrt (t1.SigmaSquared + t2.SigmaSquared + 2 * b.beta ^ 2)
    let pIq := 1 / (1 + m.exp ((t2.Mu - t1.Mu) / cIq))
    let sigmaSquaredToCiq := t1.SigmaSquared / cIq
    let s : F := if t2.Rank > t1.Rank then 1 else if t2.Rank = t1.Rank then 1 / 2 else 0
    let gammaValue := m.sqrt (t1.SigmaSquared / cIq)
    (acc.1 + sigmaSquaredToCiq * (s - pIq),
      acc.2 + ((gammaValue * sigmaSquaredToCiq) / cIq) * pIq * (1 - pIq))

/-- The body of the loop `for j, r := range t1.Team` of `BradlyTerryPartialModel.compute`. -/
def BradlyTerryPartialModel.updatePlayer (m : MathFns F) (b : BradlyTerryPartialModel F)
    (t1 : teamRating F) (omega delta weight : F) (r : Rating F) : Rating F :=
  let mu := r.Mu
  let sigma := r.Sigma
  if omega > 0 then
    Rating.mk (mu + (sigma ^ 2 / t1.SigmaSquared) * omega * weight)
      (sigma * m.sqrt (max (1 - (sigma ^ 2 / t1.SigmaSquared) * delta * weight) b.kappa))
  else
    Rating.mk (mu + (sigma ^ 2 / t1.SigmaSquared) * omega / weight)
      (sigma * m.sqrt (max (1 - (sigma ^ 2 / t1.SigmaSquared) * delta / weight) b.kappa))

/-- The body of the loop `for i, t1 := range teamRatings` of
`BradlyTerryPartialModel.compute`; `adjacentTeams[i]` panics when out of range. -/
def BradlyTerryPartialModel.computeTeam (m : MathFns F) (b : BradlyTerryPartialModel F)
    (adjacentTeams : List (List (teamRating F))) (weights : Option (List (List F)))
    (i : Nat) (t1 : teamRating F) : Except Panic (List (Rating F)) :=
  match adjacentTeams[i]? with
  | none => .error .indexOutOfRange
  | some adjacent =>
    let sums : F × F := adjacent.enum.foldl (b.accumulate m i t1) (0, 0)
    .ok (t1.Team.enum.map (fun jr =>
      b.updatePlayer m t1 sums.1 sums.2 (guardedWeight weights i jr.1) jr.2))

/-- Go `BradlyTerryPartialModel.compute`. -/
def BradlyTerryPartialModel.compute (m : MathFns F) (b : BradlyTerryPartialModel F)
    (teams : List (List (Rating F))) (ranks : Option (List Int))
    (weights : Option (List (List F))) : Except Panic (List (List (Rating F))) :=
  match calculateTeamRatings teams ranks b.balance b.kappa with
  | .error p => .error p
  | .ok teamRatings =>
    traverseIdx (b.computeTeam m (ladderPairs teamRatings) weights) 0 teamRatings

/-- The block of `BradlyTerryPartialModel.Rate` from `tenet := make([]int, len(ranks))` to
the end of `if ranks != nil {...} else {...}`: `processedResult` is made with
`n = len(teams)` (nil) entries and the teams of the result are then appended to it. -/
def BradlyTerryPartialModel.computeAndAppend (m : MathFns F) (b : BradlyTerryPartialModel F)
    (n : Nat) (teamsCopy : List (List (Rating F))) (ranks : Option (List Int))
    (weights : Option (List (List F))) : Except Panic (List (List (Rating F))) :=
  let processedResult : List (List (Rating F)) := List.replicate n []
  match ranks with
  | some r =>
    let tenet : List Int := rangeInt r.length
    match b.compute m teamsCopy (some (sortInts r)) weights with
    | .error p => .error p
    | .ok result =>
      match unwind tenet result with
      | .error p => .error p
      | .ok (unwoundResult, _) => .ok (processedResult ++ unwoundResult)
  | none =>
    match b.compute m teamsCopy none weights with
    | .error p => .error p
    | .ok result => .ok (processedResult ++ result)

/-- Go `BradlyTerryPartialModel.Rate`. -/
def BradlyTerryPartialModel.Rate (m : MathFns F) (b : BradlyTerryPartialModel F)
    (teams : List (List (Rating F))) (ranks scores : Option (List Int))
    (weights : Option (List (List F))) : Except Panic (RateResult F) :=
  match checkRateParameters teams ranks scores weights with
  | .error p => .error p
  | .ok (some err) => .ok (.err err)
  | .ok none =>
    let originalTeams := teams
    let teamsCopy := teams.map (fun team =>
      team.map (fun player => Rating.mk player.Mu (m.sqrt (player.Sigma * player.Sigma + b.tau ^ 2))))
    let ranks1 := ranksFromScores ranks scores
    match normalizeWeights weights with
    | .error p => .error p
    | .ok weights1 =>
      match b.computeAndAppend m teams.length teamsCopy ranks1 weights1 with
      | .error p => .error p
      | .ok processedResult => finishRate b.limitSigma processedResult originalTeams

end BradlyTerry

/-! ## plackett_luce.go -/

section PlackettLuce

variable {F : Type} [LinearOrderedField F]

/-- Go `PlackettLuceModel`. -/
structure PlackettLuceModel (F : Type) where
  mu : F
  sigma : F
  beta : F
  kappa : F
  limitSigma : Bool
  balance : Bool

/-- Go `DefaultPlackettLuceModel`. -/
def DefaultPlackettLuceModel : PlackettLuceModel F :=
  { mu := 25, sigma := 25 / 3, beta := 25 / 6, kappa := 1 / 10000,
    limitSigma := false, balance := false }

/-- The body of the loop `for j, t2 := range teamRatings` of `PlackettLuceModel.compute`
for the team `t1` at index `i`; the entry `e` is `(j, (t2, (sumQ[j], a[j])))` and the
accumulator is `(omega, delta)`. -/
def PlackettLuceModel.accumulate (i : Nat) (t1 : teamRating F) (iMuOverC : F) (acc : F × F)
    (e : Nat × teamRating F × F × Int) : F × F :=
  let j := e.1
  let t2 := e.2.1
  let sumQj := e.2.2.1
  let aj : F := (e.2.2.2 : F)
  let iMuOverCOverSumQ := iMuOverC / sumQj
  let delta := if t2.Rank ≤ t1.Rank then acc.2 + (iMuOverCOverSumQ * (1 - iMuOverCOverSumQ) / aj)
    else acc.2
  let omega := if j = i then acc.1 + (1 - iMuOverCOverSumQ) / aj else acc.1 - iMuOverCOverSumQ / aj
  (omega, delta)

/-- The body of the loop `for j, player := range t1.Team` of `PlackettLuceModel.compute`. -/
def PlackettLuceModel.updatePlayer (p : PlackettLuceModel F) (t1 : teamRating F)
    (omega delta weight : F) (player : Rating F) : Rating F :=
  let mu := player.Mu
  let sigma := player.Sigma
  if omega > 0 then
    Rating.mk (mu + (sigma / t1.SigmaSquared) * omega * weight)
      (sigma * max (1 - (sigma / t1.SigmaSquared) * delta * weight) p.kappa)
  else
    Rating.mk (mu + (sigma / t1.SigmaSquared) * omega / weight)
      (sigma * max (1 - (sigma / t1.SigmaSquared) * delta / weight) p.kappa)

/-- The read of the weight in `PlackettLuceModel.compute`:
`weight := 1.0; if weights != nil { weight = weights[i][j] }`. The read is not guarded
and panics when out of range. -/
def PlackettLuceModel.weightAt (weights : Option (List (List F))) (i j : Nat) : Except Panic F :=
  match weights with
  | none => .ok 1
  | some ws =>
    match ws[i]? with
    | none => .error .indexOutOfRange
    | some row =>
      match row[j]? with
      | none => .error .indexOutOfRange
      | some weight => .ok weight

/-- The body of the loop `for j, player := range t1.Team` of `PlackettLuceModel.compute`,
with the read of the weight. -/
def PlackettLuceModel.computePlayer (p : PlackettLuceModel F) (weights : Option (List (List F)))
    (t1 : teamRating F) (omega delta : F) (i j : Nat) (player : Rating F) :
    Except Panic (Rating F) :=
  match PlackettLuceModel.weightAt weights i j with
  | .error e => .error e
  | .ok weight => .ok (p.updatePlayer t1 omega delta weight player)

/-- The body of the loop `for i, t1 := range teamRatings` of `PlackettLuceModel.compute`.
The slices `a` and `sumQ` have one entry per team rating, so the reads `sumQ[j]` and
`a[j]` of the inner loop are a walk over the three slices side by side. -/
def PlackettLuceModel.computeTeam (m : MathFns F) (p : PlackettLuceModel F)
    (teamRatings : List (teamRating F)) (a : List Int) (c : F) (sumQ : List F)
    (weights : Option (List (List F))) (i : Nat) (t1 : teamRating F) :
    Except Panic (List (Rating F)) :=
  let iMuOverC := m.exp (t1.Mu / c)
  let sums : F × F :=
    (teamRatings.zip (sumQ.zip a)).enum.foldl (PlackettLuceModel.accumulate i t1 iMuOverC) (0, 0)
  let omega := sums.1 * (t1.SigmaSquared / c)
  let delta0 := sums.2 * (t1.SigmaSquared / c ^ 2)
  let gammaValue := m.sqrt (p.sigma * p.sigma) / c
  let delta := delta0 * gammaValue
  traverseIdx (p.computePlayer weights t1 omega delta i) 0 t1.Team

/-- Go `PlackettLuceModel.compute`. -/
def PlackettLuceModel.compute (m : MathFns F) (p : PlackettLuceModel F)
    (teams : List (List (Rating F))) (ranks : Option (List Int))
    (weights : Option (List (List F))) : Except Panic (List (List (Rating F))) :=
  match calculateTeamRatings teams ranks p.balance p.kappa with
  | .error e => .error e
  | .ok teamRatings =>
    let a := a teamRatings
    let c := c m teamRatings p.beta
    let sumQ := sumQ m teamRatings c
    traverseIdx (p.computeTeam m teamRatings a c sumQ weights) 0 teamRatings

/-- Go `PlackettLuceModel.Rate`. -/
def PlackettLuceModel.Rate (m : MathFns F) (p : PlackettLuceModel F)
    (teams : List (List (Rating F))) (ranks scores : Option (List Int))
    (weights : Option (List (List F))) : Except Panic (RateResult F) :=
  match checkRateParameters teams ranks scores weights with
  | .error e => .error e
  | .ok (some err) => .ok (.err err)
  | .ok none =>
    let originalTeams := teams
    let teamsCopy := teams.map (fun team =>
      team.map (fun player => Rating.mk player.Mu player.Sigma))
    let ranks1 := ranksFromScores ranks scores
    match normalizeWeights weights with
    | .error e => .error e
    | .ok weights1 =>
      match computeInRankOrder (p.compute m) teamsCopy ranks1 weights1 with
      | .error e => .error e
      | .ok finalResult => finishRate p.limitSigma finalResult originalTeams

end PlackettLuce

/-! ## thurstone_mosteller.go -/

section ThurstoneMosteller

variable {F : Type} [LinearOrderedField F]

/-- Go `ThurstoneMostellerFullModel`. -/
structure ThurstoneMostellerFullModel (F : Type) where
  mu : F
  sigma : F
  beta : F
  kappa : F
  tau : F
  epsilon : F
  limitSigma : Bool
  balance : Bool

/-- Go `DefaultThurstoneMostellerFullModel`. -/
def DefaultThurstoneMostellerFullModel : ThurstoneMostellerFullModel F :=
  { mu := 25, sigma := 25 / 3, beta := 25 / 6, kappa := 1 / 10000, tau := 25 / 300,
    epsilon := 1 / 10, limitSigma := false, balance := false }

/-- The body of the loop `for q, teamQRating := range teamRatings` of
`ThurstoneMostellerFullModel.compute`; the accumulator is `(omega, delta)`. -/
def ThurstoneMostellerFullModel.accumulate (m : MathFns F) (t : ThurstoneMostellerFullModel F)
    (i : Nat) (teamIRating : teamRating F) (acc : F × F) (e : Nat × teamRating F) : F × F :=
  let q := e.1
  let teamQRating := e.2
  if q = i then acc
  else
    let cIq := m.sqrt (teamIRating.SigmaSquared + teamQRating.SigmaSquared + 2 * t.beta ^ 2)
    let deltaMu := (teamIRating.Mu - teamQRating.Mu) / cIq
    let sigmaSquaredToCiq := teamIRating.SigmaSquared / cIq
    let gamma := m.sqrt teamIRating.SigmaSquared / cIq
    if teamQRating.Rank > teamIRating.Rank then
      (acc.1 + sigmaSquaredToCiq * v m deltaMu t.epsilon,
        acc.2 + (gamma * sigmaSquaredToCiq / cIq) * w m deltaMu t.epsilon)
    else if teamQRating.Rank < teamIRating.Rank then
      (acc.1 + -sigmaSquaredToCiq * v m (-deltaMu) t.epsilon,
        acc.2 + (gamma * sigmaSquaredToCiq / cIq) * w m (-deltaMu) t.epsilon)
    else
      (acc.1 + sigmaSquaredToCiq * vt m deltaMu t.epsilon,
        acc.2 + (gamma * sigmaSquaredToCiq / cIq) * wt m deltaMu t.epsilon)

/-- The body of the loop over the players of a team of both Thurstone-Mosteller `compute`s. -/
def thurstoneMostellerUpdatePlayer (m : MathFns F) (kappa : F) (t1 : teamRating F)
    (omega delta weight : F) (r : Rating F) : Rating F :=
  let mu := r.Mu
  let sigma := r.Sigma
  if omega > 0 then
    Rating.mk (mu + (sigma * sigma / t1.SigmaSquared) * omega * weight)
      (sigma * m.sqrt (max (1 - (sigma * sigma / t1.SigmaSquared) * delta * weight) kappa))
  else
    Rating.mk (mu + (sigma * sigma / t1.SigmaSquared) * omega / weight)
      (sigma * m.sqrt (max (1 - (sigma * sigma / t1.SigmaSquared) * delta / weight) kappa))

/-- Go `ThurstoneMostellerFullModel.compute`. -/
def ThurstoneMostellerFullModel.compute (m : MathFns F) (t : ThurstoneMostellerFullModel F)
    (teams : List (List (Rating F))) (ranks : Option (List Int))
    (weights : Option (List (List F))) : Except Panic (List (List (Rating F))) :=
  match calculateTeamRatings teams ranks t.balance t.kappa with
  | .error p => .error p
  | .ok teamRatings =>
    .ok (teamRatings.enum.map (fun it =>
      let i := it.1
      let teamIRating := it.2
      let sums : F × F := teamRatings.enum.foldl (t.accumulate m i teamIRating) (0, 0)
      teamIRating.Team.enum.map (fun jr =>
        thurstoneMostellerUpdatePlayer m t.kappa teamIRating sums.1 sums.2
          (guardedWeight weights i jr.1) jr.2)))

/-- Go `ThurstoneMostellerFullModel.Rate`. The `limitSigma` loop reads `teamsCopy`. -/
def ThurstoneMostellerFullModel.Rate (m : MathFns F) (t : ThurstoneMostellerFullModel F)
    (teams : List (List (Rating F))) (ranks scores : Option (List Int))
    (weights : Option (List (List F))) : Except Panic (RateResult F) :=
  match checkRateParameters teams ranks scores weights with
  | .error p => .error p
  | .ok (some err) => .ok (.err err)
  | .ok none =>
    let ranks1 := ranksFromScoresIfNil ranks scores
    match normalizeWeights weights with
    | .error p => .error p
    | .ok weights1 =>
      let teamsCopy := teams.map (fun team =>
        team.map (fun player => Rating.mk player.Mu (m.sqrt (player.Sigma * player.Sigma + t.tau ^ 2))))
      match computeInInputOrder (t.compute m) teams.length teamsCopy ranks1 weights1 with
      | .error p => .error p
      | .ok processedResult => finishRate t.limitSigma processedResult teamsCopy

/-- Go `ThurstoneMostellerPartialModel`. -/
structure ThurstoneMostellerPartialModel (F : Type) where
  mu : F
  sigma : F
  beta : F
  kappa : F
  tau : F
  epsilon : F
  limitSigma : Bool
  balance : Bool

/-- Go `DefaultThurstoneMostellerPartialModel`. -/
def DefaultThurstoneMostellerPartialModel : ThurstoneMostellerPartialModel F :=
  { mu := 25, sigma := 25 / 3, beta := 25 / 6, kappa := 1 / 10000, tau := 25 / 300,
    epsilon := 1 / 10, limitSigma := false, balance := false }

/-- The body of the loop `for j, t2 := range adjacentTeams[i]` of
`ThurstoneMostellerPartialModel.compute`; `j` is the position inside `adjacentTeams[i]`. -/
def ThurstoneMostellerPartialModel.accumulate (m : MathFns F)
    (t : ThurstoneMostellerPartialModel F) (i : Nat) (t1 : teamRating F) (acc : F × F)
    (e : Nat × teamRating F) : F × F :=
  let j := e.1
  let t2 := e.2
  if j = i then acc
  else
    let c := 2 * m.sqrt (t1.SigmaSquared + t2.SigmaSquared + 2 * t.beta ^ 2)
    let deltaMu := (t1.Mu - t2.Mu) / c
    let sigmaSquaredToC := t1.SigmaSquared / c
    let gamma := m.sqrt (t1.SigmaSquared / c)
    if t2.Rank > t1.Rank then
      (acc.1 + sigmaSquaredToC * v m deltaMu (t.epsilon / c),
        acc.2 + (gamma * sigmaSquaredToC / c) * w m deltaMu (t.epsilon / c))
    else if t2.Rank < t1.Rank then
      (acc.1 + -sigmaSquaredToC * v m (-deltaMu) (t.epsilon / c),
        acc.2 + (gamma * sigmaSquaredToC / c) * w m (-deltaMu) (t.epsilon / c))
    else
      (acc.1 + sigmaSquaredToC * vt m deltaMu (t.epsilon / c),
        acc.2 + (gamma * sigmaSquaredToC / c) * wt m deltaMu (t.epsilon / c))

/-- The body of the loop `for i, t1 := range teamRatings` of
`ThurstoneMostellerPartialModel.compute`; `adjacentTeams[i]` panics when out of range. -/
def ThurstoneMostellerPartialModel.computeTeam (m : MathFns F)
    (t : ThurstoneMostellerPartialModel F) (adjacentTeams : List (List (teamRating F)))
    (weights : Option (List (List F))) (i : Nat) (t1 : teamRating F) :
    Except Panic (List (Rating F)) :=
  match adjacentTeams[i]? with
  | none => .error .indexOutOfRange
  | some adjacent =>
    let sums : F × F := adjacent.enum.foldl (t.accumulate m i t1) (0, 0)
    .ok (t1.Team.enum.map (fun jr =>
      thurstoneMostellerUpdatePlayer m t.kappa t1 sums.1 sums.2
        (guardedWeight weights i jr.1) jr.2))

/-- Go `ThurstoneMostellerPartialModel.compute`. -/
def ThurstoneMostellerPartialModel.compute (m : MathFns F) (t : ThurstoneMostellerPartialModel F)
    (teams : List (List (Rating F))) (ranks : Option (List Int))
    (weights : Option (List (List F))) : Except Panic (List (List (Rating F))) :=
  match calculateTeamRatings teams ranks t.balance t.kappa with
  | .error p => .error p
  | .ok teamRatings =>
    traverseIdx (t.computeTeam m (ladderPairs teamRatings) weights) 0 teamRatings

/-- Go `ThurstoneMostellerPartialModel.Rate`. The `limitSigma` loop reads `teamsCopy`. -/
def ThurstoneMostellerPartialModel.Rate (m : MathFns F) (t : ThurstoneMostellerPartialModel F)
    (teams : List (List (Rating F))) (ranks scores : Option (List Int))
    (weights : Option (List (List F))) : Except Panic (RateResult F) :=
  match checkRateParameters teams ranks scores weights with
  | .error p => .error p
  | .ok (some err) => .ok (.err err)
  | .ok none =>
    let ranks1 := ranksFromScoresIfNil ranks scores
    match normalizeWeights weights with
    | .error p => .error p
    | .ok weights1 =>
      let teamsCopy := teams.map (fun team =>
        team.map (fun player => Rating.mk player.Mu (m.sqrt (player.Sigma * player.Sigma + t.tau ^ 2))))
      match computeInInputOrder (t.compute m) teams.length teamsCopy ranks1 weights1 with
      | .error p => .error p
      | .ok processedResult => finishRate t.limitSigma processedResult teamsCopy

end ThurstoneMosteller

/-! ## The `math` package over the real numbers -/

/-- The error function `2/√π ∫₀ˣ exp(-t²) dt`, given by its power series
`2/√π ∑ (-1)ⁿ x^(2n+1) / (n! (2n+1))`; `realErf_eq_integral` shows that the two agree. -/
noncomputable def realErf (x : ℝ) : ℝ :=
  2 / Real.sqrt Real.pi *
    tsum (fun n : ℕ => (-1 : ℝ) ^ n * x ^ (2 * n + 1) / ((n.factorial : ℝ) * (2 * n + 1)))

/-- Go's `math` functions read over the real numbers. -/
noncomputable def RealMath : MathFns ℝ :=
  { sqrt := Real.sqrt, exp := Real.exp, log := Real.log, erf := realErf, pi := Real.pi }

/-! ## The checks of `checkRateParameters` in the words of the specification -/

section SpecWords

variable {F : Type}

/-- Check 1 in the words of the specification: fewer than two teams. -/
def lessThanTwoTeams (teams : List (List (Rating F))) : Prop :=
  teams.length < 2

/-- Check 2: some team is empty. -/
def someTeamEmpty (teams : List (List (Rating F))) : Prop :=
  ∃ team ∈ teams, team.length = 0

/-- Check 3: both ranks and scores are given. -/
def ranksAndScoresGiven (ranks scores : Option (List Int)) : Prop :=
  ranks ≠ none ∧ scores ≠ none

/-- Check 4: neither ranks nor scores are given. -/
def noRanksOrScoresGiven (ranks scores : Option (List Int)) : Prop :=
  ranks = none ∧ scores = none

/-- Check 5: ranks are given with a length different from the number of teams. -/
def ranksMismatch (teams : List (List (Rating F))) (ranks : Option (List Int)) : Prop :=
  ∃ r, ranks = some r ∧ r.length ≠ teams.length

/-- Check 6: scores are given with a length different from the number of teams. -/
def scoresMismatch (teams : List (List (Rating F))) (scores : Option (List Int)) : Prop :=
  ∃ s, scores = some s ∧ s.length ≠ teams.length

/-- Check 7: weights are given and the number of rows differs from the number of teams
or some row's length differs from its team's size. -/
def weightsMismatch (teams : List (List (Rating F))) (weights : Option (List (List F))) : Prop :=
  ∃ ws, weights = some ws ∧
    (ws.length ≠ teams.length ∨
      ∃ (i : Nat) (row : List F) (team : List (Rating F)),
        ws[i]? = some row ∧ teams[i]? = some team ∧ row.length ≠ team.length)

end SpecWords

/-! ## Notions used in the statements and proofs -/

/-- Two lists have the same length and are related position by position. -/
def Aligned {α β : Type} (R : α → β → Prop) (xs : List α) (ys : List β) : Prop :=
  xs.length = ys.length ∧ ∀ (k : Nat) (x : α) (y : β), xs[k]? = some x → ys[k]? = some y → R x y

/-- Two teams have the same number of players. -/
def sameLength {F : Type} (x y : List (Rating F)) : Prop :=
  x.length = y.length

/-- The team rating that `calculateTeamRatings` gives a solo team of rank class `rank`:
`Mu` is the player's mu and `SigmaSquared` the square of the player's sigma. -/
def soloTeamRating {F : Type} [LinearOrderedField F] (p : Rating F) (rank : Int) : teamRating F :=
  teamRating.mk p.Mu (p.Sigma * p.Sigma) [p] rank

/-- The team rating that `calculateTeamRatings` gives a team of two equal players. -/
def twinTeamRating {F : Type} [LinearOrderedField F] (p : Rating F) (rank : Int) : teamRating F :=
  teamRating.mk (p.Mu + p.Mu) (p.Sigma * p.Sigma + p.Sigma * p.Sigma) [p, p] rank

/-- The player `p` as `BradlyTerryFullModel.Rate` copies it: sigma plus `tau * tau`. -/
def BradlyTerryFullModel.copyOf {F : Type} [LinearOrderedField F] (b : BradlyTerryFullModel F)
    (p : Rating F) : Rating F :=
  Rating.mk p.Mu (p.Sigma + b.tau * b.tau)

/-- The update that `BradlyTerryFullModel.compute` applies with weight `weight` to a player
of the twin team `[p, p]`, of rank class `rank` at position `i`, against the twin team
`[q, q]` of rank class `rankQ` at position `j`. -/
def BradlyTerryFullModel.twinUpdate {F : Type} [LinearOrderedField F] (m : MathFns F)
    (b : BradlyTerryFullModel F) (i j : Nat) (p q : Rating F) (rank rankQ : Int) (weight : F) :
    Rating F :=
  b.updatePlayer m (twinTeamRating (b.copyOf p) rank)
    (b.accumulate m i (twinTeamRating (b.copyOf p) rank) (0, 0)
      (j, twinTeamRating (b.copyOf q) rankQ)).1
    (b.accumulate m i (twinTeamRating (b.copyOf p) rank) (0, 0)
      (j, twinTeamRating (b.copyOf q) rankQ)).2
    weight (b.copyOf p)

/-- The `omega` that `PlackettLuceModel.compute` reaches for the first of the two solo teams
`[x]`, `[y]` of rank classes 0 and 1. -/
def PlackettLuceModel.firstSoloOmega {F : Type} [LinearOrderedField F] (m : MathFns F)
    (p : PlackettLuceModel F) (x y : Rating F) : F :=
  let C := c m [soloTeamRating x 0, soloTeamRating y 1] p.beta
  let eX := m.exp (x.Mu / C)
  let eY := m.exp (y.Mu / C)
  (1 - eX / (eX + eY) - eX / eY) * (x.Sigma * x.Sigma / C)

/-- The `delta` that `PlackettLuceModel.compute` reaches for the first of the two solo teams
`[x]`, `[y]` of rank classes 0 and 1. -/
def PlackettLuceModel.firstSoloDelta {F : Type} [LinearOrderedField F] (m : MathFns F)
    (p : PlackettLuceModel F) (x y : Rating F) : F :=
  let C := c m [soloTeamRating x 0, soloTeamRating y 1] p.beta
  let eX := m.exp (x.Mu / C)
  let eY := m.exp (y.Mu / C)
  eX / (eX + eY) * (1 - eX / (eX + eY)) * (x.Sigma * x.Sigma / C ^ 2) *
    (m.sqrt (p.sigma * p.sigma) / C)

/-- Step 8 of the update in the words of the specification: the new mu is
`mu + (sigma^2 / SigmaSquared) * Omega * weight` when `Omega > 0` and
`mu + (sigma^2 / SigmaSquared) * Omega / weight` otherwise, and the new sigma is
`sigma * sqrt (max (1 - (sigma^2 / SigmaSquared) * Delta * weight) kappa)`, with `/ weight`
in place of `* weight` when `Omega ≤ 0`. -/
def sharedPlayerUpdate {F : Type} [LinearOrderedField F] (m : MathFns F)
    (kappa sigmaSquared omega delta weight : F) (player : Rating F) : Rating F :=
  if omega > 0 then
    Rating.mk (player.Mu + (player.Sigma ^ 2 / sigmaSquared) * omega * weight)
      (player.Sigma * m.sqrt (max (1 - (player.Sigma ^ 2 / sigmaSquared) * delta * weight) kappa))
  else
    Rating.mk (player.Mu + (player.Sigma ^ 2 / sigmaSquared) * omega / weight)
      (player.Sigma * m.sqrt (max (1 - (player.Sigma ^ 2 / sigmaSquared) * delta / weight) kappa))

/-- The caller's `ranks` and `weights` after the statements of `Rate` that write through
its slice arguments; the five `Rate` methods share these statements. A Go slice argument
shares its backing array with the caller's slice, so a write to one of its entries is seen
by the caller.
* A rejected call returns before any write.
* The loop `for i := range weights { weights[i] = normalize(weights[i], 1, 2) }` stores the
  normalized row in entry `i` of the caller's `weights`.
* The statement `sort.Ints(ranks)` sorts the caller's `ranks` in place when the caller
  passed ranks. When the caller passed scores, `ranks = make([]int, len(scores))` has bound
  the local `ranks` to a fresh slice before, and the caller's `ranks` stays nil. -/
def callerSlicesAfterRate {F : Type} [LinearOrderedField F] (teams : List (List (Rating F)))
    (ranks scores : Option (List Int)) (weights : Option (List (List F))) :
    Except Panic (Option (List Int) × Option (List (List F))) :=
  match checkRateParameters teams ranks scores weights with
  | .error p => .error p
  | .ok (some _) => .ok (ranks, weights)
  | .ok none =>
    match normalizeWeights weights with
    | .error p => .error p
    | .ok weights1 =>
      match scores with
      | some _ => .ok (ranks, weights1)
      | none => .ok (ranks.map sortInts, weights1)

/-- The number of entries of `ranks` that are strictly smaller than `v`. -/
def countSmaller (ranks : List Int) (v : Int) : Nat :=
  ranks.countP (fun y => decide (y < v))

/-- The balance weight of `calculateTeamRatings`:
`1 + ((maxOrdinal - player.Ordinal()) / (maxOrdinal + kappa))`. -/
def balanceWeight {F : Type} [LinearOrderedField F] (kappa maxOrdinal : F) (player : Rating F) :
    F :=
  1 + ((maxOrdinal - player.Ordinal) / (maxOrdinal + kappa))

/-- The `omega` that `PlackettLuceModel.compute` reaches for the second of the two solo teams
`[x]`, `[y]` of rank classes 0 and 1. -/
def PlackettLuceModel.secondSoloOmega {F : Type} [LinearOrderedField F] (m : MathFns F)
    (p : PlackettLuceModel F) (x y : Rating F) : F :=
  let C := c m [soloTeamRating x 0, soloTeamRating y 1] p.beta
  let eX := m.exp (x.Mu / C)
  let eY := m.exp (y.Mu / C)
  (0 - eY / (eX + eY) + (1 - eY / eY)) * (y.Sigma * y.Sigma / C)

/-! ## predictor.go, and `phiMajorInv` of util.go -/

section Predictor

variable {F : Type} [LinearOrderedField F]

/-- Go `phiMajorInv` (util.go). The two slots `num`, `den` of the tail branches are the
pair returned by the inner `if`. -/
def phiMajorInv (m : MathFns F) (p : F) : F :=
  let q := p - 0.5
  if |q| ≤ 0.425 then
    let r := 0.180625 - q * q
    let num := (((((((2.5090809287301227e+3 * r +
      3.3430575583588128e+4) * r +
      6.7265770927008709e+4) * r +
      4.5921953931549872e+4) * r +
      1.3731693765509461e+4) * r +
      1.9715909503065514e+3) * r +
      1.3314166789178437e+2) * r +
      3.3871328727963666e+0) * q
    let den := (((((((5.2264952788528546e+3 * r +
      2.8729085735721943e+4) * r +
      3.9307895800092710e+4) * r +
      2.1213794301586599e+4) * r +
      5.3941960214247511e+3) * r +
      6.8718700749205790e+2) * r +
      4.2313330701600911e+1) * r +
      1.0)
    num / den
  else
    let r0 := if q > 0.0 then 1.0 - p else p
    let r1 := m.sqrt (-(m.log r0))
    let numDen : F × F :=
      if r1 ≤ 5.0 then
        let r := r1 - 1.6
        ((((((((7.7454501427834141e-4 * r +
          2.2723844989269185e-2) * r +
          2.4178072517745061e-1) * r +
          1.2704582524523684e+0) * r +
          3.6478483247632046e+0) * r +
          5.7694972214606914e+0) * r +
          4.6303378461565453e+0) * r +
          1.4234371107496838e+0),
        (((((((1.0507500716444168e-9 * r +
          5.4759380849953445e-4) * r +
          1.5198666563616457e-2) * r +
          1.4810397642748007e-1) * r +
          6.8976733498510000e-1) * r +
          1.6763848301838038e+0) * r +
          2.0531916266377588e+0) * r +
          1.0))
      else
        let r := r1 - 5.0
        ((((((((2.0103343992922881e-7 * r +
          2.7115555687434876e-5) * r +
          1.2426609473880784e-3) * r +
          2.6532189526576123e-2) * r +
          2.9656057182850489e-1) * r +
          1.7848265399172911e+0) * r +
          5.4637849111641144e+0) * r +
          6.6579046435011038e+0),
        (((((((2.0442631033899398e-15 * r +
          1.4215117583164459e-7) * r +
          1.8463183175100547e-5) * r +
          7.8686913114561326e-4) * r +
          1.4875361290850615e-2) * r +
          1.3692988092273581e-1) * r +
          5.9983220655588794e-1) * r +
          1.0))
    let x := numDen.1 / numDen.2
    if q < 0.0 then -x else x

/-- Go `predictor`. -/
structure predictor (F : Type) where
  beta : F
  kappa : F
  balance : Bool

/-- Go `DefaultPredictor`. -/
def DefaultPredictor : predictor F :=
  { beta := 25 / 6, kappa := 1 / 10000, balance := false }

/-- The two results `(value, err)` of a method of the predictor. -/
inductive PredictResult (α : Type) where
  | value (x : α)
  | err (e : RateError)

/-- Go `checkTeams` (predictor.go). `none` is the `nil` error. -/
def checkTeams (teams : List (List (Rating F))) : Option RateError :=
  if teams.length < 2 then some .ErrLessThanTwoTeams
  else if teams.any (fun team => decide (team.length < 1)) then some .ErrEmptyTeam
  else none

/-- The reads `teamASubset[0]` and `teamBSubset[0]`, or `teamsRatings[0]` and
`teamsRatings[1]`, of `ChanceOfWinning`, followed by
`phiMajor((a.Mu - b.Mu) / math.Sqrt(2*p.beta*p.beta + a.SigmaSquared + b.SigmaSquared))`. -/
def predictor.winOf (m : MathFns F) (p : predictor F) (a b : Option (teamRating F)) :
    Except Panic F :=
  match a, b with
  | some a, some b =>
    .ok (phiMajor m ((a.Mu - b.Mu) / m.sqrt (2 * p.beta * p.beta + a.SigmaSquared + b.SigmaSquared)))
  | _, _ => .error .indexOutOfRange

/-- The body of the guarded block `if i != j { ... }` of `ChanceOfWinning`: the value that
is appended to `pairwiseProbabilities`. -/
def predictor.pairwiseWin (m : MathFns F) (p : predictor F) (teamA teamB : List (Rating F)) :
    Except Panic F :=
  match calculateTeamRatings [teamA] none p.balance p.kappa with
  | .error e => .error e
  | .ok teamASubset =>
    match calculateTeamRatings [teamB] none p.balance p.kappa with
    | .error e => .error e
    | .ok teamBSubset => p.winOf m teamASubset[0]? teamBSubset[0]?

/-- The body of the loop `for j := range teams` of `ChanceOfWinning` for the team at `i`:
`none` when nothing is appended. -/
def predictor.pairwiseEntry (m : MathFns F) (p : predictor F) (i : Nat)
    (teamA : List (Rating F)) (j : Nat) (teamB : List (Rating F)) : Except Panic (Option F) :=
  if i ≠ j then
    match p.pairwiseWin m teamA teamB with
    | .error e => .error e
    | .ok prob => .ok (some prob)
  else .ok none

/-- The loop `for j := range teams` of `ChanceOfWinning` for the team at `i`: the values
it appends to `pairwiseProbabilities`, in order. -/
def predictor.pairwiseRow (m : MathFns F) (p : predictor F) (teams : List (List (Rating F)))
    (i : Nat) (teamA : List (Rating F)) : Except Panic (List F) :=
  match traverseIdx (p.pairwiseEntry m i teamA) 0 teams with
  | .error e => .error e
  | .ok entries => .ok entries.reduceOption

/-- The two nested loops of `ChanceOfWinning` that fill `pairwiseProbabilities`: the slice
is the concatenation of what each outer iteration appends. -/
def predictor.pairwiseProbabilities (m : MathFns F) (p : predictor F)
    (teams : List (List (Rating F))) : Except Panic (List F) :=
  match traverseIdx (p.pairwiseRow m teams) 0 teams with
  | .error e => .error e
  | .ok rows => .ok rows.flatten

/-- The loop `for j := lo; j < hi; j++ { sum += xs[j] }`, with `j` the next index, `k`
the number of iterations left and `sum` the running sum; the read panics when out of
range. -/
def sumFrom (xs : List F) : Nat → Nat → F → Except Panic F
  | _, 0, sum => .ok sum
  | j, k + 1, sum =>
    match xs[j]? with
    | none => .error .indexOutOfRange
    | some x => sumFrom xs (j + 1) k (sum + x)

/-- The body of the loop `for i := range teams` of `ChanceOfWinning` that fills
`winProbabilities`. -/
def predictor.winProbabilityAt (pairwiseProbabilities : List F) (n : Nat) (i : Nat)
    (_team : List (Rating F)) : Except Panic F :=
  match sumFrom pairwiseProbabilities (i * (n - 1)) ((i + 1) * (n - 1) - i * (n - 1)) 0 with
  | .error e => .error e
  | .ok sum => .ok (sum / ((n - 1 : Nat) : F))

/-- The last two loops of `ChanceOfWinning` and of `ChanceOfRanks`: the sum of the
probabilities and the division of every probability by it. -/
def normalizeProbabilities (winProbabilities : List F) : List F :=
  let totalProbability := winProbabilities.foldl (fun total prob => total + prob) 0
  winProbabilities.map (fun prob => prob / totalProbability)

/-- Go `predictor.ChanceOfWinning`. -/
def predictor.ChanceOfWinning (m : MathFns F) (p : predictor F)
    (teams : List (List (Rating F))) : Except Panic (PredictResult (List F)) :=
  match checkTeams teams with
  | some err => .ok (.err err)
  | none =>
    let n := teams.length
    if n = 2 then
      match calculateTeamRatings teams none p.balance p.kappa with
      | .error e => .error e
      | .ok teamsRatings =>
        match p.winOf m teamsRatings[0]? teamsRatings[1]? with
        | .error e => .error e
        | .ok prob => .ok (.value [prob, 1 - prob])
    else
      match p.pairwiseProbabilities m teams with
      | .error e => .error e
      | .ok pairwiseProbabilities =>
        match traverseIdx (predictor.winProbabilityAt pairwiseProbabilities n) 0 teams with
        | .error e => .error e
        | .ok winProbabilities => .ok (.value (normalizeProbabilities winProbabilities))

/-- The reads `pairASubset[0]` and `pairBSubset[0]` of `ChanceOfDraw`, followed by
`phiMajor((drawMargin-muA+muB)/math.Sqrt(..)) - phiMajor((muB-muA-drawMargin)/math.Sqrt(..))`. -/
def predictor.drawOf (m : MathFns F) (p : predictor F) (drawMargin : F)
    (a b : Option (teamRating F)) : Except Panic F :=
  match a, b with
  | some a, some b =>
    .ok (phiMajor m ((drawMargin - a.Mu + b.Mu) /
        m.sqrt (2 * p.beta * p.beta + a.SigmaSquared + b.SigmaSquared)) -
      phiMajor m ((b.Mu - a.Mu - drawMargin) /
        m.sqrt (2 * p.beta * p.beta + a.SigmaSquared + b.SigmaSquared)))
  | _, _ => .error .indexOutOfRange

/-- The body of the inner loop of `ChanceOfDraw`: the value that is appended to
`pairwiseProbabilities` for the teams `pairA`, `pairB`. -/
def predictor.pairwiseDraw (m : MathFns F) (p : predictor F) (drawMargin : F)
    (pairA : List (Rating F)) (_j : Nat) (pairB : List (Rating F)) : Except Panic F :=
  match calculateTeamRatings [pairA] none p.balance p.kappa with
  | .error e => .error e
  | .ok pairASubset =>
    match calculateTeamRatings [pairB] none p.balance p.kappa with
    | .error e => .error e
    | .ok pairBSubset => p.drawOf m drawMargin pairASubset[0]? pairBSubset[0]?

/-- The nested loops `for i := 0; i < len(teams); i++ { for j := i + 1; j < len(teams); j++`
of `ChanceOfDraw`: the outer loop takes the teams in turn, the inner loop runs over the
teams after the current one. -/
def predictor.drawPairs (m : MathFns F) (p : predictor F) (drawMargin : F) :
    List (List (Rating F)) → Except Panic (List F)
  | [] => .ok []
  | pairA :: later =>
    match traverseIdx (p.pairwiseDraw m drawMargin pairA) 0 later with
    | .error e => .error e
    | .ok row =>
      match predictor.drawPairs m p drawMargin later with
      | .error e => .error e
      | .ok others => .ok (row ++ others)

/-- The draw margin of `ChanceOfDraw`:
`math.Sqrt(float64(totalPlayerCount)) * p.beta * phiMajorInv((1+drawProbability)/2)` with
`drawProbability := 1 / float64(totalPlayerCount)`. -/
def predictor.drawMargin (m : MathFns F) (p : predictor F) (teams : List (List (Rating F))) :
    F :=
  let totalPlayerCount : Nat := teams.foldl (fun count team => count + team.length) 0
  let drawProbability : F := 1 / (totalPlayerCount : F)
  m.sqrt (totalPlayerCount : F) * p.beta * phiMajorInv m ((1 + drawProbability) / 2)

/-- Go `predictor.ChanceOfDraw`. -/
def predictor.ChanceOfDraw (m : MathFns F) (p : predictor F)
    (teams : List (List (Rating F))) : Except Panic (PredictResult F) :=
  match checkTeams teams with
  | some err => .ok (.err err)
  | none =>
    match p.drawPairs m (p.drawMargin m teams) teams with
    | .error e => .error e
    | .ok pairwiseProbabilities =>
      let sum := pairwiseProbabilities.foldl (fun sum prob => sum + prob) 0
      .ok (.value (sum / (pairwiseProbabilities.length : F)))

/-- The loop `for j, t2 := range teamRatings` of `ChanceOfRanks` for the team `t1` at `i`,
followed by `winProbabilities[i] /= (float64(n) - 1)`. -/
def predictor.winProbabilityOf (m : MathFns F) (p : predictor F)
    (teamRatings : List (teamRating F)) (n : Nat) (i : Nat) (t1 : teamRating F) : F :=
  (teamRatings.enum.foldl (fun acc jt =>
      if i ≠ jt.1 then
        acc + phiMajor m ((t1.Mu - jt.2.Mu) /
          m.sqrt (2 * p.beta * p.beta + t1.SigmaSquared + jt.2.SigmaSquared))
      else acc) 0) / ((n : F) - 1)

/-- The loop `for i, team := range sortedTeams` of `ChanceOfRanks`, at position `i` with the
running `currentRank`; `prev` is `sortedTeams[i-1][1]` (absent at `i = 0`). It returns the
writes `ranks[team[0]] = currentRank` in order, as pairs `(team[0], currentRank)`. -/
def rankLoop : Option Int → Nat → Int → List (Nat × Int) → List (Nat × Int)
  | _, _, _, [] => []
  | prev, i, currentRank, team :: rest =>
    let rank1 : Int :=
      match prev with
      | some before => if team.2 < before then (i : Int) + 1 else currentRank
      | none => currentRank
    (team.1, rank1) :: rankLoop (some team.2) (i + 1) rank1 rest

/-- The ranking part of `ChanceOfRanks` on the rounded probabilities: the pairs
`[2]int{i, rounded}` are sorted by `sort.SliceStable` with `less = a[1] > b[1]`, and the
writes `ranks[team[0]] = currentRank` go into `ranks := make([]int, n)`. Every `team[0]`
is a position of the probabilities, so each write is in range. -/
def ranksOfRounded (rounded : List Int) : List Int :=
  let sortedTeams := sortSliceStable (fun (x y : Nat × Int) => decide (x.2 > y.2)) rounded.enum
  (rankLoop none 0 1 sortedTeams).foldl (fun ranks w => ranks.set w.1 w.2)
    (List.replicate rounded.length 0)

/-- Go `predictor.ChanceOfRanks`. The conversion `int(math.Round(x))` is the parameter
`round`. -/
def predictor.ChanceOfRanks (m : MathFns F) (round : F → Int) (p : predictor F)
    (teams : List (List (Rating F))) : Except Panic (PredictResult (List Int × List F)) :=
  match checkTeams teams with
  | some err => .ok (.err err)
  | none =>
    let n := teams.length
    match calculateTeamRatings teams none p.balance p.kappa with
    | .error e => .error e
    | .ok teamRatings =>
      let winProbabilities := teamRatings.enum.map (fun it =>
        p.winProbabilityOf m teamRatings n it.1 it.2)
      let normalizedProbabilities := normalizeProbabilities winProbabilities
      let ranks := ranksOfRounded (normalizedProbabilities.map (fun prob => round (prob * 1000000)))
      .ok (.value (ranks, normalizedProbabilities))

end Predictor

/-! ## Notions used to state the properties of the predictor -/

/-- The sums `(muSummed, sigmaSqSummed)` that `calculateTeamRatings` computes for a team. -/
def teamSums {F : Type} [LinearOrderedField F] (balance : Bool) (kappa : F)
    (team : List (Rating F)) : F × F :=
  match (sortSliceStable (fun x y => decide (x.Ordinal > y.Ordinal)) team)[0]? with
  | none => (0, 0)
  | some best =>
    sumTeam balance kappa best.Ordinal
      (sortSliceStable (fun x y => decide (x.Ordinal > y.Ordinal)) team)

/-- The probability that the predictor gives team `teamA` of winning against `teamB`:
`phiMajor ((Mu_a - Mu_b) / sqrt (2 * beta^2 + SigmaSquared_a + SigmaSquared_b))` on the sums
of the two teams. -/
def predictor.pairProbability {F : Type} [LinearOrderedField F] (m : MathFns F)
    (p : predictor F) (teamA teamB : List (Rating F)) : F :=
  phiMajor m (((teamSums p.balance p.kappa teamA).1 - (teamSums p.balance p.kappa teamB).1) /
    m.sqrt (2 * p.beta * p.beta + (teamSums p.balance p.kappa teamA).2 +
      (teamSums p.balance p.kappa teamB).2))

/-- The average of the probabilities of the team `teamA` at position `i` of winning against
each of the other teams. -/
def predictor.averageWin {F : Type} [LinearOrderedField F] (m : MathFns F) (p : predictor F)
    (teams : List (List (Rating F))) (i : Nat) (teamA : List (Rating F)) : F :=
  ((teams.enum.filter (fun jt => decide (i ≠ jt.1))).map
    (fun jt => p.pairProbability m teamA jt.2)).sum / ((teams.length - 1 : Nat) : F)

/-- The term of `ChanceOfDraw` for the teams `pairA`, `pairB` with the draw margin
`drawMargin`: `phiMajor ((drawMargin - muA + muB) / c) - phiMajor ((muB - muA - drawMargin) / c)`
with `c = sqrt (2 * beta^2 + sigmaA + sigmaB)` on the sums of the two teams. -/
def predictor.drawTerm {F : Type} [LinearOrderedField F] (m : MathFns F) (p : predictor F)
    (drawMargin : F) (pairA pairB : List (Rating F)) : F :=
  phiMajor m ((drawMargin - (teamSums p.balance p.kappa pairA).1 +
      (teamSums p.balance p.kappa pairB).1) /
    m.sqrt (2 * p.beta * p.beta + (teamSums p.balance p.kappa pairA).2 +
      (teamSums p.balance p.kappa pairB).2)) -
  phiMajor m (((teamSums p.balance p.kappa pairB).1 - (teamSums p.balance p.kappa pairA).1 -
      drawMargin) /
    m.sqrt (2 * p.beta * p.beta + (teamSums p.balance p.kappa pairA).2 +
      (teamSums p.balance p.kappa pairB).2))

/-- The terms of `ChanceOfDraw` over all pairs of a team and a later team, in the order of
the two loops. -/
def predictor.drawTerms {F : Type} [LinearOrderedField F] (m : MathFns F) (p : predictor F)
    (drawMargin : F) : List (List (Rating F)) → List F
  | [] => []
  | pairA :: later =>
    later.map (fun pairB => p.drawTerm m drawMargin pairA pairB) ++
      predictor.drawTerms m p drawMargin later

/-- The number of entries of `rs` that are greater than `v`. -/
def countGreater (rs : List Int) (v : Int) : Nat :=
  rs.countP (fun y => decide (y > v))

/-- Go `int(math.Round(x))`: the nearest integer, halves away from zero. -/
def roundHalfAway {F : Type} [LinearOrderedField F] [FloorRing F] (x : F) : Int :=
  if 0 ≤ x then ⌊x + 1 / 2⌋ else ⌈x - 1 / 2⌉

/-- The sum of `exp (Mu_k / c)` over the team ratings `k` whose rank is at least `rank`. -/
def sumQAt {F : Type} [LinearOrderedField F] (m : MathFns F) (teamRatings : List (teamRating F))
    (c : F) (rank : Int) : F :=
  ((teamRatings.filter (fun tk => decide (tk.Rank ≥ rank))).map
    (fun tk => m.exp (tk.Mu / c))).sum

/-! ## float64 arithmetic: rounding

The definitions above read every float64 operation as exact.  The definitions of this part
read the same Go statements with the rounding of IEEE 754 arithmetic: an operation returns
`fl x`, where `x` is its exact result and `fl` maps a number to the nearest float64.  The
rounding `fl` is a parameter; with `fl = id` a definition of this part is the definition
of the same name above, and `binary64` is the rounding of float64 itself
(round to nearest, ties to even, 53-bit significand).  Each operation is rounded on its own,
as on amd64; overflow, underflow to subnormal numbers, infinities and NaN are not
represented. -/

section Rounding

/-- The number of halvings that take `n` below 2, at most `fuel` of them. -/
def log2Halving : Nat → Nat → Nat
  | 0, _ => 0
  | fuel + 1, n => if 2 ≤ n then log2Halving fuel (n / 2) + 1 else 0

/-- The binade of a rational `q ≠ 0`: the integer `e` with `2^e ≤ |q| < 2^(e+1)`.  The
binary logarithms of numerator and denominator (`n` halvings suffice for `n`) give `e` or
`e + 1`. -/
def binadeOf (q : ℚ) : Int :=
  let e0 : Int :=
    (log2Halving q.num.natAbs q.num.natAbs : Int) - (log2Halving q.den q.den : Int)
  if (2 : ℚ) ^ e0 ≤ |q| then e0 else e0 - 1

/-- The integer nearest to `t`; the even one of the two nearest when `t` lies half way. -/
def roundHalfEven (t : ℚ) : Int :=
  let f : Int := ⌊t⌋
  if t - f < 1 / 2 then f
  else if 1 / 2 < t - f then f + 1
  else if f % 2 = 0 then f else f + 1

/-- The rounding of float64 arithmetic (IEEE 754 binary64, round to nearest, ties to
even): the multiple of `2^(e-52)` nearest to `q`, where `2^e ≤ |q| < 2^(e+1)`.  The
exponent is not bounded, so the value is that of float64 for results of magnitude between
`2^(-1022)` and `2^1024`. -/
def binary64 (q : ℚ) : ℚ :=
  if q = 0 then 0
  else (roundHalfEven (q / 2 ^ (binadeOf q - 52)) : ℚ) * 2 ^ (binadeOf q - 52)

variable {F : Type} [LinearOrderedField F]

/-- What the theorems use of round-to-nearest: a larger exact result never rounds to a
smaller float64, and a float64 (a value of `fl`, zero, one) rounds to itself. -/
structure RoundsToNearest (fl : F → F) : Prop where
  mono : ∀ x y : F, x ≤ y → fl x ≤ fl y
  idem : ∀ x : F, fl (fl x) = fl x
  zero : fl 0 = 0
  one : fl 1 = 1

/-- Go `Rating.Ordinal` (rater.go) in float64 arithmetic: `r.Mu - 3*r.Sigma`. -/
def Rating.OrdinalFl (fl : F → F) (r : Rating F) : F :=
  fl (r.Mu - fl (3 * r.Sigma))

/-- Go `normalize` (util.go) in float64 arithmetic; the literal `0.0001` is the float64
nearest to 1/10000. -/
def normalizeFl (fl : F → F) (vector : List F) (targetMin targetMax : F) :
    Except Panic (List F) :=
  if vector.length = 1 then .ok [targetMax]
  else
    match vector[0]? with
    | none => .error .indexOutOfRange
    | some v0 =>
      let sourceMin := vector.foldl (fun acc x => if x < acc then x else acc) v0
      let sourceMax := vector.foldl (fun acc x => if x > acc then x else acc) v0
      let sourceRange :=
        if fl (sourceMax - sourceMin) = 0 then fl (1 / 10000) else fl (sourceMax - sourceMin)
      let targetRange := fl (targetMax - targetMin)
      .ok (vector.map (fun value =>
        fl (fl (fl (fl (value - sourceMin) / sourceRange) * targetRange) + targetMin)))

end Rounding

section RoundedModels

variable {F : Type} [LinearOrderedField F]

end RoundedModels

section ValidationFacts

variable {F : Type}

theorem checkWeightRows_cases (teams : List (List (Rating F))) :
    ∀ (ws : List (List F)) (i : Nat), i + ws.length ≤ teams.length →
      (checkWeightRows teams i ws = .ok none ∧
        ∀ k row team, ws[k]? = some row → teams[i + k]? = some team → row.length = team.length) ∨
      (checkWeightRows teams i ws = .ok (some .ErrWeightsAndTeamsMismatch) ∧
        ∃ k row team, ws[k]? = some row ∧ teams[i + k]? = some team ∧ row.length ≠ team.length)
  | [], i, _ => by
    left
    simp [checkWeightRows]
  | row0 :: rest, i, h => by
    have hi : i < teams.length := by
      simp only [List.length_cons] at h
      omega
    have hget : teams[i]? = some teams[i] := List.getElem?_eq_getElem hi
    by_cases hlen : teams[i].length = row0.length
    · have hrec := checkWeightRows_cases teams rest (i + 1) (by simp only [List.length_cons] at h; omega)
      rcases hrec with ⟨h1, h2⟩ | ⟨h1, k, row, team, hk1, hk2, hk3⟩
      · left
        refine ⟨by simp [checkWeightRows, hget, hlen, h1], ?_⟩
        intro k row team hk1 hk2
        cases k with
        | zero =>
          simp only [List.getElem?_cons_zero, Option.some.injEq] at hk1
          simp only [Nat.add_zero, hget, Option.some.injEq] at hk2
          rw [← hk1, ← hk2, hlen]
        | succ k =>
          simp only [List.getElem?_cons_succ] at hk1
          exact h2 k row team hk1 (by rw [← hk2]; congr 1; omega)
      · right
        refine ⟨by simp [checkWeightRows, hget, hlen, h1], k + 1, row, team, ?_, ?_, hk3⟩
        · simpa using hk1
        · rw [← hk2]; congr 1; omega
    · right
      refine ⟨by simp [checkWeightRows, hget, hlen], 0, row0, teams[i], by simp, by simp, ?_⟩
      exact fun h => hlen h.symm

theorem checkRateParameters_spec (teams : List (List (Rating F)))
    (ranks scores : Option (List Int)) (weights : Option (List (List F))) :
    (∃ r, checkRateParameters teams ranks scores weights = .ok r) ∧
    (checkRateParameters teams ranks scores weights = .ok (some .ErrLessThanTwoTeams) ↔
      lessThanTwoTeams teams) ∧
    (checkRateParameters teams ranks scores weights = .ok (some .ErrEmptyTeam) ↔
      ¬ lessThanTwoTeams teams ∧ someTeamEmpty teams) ∧
    (checkRateParameters teams ranks scores weights = .ok (some .ErrRanksAndScores) ↔
      ¬ lessThanTwoTeams teams ∧ ¬ someTeamEmpty teams ∧ ranksAndScoresGiven ranks scores) ∧
    (checkRateParameters teams ranks scores weights = .ok (some .ErrNoRanksOrScores) ↔
      ¬ lessThanTwoTeams teams ∧ ¬ someTeamEmpty teams ∧ ¬ ranksAndScoresGiven ranks scores ∧
        noRanksOrScoresGiven ranks scores) ∧
    (checkRateParameters teams ranks scores weights = .ok (some .ErrRanksAndTeamsMismatch) ↔
      ¬ lessThanTwoTeams teams ∧ ¬ someTeamEmpty teams ∧ ¬ ranksAndScoresGiven ranks scores ∧
        ¬ noRanksOrScoresGiven ranks scores ∧ ranksMismatch teams ranks) ∧
    (checkRateParameters teams ranks scores weights = .ok (some .ErrScoresAndTeamsMismatch) ↔
      ¬ lessThanTwoTeams teams ∧ ¬ someTeamEmpty teams ∧ ¬ ranksAndScoresGiven ranks scores ∧
        ¬ noRanksOrScoresGiven ranks scores ∧ ¬ ranksMismatch teams ranks ∧
        scoresMismatch teams scores) ∧
    (checkRateParameters teams ranks scores weights = .ok (some .ErrWeightsAndTeamsMismatch) ↔
      ¬ lessThanTwoTeams teams ∧ ¬ someTeamEmpty teams ∧ ¬ ranksAndScoresGiven ranks scores ∧
        ¬ noRanksOrScoresGiven ranks scores ∧ ¬ ranksMismatch teams ranks ∧
        ¬ scoresMismatch teams scores ∧ weightsMismatch teams weights) ∧
    (checkRateParameters teams ranks scores weights = .ok none ↔
      ¬ lessThanTwoTeams teams ∧ ¬ someTeamEmpty teams ∧ ¬ ranksAndScoresGiven ranks scores ∧
        ¬ noRanksOrScoresGiven ranks scores ∧ ¬ ranksMismatch teams ranks ∧
        ¬ scoresMismatch teams scores ∧ ¬ weightsMismatch teams weights) := by
  unfold lessThanTwoTeams someTeamEmpty ranksAndScoresGiven noRanksOrScoresGiven ranksMismatch
    scoresMismatch weightsMismatch
  by_cases h1 : teams.length < 2
  · simp [checkRateParameters, h1]
  by_cases h2 : ∃ team ∈ teams, team.length = 0
  · have h2' : teams.any (fun team => decide (team.length < 1)) = true := by
      obtain ⟨team, hm, hl⟩ := h2
      simp only [List.any_eq_true, decide_eq_true_eq]
      exact ⟨team, hm, by omega⟩
    have h2n : [] ∈ teams := by
      obtain ⟨team, hm, hl⟩ := h2
      rwa [List.length_eq_zero.mp hl] at hm
    simp [checkRateParameters, h1, h2', h2n]
  have h2n : [] ∉ teams := fun hm => h2 ⟨[], hm, rfl⟩
  have h2' : teams.any (fun team => decide (team.length < 1)) = false := by
    rw [Bool.eq_false_iff]
    intro hany
    simp only [List.any_eq_true, decide_eq_true_eq] at hany
    obtain ⟨team, hm, hl⟩ := hany
    exact h2 ⟨team, hm, by omega⟩
  cases ranks with
  | none =>
    cases scores with
    | none => simp [checkRateParameters, h1, h2', h2n]
    | some s =>
      by_cases h6 : s.length = teams.length
      · cases weights with
        | none => simp [checkRateParameters, h1, h2', h2n, h6]
        | some ws =>
          by_cases hw : ws.length = teams.length
          · rcases checkWeightRows_cases teams ws 0 (by omega) with ⟨e1, e2⟩ | ⟨e1, e2⟩
            · have e3 : ∀ (i : Nat) (row : List F), ws[i]? = some row →
                  ∀ (team : List (Rating F)), teams[i]? = some team → row.length = team.length :=
                fun k row a1 team a2 => e2 k row team a1 (by simpa using a2)
              simp [checkRateParameters, h1, h2', h2n, h6, hw, e1]
              exact e3
            · have e3 : ∃ (i : Nat) (row : List F), ws[i]? = some row ∧
                  ∃ (team : List (Rating F)), teams[i]? = some team ∧ ¬ row.length = team.length := by
                obtain ⟨k, row, team, a1, a2, a3⟩ := e2
                exact ⟨k, row, a1, team, by simpa using a2, a3⟩
              simp [checkRateParameters, h1, h2', h2n, h6, hw, e1, e3]
          · have hw' : ¬ teams.length = ws.length := fun h => hw h.symm
            simp [checkRateParameters, h1, h2', h2n, h6, hw, hw']
      · have h6' : ¬ teams.length = s.length := fun h => h6 h.symm
        simp [checkRateParameters, h1, h2', h2n, h6, h6']
  | some r =>
    cases scores with
    | some s => simp [checkRateParameters, h1, h2', h2n]
    | none =>
      by_cases h5 : r.length = teams.length
      · cases weights with
        | none => simp [checkRateParameters, h1, h2', h2n, h5]
        | some ws =>
          by_cases hw : ws.length = teams.length
          · rcases checkWeightRows_cases teams ws 0 (by omega) with ⟨e1, e2⟩ | ⟨e1, e2⟩
            · have e3 : ∀ (i : Nat) (row : List F), ws[i]? = some row →
                  ∀ (team : List (Rating F)), teams[i]? = some team → row.length = team.length :=
                fun k row a1 team a2 => e2 k row team a1 (by simpa using a2)
              simp [checkRateParameters, h1, h2', h2n, h5, hw, e1]
              exact e3
            · have e3 : ∃ (i : Nat) (row : List F), ws[i]? = some row ∧
                  ∃ (team : List (Rating F)), teams[i]? = some team ∧ ¬ row.length = team.length := by
                obtain ⟨k, row, team, a1, a2, a3⟩ := e2
                exact ⟨k, row, a1, team, by simpa using a2, a3⟩
              simp [checkRateParameters, h1, h2', h2n, h5, hw, e1, e3]
          · have hw' : ¬ teams.length = ws.length := fun h => hw h.symm
            simp [checkRateParameters, h1, h2', h2n, h5, hw, hw']
      · have h5' : ¬ teams.length = r.length := fun h => h5 h.symm
        simp [checkRateParameters, h1, h2', h2n, h5, h5']

/-- C1: `checkRateParameters` never panics (no read is out of range) and returns the first
failing check in the order less-than-two-teams, empty-team, ranks-and-scores,
no-ranks-or-scores, ranks-mismatch, scores-mismatch, weights-mismatch; it returns `nil`
exactly when no check fails. -/
theorem checkRateParameters_first_failing_check (teams : List (List (Rating F)))
    (ranks scores : Option (List Int)) (weights : Option (List (List F))) :
    (∃ r, checkRateParameters teams ranks scores weights = .ok r) ∧
    (checkRateParameters teams ranks scores weights = .ok (some .ErrLessThanTwoTeams) ↔
      lessThanTwoTeams teams) ∧
    (checkRateParameters teams ranks scores weights = .ok (some .ErrEmptyTeam) ↔
      ¬ lessThanTwoTeams teams ∧ someTeamEmpty teams) ∧
    (checkRateParameters teams ranks scores weights = .ok (some .ErrRanksAndScores) ↔
      ¬ lessThanTwoTeams teams ∧ ¬ someTeamEmpty teams ∧ ranksAndScoresGiven ranks scores) ∧
    (checkRateParameters teams ranks scores weights = .ok (some .ErrNoRanksOrScores) ↔
      ¬ lessThanTwoTeams teams ∧ ¬ someTeamEmpty teams ∧ ¬ ranksAndScoresGiven ranks scores ∧
        noRanksOrScoresGiven ranks scores) ∧
    (checkRateParameters teams ranks scores weights = .ok (some .ErrRanksAndTeamsMismatch) ↔
      ¬ lessThanTwoTeams teams ∧ ¬ someTeamEmpty teams ∧ ¬ ranksAndScoresGiven ranks scores ∧
        ¬ noRanksOrScoresGiven ranks scores ∧ ranksMismatch teams ranks) ∧
    (checkRateParameters teams ranks scores weights = .ok (some .ErrScoresAndTeamsMismatch) ↔
      ¬ lessThanTwoTeams teams ∧ ¬ someTeamEmpty teams ∧ ¬ ranksAndScoresGiven ranks scores ∧
        ¬ noRanksOrScoresGiven ranks scores ∧ ¬ ranksMismatch teams ranks ∧
        scoresMismatch teams scores) ∧
    (checkRateParameters teams ranks scores weights = .ok (some .ErrWeightsAndTeamsMismatch) ↔
      ¬ lessThanTwoTeams teams ∧ ¬ someTeamEmpty teams ∧ ¬ ranksAndScoresGiven ranks scores ∧
        ¬ noRanksOrScoresGiven ranks scores ∧ ¬ ranksMismatch teams ranks ∧
        ¬ scoresMismatch teams scores ∧ weightsMismatch teams weights) ∧
    (checkRateParameters teams ranks scores weights = .ok none ↔
      ¬ lessThanTwoTeams teams ∧ ¬ someTeamEmpty teams ∧ ¬ ranksAndScoresGiven ranks scores ∧
        ¬ noRanksOrScoresGiven ranks scores ∧ ¬ ranksMismatch teams ranks ∧
        ¬ scoresMismatch teams scores ∧ ¬ weightsMismatch teams weights) :=
  checkRateParameters_spec teams ranks scores weights

end ValidationFacts

section LoopFacts

variable {α β : Type}

theorem traverseIdx_getElem (f : Nat → α → Except Panic β) :
    ∀ (xs : List α) (i : Nat) (ys : List β), traverseIdx f i xs = .ok ys →
      ys.length = xs.length ∧
        ∀ (k : Nat) (x : α) (y : β), xs[k]? = some x → ys[k]? = some y → f (i + k) x = .ok y
  | [], i, ys, h => by
    simp only [traverseIdx, Except.ok.injEq] at h
    subst h
    simp
  | x0 :: xs, i, ys, h => by
    simp only [traverseIdx] at h
    cases hf : f i x0 with
    | error p => simp [hf] at h
    | ok y0 =>
      cases ht : traverseIdx f (i + 1) xs with
      | error p => simp [hf, ht] at h
      | ok ys0 =>
        simp only [hf, ht, Except.ok.injEq] at h
        subst h
        obtain ⟨hl, hp⟩ := traverseIdx_getElem f xs (i + 1) ys0 ht
        refine ⟨by simp [hl], ?_⟩
        intro k x y hx hy
        cases k with
        | zero =>
          simp only [List.getElem?_cons_zero, Option.some.injEq] at hx hy
          subst hx hy
          simpa using hf
        | succ k =>
          simp only [List.getElem?_cons_succ] at hx hy
          have := hp k x y hx hy
          rwa [show i + (k + 1) = i + 1 + k by omega]

theorem traverseIdx_ok (f : Nat → α → Except Panic β) :
    ∀ (xs : List α) (i : Nat),
      (∀ (k : Nat) (x : α), xs[k]? = some x → ∃ y, f (i + k) x = .ok y) →
      ∃ ys, traverseIdx f i xs = .ok ys
  | [], i, _ => ⟨[], rfl⟩
  | x0 :: xs, i, h => by
    obtain ⟨y0, hy0⟩ := h 0 x0 (by simp)
    obtain ⟨ys, hys⟩ := traverseIdx_ok f xs (i + 1) (by
      intro k x hx
      have := h (k + 1) x (by simpa using hx)
      rwa [show i + (k + 1) = i + 1 + k by omega] at this)
    refine ⟨y0 :: ys, ?_⟩
    simp only [Nat.add_zero] at hy0
    simp [traverseIdx, hy0, hys]

/-- The order that `sortSliceStable pairLess` sorts by. -/
theorem pairLess_eq_false_iff (x y : pair α) :
    pairLess y x = false ↔
      (x.Tenet < y.Tenet ∨ (x.Tenet = y.Tenet ∧ x.Index ≤ y.Index)) := by
  unfold pairLess
  by_cases h : y.Tenet = x.Tenet
  · simp only [ne_eq, h, not_true_eq_false, ↓reduceIte, decide_eq_false_iff_not, not_lt, lt_self_iff_false, true_and, false_or]
  · simp only [ne_eq, h, not_false_eq_true, ↓reduceIte, decide_eq_false_iff_not, not_lt]
    constructor
    · intro hle
      left
      omega
    · rintro (hlt | ⟨heq, _⟩)
      · omega
      · exact absurd heq.symm h

theorem pairOrder_total : IsTotal (pair α) (fun x y => pairLess y x = false) :=
  ⟨fun x y => by
    simp only [pairLess_eq_false_iff]
    omega⟩

theorem pairOrder_trans : IsTrans (pair α) (fun x y => pairLess y x = false) :=
  ⟨fun x y z => by
    simp only [pairLess_eq_false_iff]
    omega⟩

theorem sortSliceStable_pairLess_sorted (ps : List (pair α)) :
    (sortSliceStable pairLess ps).Pairwise (fun x y => pairLess y x = false) :=
  @List.sorted_insertionSort (pair α) (fun x y => pairLess y x = false) _ pairOrder_total
    pairOrder_trans ps

theorem sortSliceStable_perm (less : α → α → Bool) (xs : List α) :
    (sortSliceStable less xs).Perm xs :=
  List.perm_insertionSort _ xs

theorem rangeInt_getElem? (n k : Nat) (hk : k < n) : (rangeInt n)[k]? = some (k : Int) := by
  simp [rangeInt, List.getElem?_map, List.getElem?_range hk]

theorem rangeInt_sorted (n : Nat) : (rangeInt n).Sorted (fun x y => x ≤ y) := by
  unfold rangeInt List.Sorted
  rw [List.pairwise_map]
  exact (List.pairwise_lt_range n).imp (fun h => by exact_mod_cast h.le)

theorem getElem?_lt_of_eq_some {γ : Type} {l : List γ} {k : Nat} {x : γ} (h : l[k]? = some x) :
    k < l.length := by
  by_contra hcon
  rw [List.getElem?_eq_none (by omega)] at h
  exact Option.noConfusion h

/-- The pairs built by the first loop of `unwind`. -/
theorem unwind_pairs (tenet : List Int) (objects : List α)
    (hlen : objects.length ≤ tenet.length) :
    ∃ pairs : List (pair α),
      pairs.length = objects.length ∧
      (∀ (k : Nat) (p : pair α), pairs[k]? = some p →
        p.Index = (k : Int) ∧ tenet[k]? = some p.Tenet ∧ objects[k]? = some p.Object) ∧
      unwind tenet objects =
        .ok ((sortSliceStable pairLess pairs).map (fun p => p.Object),
          (sortSliceStable pairLess pairs).map (fun p => p.Index)) := by
  by_cases h0 : objects.length = 0
  · refine ⟨[], by simp [h0], by simp, ?_⟩
    simp [unwind, h0, sortSliceStable]
  · obtain ⟨pairs, hp⟩ := traverseIdx_ok (unwindPair tenet) objects 0 (by
      intro k x hx
      have hk : k < objects.length := getElem?_lt_of_eq_some hx
      have ht : tenet[0 + k]? = some tenet[k] := by
        rw [Nat.zero_add]
        exact List.getElem?_eq_getElem (by omega)
      exact ⟨pair.mk ((0 + k : Nat) : Int) tenet[k] x, by simp only [unwindPair, ht]⟩)
    obtain ⟨hl, he⟩ := traverseIdx_getElem _ objects 0 pairs hp
    refine ⟨pairs, hl, ?_, ?_⟩
    · intro k p hk
      have hk' : k < objects.length := by
        have := getElem?_lt_of_eq_some hk
        omega
      have hx : objects[k]? = some objects[k] := List.getElem?_eq_getElem hk'
      have := he k objects[k] p hx hk
      have ht : tenet[0 + k]? = some tenet[k] := by
        rw [Nat.zero_add]
        exact List.getElem?_eq_getElem (by omega)
      simp only [unwindPair, ht, Except.ok.injEq] at this
      subst this
      simp only [Nat.zero_add] at ht
      exact ⟨by simp, ht, hx⟩
    · simp only [unwind, h0, ↓reduceIte]
      rw [hp]

/-- Sorting pairs whose tenets are a permutation of `0..n-1` puts tenet `m` at position `m`. -/
theorem sorted_tenets_of_perm (pairs : List (pair α)) (n : Nat)
    (hperm : (pairs.map (fun p => p.Tenet)).Perm (rangeInt n)) :
    (sortSliceStable pairLess pairs).map (fun p => p.Tenet) = rangeInt n := by
  apply List.eq_of_perm_of_sorted (r := fun (x y : Int) => x ≤ y)
  · exact ((sortSliceStable_perm pairLess pairs).map _).trans hperm
  · unfold List.Sorted
    rw [List.pairwise_map]
    refine (sortSliceStable_pairLess_sorted pairs).imp ?_
    intro x y hxy
    rw [pairLess_eq_false_iff] at hxy
    omega
  · exact rangeInt_sorted n

/-- On a tenet list long enough the outputs of `unwind` are a rearrangement of the inputs, and
the returned index at each position names where the object at that position came from. -/
theorem unwind_sorts (tenet : List Int) (objects : List α)
    (hlen : objects.length ≤ tenet.length) :
    ∃ (sorted : List α) (indices : List Int),
      unwind tenet objects = .ok (sorted, indices) ∧
      sorted.length = objects.length ∧ indices.length = objects.length ∧
      indices.Perm (rangeInt objects.length) ∧
      ∀ (k : Nat) (y : α), sorted[k]? = some y →
        ∃ j : Nat, indices[k]? = some (j : Int) ∧ objects[j]? = some y := by
  obtain ⟨pairs, hl, he, hu⟩ := unwind_pairs tenet objects hlen
  refine ⟨_, _, hu, by simp [sortSliceStable, hl], by simp [sortSliceStable, hl], ?_, ?_⟩
  · refine ((sortSliceStable_perm pairLess pairs).map _).trans ?_
    apply List.Perm.of_eq
    apply List.ext_getElem?
    intro k
    by_cases hk : k < objects.length
    · have hp : pairs[k]? = some pairs[k] := List.getElem?_eq_getElem (by omega)
      rw [rangeInt_getElem? _ _ hk, List.getElem?_map, hp]
      simp [(he k _ hp).1]
    · rw [List.getElem?_eq_none (by simp; omega), List.getElem?_eq_none (by simp [rangeInt]; omega)]
  · intro k y hy
    rw [List.getElem?_map] at hy
    cases hq : (sortSliceStable pairLess pairs)[k]? with
    | none => simp [hq] at hy
    | some q =>
      simp only [hq, Option.map_some', Option.some.injEq] at hy
      have hmem : q ∈ pairs :=
        (sortSliceStable_perm pairLess pairs).mem_iff.mp (List.getElem?_mem hq)
      obtain ⟨j, hj⟩ := List.getElem?_of_mem hmem
      obtain ⟨h1, _, h3⟩ := he j q hj
      refine ⟨j, ?_, by rw [← hy]; exact h3⟩
      rw [List.getElem?_map, hq]
      simp [h1]

/-- For `unwind` by a tenet that is a permutation of `0..n-1`: the object that carries
tenet `m` ends at position `m`. -/
theorem unwind_of_perm (tenet : List Int) (objects : List α)
    (hlen : tenet.length = objects.length) (hperm : tenet.Perm (rangeInt objects.length)) :
    ∃ (sorted : List α) (indices : List Int),
      unwind tenet objects = .ok (sorted, indices) ∧
      sorted.length = objects.length ∧
      ∀ (m : Nat) (y : α), sorted[m]? = some y →
        ∃ k : Nat, tenet[k]? = some (m : Int) ∧ objects[k]? = some y := by
  obtain ⟨pairs, hl, he, hu⟩ := unwind_pairs tenet objects (by omega)
  have htenets : pairs.map (fun p => p.Tenet) = tenet := by
    apply List.ext_getElem?
    intro k
    by_cases hk : k < objects.length
    · have hp : pairs[k]? = some pairs[k] := List.getElem?_eq_getElem (by omega)
      rw [List.getElem?_map, hp, (he k _ hp).2.1]
      rfl
    · rw [List.getElem?_eq_none (by simp; omega), List.getElem?_eq_none (by omega)]
  have hsorted := sorted_tenets_of_perm pairs objects.length (by rw [htenets]; exact hperm)
  refine ⟨_, _, hu, by simp [sortSliceStable, hl], ?_⟩
  intro m y hy
  rw [List.getElem?_map] at hy
  cases hq : (sortSliceStable pairLess pairs)[m]? with
  | none => simp [hq] at hy
  | some q =>
    simp only [hq, Option.map_some', Option.some.injEq] at hy
    have hm : m < objects.length := by
      have := getElem?_lt_of_eq_some hq
      simpa [sortSliceStable, hl] using this
    have hqt : q.Tenet = (m : Int) := by
      have h1 : ((sortSliceStable pairLess pairs).map (fun p => p.Tenet))[m]? = some q.Tenet := by
        rw [List.getElem?_map, hq]
        rfl
      rw [hsorted, rangeInt_getElem? _ _ hm] at h1
      exact (Option.some.inj h1).symm
    have hmem : q ∈ pairs :=
      (sortSliceStable_perm pairLess pairs).mem_iff.mp (List.getElem?_mem hq)
    obtain ⟨k, hk⟩ := List.getElem?_of_mem hmem
    obtain ⟨_, h2, h3⟩ := he k q hk
    exact ⟨k, by rw [h2, hqt], by rw [← hy]; exact h3⟩

end LoopFacts

section AlignedFacts

variable {α β γ : Type}

theorem Aligned.of_traverseIdx {R : β → α → Prop} {f : Nat → α → Except Panic β} {xs : List α}
    {i : Nat} {ys : List β} (h : traverseIdx f i xs = .ok ys)
    (hR : ∀ (k : Nat) (x : α) (y : β), f k x = .ok y → R y x) : Aligned R ys xs := by
  obtain ⟨hl, he⟩ := traverseIdx_getElem f xs i ys h
  exact ⟨hl, fun k y x hy hx => hR _ x y (he k x y hx hy)⟩

theorem Aligned.trans {R : α → β → Prop} {S : β → γ → Prop} {T : α → γ → Prop}
    {xs : List α} {ys : List β} {zs : List γ} (h1 : Aligned R xs ys) (h2 : Aligned S ys zs)
    (hT : ∀ x y z, R x y → S y z → T x z) : Aligned T xs zs := by
  refine ⟨h1.1.trans h2.1, ?_⟩
  intro k x z hx hz
  have hk : k < ys.length := by
    have := getElem?_lt_of_eq_some hx
    rw [← h1.1]
    exact this
  exact hT x ys[k] z (h1.2 k x _ hx (List.getElem?_eq_getElem hk))
    (h2.2 k _ z (List.getElem?_eq_getElem hk) hz)

/-- Un-permuting with the indices returned by `unwind` puts every position back: whatever
relates the lists position by position after the first `unwind` relates them to the
original objects after the second. -/
theorem unwind_unwind_aligned {R : β → α → Prop} (tenet : List Int) (objects : List α)
    (hlen : objects.length ≤ tenet.length) (sorted : List α) (indices : List Int)
    (h1 : unwind tenet objects = .ok (sorted, indices)) (zs : List β)
    (hz : Aligned R zs sorted) :
    ∃ (restored : List β) (js : List Int),
      unwind indices zs = .ok (restored, js) ∧ Aligned R restored objects := by
  obtain ⟨sorted', indices', h1', hsl, hil, hperm, hsrc⟩ := unwind_sorts tenet objects hlen
  rw [h1] at h1'
  simp only [Except.ok.injEq, Prod.mk.injEq] at h1'
  obtain ⟨rfl, rfl⟩ := h1'
  have hzl : zs.length = objects.length := hz.1.trans hsl
  obtain ⟨restored, js, h2, hrl, hdst⟩ :=
    unwind_of_perm indices zs (by omega) (by rw [hzl]; exact hperm)
  refine ⟨restored, js, h2, by omega, ?_⟩
  intro m z x hm hx
  obtain ⟨k, hk1, hk2⟩ := hdst m z hm
  have hk : k < sorted.length := by
    have := getElem?_lt_of_eq_some hk2
    omega
  obtain ⟨j, hj1, hj2⟩ := hsrc k sorted[k] (List.getElem?_eq_getElem hk)
  rw [hk1] at hj1
  have hjm : j = m := by
    have := Option.some.inj hj1
    omega
  subst hjm
  rw [hx] at hj2
  have hxe := Option.some.inj hj2
  rw [hxe]
  exact hz.2 k z _ hk2 (List.getElem?_eq_getElem hk)

/-- By the identity tenet `unwind` returns the objects as they are. -/
theorem unwind_rangeInt (objects : List α) :
    ∃ js : List Int, unwind (rangeInt objects.length) objects = .ok (objects, js) := by
  obtain ⟨sorted, js, h, hl, hdst⟩ := unwind_of_perm (rangeInt objects.length) objects
    (by simp [rangeInt]) (List.Perm.refl _)
  refine ⟨js, ?_⟩
  have : sorted = objects := by
    apply List.ext_getElem?
    intro m
    by_cases hm : m < objects.length
    · have hs : sorted[m]? = some sorted[m] := List.getElem?_eq_getElem (by omega)
      obtain ⟨k, hk1, hk2⟩ := hdst m _ hs
      have hk : k < objects.length := getElem?_lt_of_eq_some hk2
      rw [rangeInt_getElem? _ _ hk] at hk1
      have hkm : k = m := by
        have := Option.some.inj hk1
        omega
      subst hkm
      rw [hs, hk2]
    · rw [List.getElem?_eq_none (by omega), List.getElem?_eq_none (by omega)]
  rw [h, this]

end AlignedFacts

section ValidInput

variable {F : Type}

/-- What a successful validation says about the input. -/
theorem checkRateParameters_ok_none {teams : List (List (Rating F))}
    {ranks scores : Option (List Int)} {weights : Option (List (List F))}
    (h : checkRateParameters teams ranks scores weights = .ok none) :
    2 ≤ teams.length ∧ (∀ team ∈ teams, team ≠ []) ∧
    ((∃ r, ranks = some r ∧ scores = none ∧ r.length = teams.length) ∨
      (∃ s, ranks = none ∧ scores = some s ∧ s.length = teams.length)) ∧
    (∀ ws, weights = some ws → ws.length = teams.length ∧
      ∀ (i : Nat) (row : List F) (team : List (Rating F)),
        ws[i]? = some row → teams[i]? = some team → row.length = team.length) := by
  have hs := (checkRateParameters_spec teams ranks scores weights).2.2.2.2.2.2.2.2.mp h
  obtain ⟨h1, h2, h3, h4, h5, h6, h7⟩ := hs
  unfold lessThanTwoTeams at h1
  unfold someTeamEmpty at h2
  unfold ranksAndScoresGiven at h3
  unfold noRanksOrScoresGiven at h4
  unfold ranksMismatch at h5
  unfold scoresMismatch at h6
  unfold weightsMismatch at h7
  refine ⟨by omega, ?_, ?_, ?_⟩
  · intro team hm he
    exact h2 ⟨team, hm, by simp [he]⟩
  · cases ranks with
    | none =>
      cases scores with
      | none => exact absurd ⟨rfl, rfl⟩ h4
      | some s =>
        right
        refine ⟨s, rfl, rfl, ?_⟩
        by_contra hne
        exact h6 ⟨s, rfl, hne⟩
    | some r =>
      cases scores with
      | some s => exact absurd ⟨by simp, by simp⟩ h3
      | none =>
        left
        refine ⟨r, rfl, rfl, ?_⟩
        by_contra hne
        exact h5 ⟨r, rfl, hne⟩
  · intro ws hws
    constructor
    · by_contra hne
      exact h7 ⟨ws, hws, Or.inl hne⟩
    · intro i row team hr ht
      by_contra hne
      exact h7 ⟨ws, hws, Or.inr ⟨i, row, team, hr, ht, hne⟩⟩

end ValidInput

section Shape

variable {F : Type} [LinearOrderedField F]

theorem normalize_ok (vector : List F) (lo hi : F) (hne : vector ≠ []) :
    ∃ out, normalize vector lo hi = .ok out ∧ out.length = vector.length := by
  unfold normalize
  by_cases h1 : vector.length = 1
  · exact ⟨[hi], by simp [h1], by simp [h1]⟩
  · cases vector with
    | nil => exact absurd rfl hne
    | cons v0 rest =>
      simp only [h1, ↓reduceIte, List.getElem?_cons_zero]
      exact ⟨_, rfl, by simp⟩

theorem normalizeWeights_ok (weights : Option (List (List F)))
    (hrows : ∀ ws, weights = some ws → ∀ row ∈ ws, row ≠ []) :
    ∃ w1, normalizeWeights weights = .ok w1 := by
  cases weights with
  | none => exact ⟨none, rfl⟩
  | some ws =>
    obtain ⟨rows, hr⟩ := traverseIdx_ok (fun (_ : Nat) (row : List F) => normalize row 1 2) ws 0 (by
      intro k row hk
      obtain ⟨out, ho, _⟩ := normalize_ok row 1 2 (hrows ws rfl row (List.getElem?_mem hk))
      exact ⟨out, ho⟩)
    refine ⟨some rows, ?_⟩
    unfold normalizeWeights
    simp only []
    rw [hr]

/-- After a successful validation the weights normalize without a panic. -/
theorem normalizeWeights_ok_of_valid {teams : List (List (Rating F))}
    {ranks scores : Option (List Int)} {weights : Option (List (List F))}
    (h : checkRateParameters teams ranks scores weights = .ok none) :
    ∃ w1, normalizeWeights weights = .ok w1 := by
  obtain ⟨_, hne, _, hw⟩ := checkRateParameters_ok_none h
  apply normalizeWeights_ok
  intro ws hws row hrow he
  obtain ⟨hl, hrows⟩ := hw ws hws
  obtain ⟨i, hi⟩ := List.getElem?_of_mem hrow
  have hit : i < teams.length := by
    have := getElem?_lt_of_eq_some hi
    omega
  have := hrows i row teams[i] hi (List.getElem?_eq_getElem hit)
  have hmem : teams[i] ∈ teams := List.getElem_mem hit
  apply hne _ hmem
  apply List.eq_nil_of_length_eq_zero
  rw [← this, he]
  rfl

theorem calculateRankingsLoop_length :
    ∀ (ts : List Int) (prev : Option Int) (i : Nat) (s : Int),
      (calculateRankingsLoop prev i s ts).length = ts.length
  | [], _, _, _ => rfl
  | score :: rest, prev, i, s => by
    simp only [calculateRankingsLoop, List.length_cons]
    rw [calculateRankingsLoop_length rest]

theorem calculateRankings_ok (teams : List (List (Rating F))) (ranks : Option (List Int))
    (hr : ∀ r, ranks = some r → teams.length ≤ r.length) :
    ∃ rank, calculateRankings teams ranks = .ok rank ∧ rank.length = teams.length := by
  cases ranks with
  | none =>
    refine ⟨_, rfl, ?_⟩
    simp [calculateRankingsLoop_length, rangeInt]
  | some r =>
    obtain ⟨ts, hts⟩ := traverseIdx_ok (rankAt (F := F) r) teams 0 (by
      intro k team hk
      have hk' : k < r.length := by
        have := getElem?_lt_of_eq_some hk
        have := hr r rfl
        omega
      refine ⟨r[k], ?_⟩
      simp [rankAt, List.getElem?_eq_getElem hk'])
    refine ⟨calculateRankingsLoop none 0 0 ts, ?_, ?_⟩
    · unfold calculateRankings
      simp only []
      rw [hts]
    · rw [calculateRankingsLoop_length, (traverseIdx_getElem _ teams 0 ts hts).1]

theorem teamRatingOf_team {rank : List Int} {balance : Bool} {kappa : F} {i : Nat}
    {team : List (Rating F)} {tr : teamRating F}
    (h : teamRatingOf rank balance kappa i team = .ok tr) : tr.Team = team := by
  unfold teamRatingOf at h
  dsimp only at h
  cases h0 : (sortSliceStable (fun x y => decide (x.Ordinal > y.Ordinal)) team)[0]? with
  | none =>
    rw [h0] at h
    exact Except.noConfusion h
  | some best =>
    rw [h0] at h
    dsimp only at h
    cases h1 : rank[i]? with
    | none =>
      rw [h1] at h
      exact Except.noConfusion h
    | some rk =>
      rw [h1] at h
      simp only [Except.ok.injEq] at h
      rw [← h]

theorem calculateTeamRatings_ok (teams : List (List (Rating F))) (ranks : Option (List Int))
    (balance : Bool) (kappa : F) (hne : ∀ team ∈ teams, team ≠ [])
    (hr : ∀ r, ranks = some r → teams.length ≤ r.length) :
    ∃ trs, calculateTeamRatings teams ranks balance kappa = .ok trs ∧
      Aligned (fun tr team => tr.Team = team) trs teams := by
  obtain ⟨rank, hrank, hrl⟩ := calculateRankings_ok teams ranks hr
  obtain ⟨trs, htrs⟩ := traverseIdx_ok (teamRatingOf rank balance kappa) teams 0 (by
    intro k team hk
    have hkl : k < teams.length := getElem?_lt_of_eq_some hk
    have hsl : 0 < (sortSliceStable (fun x y => decide (x.Ordinal > y.Ordinal)) team).length := by
      have hteam : team ≠ [] := hne team (List.getElem?_mem hk)
      have : 0 < team.length := List.length_pos.mpr hteam
      simpa [sortSliceStable] using this
    have hrk : rank[0 + k]? = some rank[k] := by
      rw [Nat.zero_add]
      exact List.getElem?_eq_getElem (by omega)
    simp only [teamRatingOf, List.getElem?_eq_getElem hsl, hrk]
    exact ⟨_, rfl⟩)
  refine ⟨trs, ?_, Aligned.of_traverseIdx htrs (fun k x y hxy => teamRatingOf_team hxy)⟩
  unfold calculateTeamRatings
  rw [hrank]
  exact htrs

theorem aligned_enum_map {α β : Type} (G : Nat × α → β) (xs : List α) :
    Aligned (fun y x => ∃ k, y = G (k, x)) (xs.enum.map G) xs := by
  refine ⟨by simp, ?_⟩
  intro k y x hy hx
  rw [List.getElem?_map, List.getElem?_enum, hx] at hy
  simp only [Option.map_some', Option.some.injEq] at hy
  exact ⟨k, hy.symm⟩

theorem teams_nonempty_of_aligned {xs ys : List (List (Rating F))}
    (h : Aligned sameLength xs ys) (hne : ∀ team ∈ ys, team ≠ []) : ∀ team ∈ xs, team ≠ [] := by
  intro team hm he
  obtain ⟨k, hk⟩ := List.getElem?_of_mem hm
  have hky : k < ys.length := by
    have := getElem?_lt_of_eq_some hk
    rw [← h.1]
    exact this
  have := h.2 k team ys[k] hk (List.getElem?_eq_getElem hky)
  apply hne ys[k] (List.getElem_mem hky)
  apply List.eq_nil_of_length_eq_zero
  rw [← this, he]
  rfl

theorem limitSigmaLoop_ok (result reference : List (List (Rating F)))
    (h : Aligned sameLength result reference) :
    ∃ limited, limitSigmaLoop result reference = .ok limited ∧
      Aligned sameLength limited result := by
  obtain ⟨limited, hl⟩ := traverseIdx_ok (limitSigmaTeam reference) result 0 (by
    intro k team hk
    have hkr : k < reference.length := by
      have := getElem?_lt_of_eq_some hk
      rw [← h.1]
      exact this
    have hlen := h.2 k team reference[k] hk (List.getElem?_eq_getElem hkr)
    unfold limitSigmaTeam
    apply traverseIdx_ok
    intro j player hj
    have hjr : j < reference[k].length := by
      have := getElem?_lt_of_eq_some hj
      rw [← hlen]
      exact this
    refine ⟨Rating.mk player.Mu (min player.Sigma (reference[k][j]).Sigma), ?_⟩
    simp [limitSigmaPlayer, List.getElem?_eq_getElem hkr, List.getElem?_eq_getElem hjr])
  refine ⟨limited, hl, Aligned.of_traverseIdx hl ?_⟩
  intro k team out hout
  unfold limitSigmaTeam at hout
  exact (traverseIdx_getElem _ team 0 out hout).1

theorem finishRate_ok (limitSigma : Bool) (result reference : List (List (Rating F)))
    (h : Aligned sameLength result reference) :
    ∃ final, finishRate limitSigma result reference = .ok (.ratings final) ∧
      Aligned sameLength final reference := by
  cases limitSigma with
  | false => exact ⟨result, rfl, h⟩
  | true =>
    obtain ⟨limited, hl, ha⟩ := limitSigmaLoop_ok result reference h
    refine ⟨limited, ?_, ha.trans h (fun x y z hxy hyz => hxy.trans hyz)⟩
    simp only [finishRate, ↓reduceIte]
    rw [hl]

theorem computeInRankOrder_ok
    (compute : List (List (Rating F)) → Option (List Int) → Option (List (List F)) →
      Except Panic (List (List (Rating F))))
    (teamsCopy : List (List (Rating F))) (r : List Int) (weights : Option (List (List F)))
    (hne : ∀ team ∈ teamsCopy, team ≠ []) (hr : r.length = teamsCopy.length)
    (hc : ∀ (ts : List (List (Rating F))) (rk : List Int), (∀ team ∈ ts, team ≠ []) →
      ts.length = rk.length →
      ∃ res, compute ts (some rk) weights = .ok res ∧ Aligned sameLength res ts) :
    ∃ out, computeInRankOrder compute teamsCopy (some r) weights = .ok out ∧
      Aligned sameLength out teamsCopy := by
  obtain ⟨ordered, tenet, h1, hol, _, _, hsrc⟩ := unwind_sorts r teamsCopy (by omega)
  have hone : ∀ team ∈ ordered, team ≠ [] := by
    intro team hm
    obtain ⟨k, hk⟩ := List.getElem?_of_mem hm
    obtain ⟨j, _, hj⟩ := hsrc k team hk
    exact hne team (List.getElem?_mem hj)
  obtain ⟨res, hres, hal⟩ := hc ordered (sortInts r) hone (by simp [sortInts, hol, hr])
  obtain ⟨restored, js, h2, hfin⟩ := unwind_unwind_aligned r teamsCopy (by omega) ordered tenet h1 res hal
  refine ⟨restored, ?_, hfin⟩
  simp only [computeInRankOrder]
  rw [h1]
  simp only []
  rw [hres]
  simp only []
  rw [h2]

theorem storeTeams_exact (items : List (List (Rating F))) :
    storeTeams items.length items = .ok items := by
  simp [storeTeams]

theorem computeInInputOrder_ok
    (compute : List (List (Rating F)) → Option (List Int) → Option (List (List F)) →
      Except Panic (List (List (Rating F))))
    (teamsCopy : List (List (Rating F))) (r : List Int) (weights : Option (List (List F)))
    (hne : ∀ team ∈ teamsCopy, team ≠ []) (hr : r.length = teamsCopy.length)
    (hc : ∀ (ts : List (List (Rating F))) (rk : List Int), (∀ team ∈ ts, team ≠ []) →
      ts.length = rk.length →
      ∃ res, compute ts (some rk) weights = .ok res ∧ Aligned sameLength res ts) :
    ∃ out, computeInInputOrder compute teamsCopy.length teamsCopy (some r) weights = .ok out ∧
      compute teamsCopy (some (sortInts r)) weights = .ok out ∧
      Aligned sameLength out teamsCopy := by
  obtain ⟨res, hres, hal⟩ := hc teamsCopy (sortInts r) hne (by simp [sortInts, hr])
  obtain ⟨js, hu⟩ := unwind_rangeInt res
  refine ⟨res, ?_, hres, hal⟩
  simp only [computeInInputOrder]
  rw [hres]
  simp only []
  rw [hr, ← hal.1, hu]
  exact storeTeams_exact res

theorem ladderPairs_length_ge {α : Type} (list : List α) :
    list.length ≤ (ladderPairs list).length := by
  unfold ladderPairs
  by_cases h : list.length ≤ 1
  · simp only [h, ↓reduceIte, List.length_singleton]
  · simp [h]

theorem bradlyTerryFull_compute_ok (m : MathFns F) (b : BradlyTerryFullModel F)
    (weights : Option (List (List F))) (ts : List (List (Rating F))) (rk : List Int)
    (hne : ∀ team ∈ ts, team ≠ []) (hl : ts.length = rk.length) :
    ∃ res, b.compute m ts (some rk) weights = .ok res ∧ Aligned sameLength res ts := by
  obtain ⟨trs, htrs, hal⟩ := calculateTeamRatings_ok ts (some rk) b.balance b.kappa hne
    (by intro r hr; cases hr; omega)
  unfold BradlyTerryFullModel.compute
  rw [htrs]
  refine ⟨_, rfl, ?_⟩
  refine (aligned_enum_map _ trs).trans hal ?_
  rintro x tr team ⟨k, rfl⟩ ht
  simp [sameLength, ht]

theorem thurstoneMostellerFull_compute_ok (m : MathFns F)
    (t : ThurstoneMostellerFullModel F)
    (weights : Option (List (List F))) (ts : List (List (Rating F))) (rk : List Int)
    (hne : ∀ team ∈ ts, team ≠ []) (hl : ts.length = rk.length) :
    ∃ res, t.compute m ts (some rk) weights = .ok res ∧ Aligned sameLength res ts := by
  obtain ⟨trs, htrs, hal⟩ := calculateTeamRatings_ok ts (some rk) t.balance t.kappa hne
    (by intro r hr; cases hr; omega)
  unfold ThurstoneMostellerFullModel.compute
  rw [htrs]
  refine ⟨_, rfl, ?_⟩
  refine (aligned_enum_map _ trs).trans hal ?_
  rintro x tr team ⟨k, rfl⟩ ht
  simp [sameLength, ht]

theorem thurstoneMostellerPartial_compute_ok (m : MathFns F)
    (t : ThurstoneMostellerPartialModel F)
    (weights : Option (List (List F))) (ts : List (List (Rating F))) (rk : List Int)
    (hne : ∀ team ∈ ts, team ≠ []) (hl : ts.length = rk.length) :
    ∃ res, t.compute m ts (some rk) weights = .ok res ∧ Aligned sameLength res ts := by
  obtain ⟨trs, htrs, hal⟩ := calculateTeamRatings_ok ts (some rk) t.balance t.kappa hne
    (by intro r hr; cases hr; omega)
  obtain ⟨res, hres⟩ := traverseIdx_ok (t.computeTeam m (ladderPairs trs) weights) trs 0 (by
    intro k tr hk
    have hk' : 0 + k < (ladderPairs trs).length := by
      have := getElem?_lt_of_eq_some hk
      have := ladderPairs_length_ge trs
      omega
    simp only [ThurstoneMostellerPartialModel.computeTeam, List.getElem?_eq_getElem hk']
    exact ⟨_, rfl⟩)
  refine ⟨res, by unfold ThurstoneMostellerPartialModel.compute; rw [htrs]; exact hres, ?_⟩
  refine (Aligned.of_traverseIdx (R := fun y tr => y.length = tr.Team.length) hres ?_).trans hal ?_
  · intro k tr y hy
    unfold ThurstoneMostellerPartialModel.computeTeam at hy
    cases hadj : (ladderPairs trs)[k]? with
    | none =>
      rw [hadj] at hy
      exact Except.noConfusion hy
    | some adj =>
      rw [hadj] at hy
      simp only [Except.ok.injEq] at hy
      rw [← hy]
      simp
  · intro x tr team hx ht
    simp [sameLength, hx, ht]

theorem aligned_copy (f : Rating F → Rating F) (teams : List (List (Rating F))) :
    Aligned sameLength (teams.map (fun team => team.map f)) teams := by
  refine ⟨by simp, ?_⟩
  intro k x y hx hy
  rw [List.getElem?_map, hy] at hx
  simp only [Option.map_some', Option.some.injEq] at hx
  simp [sameLength, ← hx]

theorem Aligned.symm_sameLength {xs ys : List (List (Rating F))} (h : Aligned sameLength xs ys) :
    Aligned sameLength ys xs :=
  ⟨h.1.symm, fun k y x hy hx => (h.2 k x y hx hy).symm⟩

theorem Aligned.trans_sameLength {xs ys zs : List (List (Rating F))}
    (h1 : Aligned sameLength xs ys) (h2 : Aligned sameLength ys zs) : Aligned sameLength xs zs :=
  h1.trans h2 (fun _ _ _ hxy hyz => hxy.trans hyz)

theorem Aligned.shape {xs ys : List (List (Rating F))} (h : Aligned sameLength xs ys) :
    xs.length = ys.length ∧
      ∀ (i : Nat) (h1 : i < xs.length) (h2 : i < ys.length), xs[i].length = ys[i].length :=
  ⟨h.1, fun i h1 h2 => h.2 i xs[i] ys[i] (List.getElem?_eq_getElem h1) (List.getElem?_eq_getElem h2)⟩

/-- After a successful validation the ranks that `Rate` works with are not nil and have one
entry per team. -/
theorem ranksFromScores_valid {teams : List (List (Rating F))}
    {ranks scores : Option (List Int)} {weights : Option (List (List F))}
    (h : checkRateParameters teams ranks scores weights = .ok none) :
    ∃ r, ranksFromScores ranks scores = some r ∧ ranksFromScoresIfNil ranks scores = some r ∧
      r.length = teams.length := by
  obtain ⟨_, _, hrs, _⟩ := checkRateParameters_ok_none h
  rcases hrs with ⟨r, rfl, rfl, hl⟩ | ⟨sc, rfl, rfl, hl⟩
  · exact ⟨r, rfl, rfl, hl⟩
  · exact ⟨sc.map negInt, rfl, rfl, by simp [hl]⟩

/-- A `Rate` built as validation, copy, weight normalization, `computeInRankOrder` and
`finishRate` against the caller's teams succeeds with the caller's shape. -/
theorem rankOrder_pipeline_ok
    (compute : List (List (Rating F)) → Option (List Int) → Option (List (List F)) →
      Except Panic (List (List (Rating F))))
    (hc : ∀ (weights : Option (List (List F))) (ts : List (List (Rating F))) (rk : List Int),
      (∀ team ∈ ts, team ≠ []) → ts.length = rk.length →
      ∃ res, compute ts (some rk) weights = .ok res ∧ Aligned sameLength res ts)
    (f : Rating F → Rating F) (limitSigma : Bool)
    {teams : List (List (Rating F))} {ranks scores : Option (List Int)}
    {weights : Option (List (List F))}
    (h : checkRateParameters teams ranks scores weights = .ok none) (w1 : Option (List (List F))) :
    ∃ out final,
      computeInRankOrder compute (teams.map (fun team => team.map f))
        (ranksFromScores ranks scores) w1 = .ok out ∧
      finishRate limitSigma out teams = .ok (.ratings final) ∧ Aligned sameLength final teams := by
  obtain ⟨_, hne, _, _⟩ := checkRateParameters_ok_none h
  obtain ⟨r, hr, _, hrl⟩ := ranksFromScores_valid h
  have hcopy := aligned_copy f teams
  obtain ⟨out, hout, hal⟩ := computeInRankOrder_ok compute (teams.map (fun team => team.map f)) r w1
    (teams_nonempty_of_aligned hcopy hne) (by simp [hrl]) (hc w1)
  obtain ⟨final, hfin, hfal⟩ := finishRate_ok limitSigma out teams (hal.trans_sameLength hcopy)
  exact ⟨out, final, by rw [hr]; exact hout, hfin, hfal⟩

/-- The same for a `Rate` built around `computeInInputOrder`, whose `finishRate` reads
the copy of the teams. -/
theorem inputOrder_pipeline_ok
    (compute : List (List (Rating F)) → Option (List Int) → Option (List (List F)) →
      Except Panic (List (List (Rating F))))
    (hc : ∀ (weights : Option (List (List F))) (ts : List (List (Rating F))) (rk : List Int),
      (∀ team ∈ ts, team ≠ []) → ts.length = rk.length →
      ∃ res, compute ts (some rk) weights = .ok res ∧ Aligned sameLength res ts)
    (f : Rating F → Rating F) (limitSigma : Bool)
    {teams : List (List (Rating F))} {ranks scores : Option (List Int)}
    {weights : Option (List (List F))}
    (h : checkRateParameters teams ranks scores weights = .ok none) (w1 : Option (List (List F))) :
    ∃ out final,
      computeInInputOrder compute teams.length (teams.map (fun team => team.map f))
        (ranksFromScoresIfNil ranks scores) w1 = .ok out ∧
      finishRate limitSigma out (teams.map (fun team => team.map f)) = .ok (.ratings final) ∧
      Aligned sameLength final teams := by
  obtain ⟨_, hne, _, _⟩ := checkRateParameters_ok_none h
  obtain ⟨r, _, hr, hrl⟩ := ranksFromScores_valid h
  have hcopy := aligned_copy f teams
  obtain ⟨out, hout, _, hal⟩ := computeInInputOrder_ok compute (teams.map (fun team => team.map f))
    r w1 (teams_nonempty_of_aligned hcopy hne) (by simp [hrl]) (hc w1)
  obtain ⟨final, hfin, hfal⟩ := finishRate_ok limitSigma out _ hal
  refine ⟨out, final, ?_, hfin, hfal.trans_sameLength hcopy⟩
  rw [hr]
  simpa using hout

theorem bradlyTerryFull_Rate_ok (m : MathFns F) (b : BradlyTerryFullModel F)
    {teams : List (List (Rating F))} {ranks scores : Option (List Int)}
    {weights : Option (List (List F))}
    (h : checkRateParameters teams ranks scores weights = .ok none) :
    ∃ result, b.Rate m teams ranks scores weights = .ok (.ratings result) ∧
      Aligned sameLength result teams := by
  obtain ⟨w1, hw1⟩ := normalizeWeights_ok_of_valid h
  obtain ⟨out, final, h1, h2, h3⟩ := rankOrder_pipeline_ok (b.compute m) (bradlyTerryFull_compute_ok m b)
    (fun player => Rating.mk player.Mu (player.Sigma + b.tau * b.tau)) b.limitSigma h w1
  refine ⟨final, ?_, h3⟩
  unfold BradlyTerryFullModel.Rate
  rw [h]
  dsimp only
  rw [hw1]
  dsimp only
  rw [h1]
  exact h2

theorem thurstoneMostellerFull_Rate_ok (m : MathFns F) (t : ThurstoneMostellerFullModel F)
    {teams : List (List (Rating F))} {ranks scores : Option (List Int)}
    {weights : Option (List (List F))}
    (h : checkRateParameters teams ranks scores weights = .ok none) :
    ∃ result, t.Rate m teams ranks scores weights = .ok (.ratings result) ∧
      Aligned sameLength result teams := by
  obtain ⟨w1, hw1⟩ := normalizeWeights_ok_of_valid h
  obtain ⟨out, final, h1, h2, h3⟩ := inputOrder_pipeline_ok (t.compute m)
    (thurstoneMostellerFull_compute_ok m t)
    (fun player => Rating.mk player.Mu (m.sqrt (player.Sigma * player.Sigma + t.tau ^ 2)))
    t.limitSigma h w1
  refine ⟨final, ?_, h3⟩
  unfold ThurstoneMostellerFullModel.Rate
  rw [h]
  dsimp only
  rw [hw1]
  dsimp only
  rw [h1]
  exact h2

theorem thurstoneMostellerPartial_Rate_ok (m : MathFns F)
    (t : ThurstoneMostellerPartialModel F)
    {teams : List (List (Rating F))} {ranks scores : Option (List Int)}
    {weights : Option (List (List F))}
    (h : checkRateParameters teams ranks scores weights = .ok none) :
    ∃ result, t.Rate m teams ranks scores weights = .ok (.ratings result) ∧
      Aligned sameLength result teams := by
  obtain ⟨w1, hw1⟩ := normalizeWeights_ok_of_valid h
  obtain ⟨out, final, h1, h2, h3⟩ := inputOrder_pipeline_ok (t.compute m)
    (thurstoneMostellerPartial_compute_ok m t)
    (fun player => Rating.mk player.Mu (m.sqrt (player.Sigma * player.Sigma + t.tau ^ 2)))
    t.limitSigma h w1
  refine ⟨final, ?_, h3⟩
  unfold ThurstoneMostellerPartialModel.Rate
  rw [h]
  dsimp only
  rw [hw1]
  dsimp only
  rw [h1]
  exact h2

/-- C2: for the Bradley-Terry-full, Thurstone-Mosteller-full and
Thurstone-Mosteller-partial models, on every input that passes `checkRateParameters`,
`Rate` returns `(result, nil)` without a panic, `result` has as many teams as the input and
`result[i]` has as many players as `teams[i]`. -/
theorem Rate_returns_input_shape (m : MathFns F) (teams : List (List (Rating F)))
    (ranks scores : Option (List Int)) (weights : Option (List (List F)))
    (h : checkRateParameters teams ranks scores weights = .ok none) :
    (∀ b : BradlyTerryFullModel F, ∃ result,
      b.Rate m teams ranks scores weights = .ok (.ratings result) ∧
      result.length = teams.length ∧
      ∀ (i : Nat) (h1 : i < result.length) (h2 : i < teams.length),
        result[i].length = teams[i].length) ∧
    (∀ t : ThurstoneMostellerFullModel F, ∃ result,
      t.Rate m teams ranks scores weights = .ok (.ratings result) ∧
      result.length = teams.length ∧
      ∀ (i : Nat) (h1 : i < result.length) (h2 : i < teams.length),
        result[i].length = teams[i].length) ∧
    (∀ t : ThurstoneMostellerPartialModel F, ∃ result,
      t.Rate m teams ranks scores weights = .ok (.ratings result) ∧
      result.length = teams.length ∧
      ∀ (i : Nat) (h1 : i < result.length) (h2 : i < teams.length),
        result[i].length = teams[i].length) := by
  refine ⟨fun b => ?_, fun t => ?_, fun t => ?_⟩
  · obtain ⟨result, hr, ha⟩ := bradlyTerryFull_Rate_ok m b h
    exact ⟨result, hr, ha.shape⟩
  · obtain ⟨result, hr, ha⟩ := thurstoneMostellerFull_Rate_ok m t h
    exact ⟨result, hr, ha.shape⟩
  · obtain ⟨result, hr, ha⟩ := thurstoneMostellerPartial_Rate_ok m t h
    exact ⟨result, hr, ha.shape⟩

theorem Rate_returns_input_shape_witness :
    checkRateParameters [[Rating.mk (25 : ℝ) (25 / 3)], [Rating.mk 25 (25 / 3), Rating.mk 20 5]]
        (some [2, 1]) none (some [[1], [1, 3]]) = .ok none ∧
    ∃ result, (DefaultBradlyTerryFullModel (F := ℝ)).Rate RealMath
        [[Rating.mk (25 : ℝ) (25 / 3)], [Rating.mk 25 (25 / 3), Rating.mk 20 5]]
        (some [2, 1]) none (some [[1], [1, 3]]) = .ok (.ratings result) ∧
      result.length = 2 :=
  ⟨by simp [checkRateParameters, checkWeightRows],
    by
      obtain ⟨result, hr, hl, _⟩ := (Rate_returns_input_shape RealMath
        [[Rating.mk (25 : ℝ) (25 / 3)], [Rating.mk 25 (25 / 3), Rating.mk 20 5]]
        (some [2, 1]) none (some [[1], [1, 3]])
        (by simp [checkRateParameters, checkWeightRows])).1 DefaultBradlyTerryFullModel
      exact ⟨result, hr, hl⟩⟩

end Shape

section PartialFacts

variable {F : Type} [LinearOrderedField F]

theorem traverseIdx_append {α β : Type} (f : Nat → α → Except Panic β) :
    ∀ (xs ys : List α) (i : Nat),
      traverseIdx f i (xs ++ ys) =
        match traverseIdx f i xs with
        | .error p => .error p
        | .ok front =>
          match traverseIdx f (i + xs.length) ys with
          | .error p => .error p
          | .ok back => .ok (front ++ back)
  | [], ys, i => by
    simp only [List.nil_append, traverseIdx, List.length_nil, Nat.add_zero]
    cases traverseIdx f i ys <;> rfl
  | x :: xs, ys, i => by
    simp only [List.cons_append, traverseIdx, List.length_cons, List.append_eq]
    cases f i x with
    | error p => rfl
    | ok y =>
      simp only []
      rw [traverseIdx_append f xs ys (i + 1), show i + (xs.length + 1) = i + 1 + xs.length by omega]
      cases traverseIdx f (i + 1) xs with
      | error p => rfl
      | ok front =>
        simp only []
        cases traverseIdx f (i + 1 + xs.length) ys <;> rfl

theorem traverseIdx_replicate_nil (reference : List (List (Rating F))) :
    ∀ (n i : Nat), traverseIdx (limitSigmaTeam reference) i (List.replicate n []) =
      .ok (List.replicate n [])
  | 0, _ => rfl
  | n + 1, i => by
    simp only [List.replicate_succ, traverseIdx, limitSigmaTeam]
    rw [traverseIdx_replicate_nil reference n (i + 1)]

theorem bradlyTerryPartial_compute_ok (m : MathFns F) (b : BradlyTerryPartialModel F)
    (weights : Option (List (List F))) (ts : List (List (Rating F))) (rk : List Int)
    (hne : ∀ team ∈ ts, team ≠ []) (hl : ts.length = rk.length) :
    ∃ res, b.compute m ts (some rk) weights = .ok res ∧ Aligned sameLength res ts := by
  obtain ⟨trs, htrs, hal⟩ := calculateTeamRatings_ok ts (some rk) b.balance b.kappa hne
    (by intro r hr; cases hr; omega)
  obtain ⟨res, hres⟩ := traverseIdx_ok (b.computeTeam m (ladderPairs trs) weights) trs 0 (by
    intro k tr hk
    have hk' : 0 + k < (ladderPairs trs).length := by
      have := getElem?_lt_of_eq_some hk
      have := ladderPairs_length_ge trs
      omega
    simp only [BradlyTerryPartialModel.computeTeam, List.getElem?_eq_getElem hk']
    exact ⟨_, rfl⟩)
  refine ⟨res, by unfold BradlyTerryPartialModel.compute; rw [htrs]; exact hres, ?_⟩
  refine (Aligned.of_traverseIdx (R := fun y tr => y.length = tr.Team.length) hres ?_).trans hal ?_
  · intro k tr y hy
    unfold BradlyTerryPartialModel.computeTeam at hy
    cases hadj : (ladderPairs trs)[k]? with
    | none =>
      rw [hadj] at hy
      exact Except.noConfusion hy
    | some adj =>
      rw [hadj] at hy
      simp only [Except.ok.injEq] at hy
      rw [← hy]
      simp
  · intro x tr team hx ht
    simp [sameLength, hx, ht]

/-- The `limitSigma` loop over a result that starts with `reference.length` empty teams and
goes on with a non-empty team reads `reference[reference.length]` and panics. -/
theorem limitSigmaLoop_appended (reference res : List (List (Rating F)))
    (hres : ∃ team rest, res = team :: rest ∧ team ≠ []) :
    limitSigmaLoop (List.replicate reference.length [] ++ res) reference =
      .error .indexOutOfRange := by
  obtain ⟨team, rest, rfl, hteam⟩ := hres
  obtain ⟨player, others, rfl⟩ := List.exists_cons_of_ne_nil hteam
  unfold limitSigmaLoop
  rw [traverseIdx_append, traverseIdx_replicate_nil]
  simp [traverseIdx, limitSigmaTeam, limitSigmaPlayer]

/-- On every validated input `BradlyTerryPartialModel.Rate` returns `len(teams)` empty teams
followed by the updated teams when `limitSigma` is off, and panics when it is on. -/
theorem bradlyTerryPartial_Rate_valid (m : MathFns F) (b : BradlyTerryPartialModel F)
    {teams : List (List (Rating F))} {ranks scores : Option (List Int)}
    {weights : Option (List (List F))}
    (h : checkRateParameters teams ranks scores weights = .ok none) :
    (b.limitSigma = false → ∃ res,
      b.Rate m teams ranks scores weights =
        .ok (.ratings (List.replicate teams.length [] ++ res)) ∧
      Aligned sameLength res teams) ∧
    (b.limitSigma = true → b.Rate m teams ranks scores weights = .error .indexOutOfRange) := by
  obtain ⟨w1, hw1⟩ := normalizeWeights_ok_of_valid h
  obtain ⟨hn, hne, _, _⟩ := checkRateParameters_ok_none h
  obtain ⟨r, hr, _, hrl⟩ := ranksFromScores_valid h
  have hcopy := aligned_copy
    (fun player => Rating.mk player.Mu (m.sqrt (player.Sigma * player.Sigma + b.tau ^ 2))) teams
  obtain ⟨res, hres, hal⟩ := bradlyTerryPartial_compute_ok m b w1 _ (sortInts r)
    (teams_nonempty_of_aligned hcopy hne) (by simp [sortInts, hrl])
  obtain ⟨js, hu⟩ := unwind_rangeInt res
  have hrate : b.Rate m teams ranks scores weights =
      finishRate b.limitSigma (List.replicate teams.length [] ++ res) teams := by
    unfold BradlyTerryPartialModel.Rate
    rw [h]
    dsimp only
    rw [hw1]
    dsimp only
    rw [hr]
    unfold BradlyTerryPartialModel.computeAndAppend
    dsimp only
    rw [hres]
    dsimp only
    have hlen : r.length = res.length := by
      rw [hal.1]
      simp [hrl]
    rw [hlen, hu]
  have hres_al := hal.trans_sameLength hcopy
  constructor
  · intro hoff
    refine ⟨res, ?_, hres_al⟩
    rw [hrate, hoff]
    rfl
  · intro hon
    rw [hrate, hon]
    have hnonempty : ∃ team rest, res = team :: rest ∧ team ≠ [] := by
      cases hres' : res with
      | nil =>
        have := hres_al.1
        rw [hres'] at this
        simp at this
        omega
      | cons team rest =>
        refine ⟨team, rest, rfl, ?_⟩
        apply teams_nonempty_of_aligned hres_al hne
        rw [hres']
        exact List.mem_cons_self _ _
    simp only [finishRate, ↓reduceIte]
    rw [limitSigmaLoop_appended teams res hnonempty]

/-- A list of teams aligned with two solo teams consists of two solo teams. -/
theorem aligned_two_solo (res : List (List (Rating F))) (x y : Rating F)
    (h : Aligned sameLength res [[x], [y]]) : ∃ p q, res = [[p], [q]] := by
  obtain ⟨hl, hk⟩ := h
  have hl2 : res.length = 2 := hl
  obtain ⟨a, b, hab⟩ := List.length_eq_two.mp hl2
  subst hab
  have ha : a.length = 1 := hk 0 a [x] rfl rfl
  have hb : b.length = 1 := hk 1 b [y] rfl rfl
  obtain ⟨p, hp⟩ := List.length_eq_one.mp ha
  obtain ⟨q, hq⟩ := List.length_eq_one.mp hb
  exact ⟨p, q, by rw [hp, hq]⟩

/-- C3 (the code departs from the claim): at two solo teams with ranks `[1, 2]`, which pass
`checkRateParameters`, `BradlyTerryPartialModel.Rate` with `limitSigma` off returns four
teams, two empty ones followed by the two updated ones, and with `limitSigma` on it panics
with an index out of range. -/
theorem bradlyTerryPartial_Rate_two_solo_teams (m : MathFns F) :
    checkRateParameters [[Rating.mk (25 : F) (25 / 3)], [Rating.mk (25 : F) (25 / 3)]]
      (some [1, 2]) none none = .ok none ∧
    (∃ p q : Rating F,
      (DefaultBradlyTerryPartialModel (F := F)).Rate m
          [[Rating.mk 25 (25 / 3)], [Rating.mk 25 (25 / 3)]] (some [1, 2]) none none =
        .ok (.ratings [[], [], [p], [q]])) ∧
    ({ DefaultBradlyTerryPartialModel (F := F) with limitSigma := true }).Rate m
        [[Rating.mk 25 (25 / 3)], [Rating.mk 25 (25 / 3)]] (some [1, 2]) none none =
      .error .indexOutOfRange := by
  have hv : checkRateParameters [[Rating.mk (25 : F) (25 / 3)], [Rating.mk (25 : F) (25 / 3)]]
      (some [1, 2]) none none = .ok none := by
    simp [checkRateParameters]
  refine ⟨hv, ?_, ?_⟩
  · obtain ⟨res, hres, hal⟩ := (bradlyTerryPartial_Rate_valid m DefaultBradlyTerryPartialModel hv).1 rfl
    obtain ⟨p, q, hpq⟩ := aligned_two_solo res _ _ hal
    rw [hpq] at hres
    exact ⟨p, q, hres⟩
  · exact (bradlyTerryPartial_Rate_valid m
      { DefaultBradlyTerryPartialModel (F := F) with limitSigma := true } hv).2 rfl

end PartialFacts

section PlackettLuceFacts

variable {F : Type} [LinearOrderedField F]

/-- A loop panics at the first index whose body panics. -/
theorem traverseIdx_error {α β : Type} (f : Nat → α → Except Panic β) :
    ∀ (xs : List α) (i n : Nat) (x : α) (e : Panic), xs[n]? = some x → f (i + n) x = .error e →
      (∀ (k : Nat) (y : α), k < n → xs[k]? = some y → ∃ z, f (i + k) y = .ok z) →
      traverseIdx f i xs = .error e
  | [], _, n, x, _, hx, _, _ => by simp at hx
  | x0 :: xs, i, 0, x, e, hx, hf, _ => by
    simp only [List.getElem?_cons_zero, Option.some.injEq] at hx
    subst hx
    simp only [Nat.add_zero] at hf
    simp only [traverseIdx, hf]
  | x0 :: xs, i, n + 1, x, e, hx, hf, hok => by
    obtain ⟨z, hz⟩ := hok 0 x0 (by omega) (by simp)
    simp only [Nat.add_zero] at hz
    have hrec := traverseIdx_error f xs (i + 1) n x e (by simpa using hx)
      (by rw [show i + 1 + n = i + (n + 1) by omega]; exact hf)
      (by
        intro k y hk hy
        have := hok (k + 1) y (by omega) (by simpa using hy)
        rwa [show i + (k + 1) = i + 1 + k by omega] at this)
    simp only [traverseIdx, hz, hrec]

/-- The loop over the players of a team in `PlackettLuceModel.compute` panics when the
team's row of weights is shorter than the team. -/
theorem plackettLuce_players_short_row (p : PlackettLuceModel F) (ws : List (List F))
    (t1 : teamRating F) (omega delta : F) (i : Nat) (row : List F) (team : List (Rating F))
    (hrow : ws[i]? = some row) (hshort : row.length < team.length) :
    traverseIdx (p.computePlayer (some ws) t1 omega delta i) 0 team = .error .indexOutOfRange := by
  apply traverseIdx_error _ team 0 row.length team[row.length] .indexOutOfRange
    (List.getElem?_eq_getElem hshort)
  · simp [PlackettLuceModel.computePlayer, PlackettLuceModel.weightAt, hrow]
  · intro k y hk _
    have hw : row[k]? = some row[k] := List.getElem?_eq_getElem hk
    exact ⟨p.updatePlayer t1 omega delta row[k] y, by
      simp only [PlackettLuceModel.computePlayer, PlackettLuceModel.weightAt, hrow,
        Nat.zero_add, hw]⟩

/-- The method `PlackettLuceModel.compute` panics when the first team has more players than the first
row of weights has entries. -/
theorem plackettLuce_compute_short_row (m : MathFns F) (p : PlackettLuceModel F)
    (first : List (Rating F)) (others : List (List (Rating F))) (rk : List Int)
    (row : List F) (rows : List (List F))
    (hne : ∀ team ∈ first :: others, team ≠ []) (hl : (first :: others).length = rk.length)
    (hshort : row.length < first.length) :
    p.compute m (first :: others) (some rk) (some (row :: rows)) = .error .indexOutOfRange := by
  obtain ⟨trs, htrs, hal⟩ := calculateTeamRatings_ok (first :: others) (some rk) p.balance p.kappa
    hne (by intro r hr; cases hr; omega)
  unfold PlackettLuceModel.compute
  rw [htrs]
  dsimp only
  cases trs with
  | nil => exact absurd hal.1 (by simp)
  | cons t0 rest =>
    have ht0 : t0.Team = first := hal.2 0 t0 first (by simp) (by simp)
    apply traverseIdx_error _ (t0 :: rest) 0 0 t0 .indexOutOfRange (by simp)
    · unfold PlackettLuceModel.computeTeam
      dsimp only
      exact plackettLuce_players_short_row p (row :: rows) t0 _ _ 0 row t0.Team (by simp)
        (by rw [ht0]; exact hshort)
    · intro k y hk
      omega

/-- C4 (the code departs from the claim): the input of a solo team and a two-player team
with ranks `[2, 1]` and weights `[[1], [1, 1]]` passes `checkRateParameters`, and
`PlackettLuceModel.Rate` panics on it with an index out of range: the teams are reordered
by rank, the weights are not, and the read `weights[i][j]` is not guarded. -/
theorem plackettLuce_Rate_weights_out_of_range (m : MathFns F) :
    checkRateParameters [[Rating.mk (25 : F) (25 / 3)], [Rating.mk 25 (25 / 3), Rating.mk 25 (25 / 3)]]
      (some [2, 1]) none (some [[1], [1, 1]]) = .ok none ∧
    (DefaultPlackettLuceModel (F := F)).Rate m
        [[Rating.mk 25 (25 / 3)], [Rating.mk 25 (25 / 3), Rating.mk 25 (25 / 3)]]
        (some [2, 1]) none (some [[1], [1, 1]]) = .error .indexOutOfRange := by
  have hv : checkRateParameters
      [[Rating.mk (25 : F) (25 / 3)], [Rating.mk 25 (25 / 3), Rating.mk 25 (25 / 3)]]
      (some [2, 1]) none (some [[1], [1, 1]]) = .ok none := by
    simp [checkRateParameters, checkWeightRows]
  refine ⟨hv, ?_⟩
  have hw : normalizeWeights (some [[(1 : F)], [1, 1]]) = .ok (some [[2], [1, 1]]) := by
    simp [normalizeWeights, traverseIdx, normalize]
  have hu : unwind [2, 1]
      [[Rating.mk (25 : F) (25 / 3)], [Rating.mk 25 (25 / 3), Rating.mk 25 (25 / 3)]] =
      .ok ([[Rating.mk 25 (25 / 3), Rating.mk 25 (25 / 3)], [Rating.mk 25 (25 / 3)]], [1, 0]) := by
    simp [unwind, traverseIdx, unwindPair, sortSliceStable, pairLess]
  unfold PlackettLuceModel.Rate
  rw [hv]
  dsimp only
  rw [hw]
  dsimp only [ranksFromScores, computeInRankOrder, List.map]
  rw [hu]
  dsimp only
  rw [plackettLuce_compute_short_row m _ _ _ _ _ _ (by simp) (by simp [sortInts]) (by simp)]

end PlackettLuceFacts

section TwoTeams

variable {F : Type} [LinearOrderedField F]

theorem unwind_two {α : Type} (r1 r2 : Int) (x y : α) :
    unwind [r1, r2] [x, y] =
      .ok (if r2 < r1 then ([y, x], [1, 0]) else ([x, y], [0, 1])) := by
  by_cases h : r2 < r1
  · have h' : ¬ r2 = r1 := by omega
    simp [unwind, traverseIdx, unwindPair, sortSliceStable, pairLess, h, h']
  · by_cases h' : r2 = r1
    · simp [unwind, traverseIdx, unwindPair, sortSliceStable, pairLess, h']
    · simp [unwind, traverseIdx, unwindPair, sortSliceStable, pairLess, h, h']

theorem sortInts_two (r1 r2 : Int) :
    sortInts [r1, r2] = if r2 < r1 then [r2, r1] else [r1, r2] := by
  by_cases h : r2 < r1
  · have h' : ¬ r1 ≤ r2 := by omega
    simp [sortInts, h, h']
  · have h' : r1 ≤ r2 := by omega
    simp [sortInts, h, h']

theorem calculateRankings_two (A B : List (Rating F)) (s1 s2 : Int) :
    calculateRankings [A, B] (some [s1, s2]) = .ok [0, if s1 < s2 then 1 else 0] := by
  by_cases h : s1 < s2 <;>
  simp [calculateRankings, traverseIdx, rankAt, calculateRankingsLoop, h]

/-- A non-empty team has a team rating that depends on the team only, not on its position. -/
theorem teamRatingOf_ok (balance : Bool) (kappa : F) (team : List (Rating F)) (hne : team ≠ []) :
    ∃ mu sigmaSquared : F, ∀ (rank : List Int) (i : Nat) (rk : Int), rank[i]? = some rk →
      teamRatingOf rank balance kappa i team = .ok (teamRating.mk mu sigmaSquared team rk) := by
  have hsl : 0 < (sortSliceStable (fun x y => decide (x.Ordinal > y.Ordinal)) team).length := by
    have : 0 < team.length := List.length_pos.mpr hne
    simpa [sortSliceStable] using this
  refine ⟨(sumTeam balance kappa
      ((sortSliceStable (fun x y => decide (x.Ordinal > y.Ordinal)) team)[0]).Ordinal
      (sortSliceStable (fun x y => decide (x.Ordinal > y.Ordinal)) team)).1,
    (sumTeam balance kappa
      ((sortSliceStable (fun x y => decide (x.Ordinal > y.Ordinal)) team)[0]).Ordinal
      (sortSliceStable (fun x y => decide (x.Ordinal > y.Ordinal)) team)).2,
    fun rank i rk hrk => ?_⟩
  simp only [teamRatingOf, List.getElem?_eq_getElem hsl, hrk]

theorem calculateTeamRatings_two (balance : Bool) (kappa : F) (A B : List (Rating F))
    (hA : A ≠ []) (hB : B ≠ []) :
    ∃ muA sA muB sB : F, ∀ (s1 s2 : Int),
      calculateTeamRatings [A, B] (some [s1, s2]) balance kappa =
        .ok [teamRating.mk muA sA A 0, teamRating.mk muB sB B (if s1 < s2 then 1 else 0)] ∧
      calculateTeamRatings [B, A] (some [s1, s2]) balance kappa =
        .ok [teamRating.mk muB sB B 0, teamRating.mk muA sA A (if s1 < s2 then 1 else 0)] := by
  obtain ⟨muA, sA, hA'⟩ := teamRatingOf_ok balance kappa A hA
  obtain ⟨muB, sB, hB'⟩ := teamRatingOf_ok balance kappa B hB
  refine ⟨muA, sA, muB, sB, fun s1 s2 => ⟨?_, ?_⟩⟩
  · unfold calculateTeamRatings
    rw [calculateRankings_two]
    simp only [traverseIdx]
    rw [hA' _ 0 0 (by simp), hB' _ (0 + 1) (if s1 < s2 then 1 else 0) (by simp)]
  · unfold calculateTeamRatings
    rw [calculateRankings_two]
    simp only [traverseIdx]
    rw [hB' _ 0 0 (by simp), hA' _ (0 + 1) (if s1 < s2 then 1 else 0) (by simp)]

/-- The `(omega, delta)` of a team in `BradlyTerryFullModel.compute` against one opponent. -/
theorem bradlyTerryFull_compute_two (m : MathFns F) (b : BradlyTerryFullModel F)
    (A B : List (Rating F)) (s1 s2 : Int) (weights : Option (List (List F)))
    (tA tB : teamRating F)
    (h : calculateTeamRatings [A, B] (some [s1, s2]) b.balance b.kappa = .ok [tA, tB]) :
    b.compute m [A, B] (some [s1, s2]) weights =
      .ok [tA.Team.enum.map (fun jr =>
            b.updatePlayer m tA (b.accumulate m 0 tA (0, 0) (1, tB)).1
              (b.accumulate m 0 tA (0, 0) (1, tB)).2 (guardedWeight weights 0 jr.1) jr.2),
          tB.Team.enum.map (fun jr =>
            b.updatePlayer m tB (b.accumulate m 1 tB (0, 0) (0, tA)).1
              (b.accumulate m 1 tB (0, 0) (0, tA)).2 (guardedWeight weights 1 jr.1) jr.2)] := by
  unfold BradlyTerryFullModel.compute
  rw [h]
  have h0 : ∀ acc : F × F, b.accumulate m 0 tA acc (0, tA) = acc := by
    intro acc
    simp [BradlyTerryFullModel.accumulate]
  have h1 : ∀ acc : F × F, b.accumulate m 1 tB acc (1, tB) = acc := by
    intro acc
    simp [BradlyTerryFullModel.accumulate]
  simp only [List.enum, List.enumFrom, List.map, List.foldl, h0, h1]

theorem computeInRankOrder_two
    (compute : List (List (Rating F)) → Option (List Int) → Option (List (List F)) →
      Except Panic (List (List (Rating F))))
    (X Y p q : List (Rating F)) (r1 r2 : Int) (weights : Option (List (List F))) :
    (¬ r2 < r1 → compute [X, Y] (some [r1, r2]) weights = .ok [p, q] →
      computeInRankOrder compute [X, Y] (some [r1, r2]) weights = .ok [p, q]) ∧
    (r2 < r1 → compute [Y, X] (some [r2, r1]) weights = .ok [p, q] →
      computeInRankOrder compute [X, Y] (some [r1, r2]) weights = .ok [q, p]) := by
  constructor
  · intro h hc
    simp only [computeInRankOrder, unwind_two, sortInts_two, h, ↓reduceIte, hc]
    simp
  · intro h hc
    simp only [computeInRankOrder, unwind_two, sortInts_two, h, ↓reduceIte, hc]
    simp

/-- Two-team exchange for a `Rate` built around `computeInRankOrder`: when `compute` treats
two tied teams alike whatever their order, exchanging the two teams together with their
ranks exchanges the two results. -/
theorem computeInRankOrder_exchange
    (compute : List (List (Rating F)) → Option (List Int) → Option (List (List F)) →
      Except Panic (List (List (Rating F))))
    (hc : ∀ (ts : List (List (Rating F))) (rk : List Int),
      (∀ team ∈ ts, team ≠ []) → ts.length = rk.length →
      ∃ res, compute ts (some rk) none = .ok res ∧ Aligned sameLength res ts)
    (htie : ∀ (X Y p q : List (Rating F)) (r : Int), X ≠ [] → Y ≠ [] →
      compute [X, Y] (some [r, r]) none = .ok [p, q] →
      compute [Y, X] (some [r, r]) none = .ok [q, p])
    (X Y : List (Rating F)) (hX : X ≠ []) (hY : Y ≠ []) (r1 r2 : Int) :
    ∃ p q, computeInRankOrder compute [X, Y] (some [r1, r2]) none = .ok [p, q] ∧
      computeInRankOrder compute [Y, X] (some [r2, r1]) none = .ok [q, p] ∧
      p.length = X.length ∧ q.length = Y.length := by
  have two : ∀ (U V : List (Rating F)) (s1 s2 : Int), U ≠ [] → V ≠ [] →
      ∃ p q, compute [U, V] (some [s1, s2]) none = .ok [p, q] ∧
        p.length = U.length ∧ q.length = V.length := by
    intro U V s1 s2 hU hV
    obtain ⟨res, hres, hal⟩ := hc [U, V] [s1, s2] (by simp [hU, hV]) rfl
    have hshape := hal.shape
    match res, hshape with
    | [p, q], hs =>
      exact ⟨p, q, hres, hs.2 0 (by simp) (by simp), hs.2 1 (by simp) (by simp)⟩
  rcases lt_trichotomy r1 r2 with hlt | heq | hgt
  · obtain ⟨p, q, hpq, hp, hq⟩ := two X Y r1 r2 hX hY
    exact ⟨p, q, (computeInRankOrder_two compute X Y p q r1 r2 none).1 (by omega) hpq,
      (computeInRankOrder_two compute Y X p q r2 r1 none).2 hlt hpq, hp, hq⟩
  · subst heq
    obtain ⟨p, q, hpq, hp, hq⟩ := two X Y r1 r1 hX hY
    exact ⟨p, q, (computeInRankOrder_two compute X Y p q r1 r1 none).1 (by omega) hpq,
      (computeInRankOrder_two compute Y X q p r1 r1 none).1 (by omega)
        (htie X Y p q r1 hX hY hpq), hp, hq⟩
  · obtain ⟨q, p, hpq, hq, hp⟩ := two Y X r2 r1 hY hX
    exact ⟨p, q, (computeInRankOrder_two compute X Y q p r1 r2 none).2 hgt hpq,
      (computeInRankOrder_two compute Y X q p r2 r1 none).1 (by omega) hpq, hp, hq⟩

theorem finishRate_exchange (limitSigma : Bool) (X Y p q : List (Rating F))
    (hp : p.length = X.length) (hq : q.length = Y.length) :
    ∃ p1 q1, finishRate limitSigma [p, q] [X, Y] = .ok (.ratings [p1, q1]) ∧
      finishRate limitSigma [q, p] [Y, X] = .ok (.ratings [q1, p1]) := by
  cases limitSigma with
  | false => exact ⟨p, q, rfl, rfl⟩
  | true =>
    have e0 : limitSigmaPlayer [X, Y] 0 = limitSigmaPlayer [Y, X] (0 + 1) := by
      funext j player
      simp [limitSigmaPlayer]
    have e1 : limitSigmaPlayer [X, Y] (0 + 1) = limitSigmaPlayer [Y, X] 0 := by
      funext j player
      simp [limitSigmaPlayer]
    obtain ⟨lim, hlim, hal⟩ := limitSigmaLoop_ok [p, q] [X, Y]
      ⟨rfl, by
        intro k x y hx hy
        match k with
        | 0 =>
          simp only [List.getElem?_cons_zero, Option.some.injEq] at hx hy
          subst hx hy
          exact hp
        | 1 =>
          simp only [List.getElem?_cons_succ, List.getElem?_cons_zero, Option.some.injEq] at hx hy
          subst hx hy
          exact hq
        | k + 2 => simp at hx⟩
    have hshape := hal.shape
    match lim, hshape with
    | [p1, q1], _ =>
      refine ⟨p1, q1, by simp only [finishRate, ↓reduceIte, hlim], ?_⟩
      simp only [limitSigmaLoop, traverseIdx, limitSigmaTeam] at hlim
      simp only [finishRate, ↓reduceIte, limitSigmaLoop, traverseIdx, limitSigmaTeam]
      rw [e0, e1] at hlim
      revert hlim
      cases traverseIdx (limitSigmaPlayer [Y, X] (0 + 1)) 0 p with
      | error e => simp
      | ok u =>
        cases traverseIdx (limitSigmaPlayer [Y, X] 0) 0 q with
        | error e => simp
        | ok w =>
          simp only [Except.ok.injEq, List.cons.injEq, and_true, RateResult.ratings.injEq]
          rintro ⟨rfl, rfl⟩
          exact ⟨rfl, rfl⟩

theorem bradlyTerryFull_compute_tie (m : MathFns F) (b : BradlyTerryFullModel F)
    (X Y p q : List (Rating F)) (r : Int) (hX : X ≠ []) (hY : Y ≠ [])
    (h : b.compute m [X, Y] (some [r, r]) none = .ok [p, q]) :
    b.compute m [Y, X] (some [r, r]) none = .ok [q, p] := by
  obtain ⟨muX, sX, muY, sY, hcalc⟩ := calculateTeamRatings_two b.balance b.kappa X Y hX hY
  obtain ⟨h1, h2⟩ := hcalc r r
  simp only [lt_self_iff_false, ↓reduceIte] at h1 h2
  rw [bradlyTerryFull_compute_two m b X Y r r none _ _ h1] at h
  rw [bradlyTerryFull_compute_two m b Y X r r none _ _ h2]
  simp only [Except.ok.injEq, List.cons.injEq, and_true] at h
  obtain ⟨hp, hq⟩ := h
  have e1 : b.accumulate m 0 (teamRating.mk muY sY Y 0) (0, 0) (1, teamRating.mk muX sX X 0) =
      b.accumulate m 1 (teamRating.mk muY sY Y 0) (0, 0) (0, teamRating.mk muX sX X 0) := by
    simp [BradlyTerryFullModel.accumulate]
  have e2 : b.accumulate m 1 (teamRating.mk muX sX X 0) (0, 0) (0, teamRating.mk muY sY Y 0) =
      b.accumulate m 0 (teamRating.mk muX sX X 0) (0, 0) (1, teamRating.mk muY sY Y 0) := by
    simp [BradlyTerryFullModel.accumulate]
  rw [e1, e2, ← hp, ← hq]
  rfl

end TwoTeams

section TwoTeamsPL

variable {F : Type} [LinearOrderedField F]

theorem plackettLuce_players_no_weights (p : PlackettLuceModel F) (t1 : teamRating F)
    (omega delta : F) (i : Nat) :
    ∀ (team : List (Rating F)) (j : Nat),
      traverseIdx (p.computePlayer none t1 omega delta i) j team =
        .ok (team.map (p.updatePlayer t1 omega delta 1))
  | [], _ => rfl
  | player :: rest, j => by
    simp only [traverseIdx, PlackettLuceModel.computePlayer, PlackettLuceModel.weightAt, List.map]
    have := plackettLuce_players_no_weights p t1 omega delta i rest (j + 1)
    simp only [PlackettLuceModel.computePlayer, PlackettLuceModel.weightAt] at this
    rw [this]

/-- The `(omega, delta)` sums of a team of a two-team tie do not depend on the order of
the two teams. -/
theorem plackettLuce_sums_tie (tX tY : teamRating F) (e S : F) (n : Int)
    (hX : tX.Rank = 0) (hY : tY.Rank = 0) :
    List.foldl (PlackettLuceModel.accumulate 0 tX e) (0, 0)
        ([tX, tY].zip ([S, S].zip [n, n])).enum =
      List.foldl (PlackettLuceModel.accumulate (0 + 1) tX e) (0, 0)
        ([tY, tX].zip ([S, S].zip [n, n])).enum := by
  simp only [List.zip_cons_cons, List.zip_nil_right, List.enum, List.enumFrom, List.foldl,
    PlackettLuceModel.accumulate, hX, hY, le_refl, ↓reduceIte, Nat.zero_add]
  simp only [show (1 : Nat) = 0 ↔ False from by simp, show (0 : Nat) = 1 ↔ False from by simp,
    ↓reduceIte, Prod.mk.injEq]
  constructor <;> ring_nf

theorem plackettLuce_compute_tie (m : MathFns F) (p : PlackettLuceModel F)
    (X Y u v : List (Rating F)) (r : Int) (hX : X ≠ []) (hY : Y ≠ [])
    (h : p.compute m [X, Y] (some [r, r]) none = .ok [u, v]) :
    p.compute m [Y, X] (some [r, r]) none = .ok [v, u] := by
  obtain ⟨muX, sX, muY, sY, hcalc⟩ := calculateTeamRatings_two p.balance p.kappa X Y hX hY
  obtain ⟨h1, h2⟩ := hcalc r r
  simp only [lt_self_iff_false, ↓reduceIte] at h1 h2
  have hc : c m [teamRating.mk muY sY Y 0, teamRating.mk muX sX X 0] p.beta =
      c m [teamRating.mk muX sX X 0, teamRating.mk muY sY Y 0] p.beta := by
    simp only [c, List.foldl]
    congr 1
    ring
  have hq1 : ∀ C : F, sumQ m [teamRating.mk muX sX X 0, teamRating.mk muY sY Y 0] C =
      [m.exp (muX / C) + m.exp (muY / C), m.exp (muX / C) + m.exp (muY / C)] := by
    intro C
    simp [sumQ]
  have hq2 : ∀ C : F, sumQ m [teamRating.mk muY sY Y 0, teamRating.mk muX sX X 0] C =
      [m.exp (muX / C) + m.exp (muY / C), m.exp (muX / C) + m.exp (muY / C)] := by
    intro C
    simp [sumQ, add_comm]
  have ha1 : a [teamRating.mk muX sX X 0, teamRating.mk muY sY Y 0] = [2, 2] := by
    simp [a]
  have ha2 : a [teamRating.mk muY sY Y 0, teamRating.mk muX sX X 0] = [2, 2] := by
    simp [a]
  unfold PlackettLuceModel.compute at h ⊢
  rw [h1] at h
  rw [h2]
  simp only [hc, hq1, hq2, ha1, ha2]
  simp only [hq1, ha1, traverseIdx, PlackettLuceModel.computeTeam,
    plackettLuce_players_no_weights, Except.ok.injEq, List.cons.injEq, and_true] at h ⊢
  obtain ⟨hu, hv⟩ := h
  rw [← hu, ← hv]
  rw [plackettLuce_sums_tie (teamRating.mk muX sX X 0) (teamRating.mk muY sY Y 0) _ _ 2 rfl rfl,
    plackettLuce_sums_tie (teamRating.mk muY sY Y 0) (teamRating.mk muX sX X 0) _ _ 2 rfl rfl]
  exact ⟨rfl, rfl⟩

theorem plackettLuce_compute_ok_no_weights (m : MathFns F) (p : PlackettLuceModel F)
    (ts : List (List (Rating F))) (rk : List Int)
    (hne : ∀ team ∈ ts, team ≠ []) (hl : ts.length = rk.length) :
    ∃ res, p.compute m ts (some rk) none = .ok res ∧ Aligned sameLength res ts := by
  obtain ⟨trs, htrs, hal⟩ := calculateTeamRatings_ok ts (some rk) p.balance p.kappa hne
    (by intro r hr; cases hr; omega)
  obtain ⟨res, hres⟩ := traverseIdx_ok
    (p.computeTeam m trs (a trs) (c m trs p.beta) (sumQ m trs (c m trs p.beta)) none) trs 0 (by
      intro k tr _
      simp only [PlackettLuceModel.computeTeam, plackettLuce_players_no_weights]
      exact ⟨_, rfl⟩)
  refine ⟨res, by unfold PlackettLuceModel.compute; rw [htrs]; exact hres, ?_⟩
  refine (Aligned.of_traverseIdx (R := fun y tr => y.length = tr.Team.length) hres ?_).trans hal ?_
  · intro k tr y hy
    simp only [PlackettLuceModel.computeTeam, plackettLuce_players_no_weights,
      Except.ok.injEq] at hy
    rw [← hy]
    simp
  · intro x tr team hx ht
    simp [sameLength, hx, ht]

theorem checkRateParameters_two (A B : List (Rating F)) (hA : A ≠ []) (hB : B ≠ [])
    (r1 r2 : Int) : checkRateParameters [A, B] (some [r1, r2]) none none = .ok none := by
  simp [checkRateParameters, hA, hB]

/-- Two-team exchange for a whole `Rate` built around `computeInRankOrder`. -/
theorem rankOrder_pipeline_exchange
    (compute : List (List (Rating F)) → Option (List Int) → Option (List (List F)) →
      Except Panic (List (List (Rating F))))
    (hc : ∀ (ts : List (List (Rating F))) (rk : List Int),
      (∀ team ∈ ts, team ≠ []) → ts.length = rk.length →
      ∃ res, compute ts (some rk) none = .ok res ∧ Aligned sameLength res ts)
    (htie : ∀ (X Y p q : List (Rating F)) (r : Int), X ≠ [] → Y ≠ [] →
      compute [X, Y] (some [r, r]) none = .ok [p, q] →
      compute [Y, X] (some [r, r]) none = .ok [q, p])
    (f : Rating F → Rating F) (limitSigma : Bool)
    (A B : List (Rating F)) (hA : A ≠ []) (hB : B ≠ []) (r1 r2 : Int) :
    ∃ p q p1 q1,
      computeInRankOrder compute [A.map f, B.map f] (some [r1, r2]) none = .ok [p, q] ∧
      computeInRankOrder compute [B.map f, A.map f] (some [r2, r1]) none = .ok [q, p] ∧
      finishRate limitSigma [p, q] [A, B] = .ok (.ratings [p1, q1]) ∧
      finishRate limitSigma [q, p] [B, A] = .ok (.ratings [q1, p1]) := by
  obtain ⟨p, q, h1, h2, hp, hq⟩ := computeInRankOrder_exchange compute hc htie (A.map f) (B.map f)
    (by simpa using hA) (by simpa using hB) r1 r2
  obtain ⟨p1, q1, h3, h4⟩ := finishRate_exchange limitSigma A B p q (by simpa using hp)
    (by simpa using hq)
  exact ⟨p, q, p1, q1, h1, h2, h3, h4⟩

/-- C6: for the Bradley-Terry-full and Plackett-Luce models without weights, and any two
non-empty teams `A`, `B` with any ranks `r1`, `r2` (tied or not): `Rate([A, B], [r1, r2])`
returns some `[x, y]` and `Rate([B, A], [r2, r1])` returns `[y, x]`. -/
theorem Rate_exchange_two_teams (m : MathFns F) (A B : List (Rating F)) (hA : A ≠ [])
    (hB : B ≠ []) (r1 r2 : Int) :
    (∀ b : BradlyTerryFullModel F, ∃ x y : List (Rating F),
      b.Rate m [A, B] (some [r1, r2]) none none = .ok (.ratings [x, y]) ∧
      b.Rate m [B, A] (some [r2, r1]) none none = .ok (.ratings [y, x])) ∧
    (∀ p : PlackettLuceModel F, ∃ x y : List (Rating F),
      p.Rate m [A, B] (some [r1, r2]) none none = .ok (.ratings [x, y]) ∧
      p.Rate m [B, A] (some [r2, r1]) none none = .ok (.ratings [y, x])) := by
  constructor
  · intro b
    obtain ⟨p, q, p1, q1, h1, h2, h3, h4⟩ := rankOrder_pipeline_exchange (b.compute m)
      (bradlyTerryFull_compute_ok m b none) (bradlyTerryFull_compute_tie m b)
      (fun player => Rating.mk player.Mu (player.Sigma + b.tau * b.tau)) b.limitSigma
      A B hA hB r1 r2
    refine ⟨p1, q1, ?_, ?_⟩
    · unfold BradlyTerryFullModel.Rate
      rw [checkRateParameters_two A B hA hB]
      simp only [normalizeWeights, ranksFromScores, List.map]
      rw [h1]
      exact h3
    · unfold BradlyTerryFullModel.Rate
      rw [checkRateParameters_two B A hB hA]
      simp only [normalizeWeights, ranksFromScores, List.map]
      rw [h2]
      exact h4
  · intro p
    obtain ⟨u, v, u1, v1, h1, h2, h3, h4⟩ := rankOrder_pipeline_exchange (p.compute m)
      (plackettLuce_compute_ok_no_weights m p) (plackettLuce_compute_tie m p)
      (fun player => Rating.mk player.Mu player.Sigma) p.limitSigma
      A B hA hB r1 r2
    refine ⟨u1, v1, ?_, ?_⟩
    · unfold PlackettLuceModel.Rate
      rw [checkRateParameters_two A B hA hB]
      simp only [normalizeWeights, ranksFromScores, List.map]
      rw [h1]
      exact h3
    · unfold PlackettLuceModel.Rate
      rw [checkRateParameters_two B A hB hA]
      simp only [normalizeWeights, ranksFromScores, List.map]
      rw [h2]
      exact h4

theorem Rate_exchange_two_teams_witness :
    ([Rating.mk (25 : ℝ) (25 / 3)] ≠ [] ∧ [Rating.mk (30 : ℝ) 5, Rating.mk 20 4] ≠ []) ∧
    ∃ x y : List (Rating ℝ),
      (DefaultPlackettLuceModel (F := ℝ)).Rate RealMath
          [[Rating.mk 25 (25 / 3)], [Rating.mk 30 5, Rating.mk 20 4]] (some [7, 7]) none none =
        .ok (.ratings [x, y]) ∧
      (DefaultPlackettLuceModel (F := ℝ)).Rate RealMath
          [[Rating.mk 30 5, Rating.mk 20 4], [Rating.mk 25 (25 / 3)]] (some [7, 7]) none none =
        .ok (.ratings [y, x]) :=
  ⟨⟨by simp, by simp⟩,
    (Rate_exchange_two_teams RealMath [Rating.mk 25 (25 / 3)] [Rating.mk 30 5, Rating.mk 20 4]
      (by simp) (by simp) 7 7).2 DefaultPlackettLuceModel⟩

end TwoTeamsPL

section ScoresAsRanks

variable {F : Type} [LinearOrderedField F]

/-- An input with scores passes the validation exactly when the input with the negated
scores as ranks does. -/
theorem checkRateParameters_scores_as_ranks (teams : List (List (Rating F))) (s : List Int)
    (weights : Option (List (List F)))
    (h : checkRateParameters teams none (some s) weights = .ok none) :
    checkRateParameters teams (some (s.map negInt)) none weights = .ok none := by
  have h1 := (checkRateParameters_spec teams none (some s) weights).2.2.2.2.2.2.2.2.mp h
  apply (checkRateParameters_spec teams (some (s.map negInt)) none weights).2.2.2.2.2.2.2.2.mpr
  obtain ⟨a1, a2, _, _, _, a6, a7⟩ := h1
  refine ⟨a1, a2, ?_, ?_, ?_, ?_, a7⟩
  · simp [ranksAndScoresGiven]
  · simp [noRanksOrScoresGiven]
  · intro ⟨r, hr, hl⟩
    apply a6
    refine ⟨s, rfl, ?_⟩
    simp only [Option.some.injEq] at hr
    rw [← hr] at hl
    simpa using hl
  · simp [scoresMismatch]

/-- Go's unary minus is the negation of the integers on every `int` but the smallest:
for `-2^63 < x < 2^63` nothing wraps. -/
theorem negInt_eq_neg (x : Int) (h1 : -2 ^ 63 < x) (h2 : x < 2 ^ 63) : negInt x = -x := by
  unfold negInt Int.bmod
  norm_num at h1 h2 ⊢
  omega

/-- The smallest `int` is its own negative in Go. -/
theorem negInt_minInt : negInt (-2 ^ 63) = -2 ^ 63 := by
  decide

/-- On scores that are not the smallest `int`, the loop `ranks[i] = -score` negates every
score. -/
theorem map_negInt_eq_map_neg (s : List Int) (hs : ∀ x ∈ s, -2 ^ 63 < x ∧ x < 2 ^ 63) :
    s.map negInt = s.map (fun x => -x) :=
  List.map_congr_left (fun x hx => negInt_eq_neg x (hs x hx).1 (hs x hx).2)

/-- C8: for each of the five models, on an input with scores `s` that passes
`checkRateParameters`, `Rate(teams, nil, s, weights)` returns the same value as
`Rate(teams, [-s_0, ..., -s_{n-1}], nil, weights)`, where `-s_i` is the negative of the
integer `s_i`; the scores are `int` values other than the smallest one, `-2^63`, whose
negative is not an `int`. -/
theorem Rate_scores_as_negated_ranks (m : MathFns F) (teams : List (List (Rating F)))
    (s : List Int) (weights : Option (List (List F)))
    (hs : ∀ x ∈ s, -2 ^ 63 < x ∧ x < 2 ^ 63)
    (h : checkRateParameters teams none (some s) weights = .ok none) :
    (∀ b : BradlyTerryFullModel F, b.Rate m teams none (some s) weights =
      b.Rate m teams (some (s.map (fun x => -x))) none weights) ∧
    (∀ b : BradlyTerryPartialModel F, b.Rate m teams none (some s) weights =
      b.Rate m teams (some (s.map (fun x => -x))) none weights) ∧
    (∀ p : PlackettLuceModel F, p.Rate m teams none (some s) weights =
      p.Rate m teams (some (s.map (fun x => -x))) none weights) ∧
    (∀ t : ThurstoneMostellerFullModel F, t.Rate m teams none (some s) weights =
      t.Rate m teams (some (s.map (fun x => -x))) none weights) ∧
    (∀ t : ThurstoneMostellerPartialModel F, t.Rate m teams none (some s) weights =
      t.Rate m teams (some (s.map (fun x => -x))) none weights) := by
  have h' := checkRateParameters_scores_as_ranks teams s weights h
  rw [map_negInt_eq_map_neg s hs] at h'
  have hn := map_negInt_eq_map_neg s hs
  refine ⟨fun b => ?_, fun b => ?_, fun p => ?_, fun t => ?_, fun t => ?_⟩
  · unfold BradlyTerryFullModel.Rate
    rw [h, h']
    simp only [ranksFromScores, hn]
  · unfold BradlyTerryPartialModel.Rate
    rw [h, h']
    simp only [ranksFromScores, hn]
  · unfold PlackettLuceModel.Rate
    rw [h, h']
    simp only [ranksFromScores, hn]
  · unfold ThurstoneMostellerFullModel.Rate
    rw [h, h']
    simp only [ranksFromScoresIfNil, hn]
  · unfold ThurstoneMostellerPartialModel.Rate
    rw [h, h']
    simp only [ranksFromScoresIfNil, hn]

theorem Rate_scores_as_negated_ranks_witness :
    ((∀ x ∈ ([3, 10] : List Int), -2 ^ 63 < x ∧ x < 2 ^ 63) ∧
      checkRateParameters [[Rating.mk (25 : ℝ) (25 / 3)], [Rating.mk 30 5, Rating.mk 20 4]]
        none (some [3, 10]) (some [[1], [1, 2]]) = .ok none) ∧
    (DefaultThurstoneMostellerFullModel (F := ℝ)).Rate RealMath
        [[Rating.mk 25 (25 / 3)], [Rating.mk 30 5, Rating.mk 20 4]]
        none (some [3, 10]) (some [[1], [1, 2]]) =
      (DefaultThurstoneMostellerFullModel (F := ℝ)).Rate RealMath
        [[Rating.mk 25 (25 / 3)], [Rating.mk 30 5, Rating.mk 20 4]]
        (some [-3, -10]) none (some [[1], [1, 2]]) :=
  ⟨⟨by decide, by simp [checkRateParameters, checkWeightRows]⟩,
    (Rate_scores_as_negated_ranks RealMath
      [[Rating.mk 25 (25 / 3)], [Rating.mk 30 5, Rating.mk 20 4]] [3, 10] (some [[1], [1, 2]])
      (by decide) (by simp [checkRateParameters, checkWeightRows])).2.2.2.1
      DefaultThurstoneMostellerFullModel⟩

end ScoresAsRanks

section SoloTeams

variable {F : Type} [LinearOrderedField F]

theorem teamRatingOf_solo (rank : List Int) (balance : Bool) (kappa : F) (i : Nat) (p : Rating F)
    (rk : Int) (hrk : rank[i]? = some rk) :
    teamRatingOf rank balance kappa i [p] =
      .ok (teamRating.mk p.Mu (p.Sigma * p.Sigma) [p] rk) := by
  cases balance <;>
  simp [teamRatingOf, sortSliceStable, sumTeam, hrk]

theorem calculateTeamRatings_two_solo (balance : Bool) (kappa : F) (p q : Rating F)
    (s1 s2 : Int) :
    calculateTeamRatings [[p], [q]] (some [s1, s2]) balance kappa =
      .ok [teamRating.mk p.Mu (p.Sigma * p.Sigma) [p] 0,
        teamRating.mk q.Mu (q.Sigma * q.Sigma) [q] (if s1 < s2 then 1 else 0)] := by
  unfold calculateTeamRatings
  rw [calculateRankings_two]
  simp only [traverseIdx]
  rw [teamRatingOf_solo _ _ _ 0 p 0 (by simp),
    teamRatingOf_solo _ _ _ (0 + 1) q (if s1 < s2 then 1 else 0) (by simp)]

theorem finishRate_two_solo (limitSigma : Bool) (x y p q : Rating F) :
    ∃ sx sy : F, finishRate limitSigma [[x], [y]] [[p], [q]] =
      .ok (.ratings [[Rating.mk x.Mu sx], [Rating.mk y.Mu sy]]) ∧
      (limitSigma = false → sx = x.Sigma ∧ sy = y.Sigma) := by
  cases limitSigma with
  | false => exact ⟨x.Sigma, y.Sigma, rfl, fun _ => ⟨rfl, rfl⟩⟩
  | true =>
    refine ⟨min x.Sigma p.Sigma, min y.Sigma q.Sigma, ?_, fun h => Bool.noConfusion h⟩
    simp [finishRate, limitSigmaLoop, traverseIdx, limitSigmaTeam, limitSigmaPlayer]

/-- The method `BradlyTerryFullModel.Rate` on two solo teams with ranks `[1, 2]` and no weights: the
teams are compared in input order, the first as the winner. -/
theorem bradlyTerryFull_Rate_two_solo (m : MathFns F) (b : BradlyTerryFullModel F)
    (p q : Rating F) :
    b.Rate m [[p], [q]] (some [1, 2]) none none =
      finishRate b.limitSigma
        [[b.updatePlayer m (soloTeamRating (Rating.mk p.Mu (p.Sigma + b.tau * b.tau)) 0)
            (b.accumulate m 0 (soloTeamRating (Rating.mk p.Mu (p.Sigma + b.tau * b.tau)) 0) (0, 0)
              (1, soloTeamRating (Rating.mk q.Mu (q.Sigma + b.tau * b.tau)) 1)).1
            (b.accumulate m 0 (soloTeamRating (Rating.mk p.Mu (p.Sigma + b.tau * b.tau)) 0) (0, 0)
              (1, soloTeamRating (Rating.mk q.Mu (q.Sigma + b.tau * b.tau)) 1)).2
            1 (Rating.mk p.Mu (p.Sigma + b.tau * b.tau))],
          [b.updatePlayer m (soloTeamRating (Rating.mk q.Mu (q.Sigma + b.tau * b.tau)) 1)
            (b.accumulate m 1 (soloTeamRating (Rating.mk q.Mu (q.Sigma + b.tau * b.tau)) 1) (0, 0)
              (0, soloTeamRating (Rating.mk p.Mu (p.Sigma + b.tau * b.tau)) 0)).1
            (b.accumulate m 1 (soloTeamRating (Rating.mk q.Mu (q.Sigma + b.tau * b.tau)) 1) (0, 0)
              (0, soloTeamRating (Rating.mk p.Mu (p.Sigma + b.tau * b.tau)) 0)).2
            1 (Rating.mk q.Mu (q.Sigma + b.tau * b.tau))]]
        [[p], [q]] := by
  have hcalc := calculateTeamRatings_two_solo b.balance b.kappa
    (Rating.mk p.Mu (p.Sigma + b.tau * b.tau)) (Rating.mk q.Mu (q.Sigma + b.tau * b.tau)) 1 2
  simp only [show (1 : Int) < 2 from by decide, ↓reduceIte] at hcalc
  have hcomp := bradlyTerryFull_compute_two m b _ _ 1 2 none _ _ hcalc
  simp only [List.enum, List.enumFrom, List.map, guardedWeight] at hcomp
  have hord := (computeInRankOrder_two (b.compute m) _ _ _ _ 1 2 none).1 (by decide) hcomp
  unfold BradlyTerryFullModel.Rate
  rw [checkRateParameters_two _ _ (by simp) (by simp)]
  simp only [normalizeWeights, ranksFromScores, List.map]
  rw [hord]
  rfl

end SoloTeams

section RealArithmetic

theorem realMath_sqrt (x : ℝ) : RealMath.sqrt x = Real.sqrt x := rfl

theorem realMath_exp (x : ℝ) : RealMath.exp x = Real.exp x := rfl

/-- Against a team of better rank the Bradley-Terry `omega` is negative. -/
theorem bradlyTerryFull_omega_neg (b : BradlyTerryFullModel ℝ) (i q : Nat) (t1 t2 : teamRating ℝ)
    (hq : q ≠ i) (hr : t2.Rank < t1.Rank) (h1 : 0 < t1.SigmaSquared) (h2 : 0 ≤ t2.SigmaSquared) :
    (b.accumulate RealMath i t1 (0, 0) (q, t2)).1 < 0 := by
  have hc : 0 < Real.sqrt (t1.SigmaSquared + t2.SigmaSquared + 2 * b.beta ^ 2) :=
    Real.sqrt_pos.mpr (by positivity)
  have he := Real.exp_pos ((t2.Mu - t1.Mu) / Real.sqrt (t1.SigmaSquared + t2.SigmaSquared + 2 * b.beta ^ 2))
  have hp : 0 < 1 / (1 + Real.exp ((t2.Mu - t1.Mu) /
      Real.sqrt (t1.SigmaSquared + t2.SigmaSquared + 2 * b.beta ^ 2))) := by
    positivity
  have hr1 : ¬ t1.Rank < t2.Rank := by omega
  have hr2 : ¬ t2.Rank = t1.Rank := by omega
  simp only [BradlyTerryFullModel.accumulate, hq, ↓reduceIte, gt_iff_lt, hr1, hr2, realMath_sqrt,
    realMath_exp, zero_add]
  apply mul_neg_of_pos_of_neg (div_pos h1 hc)
  linarith

end RealArithmetic

section ReturnedSigma

variable {F : Type} [LinearOrderedField F]

/-- The update `BradlyTerryFullModel.updatePlayer` returns the sigma it was given. -/
theorem bradlyTerryFull_updatePlayer_sigma (m : MathFns F) (b : BradlyTerryFullModel F)
    (t1 : teamRating F) (omega delta weight : F) (r : Rating F) :
    (b.updatePlayer m t1 omega delta weight r).Sigma = r.Sigma := by
  unfold BradlyTerryFullModel.updatePlayer
  split <;> rfl

/-- With `limitSigma` off, `BradlyTerryFullModel.Rate` on two solo teams returns every
player's input sigma plus `tau * tau`. -/
theorem bradlyTerryFull_Rate_two_solo_sigma (m : MathFns F) (b : BradlyTerryFullModel F)
    (hl : b.limitSigma = false) (p q : Rating F) :
    ∃ x y : Rating F, b.Rate m [[p], [q]] (some [1, 2]) none none = .ok (.ratings [[x], [y]]) ∧
      x.Sigma = p.Sigma + b.tau * b.tau ∧ y.Sigma = q.Sigma + b.tau * b.tau := by
  refine ⟨_, _, by rw [bradlyTerryFull_Rate_two_solo, hl]; rfl, ?_, ?_⟩
  · rw [bradlyTerryFull_updatePlayer_sigma]
  · rw [bradlyTerryFull_updatePlayer_sigma]

/-- C10 (the code departs from the claim): under Bradley-Terry-full with default
parameters, for two solo players with mu 25, sigma 25/3 and ranks `[1, 2]`, both returned
sigmas are `25/3 + (25/300)^2`, which is strictly greater than the input sigma `25/3`:
`Rate` adds `tau * tau` to every sigma and `compute` stores `r.Sigma` unchanged. -/
theorem bradlyTerryFull_default_sigmas_grow (m : MathFns F) :
    ∃ x y : Rating F,
      (DefaultBradlyTerryFullModel (F := F)).Rate m
          [[Rating.mk 25 (25 / 3)], [Rating.mk 25 (25 / 3)]] (some [1, 2]) none none =
        .ok (.ratings [[x], [y]]) ∧
      x.Sigma = 25 / 3 + 25 / 300 * (25 / 300) ∧ y.Sigma = 25 / 3 + 25 / 300 * (25 / 300) ∧
      (25 / 3 : F) < x.Sigma ∧ (25 / 3 : F) < y.Sigma := by
  obtain ⟨x, y, h, hx, hy⟩ := bradlyTerryFull_Rate_two_solo_sigma m
    (DefaultBradlyTerryFullModel (F := F)) rfl (Rating.mk 25 (25 / 3)) (Rating.mk 25 (25 / 3))
  have hx' : x.Sigma = 25 / 3 + 25 / 300 * (25 / 300) := hx
  have hy' : y.Sigma = 25 / 3 + 25 / 300 * (25 / 300) := hy
  refine ⟨x, y, h, hx', hy', ?_, ?_⟩
  · rw [hx']
    norm_num
  · rw [hy']
    norm_num

end ReturnedSigma

section InputOrder

variable {F : Type} [LinearOrderedField F]

theorem computeInInputOrder_two
    (compute : List (List (Rating F)) → Option (List Int) → Option (List (List F)) →
      Except Panic (List (List (Rating F))))
    (X Y p q : List (Rating F)) (r1 r2 : Int) (weights : Option (List (List F)))
    (h : compute [X, Y] (some (sortInts [r1, r2])) weights = .ok [p, q]) :
    computeInInputOrder compute 2 [X, Y] (some [r1, r2]) weights = .ok [p, q] := by
  simp only [computeInInputOrder, h, List.length_cons, List.length_nil]
  have hu : unwind (rangeInt 2) [p, q] = .ok ([p, q], [0, 1]) := by
    have : rangeInt 2 = [0, 1] := by simp [rangeInt, List.range_succ]
    rw [this, unwind_two]
    simp
  simp only [Nat.zero_add, Nat.reduceAdd, hu]
  simp [storeTeams]

theorem thurstoneMostellerFull_compute_two (m : MathFns F) (t : ThurstoneMostellerFullModel F)
    (A B : List (Rating F)) (s1 s2 : Int) (weights : Option (List (List F)))
    (tA tB : teamRating F)
    (h : calculateTeamRatings [A, B] (some [s1, s2]) t.balance t.kappa = .ok [tA, tB]) :
    t.compute m [A, B] (some [s1, s2]) weights =
      .ok [tA.Team.enum.map (fun jr =>
            thurstoneMostellerUpdatePlayer m t.kappa tA (t.accumulate m 0 tA (0, 0) (1, tB)).1
              (t.accumulate m 0 tA (0, 0) (1, tB)).2 (guardedWeight weights 0 jr.1) jr.2),
          tB.Team.enum.map (fun jr =>
            thurstoneMostellerUpdatePlayer m t.kappa tB (t.accumulate m 1 tB (0, 0) (0, tA)).1
              (t.accumulate m 1 tB (0, 0) (0, tA)).2 (guardedWeight weights 1 jr.1) jr.2)] := by
  unfold ThurstoneMostellerFullModel.compute
  rw [h]
  have h0 : ∀ acc : F × F, t.accumulate m 0 tA acc (0, tA) = acc := by
    intro acc
    simp [ThurstoneMostellerFullModel.accumulate]
  have h1 : ∀ acc : F × F, t.accumulate m 1 tB acc (1, tB) = acc := by
    intro acc
    simp [ThurstoneMostellerFullModel.accumulate]
  simp only [List.enum, List.enumFrom, List.map, List.foldl, h0, h1]

/-- In a two-team match the partial `compute` compares the second team with the first and
the first team with nobody: its only neighbour sits at position 0 of `adjacentTeams[0]`,
and the loop skips the position equal to the team's own index. -/
theorem thurstoneMostellerPartial_compute_two (m : MathFns F)
    (t : ThurstoneMostellerPartialModel F)
    (A B : List (Rating F)) (s1 s2 : Int) (weights : Option (List (List F)))
    (tA tB : teamRating F)
    (h : calculateTeamRatings [A, B] (some [s1, s2]) t.balance t.kappa = .ok [tA, tB]) :
    t.compute m [A, B] (some [s1, s2]) weights =
      .ok [tA.Team.enum.map (fun jr =>
            thurstoneMostellerUpdatePlayer m t.kappa tA 0 0 (guardedWeight weights 0 jr.1) jr.2),
          tB.Team.enum.map (fun jr =>
            thurstoneMostellerUpdatePlayer m t.kappa tB (t.accumulate m 1 tB (0, 0) (0, tA)).1
              (t.accumulate m 1 tB (0, 0) (0, tA)).2 (guardedWeight weights 1 jr.1) jr.2)] := by
  unfold ThurstoneMostellerPartialModel.compute
  rw [h]
  have hl : ladderPairs [tA, tB] = [[tB], [tA]] := by
    simp [ladderPairs, List.range_succ]
  have h0 : t.accumulate m 0 tA (0, 0) (0, tB) = (0, 0) := by
    simp [ThurstoneMostellerPartialModel.accumulate]
  simp only [hl, traverseIdx, ThurstoneMostellerPartialModel.computeTeam, List.getElem?_cons_zero,
    List.getElem?_cons_succ, Nat.zero_add, List.enum, List.enumFrom, List.foldl, h0]

/-- The method `ThurstoneMostellerFullModel.Rate` on two solo teams without weights, whatever the order
of the two ranks `1` and `2`: the team given first is rated as the winner. -/
theorem thurstoneMostellerFull_Rate_two_solo (m : MathFns F) (t : ThurstoneMostellerFullModel F)
    (p q : Rating F) (r1 r2 : Int) (hr : sortInts [r1, r2] = [1, 2]) :
    t.Rate m [[p], [q]] (some [r1, r2]) none none =
      finishRate t.limitSigma
        [[thurstoneMostellerUpdatePlayer m t.kappa
            (soloTeamRating (Rating.mk p.Mu (m.sqrt (p.Sigma * p.Sigma + t.tau ^ 2))) 0)
            (t.accumulate m 0
              (soloTeamRating (Rating.mk p.Mu (m.sqrt (p.Sigma * p.Sigma + t.tau ^ 2))) 0) (0, 0)
              (1, soloTeamRating (Rating.mk q.Mu (m.sqrt (q.Sigma * q.Sigma + t.tau ^ 2))) 1)).1
            (t.accumulate m 0
              (soloTeamRating (Rating.mk p.Mu (m.sqrt (p.Sigma * p.Sigma + t.tau ^ 2))) 0) (0, 0)
              (1, soloTeamRating (Rating.mk q.Mu (m.sqrt (q.Sigma * q.Sigma + t.tau ^ 2))) 1)).2
            1 (Rating.mk p.Mu (m.sqrt (p.Sigma * p.Sigma + t.tau ^ 2)))],
          [thurstoneMostellerUpdatePlayer m t.kappa
            (soloTeamRating (Rating.mk q.Mu (m.sqrt (q.Sigma * q.Sigma + t.tau ^ 2))) 1)
            (t.accumulate m 1
              (soloTeamRating (Rating.mk q.Mu (m.sqrt (q.Sigma * q.Sigma + t.tau ^ 2))) 1) (0, 0)
              (0, soloTeamRating (Rating.mk p.Mu (m.sqrt (p.Sigma * p.Sigma + t.tau ^ 2))) 0)).1
            (t.accumulate m 1
              (soloTeamRating (Rating.mk q.Mu (m.sqrt (q.Sigma * q.Sigma + t.tau ^ 2))) 1) (0, 0)
              (0, soloTeamRating (Rating.mk p.Mu (m.sqrt (p.Sigma * p.Sigma + t.tau ^ 2))) 0)).2
            1 (Rating.mk q.Mu (m.sqrt (q.Sigma * q.Sigma + t.tau ^ 2)))]]
        [[Rating.mk p.Mu (m.sqrt (p.Sigma * p.Sigma + t.tau ^ 2))],
          [Rating.mk q.Mu (m.sqrt (q.Sigma * q.Sigma + t.tau ^ 2))]] := by
  have hcalc := calculateTeamRatings_two_solo t.balance t.kappa
    (Rating.mk p.Mu (m.sqrt (p.Sigma * p.Sigma + t.tau ^ 2)))
    (Rating.mk q.Mu (m.sqrt (q.Sigma * q.Sigma + t.tau ^ 2))) 1 2
  simp only [show (1 : Int) < 2 from by decide, ↓reduceIte] at hcalc
  have hcomp := thurstoneMostellerFull_compute_two m t _ _ 1 2 none _ _ hcalc
  simp only [List.enum, List.enumFrom, List.map, guardedWeight] at hcomp
  rw [← hr] at hcomp
  have hord := computeInInputOrder_two (t.compute m) _ _ _ _ r1 r2 none hcomp
  unfold ThurstoneMostellerFullModel.Rate
  rw [checkRateParameters_two _ _ (by simp) (by simp)]
  simp only [normalizeWeights, ranksFromScoresIfNil, List.map, List.length_cons, List.length_nil,
    Nat.zero_add, Nat.reduceAdd]
  rw [hord]
  rfl

/-- The method `ThurstoneMostellerPartialModel.Rate` on two solo teams without weights, whatever the
order of the two ranks `1` and `2`: the team given first is left as it is and the team
given second is rated as the loser. -/
theorem thurstoneMostellerPartial_Rate_two_solo (m : MathFns F)
    (t : ThurstoneMostellerPartialModel F)
    (p q : Rating F) (r1 r2 : Int) (hr : sortInts [r1, r2] = [1, 2]) :
    t.Rate m [[p], [q]] (some [r1, r2]) none none =
      finishRate t.limitSigma
        [[thurstoneMostellerUpdatePlayer m t.kappa
            (soloTeamRating (Rating.mk p.Mu (m.sqrt (p.Sigma * p.Sigma + t.tau ^ 2))) 0)
            0 0 1 (Rating.mk p.Mu (m.sqrt (p.Sigma * p.Sigma + t.tau ^ 2)))],
          [thurstoneMostellerUpdatePlayer m t.kappa
            (soloTeamRating (Rating.mk q.Mu (m.sqrt (q.Sigma * q.Sigma + t.tau ^ 2))) 1)
            (t.accumulate m 1
              (soloTeamRating (Rating.mk q.Mu (m.sqrt (q.Sigma * q.Sigma + t.tau ^ 2))) 1) (0, 0)
              (0, soloTeamRating (Rating.mk p.Mu (m.sqrt (p.Sigma * p.Sigma + t.tau ^ 2))) 0)).1
            (t.accumulate m 1
              (soloTeamRating (Rating.mk q.Mu (m.sqrt (q.Sigma * q.Sigma + t.tau ^ 2))) 1) (0, 0)
              (0, soloTeamRating (Rating.mk p.Mu (m.sqrt (p.Sigma * p.Sigma + t.tau ^ 2))) 0)).2
            1 (Rating.mk q.Mu (m.sqrt (q.Sigma * q.Sigma + t.tau ^ 2)))]]
        [[Rating.mk p.Mu (m.sqrt (p.Sigma * p.Sigma + t.tau ^ 2))],
          [Rating.mk q.Mu (m.sqrt (q.Sigma * q.Sigma + t.tau ^ 2))]] := by
  have hcalc := calculateTeamRatings_two_solo t.balance t.kappa
    (Rating.mk p.Mu (m.sqrt (p.Sigma * p.Sigma + t.tau ^ 2)))
    (Rating.mk q.Mu (m.sqrt (q.Sigma * q.Sigma + t.tau ^ 2))) 1 2
  simp only [show (1 : Int) < 2 from by decide, ↓reduceIte] at hcalc
  have hcomp := thurstoneMostellerPartial_compute_two m t _ _ 1 2 none _ _ hcalc
  simp only [List.enum, List.enumFrom, List.map, guardedWeight] at hcomp
  rw [← hr] at hcomp
  have hord := computeInInputOrder_two (t.compute m) _ _ _ _ r1 r2 none hcomp
  unfold ThurstoneMostellerPartialModel.Rate
  rw [checkRateParameters_two _ _ (by simp) (by simp)]
  simp only [normalizeWeights, ranksFromScoresIfNil, List.map, List.length_cons, List.length_nil,
    Nat.zero_add, Nat.reduceAdd]
  rw [hord]
  rfl

end InputOrder

section RealThurstoneMosteller

theorem smallestNonzeroFloat64_pos : (0 : ℝ) < SmallestNonzeroFloat64 := by
  unfold SmallestNonzeroFloat64
  positivity

theorem phiMinor_pos (x : ℝ) : 0 < phiMinor RealMath x := by
  unfold phiMinor
  exact div_pos (Real.exp_pos _) (Real.sqrt_pos.mpr (mul_pos two_pos Real.pi_pos))

/-- At `x = 0` and a positive margin `t` both branches of `v` are positive. -/
theorem v_zero_pos (t : ℝ) (ht : 0 < t) : 0 < v RealMath 0 t := by
  unfold v
  dsimp only
  split
  · linarith
  · next hden =>
    exact div_pos (phiMinor_pos _) (lt_of_lt_of_le smallestNonzeroFloat64_pos (not_lt.mp hden))

theorem thurstoneMostellerUpdatePlayer_mu (kappa : ℝ) (t1 : teamRating ℝ)
    (omega delta weight : ℝ) (r : Rating ℝ) (hw : 0 < weight) (hs : 0 < r.Sigma * r.Sigma)
    (h1 : 0 < t1.SigmaSquared) :
    (0 < omega → r.Mu < (thurstoneMostellerUpdatePlayer RealMath kappa t1 omega delta weight r).Mu) ∧
    (omega < 0 → (thurstoneMostellerUpdatePlayer RealMath kappa t1 omega delta weight r).Mu < r.Mu) ∧
    (omega = 0 → (thurstoneMostellerUpdatePlayer RealMath kappa t1 omega delta weight r).Mu = r.Mu) := by
  have hratio : 0 < r.Sigma * r.Sigma / t1.SigmaSquared := div_pos hs h1
  refine ⟨?_, ?_, ?_⟩
  · intro ho
    simp only [thurstoneMostellerUpdatePlayer, gt_iff_lt, ho, ↓reduceIte]
    have : 0 < r.Sigma * r.Sigma / t1.SigmaSquared * omega * weight := by positivity
    linarith
  · intro ho
    have ho' : ¬ 0 < omega := by linarith
    simp only [thurstoneMostellerUpdatePlayer, gt_iff_lt, ho', ↓reduceIte]
    have : r.Sigma * r.Sigma / t1.SigmaSquared * omega / weight < 0 :=
      div_neg_of_neg_of_pos (mul_neg_of_pos_of_neg hratio ho) hw
    linarith
  · intro ho
    simp [thurstoneMostellerUpdatePlayer, ho]

/-- Thurstone-Mosteller-full, equal team mus: `omega` is positive against a team of worse
rank and negative against a team of better rank. -/
theorem thurstoneMostellerFull_omega_sign (t : ThurstoneMostellerFullModel ℝ) (he : 0 < t.epsilon)
    (i q : Nat) (t1 t2 : teamRating ℝ) (hq : q ≠ i) (hmu : t1.Mu = t2.Mu)
    (h1 : 0 < t1.SigmaSquared) (h2 : 0 ≤ t2.SigmaSquared) :
    (t1.Rank < t2.Rank → 0 < (t.accumulate RealMath i t1 (0, 0) (q, t2)).1) ∧
    (t2.Rank < t1.Rank → (t.accumulate RealMath i t1 (0, 0) (q, t2)).1 < 0) := by
  have hc : 0 < Real.sqrt (t1.SigmaSquared + t2.SigmaSquared + 2 * t.beta ^ 2) :=
    Real.sqrt_pos.mpr (by positivity)
  have hv := v_zero_pos t.epsilon he
  constructor
  · intro hr
    simp only [ThurstoneMostellerFullModel.accumulate, hq, ↓reduceIte, gt_iff_lt, hr,
      realMath_sqrt, hmu, sub_self, zero_div, zero_add]
    exact mul_pos (div_pos h1 hc) hv
  · intro hr
    have hr1 : ¬ t1.Rank < t2.Rank := by omega
    simp only [ThurstoneMostellerFullModel.accumulate, hq, ↓reduceIte, gt_iff_lt, hr, hr1,
      realMath_sqrt, hmu, sub_self, zero_div, zero_add, neg_zero]
    have := mul_pos (div_pos h1 hc) hv
    linarith

/-- Thurstone-Mosteller-partial, equal team mus: `omega` is negative against a team of
better rank. -/
theorem thurstoneMostellerPartial_omega_neg (t : ThurstoneMostellerPartialModel ℝ)
    (he : 0 < t.epsilon) (i q : Nat) (t1 t2 : teamRating ℝ) (hq : q ≠ i) (hmu : t1.Mu = t2.Mu)
    (h1 : 0 < t1.SigmaSquared) (h2 : 0 ≤ t2.SigmaSquared) (hr : t2.Rank < t1.Rank) :
    (t.accumulate RealMath i t1 (0, 0) (q, t2)).1 < 0 := by
  have hc : 0 < 2 * Real.sqrt (t1.SigmaSquared + t2.SigmaSquared + 2 * t.beta ^ 2) :=
    mul_pos two_pos (Real.sqrt_pos.mpr (by positivity))
  have hv := v_zero_pos (t.epsilon / (2 * Real.sqrt (t1.SigmaSquared + t2.SigmaSquared +
    2 * t.beta ^ 2))) (div_pos he hc)
  have hr1 : ¬ t1.Rank < t2.Rank := by omega
  simp only [ThurstoneMostellerPartialModel.accumulate, hq, ↓reduceIte, gt_iff_lt, hr, hr1,
    realMath_sqrt, hmu, sub_self, zero_div, zero_add, neg_zero]
  have := mul_pos (div_pos h1 hc) hv
  linarith

theorem sigma_copy_pos (sigma tau : ℝ) (h : 0 < sigma) :
    0 < RealMath.sqrt (sigma * sigma + tau ^ 2) :=
  Real.sqrt_pos.mpr (by positivity)

/-- Thurstone-Mosteller-full on two solo players of equal mu: the player given first gains,
the player given second loses, whichever of the two carries rank 1. -/
theorem thurstoneMostellerFull_first_team_wins (t : ThurstoneMostellerFullModel ℝ)
    (he : 0 < t.epsilon) (p q : Rating ℝ) (hp : 0 < p.Sigma) (hq : 0 < q.Sigma)
    (hmu : p.Mu = q.Mu) (r1 r2 : Int) (hr : sortInts [r1, r2] = [1, 2]) :
    ∃ x y : Rating ℝ,
      t.Rate RealMath [[p], [q]] (some [r1, r2]) none none = .ok (.ratings [[x], [y]]) ∧
      p.Mu < x.Mu ∧ y.Mu < q.Mu := by
  have hp' := sigma_copy_pos p.Sigma t.tau hp
  have hq' := sigma_copy_pos q.Sigma t.tau hq
  rw [thurstoneMostellerFull_Rate_two_solo RealMath t p q r1 r2 hr]
  obtain ⟨sx, sy, hfin, _⟩ := finishRate_two_solo t.limitSigma
    (thurstoneMostellerUpdatePlayer RealMath t.kappa
      (soloTeamRating (Rating.mk p.Mu (RealMath.sqrt (p.Sigma * p.Sigma + t.tau ^ 2))) 0)
      (t.accumulate RealMath 0
        (soloTeamRating (Rating.mk p.Mu (RealMath.sqrt (p.Sigma * p.Sigma + t.tau ^ 2))) 0) (0, 0)
        (1, soloTeamRating (Rating.mk q.Mu (RealMath.sqrt (q.Sigma * q.Sigma + t.tau ^ 2))) 1)).1
      (t.accumulate RealMath 0
        (soloTeamRating (Rating.mk p.Mu (RealMath.sqrt (p.Sigma * p.Sigma + t.tau ^ 2))) 0) (0, 0)
        (1, soloTeamRating (Rating.mk q.Mu (RealMath.sqrt (q.Sigma * q.Sigma + t.tau ^ 2))) 1)).2
      1 (Rating.mk p.Mu (RealMath.sqrt (p.Sigma * p.Sigma + t.tau ^ 2))))
    (thurstoneMostellerUpdatePlayer RealMath t.kappa
      (soloTeamRating (Rating.mk q.Mu (RealMath.sqrt (q.Sigma * q.Sigma + t.tau ^ 2))) 1)
      (t.accumulate RealMath 1
        (soloTeamRating (Rating.mk q.Mu (RealMath.sqrt (q.Sigma * q.Sigma + t.tau ^ 2))) 1) (0, 0)
        (0, soloTeamRating (Rating.mk p.Mu (RealMath.sqrt (p.Sigma * p.Sigma + t.tau ^ 2))) 0)).1
      (t.accumulate RealMath 1
        (soloTeamRating (Rating.mk q.Mu (RealMath.sqrt (q.Sigma * q.Sigma + t.tau ^ 2))) 1) (0, 0)
        (0, soloTeamRating (Rating.mk p.Mu (RealMath.sqrt (p.Sigma * p.Sigma + t.tau ^ 2))) 0)).2
      1 (Rating.mk q.Mu (RealMath.sqrt (q.Sigma * q.Sigma + t.tau ^ 2))))
    (Rating.mk p.Mu (RealMath.sqrt (p.Sigma * p.Sigma + t.tau ^ 2)))
    (Rating.mk q.Mu (RealMath.sqrt (q.Sigma * q.Sigma + t.tau ^ 2)))
  refine ⟨_, _, hfin, ?_, ?_⟩
  · exact (thurstoneMostellerUpdatePlayer_mu t.kappa _ _ _ 1
      (Rating.mk p.Mu (RealMath.sqrt (p.Sigma * p.Sigma + t.tau ^ 2)))
      one_pos (mul_pos hp' hp') (mul_pos hp' hp')).1
      ((thurstoneMostellerFull_omega_sign t he 0 1 _ _ (by decide) hmu (mul_pos hp' hp')
        (mul_pos hq' hq').le).1 (by simp [soloTeamRating]))
  · exact (thurstoneMostellerUpdatePlayer_mu t.kappa _ _ _ 1
      (Rating.mk q.Mu (RealMath.sqrt (q.Sigma * q.Sigma + t.tau ^ 2)))
      one_pos (mul_pos hq' hq') (mul_pos hq' hq')).2.1
      ((thurstoneMostellerFull_omega_sign t he 1 0 _ _ (by decide) hmu.symm (mul_pos hq' hq')
        (mul_pos hp' hp').le).2 (by simp [soloTeamRating]))

/-- Thurstone-Mosteller-partial on two solo players of equal mu: the player given first keeps
their mu, the player given second loses, whichever of the two carries rank 1. -/
theorem thurstoneMostellerPartial_second_team_loses (t : ThurstoneMostellerPartialModel ℝ)
    (he : 0 < t.epsilon) (p q : Rating ℝ) (hp : 0 < p.Sigma) (hq : 0 < q.Sigma)
    (hmu : p.Mu = q.Mu) (r1 r2 : Int) (hr : sortInts [r1, r2] = [1, 2]) :
    ∃ x y : Rating ℝ,
      t.Rate RealMath [[p], [q]] (some [r1, r2]) none none = .ok (.ratings [[x], [y]]) ∧
      x.Mu = p.Mu ∧ y.Mu < q.Mu := by
  have hp' := sigma_copy_pos p.Sigma t.tau hp
  have hq' := sigma_copy_pos q.Sigma t.tau hq
  rw [thurstoneMostellerPartial_Rate_two_solo RealMath t p q r1 r2 hr]
  obtain ⟨sx, sy, hfin, _⟩ := finishRate_two_solo t.limitSigma
    (thurstoneMostellerUpdatePlayer RealMath t.kappa
      (soloTeamRating (Rating.mk p.Mu (RealMath.sqrt (p.Sigma * p.Sigma + t.tau ^ 2))) 0)
      0 0 1 (Rating.mk p.Mu (RealMath.sqrt (p.Sigma * p.Sigma + t.tau ^ 2))))
    (thurstoneMostellerUpdatePlayer RealMath t.kappa
      (soloTeamRating (Rating.mk q.Mu (RealMath.sqrt (q.Sigma * q.Sigma + t.tau ^ 2))) 1)
      (t.accumulate RealMath 1
        (soloTeamRating (Rating.mk q.Mu (RealMath.sqrt (q.Sigma * q.Sigma + t.tau ^ 2))) 1) (0, 0)
        (0, soloTeamRating (Rating.mk p.Mu (RealMath.sqrt (p.Sigma * p.Sigma + t.tau ^ 2))) 0)).1
      (t.accumulate RealMath 1
        (soloTeamRating (Rating.mk q.Mu (RealMath.sqrt (q.Sigma * q.Sigma + t.tau ^ 2))) 1) (0, 0)
        (0, soloTeamRating (Rating.mk p.Mu (RealMath.sqrt (p.Sigma * p.Sigma + t.tau ^ 2))) 0)).2
      1 (Rating.mk q.Mu (RealMath.sqrt (q.Sigma * q.Sigma + t.tau ^ 2))))
    (Rating.mk p.Mu (RealMath.sqrt (p.Sigma * p.Sigma + t.tau ^ 2)))
    (Rating.mk q.Mu (RealMath.sqrt (q.Sigma * q.Sigma + t.tau ^ 2)))
  refine ⟨_, _, hfin, ?_, ?_⟩
  · exact (thurstoneMostellerUpdatePlayer_mu t.kappa _ _ _ 1
      (Rating.mk p.Mu (RealMath.sqrt (p.Sigma * p.Sigma + t.tau ^ 2)))
      one_pos (mul_pos hp' hp') (mul_pos hp' hp')).2.2 rfl
  · exact (thurstoneMostellerUpdatePlayer_mu t.kappa _ _ _ 1
      (Rating.mk q.Mu (RealMath.sqrt (q.Sigma * q.Sigma + t.tau ^ 2)))
      one_pos (mul_pos hq' hq') (mul_pos hq' hq')).2.1
      (thurstoneMostellerPartial_omega_neg t he 1 0 _ _ (by decide) hmu.symm (mul_pos hq' hq')
        (mul_pos hp' hp').le (by simp [soloTeamRating]))

/-- C5 (the code departs from the claim): for both Thurstone-Mosteller models with default
parameters and the solo teams `A = [(25, 25/3)]`, `B = [(25, 5)]`, over the real numbers,
there are no `x`, `y` with `Rate([A, B], ranks = [2, 1]) = [x, y]` and
`Rate([B, A], ranks = [1, 2]) = [y, x]`: the teams are not reordered by rank, so `A` is
rated as the better team in the first call and as the worse team in the second. -/
theorem thurstoneMosteller_Rate_keeps_input_order :
    (¬ ∃ x y : List (Rating ℝ),
      (DefaultThurstoneMostellerFullModel (F := ℝ)).Rate RealMath
          [[Rating.mk 25 (25 / 3)], [Rating.mk 25 5]] (some [2, 1]) none none =
        .ok (.ratings [x, y]) ∧
      (DefaultThurstoneMostellerFullModel (F := ℝ)).Rate RealMath
          [[Rating.mk 25 5], [Rating.mk 25 (25 / 3)]] (some [1, 2]) none none =
        .ok (.ratings [y, x])) ∧
    (¬ ∃ x y : List (Rating ℝ),
      (DefaultThurstoneMostellerPartialModel (F := ℝ)).Rate RealMath
          [[Rating.mk 25 (25 / 3)], [Rating.mk 25 5]] (some [2, 1]) none none =
        .ok (.ratings [x, y]) ∧
      (DefaultThurstoneMostellerPartialModel (F := ℝ)).Rate RealMath
          [[Rating.mk 25 5], [Rating.mk 25 (25 / 3)]] (some [1, 2]) none none =
        .ok (.ratings [y, x])) := by
  have he : (0 : ℝ) < 1 / 10 := by norm_num
  have h21 : sortInts [2, 1] = [1, 2] := by decide
  have h12 : sortInts [1, 2] = [1, 2] := by decide
  constructor
  · rintro ⟨x, y, h1, h2⟩
    obtain ⟨a1, b1, e1, ha1, _⟩ := thurstoneMostellerFull_first_team_wins
      DefaultThurstoneMostellerFullModel he (Rating.mk 25 (25 / 3)) (Rating.mk 25 5)
      (by norm_num) (by norm_num) rfl 2 1 h21
    obtain ⟨a2, b2, e2, _, hb2⟩ := thurstoneMostellerFull_first_team_wins
      DefaultThurstoneMostellerFullModel he (Rating.mk 25 5) (Rating.mk 25 (25 / 3))
      (by norm_num) (by norm_num) rfl 1 2 h12
    rw [e1] at h1
    rw [e2] at h2
    simp only [Except.ok.injEq, RateResult.ratings.injEq, List.cons.injEq, and_true] at h1 h2
    obtain ⟨hx, _⟩ := h1
    obtain ⟨_, hx'⟩ := h2
    rw [← hx] at hx'
    simp only [List.cons.injEq, and_true] at hx'
    rw [hx'] at hb2
    simp only at ha1 hb2
    linarith
  · rintro ⟨x, y, h1, h2⟩
    obtain ⟨a1, b1, e1, ha1, _⟩ := thurstoneMostellerPartial_second_team_loses
      DefaultThurstoneMostellerPartialModel he (Rating.mk 25 (25 / 3)) (Rating.mk 25 5)
      (by norm_num) (by norm_num) rfl 2 1 h21
    obtain ⟨a2, b2, e2, _, hb2⟩ := thurstoneMostellerPartial_second_team_loses
      DefaultThurstoneMostellerPartialModel he (Rating.mk 25 5) (Rating.mk 25 (25 / 3))
      (by norm_num) (by norm_num) rfl 1 2 h12
    rw [e1] at h1
    rw [e2] at h2
    simp only [Except.ok.injEq, RateResult.ratings.injEq, List.cons.injEq, and_true] at h1 h2
    obtain ⟨hx, _⟩ := h1
    obtain ⟨_, hx'⟩ := h2
    rw [← hx] at hx'
    simp only [List.cons.injEq, and_true] at hx'
    rw [hx'] at hb2
    simp only at ha1 hb2
    linarith

end RealThurstoneMosteller

section WeightsAlignment

variable {F : Type} [LinearOrderedField F]

theorem teamRatingOf_twins (rank : List Int) (balance : Bool) (kappa : F) (i : Nat) (p : Rating F)
    (rk : Int) (hrk : rank[i]? = some rk) :
    teamRatingOf rank balance kappa i [p, p] =
      .ok (teamRating.mk (p.Mu + p.Mu) (p.Sigma * p.Sigma + p.Sigma * p.Sigma) [p, p] rk) := by
  cases balance <;>
  simp [teamRatingOf, sortSliceStable, sumTeam, hrk]

theorem calculateTeamRatings_two_twins (balance : Bool) (kappa : F) (p q : Rating F)
    (s1 s2 : Int) :
    calculateTeamRatings [[p, p], [q, q]] (some [s1, s2]) balance kappa =
      .ok [teamRating.mk (p.Mu + p.Mu) (p.Sigma * p.Sigma + p.Sigma * p.Sigma) [p, p] 0,
        teamRating.mk (q.Mu + q.Mu) (q.Sigma * q.Sigma + q.Sigma * q.Sigma) [q, q]
          (if s1 < s2 then 1 else 0)] := by
  unfold calculateTeamRatings
  rw [calculateRankings_two]
  simp only [traverseIdx]
  rw [teamRatingOf_twins _ _ _ 0 p 0 (by simp),
    teamRatingOf_twins _ _ _ (0 + 1) q (if s1 < s2 then 1 else 0) (by simp)]

theorem normalize_one_two : normalize [(1 : F), 2] 1 2 = .ok [1, 2] := by
  have h1 : ¬ (2 : F) < 1 := by norm_num
  have h2 : (2 : F) > 1 := by norm_num
  have h3 : ¬ (2 : F) - 1 = 0 := by norm_num
  simp only [normalize, List.length_cons, List.length_nil, Nat.zero_add, Nat.reduceAdd,
    OfNat.ofNat_ne_one, ↓reduceIte, List.getElem?_cons_zero, List.foldl, lt_self_iff_false, h1,
    gt_iff_lt, h2, h3, List.map, Except.ok.injEq]
  norm_num

theorem normalize_one_one : normalize [(1 : F), 1] 1 2 = .ok [1, 1] := by
  simp [normalize]

/-- The method `BradlyTerryFullModel.Rate` on two teams of twins: the weights are applied by position
in rank order. With ranks `[2, 1]` the team given first is rated second and gets the
second row of weights; with ranks `[1, 2]` every team gets its own row. -/
theorem bradlyTerryFull_Rate_twins (m : MathFns F) (b : BradlyTerryFullModel F)
    (hl : b.limitSigma = false) (p q : Rating F) :
    b.Rate m [[p, p], [q, q]] (some [2, 1]) none (some [[1, 2], [1, 1]]) =
      .ok (.ratings [[b.twinUpdate m 1 0 p q 1 0 1, b.twinUpdate m 1 0 p q 1 0 1],
        [b.twinUpdate m 0 1 q p 0 1 1, b.twinUpdate m 0 1 q p 0 1 2]]) ∧
    b.Rate m [[q, q], [p, p]] (some [1, 2]) none (some [[1, 1], [1, 2]]) =
      .ok (.ratings [[b.twinUpdate m 0 1 q p 0 1 1, b.twinUpdate m 0 1 q p 0 1 1],
        [b.twinUpdate m 1 0 p q 1 0 1, b.twinUpdate m 1 0 p q 1 0 2]]) := by
  have hcalc := calculateTeamRatings_two_twins b.balance b.kappa (b.copyOf q) (b.copyOf p) 1 2
  simp only [show (1 : Int) < 2 from by decide, ↓reduceIte] at hcalc
  have hw1 : normalizeWeights (some [[(1 : F), 2], [1, 1]]) = .ok (some [[1, 2], [1, 1]]) := by
    simp only [normalizeWeights, traverseIdx, normalize_one_two, normalize_one_one]
  have hw2 : normalizeWeights (some [[(1 : F), 1], [1, 2]]) = .ok (some [[1, 1], [1, 2]]) := by
    simp only [normalizeWeights, traverseIdx, normalize_one_two, normalize_one_one]
  have hcomp1 := bradlyTerryFull_compute_two m b _ _ 1 2 (some [[1, 2], [1, 1]]) _ _ hcalc
  have hcomp2 := bradlyTerryFull_compute_two m b _ _ 1 2 (some [[1, 1], [1, 2]]) _ _ hcalc
  simp only [List.enum, List.enumFrom, List.map, guardedWeight, List.getElem?_cons_zero,
    List.getElem?_cons_succ, Nat.zero_add] at hcomp1 hcomp2
  have hord1 := (computeInRankOrder_two (b.compute m) _ _ _ _ 2 1 _).2 (by decide) hcomp1
  have hord2 := (computeInRankOrder_two (b.compute m) _ _ _ _ 1 2 _).1 (by decide) hcomp2
  constructor
  · unfold BradlyTerryFullModel.Rate
    have hv : checkRateParameters [[p, p], [q, q]] (some [2, 1]) none
        (some [[(1 : F), 2], [1, 1]]) = .ok none := by
      simp [checkRateParameters, checkWeightRows]
    rw [hv]
    simp only [ranksFromScores, List.map, hw1]
    have hord1' := hord1
    simp only [BradlyTerryFullModel.copyOf] at hord1'
    rw [hord1', hl]
    rfl
  · unfold BradlyTerryFullModel.Rate
    have hv : checkRateParameters [[q, q], [p, p]] (some [1, 2]) none
        (some [[(1 : F), 1], [1, 2]]) = .ok none := by
      simp [checkRateParameters, checkWeightRows]
    rw [hv]
    simp only [ranksFromScores, List.map, hw2]
    have hord2' := hord2
    simp only [BradlyTerryFullModel.copyOf] at hord2'
    rw [hord2', hl]
    rfl

end WeightsAlignment

section RealWeights

/-- For a negative `omega` the mu written by `BradlyTerryFullModel.updatePlayer` depends on
the weight. -/
theorem bradlyTerryFull_updatePlayer_mu_weight (b : BradlyTerryFullModel ℝ) (t1 : teamRating ℝ)
    (omega delta : ℝ) (r : Rating ℝ) (ho : omega < 0) (hs : 0 < r.Sigma * r.Sigma)
    (h1 : 0 < t1.SigmaSquared) :
    (b.updatePlayer RealMath t1 omega delta 2 r).Mu ≠
      (b.updatePlayer RealMath t1 omega delta 1 r).Mu := by
  have hratio : 0 < r.Sigma * r.Sigma / t1.SigmaSquared := div_pos hs h1
  have ho' : ¬ 0 < omega := by linarith
  simp only [BradlyTerryFullModel.updatePlayer, gt_iff_lt, ho', ↓reduceIte]
  have hx : r.Sigma * r.Sigma / t1.SigmaSquared * omega < 0 := mul_neg_of_pos_of_neg hratio ho
  intro h
  have : r.Sigma * r.Sigma / t1.SigmaSquared * omega / 2 =
      r.Sigma * r.Sigma / t1.SigmaSquared * omega / 1 := by linarith
  rw [div_one] at this
  linarith

/-- C7 (the code departs from the claim): for Bradley-Terry-full with default parameters,
the twin teams `A = [(25, 25/3), (25, 25/3)]`, `B = [(30, 5), (30, 5)]` and the weight rows
`wA = [1, 2]`, `wB = [1, 1]`, over the real numbers, there are no `x`, `y` with
`Rate([A, B], ranks = [2, 1], weights = [wA, wB]) = [x, y]` and
`Rate([B, A], ranks = [1, 2], weights = [wB, wA]) = [y, x]`: the teams are reordered by
rank and the weights are not, so in the first call `A` is updated with the row `wB`. -/
theorem bradlyTerryFull_weights_follow_rank_order :
    ¬ ∃ x y : List (Rating ℝ),
      (DefaultBradlyTerryFullModel (F := ℝ)).Rate RealMath
          [[Rating.mk 25 (25 / 3), Rating.mk 25 (25 / 3)], [Rating.mk 30 5, Rating.mk 30 5]]
          (some [2, 1]) none (some [[1, 2], [1, 1]]) = .ok (.ratings [x, y]) ∧
      (DefaultBradlyTerryFullModel (F := ℝ)).Rate RealMath
          [[Rating.mk 30 5, Rating.mk 30 5], [Rating.mk 25 (25 / 3), Rating.mk 25 (25 / 3)]]
          (some [1, 2]) none (some [[1, 1], [1, 2]]) = .ok (.ratings [y, x]) := by
  rintro ⟨x, y, h1, h2⟩
  obtain ⟨e1, e2⟩ := bradlyTerryFull_Rate_twins RealMath (DefaultBradlyTerryFullModel (F := ℝ)) rfl
    (Rating.mk 25 (25 / 3)) (Rating.mk 30 5)
  rw [e1] at h1
  rw [e2] at h2
  simp only [Except.ok.injEq, RateResult.ratings.injEq, List.cons.injEq, and_true] at h1 h2
  obtain ⟨hx, _⟩ := h1
  obtain ⟨_, hx'⟩ := h2
  rw [← hx] at hx'
  simp only [List.cons.injEq, and_true, true_and] at hx'
  have hmu := congrArg Rating.Mu hx'
  have hsig : (0 : ℝ) < 25 / 3 + 25 / 300 * (25 / 300) := by norm_num
  have hsig5 : (0 : ℝ) < 5 + 25 / 300 * (25 / 300) := by norm_num
  refine bradlyTerryFull_updatePlayer_mu_weight (DefaultBradlyTerryFullModel (F := ℝ))
    (twinTeamRating ((DefaultBradlyTerryFullModel (F := ℝ)).copyOf (Rating.mk 25 (25 / 3))) 1)
    _ _ ((DefaultBradlyTerryFullModel (F := ℝ)).copyOf (Rating.mk 25 (25 / 3))) ?_ ?_ ?_ hmu
  · refine bradlyTerryFull_omega_neg _ 1 0 _ _ (by decide) (by simp [twinTeamRating]) ?_ ?_
    · exact add_pos (mul_pos hsig hsig) (mul_pos hsig hsig)
    · exact (add_pos (mul_pos hsig5 hsig5) (mul_pos hsig5 hsig5)).le
  · exact mul_pos hsig hsig
  · exact add_pos (mul_pos hsig hsig) (mul_pos hsig hsig)

end RealWeights

section NormalizeFacts

variable {F : Type} [LinearOrderedField F]

end NormalizeFacts

section NormalizeClaims

variable {F : Type} [LinearOrderedField F]

/-- C19: `normalize` of a one-element vector is the one-element vector holding `targetMax`,
whatever the element and the targets are; under the targets `1` and `2` that `Rate` passes,
a one-element weight row becomes `[2]`. The result comes from the branch for length one,
before the source range is computed. -/
theorem normalize_single_element (x targetMin targetMax : F) :
    normalize [x] targetMin targetMax = .ok [targetMax] ∧
      normalize [x] 1 2 = .ok [2] ∧
      normalizeWeights (some [[x]]) = .ok (some [[2]]) := by
  refine ⟨?_, ?_, ?_⟩ <;> simp [normalize, normalizeWeights, traverseIdx]

end NormalizeClaims

section UnwindOrder

variable {α : Type}

theorem rangeInt_nodup (n : Nat) : (rangeInt n).Nodup :=
  (List.nodup_range n).map Nat.cast_injective

theorem rangeInt_length (n : Nat) : (rangeInt n).length = n := by
  simp [rangeInt]

/-- The tenets of the pairs built by the first loop of `unwind` are the tenet list. -/
theorem pairs_tenets (tenet : List Int) (objects : List α) (pairs : List (pair α))
    (hlen : tenet.length = objects.length) (hl : pairs.length = objects.length)
    (he : ∀ (k : Nat) (p : pair α), pairs[k]? = some p →
      p.Index = (k : Int) ∧ tenet[k]? = some p.Tenet ∧ objects[k]? = some p.Object) :
    pairs.map (fun p => p.Tenet) = tenet := by
  apply List.ext_getElem?
  intro k
  by_cases hk : k < objects.length
  · have hp : pairs[k]? = some pairs[k] := List.getElem?_eq_getElem (by omega)
    rw [List.getElem?_map, hp, (he k _ hp).2.1]
    rfl
  · rw [List.getElem?_eq_none (by simp; omega), List.getElem?_eq_none (by omega)]

/-- The indices of the pairs built by the first loop of `unwind` are `0..n-1`. -/
theorem pairs_indices (tenet : List Int) (objects : List α) (pairs : List (pair α))
    (hl : pairs.length = objects.length)
    (he : ∀ (k : Nat) (p : pair α), pairs[k]? = some p →
      p.Index = (k : Int) ∧ tenet[k]? = some p.Tenet ∧ objects[k]? = some p.Object) :
    pairs.map (fun p => p.Index) = rangeInt objects.length := by
  apply List.ext_getElem?
  intro k
  by_cases hk : k < objects.length
  · have hp : pairs[k]? = some pairs[k] := List.getElem?_eq_getElem (by omega)
    rw [rangeInt_getElem? _ _ hk, List.getElem?_map, hp]
    simp [(he k _ hp).1]
  · rw [List.getElem?_eq_none (by simp; omega), List.getElem?_eq_none (by simp [rangeInt]; omega)]

/-- What `unwind` returns, pair by pair: the sorted pairs are in ascending order of tenet
with ties in ascending order of original index, their indices are a rearrangement of
`0..n-1`, and each pair carries the tenet and the object found at its index. -/
theorem unwind_sorted_pairs (tenet : List Int) (objects : List α)
    (hlen : objects.length ≤ tenet.length) :
    ∃ sorted : List (pair α),
      unwind tenet objects =
        .ok (sorted.map (fun p => p.Object), sorted.map (fun p => p.Index)) ∧
      sorted.length = objects.length ∧
      (sorted.map (fun p => p.Index)).Perm (rangeInt objects.length) ∧
      (∀ (k : Nat) (q : pair α), sorted[k]? = some q →
        ∃ j : Nat, q.Index = (j : Int) ∧ tenet[j]? = some q.Tenet ∧
          objects[j]? = some q.Object) ∧
      sorted.Pairwise (fun x y =>
        x.Tenet < y.Tenet ∨ (x.Tenet = y.Tenet ∧ x.Index < y.Index)) := by
  obtain ⟨pairs, hl, he, hu⟩ := unwind_pairs tenet objects hlen
  have hperm : ((sortSliceStable pairLess pairs).map (fun p => p.Index)).Perm
      (rangeInt objects.length) := by
    rw [← pairs_indices tenet objects pairs hl he]
    exact (sortSliceStable_perm pairLess pairs).map _
  refine ⟨sortSliceStable pairLess pairs, hu, by simp [sortSliceStable, hl], hperm, ?_, ?_⟩
  · intro k q hq
    have hmem : q ∈ pairs :=
      (sortSliceStable_perm pairLess pairs).mem_iff.mp (List.getElem?_mem hq)
    obtain ⟨j, hj⟩ := List.getElem?_of_mem hmem
    obtain ⟨h1, h2, h3⟩ := he j q hj
    exact ⟨j, h1, h2, h3⟩
  · have hnd : ((sortSliceStable pairLess pairs).map (fun p => p.Index)).Nodup :=
      (List.Perm.nodup_iff hperm).mpr (rangeInt_nodup _)
    unfold List.Nodup at hnd
    rw [List.pairwise_map] at hnd
    refine ((sortSliceStable_pairLess_sorted pairs).and hnd).imp ?_
    intro x y hxy
    obtain ⟨h1, h2⟩ := hxy
    rw [pairLess_eq_false_iff] at h1
    omega

/-- For `unwind` by a tenet that is a permutation of `0..n-1`: the index returned at
position `m` is the place where the tenet holds `m`. -/
theorem unwind_of_perm_indices (tenet : List Int) (objects : List α)
    (hlen : tenet.length = objects.length) (hperm : tenet.Perm (rangeInt objects.length)) :
    ∃ (sorted : List α) (indices : List Int),
      unwind tenet objects = .ok (sorted, indices) ∧
      indices.length = objects.length ∧
      ∀ (m : Nat), m < objects.length →
        ∃ k : Nat, indices[m]? = some (k : Int) ∧ tenet[k]? = some (m : Int) := by
  obtain ⟨pairs, hl, he, hu⟩ := unwind_pairs tenet objects (by omega)
  have hsorted := sorted_tenets_of_perm pairs objects.length
    (by rw [pairs_tenets tenet objects pairs hlen hl he]; exact hperm)
  refine ⟨_, _, hu, by simp [sortSliceStable, hl], ?_⟩
  intro m hm
  have hml : m < (sortSliceStable pairLess pairs).length := by
    simpa [sortSliceStable, hl] using hm
  have hq : (sortSliceStable pairLess pairs)[m]? = some (sortSliceStable pairLess pairs)[m] :=
    List.getElem?_eq_getElem hml
  have hqt : ((sortSliceStable pairLess pairs)[m]).Tenet = (m : Int) := by
    have h1 : ((sortSliceStable pairLess pairs).map (fun p => p.Tenet))[m]? =
        some ((sortSliceStable pairLess pairs)[m]).Tenet := by
      rw [List.getElem?_map, hq]
      rfl
    rw [hsorted, rangeInt_getElem? _ _ hm] at h1
    exact (Option.some.inj h1).symm
  have hmem : (sortSliceStable pairLess pairs)[m] ∈ pairs :=
    (sortSliceStable_perm pairLess pairs).mem_iff.mp (List.getElem?_mem hq)
  obtain ⟨k, hk⟩ := List.getElem?_of_mem hmem
  obtain ⟨h1, h2, _⟩ := he k _ hk
  refine ⟨k, ?_, by rw [h2, hqt]⟩
  rw [List.getElem?_map, hq]
  simp [h1]

theorem Aligned.eq_of_eq {xs ys : List α} (h : Aligned (fun x y => x = y) xs ys) : xs = ys := by
  apply List.ext_getElem?
  intro k
  by_cases hk : k < xs.length
  · have hk' : k < ys.length := by rw [← h.1]; exact hk
    rw [List.getElem?_eq_getElem hk, List.getElem?_eq_getElem hk']
    exact congrArg some (h.2 k _ _ (List.getElem?_eq_getElem hk) (List.getElem?_eq_getElem hk'))
  · have hk' : ¬ k < ys.length := by rw [← h.1]; exact hk
    rw [List.getElem?_eq_none (by omega), List.getElem?_eq_none (by omega)]

/-- The second `unwind`, by the indices of the first, returns the objects as they were. -/
theorem unwind_unwind_objects (tenet : List Int) (objects : List α)
    (hlen : objects.length ≤ tenet.length) :
    ∃ (sorted : List α) (indices : List Int), unwind tenet objects = .ok (sorted, indices) ∧
      ∃ (restored : List α) (js : List Int),
        unwind indices sorted = .ok (restored, js) ∧ restored = objects := by
  obtain ⟨sorted, indices, h1, hsl, -, -, -⟩ := unwind_sorts tenet objects hlen
  obtain ⟨restored, js, h2, ha⟩ :=
    unwind_unwind_aligned (R := fun (x y : α) => x = y) tenet objects hlen sorted indices h1
      sorted ⟨rfl, fun k x y hx hy => Option.some.inj (hx.symm.trans hy)⟩
  exact ⟨sorted, indices, h1, restored, js, h2, ha.eq_of_eq⟩

/-- The second component of the second `unwind` is the tenet exactly when the tenet is a
rearrangement of `0..n-1`. -/
theorem unwind_unwind_tenet (tenet : List Int) (objects : List α)
    (hlen : tenet.length = objects.length) :
    ∃ (sorted : List α) (indices : List Int), unwind tenet objects = .ok (sorted, indices) ∧
      ∃ (restored : List α) (js : List Int),
        unwind indices sorted = .ok (restored, js) ∧
        (js = tenet ↔ tenet.Perm (rangeInt objects.length)) := by
  obtain ⟨sorted, indices, h1, hsl, hil, hperm, -⟩ := unwind_sorts tenet objects (by omega)
  obtain ⟨restored, js, h2, -, hjl, hjperm, -⟩ := unwind_sorts indices sorted (by omega)
  refine ⟨sorted, indices, h1, restored, js, h2, ?_, ?_⟩
  · intro h
    rw [← h, ← hsl]
    exact hjperm
  · intro htp
    obtain ⟨sorted', indices', h1', -, hfirst⟩ := unwind_of_perm_indices tenet objects hlen htp
    rw [h1] at h1'
    simp only [Except.ok.injEq, Prod.mk.injEq] at h1'
    obtain ⟨rfl, rfl⟩ := h1'
    obtain ⟨restored', js', h2', -, hsecond⟩ :=
      unwind_of_perm_indices indices sorted (by omega) (by rw [hsl]; exact hperm)
    rw [h2] at h2'
    simp only [Except.ok.injEq, Prod.mk.injEq] at h2'
    obtain ⟨rfl, rfl⟩ := h2'
    apply List.ext_getElem?
    intro m
    by_cases hm : m < objects.length
    · obtain ⟨k, hk1, hk2⟩ := hsecond m (by omega)
      have hk : k < objects.length := by
        have := getElem?_lt_of_eq_some hk2
        omega
      obtain ⟨j, hj1, hj2⟩ := hfirst k hk
      rw [hk2] at hj1
      have hjm : j = m := by
        have := Option.some.inj hj1
        omega
      subst hjm
      rw [hk1, hj2]
    · rw [List.getElem?_eq_none (by omega), List.getElem?_eq_none (by omega)]

end UnwindOrder

section UnwindClaims

variable {α : Type}

/-- C16: for every integer list `R` and every item list `S` of the same length, `unwind R S`
returns a pair `(S1, I)`, and `unwind I S1` then returns a pair whose first component
is `S`. -/
theorem unwind_round_trip_items (R : List Int) (S : List α) (hlen : R.length = S.length) :
    ∃ (S1 : List α) (I : List Int), unwind R S = .ok (S1, I) ∧
      ∃ (S2 : List α) (J : List Int), unwind I S1 = .ok (S2, J) ∧ S2 = S :=
  unwind_unwind_objects R S (by omega)

theorem unwind_round_trip_items_witness :
    ([3, 7, 7, 1] : List Int).length = ["a", "b", "c", "d"].length ∧
      ∃ (S1 : List String) (I : List Int),
        unwind [3, 7, 7, 1] ["a", "b", "c", "d"] = .ok (S1, I) ∧
        ∃ (S2 : List String) (J : List Int),
          unwind I S1 = .ok (S2, J) ∧ S2 = ["a", "b", "c", "d"] :=
  ⟨rfl, unwind_round_trip_items [3, 7, 7, 1] ["a", "b", "c", "d"] rfl⟩

/-- C17, counterexample: with the tied tenet `[5, 5]` the first `unwind` returns the
indices `[0, 1]`, and the second `unwind`, by those indices, returns `[0, 1]` as its second
component, which is not the tenet `[5, 5]`. -/
theorem unwind_round_trip_tenet_tied :
    unwind [5, 5] ["a", "b"] = .ok (["a", "b"], [0, 1]) ∧
      unwind [0, 1] ["a", "b"] = .ok (["a", "b"], [0, 1]) ∧
      ([0, 1] : List Int) ≠ [5, 5] := by
  refine ⟨?_, ?_, by decide⟩ <;> rw [unwind_two] <;> simp

/-- C17, amended: for every integer list `R` and every item list `S` of the same length
`n`, if `(S1, I) = unwind R S` then the second component of `unwind I S1` equals `R`
exactly when `R` is a rearrangement of `0, ..., n-1`. -/
theorem unwind_round_trip_tenet_iff_perm (R : List Int) (S : List α)
    (hlen : R.length = S.length) :
    ∃ (S1 : List α) (I : List Int), unwind R S = .ok (S1, I) ∧
      ∃ (S2 : List α) (J : List Int), unwind I S1 = .ok (S2, J) ∧
        (J = R ↔ R.Perm (rangeInt S.length)) :=
  unwind_unwind_tenet R S hlen

theorem unwind_round_trip_tenet_iff_perm_witness :
    ([1, 3, 2, 0] : List Int).length = ["b", "d", "c", "a"].length ∧
      ∃ (S1 : List String) (I : List Int),
        unwind [1, 3, 2, 0] ["b", "d", "c", "a"] = .ok (S1, I) ∧
        ∃ (S2 : List String) (J : List Int), unwind I S1 = .ok (S2, J) ∧
          (J = [1, 3, 2, 0] ↔
            ([1, 3, 2, 0] : List Int).Perm (rangeInt ["b", "d", "c", "a"].length)) :=
  ⟨rfl, unwind_round_trip_tenet_iff_perm [1, 3, 2, 0] ["b", "d", "c", "a"] rfl⟩

/-- C18: for every integer list `R` and item list `S` of equal length `n`, `unwind R S`
returns a pair `(S1, I)` in which `I` is a rearrangement of `0, ..., n-1`, `S1` has length
`n` with `S1[k] = S[I[k]]` at every position, and for positions `k < l` either
`R[I[k]] < R[I[l]]`, or `R[I[k]] = R[I[l]]` and `I[k] < I[l]`; for `n = 0` both components
are empty. -/
theorem unwind_ascending_by_tenet_then_index (R : List Int) (S : List α)
    (hlen : R.length = S.length) :
    ∃ (S1 : List α) (I : List Int), unwind R S = .ok (S1, I) ∧
      I.Perm (rangeInt S.length) ∧ S1.length = S.length ∧
      (∀ k : Nat, k < S.length →
        ∃ j : Nat, j < S.length ∧ I[k]? = some (j : Int) ∧ S1[k]? = S[j]?) ∧
      (∀ (k l j1 j2 : Nat), k < l → I[k]? = some (j1 : Int) → I[l]? = some (j2 : Int) →
        ∃ r1 r2 : Int, R[j1]? = some r1 ∧ R[j2]? = some r2 ∧
          (r1 < r2 ∨ (r1 = r2 ∧ j1 < j2))) ∧
      (S.length = 0 → S1 = [] ∧ I = []) := by
  obtain ⟨sorted, hu, hsl, hperm, hsrc, hord⟩ := unwind_sorted_pairs R S (by omega)
  refine ⟨_, _, hu, hperm, by simp [hsl], ?_, ?_, ?_⟩
  · intro k hk
    have hq : sorted[k]? = some sorted[k] := List.getElem?_eq_getElem (by omega)
    obtain ⟨j, hj1, -, hj3⟩ := hsrc k _ hq
    refine ⟨j, getElem?_lt_of_eq_some hj3, ?_, ?_⟩
    · rw [List.getElem?_map, hq]
      simp [hj1]
    · rw [List.getElem?_map, hq, hj3]
      rfl
  · intro k l j1 j2 hkl h1 h2
    rw [List.getElem?_map] at h1 h2
    have hl : l < sorted.length := by
      by_contra hcon
      rw [List.getElem?_eq_none (by omega)] at h2
      simp at h2
    have hqk : sorted[k]? = some sorted[k] := List.getElem?_eq_getElem (by omega)
    have hql : sorted[l]? = some sorted[l] := List.getElem?_eq_getElem hl
    rw [hqk] at h1
    rw [hql] at h2
    simp only [Option.map_some', Option.some.injEq] at h1 h2
    obtain ⟨a, ha1, ha2, -⟩ := hsrc k _ hqk
    obtain ⟨b, hb1, hb2, -⟩ := hsrc l _ hql
    have haj : a = j1 := by omega
    have hbj : b = j2 := by omega
    subst haj hbj
    have := (List.pairwise_iff_getElem.mp hord) k l (by omega) hl hkl
    exact ⟨_, _, ha2, hb2, by omega⟩
  · intro h0
    have : sorted = [] := List.length_eq_zero.mp (by omega)
    simp [this]

theorem unwind_ascending_by_tenet_then_index_witness :
    ([3, 7, 7, 1] : List Int).length = ["a", "b", "c", "d"].length ∧
      ∃ (S1 : List String) (I : List Int),
        unwind [3, 7, 7, 1] ["a", "b", "c", "d"] = .ok (S1, I) ∧
        I.Perm (rangeInt ["a", "b", "c", "d"].length) ∧
        S1.length = ["a", "b", "c", "d"].length ∧
        (∀ k : Nat, k < ["a", "b", "c", "d"].length →
          ∃ j : Nat, j < ["a", "b", "c", "d"].length ∧ I[k]? = some (j : Int) ∧
            S1[k]? = ["a", "b", "c", "d"][j]?) ∧
        (∀ (k l j1 j2 : Nat), k < l → I[k]? = some (j1 : Int) → I[l]? = some (j2 : Int) →
          ∃ r1 r2 : Int, ([3, 7, 7, 1] : List Int)[j1]? = some r1 ∧
            ([3, 7, 7, 1] : List Int)[j2]? = some r2 ∧ (r1 < r2 ∨ (r1 = r2 ∧ j1 < j2))) ∧
        (["a", "b", "c", "d"].length = 0 → S1 = [] ∧ I = []) :=
  ⟨rfl, unwind_ascending_by_tenet_then_index [3, 7, 7, 1] ["a", "b", "c", "d"] rfl⟩

end UnwindClaims

section LimitSigmaOnCopy

/-- With `limitSigma` on, `finishRate` on two solo teams returns each sigma capped by the
sigma of the reference player. -/
theorem finishRate_true_two_solo {F : Type} [LinearOrderedField F] (x y p q : Rating F) :
    finishRate true [[x], [y]] [[p], [q]] =
      .ok (.ratings [[Rating.mk x.Mu (min x.Sigma p.Sigma)],
        [Rating.mk y.Mu (min y.Sigma q.Sigma)]]) := by
  simp [finishRate, limitSigmaLoop, traverseIdx, limitSigmaTeam, limitSigmaPlayer]

/-- The Thurstone-Mosteller player update never shrinks a sigma below its `sqrt kappa`
multiple. -/
theorem thurstoneMostellerUpdatePlayer_sigma_ge (kappa : ℝ) (t1 : teamRating ℝ)
    (omega delta weight : ℝ) (r : Rating ℝ) (hs : 0 ≤ r.Sigma) :
    r.Sigma * Real.sqrt kappa ≤
      (thurstoneMostellerUpdatePlayer RealMath kappa t1 omega delta weight r).Sigma := by
  unfold thurstoneMostellerUpdatePlayer
  split
  · exact mul_le_mul_of_nonneg_left (Real.sqrt_le_sqrt (le_max_right _ _)) hs
  · exact mul_le_mul_of_nonneg_left (Real.sqrt_le_sqrt (le_max_right _ _)) hs

/-- Thurstone-Mosteller-full with `limitSigma` on, two solo teams: each returned sigma is
at least the smaller of the enlarged sigma `sqrt (sigma * sigma + tau ^ 2)` and its
`sqrt kappa` multiple. -/
theorem thurstoneMostellerFull_limitSigma_two_solo (t : ThurstoneMostellerFullModel ℝ)
    (hl : t.limitSigma = true) (p q : Rating ℝ) (r1 r2 : Int)
    (hr : sortInts [r1, r2] = [1, 2]) :
    ∃ x y : Rating ℝ,
      t.Rate RealMath [[p], [q]] (some [r1, r2]) none none = .ok (.ratings [[x], [y]]) ∧
      min (Real.sqrt (p.Sigma * p.Sigma + t.tau ^ 2) * Real.sqrt t.kappa)
        (Real.sqrt (p.Sigma * p.Sigma + t.tau ^ 2)) ≤ x.Sigma ∧
      min (Real.sqrt (q.Sigma * q.Sigma + t.tau ^ 2) * Real.sqrt t.kappa)
        (Real.sqrt (q.Sigma * q.Sigma + t.tau ^ 2)) ≤ y.Sigma := by
  rw [thurstoneMostellerFull_Rate_two_solo RealMath t p q r1 r2 hr, hl, finishRate_true_two_solo]
  refine ⟨_, _, rfl, ?_, ?_⟩
  · exact min_le_min (thurstoneMostellerUpdatePlayer_sigma_ge _ _ _ _ _
      (Rating.mk p.Mu (RealMath.sqrt (p.Sigma * p.Sigma + t.tau ^ 2))) (Real.sqrt_nonneg _))
      (le_refl _)
  · exact min_le_min (thurstoneMostellerUpdatePlayer_sigma_ge _ _ _ _ _
      (Rating.mk q.Mu (RealMath.sqrt (q.Sigma * q.Sigma + t.tau ^ 2))) (Real.sqrt_nonneg _))
      (le_refl _)

/-- Thurstone-Mosteller-partial with `limitSigma` on and `kappa ≤ 1`, two solo teams: the
sigma returned for the first player is the enlarged sigma `sqrt (sigma * sigma + tau ^ 2)`. -/
theorem thurstoneMostellerPartial_limitSigma_two_solo (t : ThurstoneMostellerPartialModel ℝ)
    (hl : t.limitSigma = true) (hk : t.kappa ≤ 1) (p q : Rating ℝ) (r1 r2 : Int)
    (hr : sortInts [r1, r2] = [1, 2]) :
    ∃ x y : Rating ℝ,
      t.Rate RealMath [[p], [q]] (some [r1, r2]) none none = .ok (.ratings [[x], [y]]) ∧
      x.Sigma = Real.sqrt (p.Sigma * p.Sigma + t.tau ^ 2) := by
  rw [thurstoneMostellerPartial_Rate_two_solo RealMath t p q r1 r2 hr, hl,
    finishRate_true_two_solo]
  refine ⟨_, _, rfl, ?_⟩
  simp [thurstoneMostellerUpdatePlayer, realMath_sqrt, max_eq_left hk]

theorem sqrt_default_kappa : Real.sqrt (1 / 10000) = 1 / 100 := by
  rw [show (1 / 10000 : ℝ) = (1 / 100) ^ 2 by norm_num, Real.sqrt_sq (by norm_num)]

/-- C12: with `limitSigma` on, the Thurstone-Mosteller `Rate` caps each sigma by the sigma
of its own enlarged copy of the player, not by the sigma the caller passed. With the
default parameters, the full model returns sigmas above the input sigma `1/10000` of two
solo players, and the partial model returns the sigma `sqrt ((25/3)^2 + (25/300)^2)`,
above the input sigma `25/3`, for the first of two default solo players. -/
theorem thurstoneMosteller_limitSigma_returns_larger_sigma :
    (∃ x y : Rating ℝ,
      ({ DefaultThurstoneMostellerFullModel (F := ℝ) with limitSigma := true }).Rate RealMath
          [[Rating.mk 25 (1 / 10000)], [Rating.mk 25 (1 / 10000)]] (some [1, 2]) none none =
        .ok (.ratings [[x], [y]]) ∧
      1 / 10000 < x.Sigma ∧ 1 / 10000 < y.Sigma) ∧
    (∃ x y : Rating ℝ,
      ({ DefaultThurstoneMostellerPartialModel (F := ℝ) with limitSigma := true }).Rate RealMath
          [[Rating.mk 25 (25 / 3)], [Rating.mk 25 (25 / 3)]] (some [1, 2]) none none =
        .ok (.ratings [[x], [y]]) ∧
      x.Sigma = Real.sqrt (25 / 3 * (25 / 3) + (25 / 300) ^ 2) ∧ 25 / 3 < x.Sigma) := by
  have hr : sortInts [1, 2] = [1, 2] := by simp [sortInts_two]
  constructor
  · obtain ⟨x, y, hxy, hx, hy⟩ := thurstoneMostellerFull_limitSigma_two_solo
      { DefaultThurstoneMostellerFullModel (F := ℝ) with limitSigma := true } rfl
      (Rating.mk 25 (1 / 10000)) (Rating.mk 25 (1 / 10000)) 1 2 hr
    have hs : (1 / 12 : ℝ) ≤ Real.sqrt (1 / 10000 * (1 / 10000) + (25 / 300) ^ 2) :=
      Real.le_sqrt_of_sq_le (by norm_num)
    have hfloor : (1 / 10000 : ℝ) <
        min (Real.sqrt (1 / 10000 * (1 / 10000) + (25 / 300) ^ 2) * Real.sqrt (1 / 10000))
          (Real.sqrt (1 / 10000 * (1 / 10000) + (25 / 300) ^ 2)) := by
      rw [sqrt_default_kappa]
      apply lt_min <;> linarith
    simp only [DefaultThurstoneMostellerFullModel] at hx hy
    exact ⟨x, y, hxy, lt_of_lt_of_le hfloor hx, lt_of_lt_of_le hfloor hy⟩
  · obtain ⟨x, y, hxy, hx⟩ := thurstoneMostellerPartial_limitSigma_two_solo
      { DefaultThurstoneMostellerPartialModel (F := ℝ) with limitSigma := true } rfl
      (by simp only [DefaultThurstoneMostellerPartialModel]; norm_num)
      (Rating.mk 25 (25 / 3)) (Rating.mk 25 (25 / 3)) 1 2 hr
    simp only [DefaultThurstoneMostellerPartialModel] at hx
    refine ⟨x, y, hxy, hx, ?_⟩
    rw [hx]
    exact Real.lt_sqrt_of_sq_lt (by norm_num)

end LimitSigmaOnCopy

section PlackettLuceSolo
variable {F : Type} [LinearOrderedField F]

theorem a_two_solo (x y : Rating F) :
    a [soloTeamRating x 0, soloTeamRating y 1] = [1, 1] := by
  simp [a, soloTeamRating, Function.update]

theorem sumQ_two_solo (m : MathFns F) (x y : Rating F) (C : F) :
    sumQ m [soloTeamRating x 0, soloTeamRating y 1] C =
      [m.exp (x.Mu / C) + m.exp (y.Mu / C), m.exp (y.Mu / C)] := by
  simp [sumQ, soloTeamRating]

/-- The method `PlackettLuceModel.compute` on two solo teams of ranks `1` and `2`, without
weights: the first player is updated with `firstSoloOmega` and `firstSoloDelta`. -/
theorem plackettLuce_compute_two_solo (m : MathFns F) (p : PlackettLuceModel F)
    (x y : Rating F) :
    ∃ y1 : Rating F, p.compute m [[x], [y]] (some [1, 2]) none =
      .ok [[p.updatePlayer (soloTeamRating x 0) (p.firstSoloOmega m x y)
        (p.firstSoloDelta m x y) 1 x], [y1]] := by
  have hcalc := calculateTeamRatings_two_solo p.balance p.kappa x y 1 2
  simp only [show (1 : Int) < 2 from by decide, ↓reduceIte] at hcalc
  change calculateTeamRatings [[x], [y]] (some [1, 2]) p.balance p.kappa =
    .ok [soloTeamRating x 0, soloTeamRating y 1] at hcalc
  unfold PlackettLuceModel.compute
  rw [hcalc]
  dsimp only
  rw [a_two_solo, sumQ_two_solo]
  simp only [traverseIdx]
  simp only [PlackettLuceModel.computeTeam, plackettLuce_players_no_weights]
  have hr : ¬ (soloTeamRating y 1).Rank ≤ (soloTeamRating x 0).Rank := by
    simp [soloTeamRating]
  simp only [List.zip_cons_cons, List.zip_nil_right, List.enum,
    List.enumFrom, List.foldl, PlackettLuceModel.accumulate, List.map,
    hr, ↓reduceIte, le_refl, Nat.zero_add, show (1 : Nat) = 0 ↔ False from by simp,
    Int.cast_one, div_one, zero_add, Except.ok.injEq, List.cons.injEq, and_true]
  exact ⟨_, rfl, rfl⟩

/-- The method `PlackettLuceModel.Rate` with `limitSigma` off on two solo teams with ranks
`[1, 2]` and no weights. -/
theorem plackettLuce_Rate_two_solo (m : MathFns F) (p : PlackettLuceModel F)
    (hl : p.limitSigma = false) (x y : Rating F) :
    ∃ y1 : Rating F, p.Rate m [[x], [y]] (some [1, 2]) none none =
      .ok (.ratings [[p.updatePlayer (soloTeamRating x 0) (p.firstSoloOmega m x y)
        (p.firstSoloDelta m x y) 1 x], [y1]]) := by
  obtain ⟨mux, sx⟩ := x
  obtain ⟨muy, sy⟩ := y
  obtain ⟨y1, hcomp⟩ := plackettLuce_compute_two_solo m p (Rating.mk mux sx) (Rating.mk muy sy)
  have hord := (computeInRankOrder_two (p.compute m) _ _ _ _ 1 2 none).1 (by decide) hcomp
  refine ⟨y1, ?_⟩
  unfold PlackettLuceModel.Rate
  rw [checkRateParameters_two _ _ (by simp) (by simp)]
  simp only [normalizeWeights, ranksFromScores, List.map]
  rw [hord, hl]
  rfl

end PlackettLuceSolo

section PlackettLuceFormula

theorem default_solo_c :
    c RealMath [soloTeamRating (Rating.mk (25 : ℝ) (25 / 3)) 0,
      soloTeamRating (Rating.mk (25 : ℝ) (25 / 3)) 1] (25 / 6) = Real.sqrt (3125 / 18) := by
  simp only [c, soloTeamRating, List.foldl, realMath_sqrt]
  congr 1
  norm_num

theorem one_le_sqrt_default : (1 : ℝ) ≤ Real.sqrt (3125 / 18) :=
  Real.le_sqrt_of_sq_le (by norm_num)

/-- For two default solo players the Plackett-Luce `omega` of the first is
`-(1/2) * ((25/3)^2 / c)`. -/
theorem default_firstSoloOmega :
    (DefaultPlackettLuceModel (F := ℝ)).firstSoloOmega RealMath
      (Rating.mk 25 (25 / 3)) (Rating.mk 25 (25 / 3)) =
        -(1 / 2) * (25 / 3 * (25 / 3) / Real.sqrt (3125 / 18)) := by
  have he := Real.exp_pos (25 / Real.sqrt (3125 / 18))
  simp only [PlackettLuceModel.firstSoloOmega, DefaultPlackettLuceModel, default_solo_c,
    realMath_exp]
  have h1 : Real.exp (25 / Real.sqrt (3125 / 18)) /
      (Real.exp (25 / Real.sqrt (3125 / 18)) + Real.exp (25 / Real.sqrt (3125 / 18))) = 1 / 2 := by
    field_simp
    ring
  have h2 : Real.exp (25 / Real.sqrt (3125 / 18)) / Real.exp (25 / Real.sqrt (3125 / 18)) = 1 :=
    div_self (ne_of_gt he)
  rw [h1, h2]
  norm_num

/-- For two default solo players the Plackett-Luce `delta` of the first is `(5/6) / c`. -/
theorem default_firstSoloDelta :
    (DefaultPlackettLuceModel (F := ℝ)).firstSoloDelta RealMath
      (Rating.mk 25 (25 / 3)) (Rating.mk 25 (25 / 3)) = 5 / 6 / Real.sqrt (3125 / 18) := by
  have he := Real.exp_pos (25 / Real.sqrt (3125 / 18))
  have hc : (0 : ℝ) < Real.sqrt (3125 / 18) := lt_of_lt_of_le one_pos one_le_sqrt_default
  simp only [PlackettLuceModel.firstSoloDelta, DefaultPlackettLuceModel, default_solo_c,
    realMath_exp, realMath_sqrt]
  have h1 : Real.exp (25 / Real.sqrt (3125 / 18)) /
      (Real.exp (25 / Real.sqrt (3125 / 18)) + Real.exp (25 / Real.sqrt (3125 / 18))) = 1 / 2 := by
    field_simp
    ring
  have h3 : Real.sqrt (25 / 3 * (25 / 3)) = 25 / 3 := Real.sqrt_mul_self (by norm_num)
  have h4 : Real.sqrt (3125 / 18) ^ 2 = 3125 / 18 := Real.sq_sqrt (by norm_num)
  rw [h1, h3, h4]
  field_simp
  ring

/-- The player that `PlackettLuceModel.updatePlayer` returns for a default solo player with
`omega = -(1/2) * ((25/3)^2 / C)` and `delta = (5/6) / C`. -/
theorem default_plackettLuce_updatePlayer (C : ℝ) (hC : 1 ≤ C) :
    (DefaultPlackettLuceModel (F := ℝ)).updatePlayer (soloTeamRating (Rating.mk 25 (25 / 3)) 0)
        (-(1 / 2) * (25 / 3 * (25 / 3) / C)) (5 / 6 / C) 1 (Rating.mk 25 (25 / 3)) =
      Rating.mk (25 - 25 / 6 / C) (25 / 3 - 5 / 6 / C) := by
  have hC0 : 0 < C := lt_of_lt_of_le one_pos hC
  have hinv : 1 / C ≤ 1 := by
    rw [div_le_one hC0]
    exact hC
  have hneg : ¬ (-(1 / 2) * (25 / 3 * (25 / 3) / C) > 0) := by
    have : 0 < 25 / 3 * (25 / 3) / C := by positivity
    linarith
  have hmax : max (1 - 25 / 3 / (25 / 3 * (25 / 3)) * (5 / 6 / C) / 1) (1 / 10000 : ℝ) =
      1 - 25 / 3 / (25 / 3 * (25 / 3)) * (5 / 6 / C) / 1 := by
    apply max_eq_left
    have : 25 / 3 / (25 / 3 * (25 / 3)) * (5 / 6 / C) / 1 = 1 / 10 * (1 / C) := by
      field_simp
      ring
    rw [this]
    linarith
  simp only [PlackettLuceModel.updatePlayer, soloTeamRating, DefaultPlackettLuceModel, hneg,
    ↓reduceIte, hmax, Rating.mk.injEq]
  constructor <;> field_simp <;> ring

/-- The player that the update in the words of the specification gives for the same
arguments. -/
theorem default_sharedPlayerUpdate (C : ℝ) (hC : 1 ≤ C) :
    sharedPlayerUpdate RealMath (1 / 10000) (25 / 3 * (25 / 3))
        (-(1 / 2) * (25 / 3 * (25 / 3) / C)) (5 / 6 / C) 1 (Rating.mk 25 (25 / 3)) =
      Rating.mk (25 - 625 / 18 / C) (25 / 3 * Real.sqrt (1 - 5 / 6 / C)) := by
  have hC0 : 0 < C := lt_of_lt_of_le one_pos hC
  have hinv : 1 / C ≤ 1 := by
    rw [div_le_one hC0]
    exact hC
  have hneg : ¬ (-(1 / 2) * (25 / 3 * (25 / 3) / C) > 0) := by
    have : 0 < 25 / 3 * (25 / 3) / C := by positivity
    linarith
  have hratio : (25 / 3 : ℝ) ^ 2 / (25 / 3 * (25 / 3)) = 1 := by norm_num
  have hmax : max (1 - 1 * (5 / 6 / C) / 1) (1 / 10000 : ℝ) = 1 - 5 / 6 / C := by
    rw [one_mul, div_one]
    apply max_eq_left
    have : 5 / 6 / C = 5 / 6 * (1 / C) := by ring
    rw [this]
    linarith
  simp only [sharedPlayerUpdate, hneg, ↓reduceIte, hratio, hmax, realMath_sqrt, Rating.mk.injEq,
    and_true]
  ring

/-- The two updates differ in both fields. -/
theorem default_updates_differ (C : ℝ) (hC : 1 ≤ C) :
    (25 - 25 / 6 / C : ℝ) ≠ 25 - 625 / 18 / C ∧
      (25 / 3 - 5 / 6 / C : ℝ) ≠ 25 / 3 * Real.sqrt (1 - 5 / 6 / C) := by
  have hC0 : 0 < C := lt_of_lt_of_le one_pos hC
  have hinv : 1 / C ≤ 1 := by
    rw [div_le_one hC0]
    exact hC
  have hpos : 0 < 1 / C := by positivity
  constructor
  · intro h
    have h1 : (25 / 6 : ℝ) * (1 / C) = 625 / 18 * (1 / C) := by
      have : (25 / 6 : ℝ) / C = 625 / 18 / C := by linarith
      rw [mul_one_div, mul_one_div]
      exact this
    nlinarith
  · intro h
    have hlt : Real.sqrt (1 - 5 / 6 / C) < 1 - 1 / 10 * (1 / C) := by
      rw [Real.sqrt_lt' (by linarith)]
      have : (5 / 6 : ℝ) / C = 5 / 6 * (1 / C) := by ring
      rw [this]
      nlinarith
    have h2 : (25 / 3 - 5 / 6 / C : ℝ) = 25 / 3 * (1 - 1 / 10 * (1 / C)) := by ring
    rw [h2] at h
    have := mul_left_cancel₀ (by norm_num : (25 / 3 : ℝ) ≠ 0) h
    linarith

/-- C14: the per-player update of `PlackettLuceModel.compute` is not the update of step 8.
For two default solo players with ranks `[1, 2]` and the default model, the first returned
player is the code's update with the `Omega` and `Delta` the code computed, namely mu
`25 - (25/6)/c` and sigma `25/3 - (5/6)/c` with `c = sqrt (3125/18)`, while the update in
the words of the specification gives, for the same `Omega` and `Delta`, mu
`25 - (625/18)/c` and sigma `(25/3) * sqrt (1 - (5/6)/c)`; both fields differ. -/
theorem plackettLuce_update_differs_from_shared_formula :
    ∃ x1 y1 : Rating ℝ,
      (DefaultPlackettLuceModel (F := ℝ)).Rate RealMath
          [[Rating.mk 25 (25 / 3)], [Rating.mk 25 (25 / 3)]] (some [1, 2]) none none =
        .ok (.ratings [[x1], [y1]]) ∧
      x1 = (DefaultPlackettLuceModel (F := ℝ)).updatePlayer
        (soloTeamRating (Rating.mk 25 (25 / 3)) 0)
        ((DefaultPlackettLuceModel (F := ℝ)).firstSoloOmega RealMath
          (Rating.mk 25 (25 / 3)) (Rating.mk 25 (25 / 3)))
        ((DefaultPlackettLuceModel (F := ℝ)).firstSoloDelta RealMath
          (Rating.mk 25 (25 / 3)) (Rating.mk 25 (25 / 3)))
        1 (Rating.mk 25 (25 / 3)) ∧
      x1 = Rating.mk (25 - 25 / 6 / Real.sqrt (3125 / 18))
        (25 / 3 - 5 / 6 / Real.sqrt (3125 / 18)) ∧
      sharedPlayerUpdate RealMath (1 / 10000) (25 / 3 * (25 / 3))
          ((DefaultPlackettLuceModel (F := ℝ)).firstSoloOmega RealMath
            (Rating.mk 25 (25 / 3)) (Rating.mk 25 (25 / 3)))
          ((DefaultPlackettLuceModel (F := ℝ)).firstSoloDelta RealMath
            (Rating.mk 25 (25 / 3)) (Rating.mk 25 (25 / 3)))
          1 (Rating.mk 25 (25 / 3)) =
        Rating.mk (25 - 625 / 18 / Real.sqrt (3125 / 18))
          (25 / 3 * Real.sqrt (1 - 5 / 6 / Real.sqrt (3125 / 18))) ∧
      (25 - 25 / 6 / Real.sqrt (3125 / 18) : ℝ) ≠ 25 - 625 / 18 / Real.sqrt (3125 / 18) ∧
      (25 / 3 - 5 / 6 / Real.sqrt (3125 / 18) : ℝ) ≠
        25 / 3 * Real.sqrt (1 - 5 / 6 / Real.sqrt (3125 / 18)) := by
  obtain ⟨y1, hrate⟩ := plackettLuce_Rate_two_solo RealMath (DefaultPlackettLuceModel (F := ℝ)) rfl
    (Rating.mk 25 (25 / 3)) (Rating.mk 25 (25 / 3))
  refine ⟨_, y1, hrate, rfl, ?_, ?_, default_updates_differ _ one_le_sqrt_default⟩
  · rw [default_firstSoloOmega, default_firstSoloDelta]
    exact default_plackettLuce_updatePlayer _ one_le_sqrt_default
  · rw [default_firstSoloOmega, default_firstSoloDelta]
    exact default_sharedPlayerUpdate _ one_le_sqrt_default

end PlackettLuceFormula

section FrameOfRate

variable {F : Type} [LinearOrderedField F]

/-- C15: `Rate` writes to the caller's `ranks` and `weights`. For two default solo players
with ranks `[2, 1]` and weights `[[5], [7]]` the call is valid and the Bradley-Terry-full
and both Thurstone-Mosteller `Rate` return ratings, and afterwards the caller's ranks hold
`[1, 2]` and the caller's weights hold `[[2], [2]]`. -/
theorem Rate_overwrites_ranks_and_weights (m : MathFns F) :
    checkRateParameters [[Rating.mk (25 : F) (25 / 3)], [Rating.mk 25 (25 / 3)]]
      (some [2, 1]) none (some [[5], [7]]) = .ok none ∧
    (∃ result, (DefaultBradlyTerryFullModel (F := F)).Rate m
      [[Rating.mk 25 (25 / 3)], [Rating.mk 25 (25 / 3)]] (some [2, 1]) none (some [[5], [7]]) =
        .ok (.ratings result)) ∧
    (∃ result, (DefaultThurstoneMostellerFullModel (F := F)).Rate m
      [[Rating.mk 25 (25 / 3)], [Rating.mk 25 (25 / 3)]] (some [2, 1]) none (some [[5], [7]]) =
        .ok (.ratings result)) ∧
    (∃ result, (DefaultThurstoneMostellerPartialModel (F := F)).Rate m
      [[Rating.mk 25 (25 / 3)], [Rating.mk 25 (25 / 3)]] (some [2, 1]) none (some [[5], [7]]) =
        .ok (.ratings result)) ∧
    callerSlicesAfterRate [[Rating.mk (25 : F) (25 / 3)], [Rating.mk 25 (25 / 3)]]
      (some [2, 1]) none (some [[5], [7]]) = .ok (some [1, 2], some [[2], [2]]) ∧
    (some [1, 2] : Option (List Int)) ≠ some [2, 1] ∧
    (some [[2], [2]] : Option (List (List F))) ≠ some [[5], [7]] := by
  have hv : checkRateParameters [[Rating.mk (25 : F) (25 / 3)], [Rating.mk 25 (25 / 3)]]
      (some [2, 1]) none (some [[5], [7]]) = .ok none := by
    simp [checkRateParameters, checkWeightRows]
  have hw : normalizeWeights (some [[(5 : F)], [7]]) = .ok (some [[2], [2]]) := by
    simp [normalizeWeights, traverseIdx, normalize]
  refine ⟨hv, ?_, ?_, ?_, ?_, by decide, ?_⟩
  · obtain ⟨result, hr, -⟩ := bradlyTerryFull_Rate_ok m DefaultBradlyTerryFullModel hv
    exact ⟨result, hr⟩
  · obtain ⟨result, hr, -⟩ :=
      thurstoneMostellerFull_Rate_ok m DefaultThurstoneMostellerFullModel hv
    exact ⟨result, hr⟩
  · obtain ⟨result, hr, -⟩ :=
      thurstoneMostellerPartial_Rate_ok m DefaultThurstoneMostellerPartialModel hv
    exact ⟨result, hr⟩
  · unfold callerSlicesAfterRate
    rw [hv]
    dsimp only
    rw [hw]
    simp [sortInts_two]
  · intro h
    simp only [Option.some.injEq, List.cons.injEq, and_true] at h
    have h5 : (2 : F) = 5 := h.1
    norm_num at h5

end FrameOfRate

section NormalizeConstant

variable {F : Type} [LinearOrderedField F]

end NormalizeConstant

section NormalizeConstantClaim

variable {F : Type} [LinearOrderedField F]

end NormalizeConstantClaim

section RankClasses

/-- In a list along which `p` can only switch from true to false, the entries that satisfy
`p` are the first `countP p` ones. -/
theorem countP_initial_part {α : Type} (p : α → Bool) :
    ∀ (L : List α), L.Pairwise (fun x y => p y = true → p x = true) →
      ∀ (j : Nat) (hj : j < L.length), p L[j] = true ↔ j < L.countP p
  | [], _, j, hj => by simp at hj
  | a :: t, hL, j, hj => by
    rw [List.pairwise_cons] at hL
    by_cases ha : p a = true
    · rw [List.countP_cons_of_pos _ _ ha]
      cases j with
      | zero => simp [ha]
      | succ j =>
        simp only [List.getElem_cons_succ]
        rw [countP_initial_part p t hL.2 j (by simpa using hj)]
        omega
    · rw [List.countP_cons_of_neg _ _ ha]
      have hnone : List.countP p t = 0 := by
        rw [List.countP_eq_zero]
        intro y hy hpy
        exact ha (hL.1 y hy hpy)
      rw [hnone]
      cases j with
      | zero => simp [ha]
      | succ j =>
        simp only [List.getElem_cons_succ, Nat.not_lt_zero, iff_false]
        intro hp
        exact ha (hL.1 _ (List.getElem_mem _) hp)

theorem sorted_closed (L : List Int) (hs : L.Pairwise (fun x y => x ≤ y)) (v : Int) :
    L.Pairwise (fun x y => decide (y < v) = true → decide (x < v) = true) := by
  refine hs.imp ?_
  intro x y hxy hy
  simp only [decide_eq_true_eq] at hy ⊢
  omega

/-- The second loop of `calculateRankings` on the rest `xs` of a non-decreasing list
`pre ++ xs`: when the running value `s` is the number of entries smaller than the previous
score, every output is the number of entries smaller than the score at its position. -/
theorem calculateRankingsLoop_countSmaller (L : List Int) (hs : L.Pairwise (fun x y => x ≤ y)) :
    ∀ (xs pre : List Int) (prev : Option Int) (s : Int), L = pre ++ xs →
      prev = pre.getLast? → (∀ p, prev = some p → s = (countSmaller L p : Int)) →
      (pre = [] → s = 0) →
      calculateRankingsLoop prev pre.length s xs = xs.map (fun v => (countSmaller L v : Int))
  | [], _, _, _, _, _, _, _ => rfl
  | score :: rest, pre, prev, s, hL, hprev, hsome, hnil => by
    have hsplit : L = (pre ++ [score]) ++ rest := by simp [hL]
    have hge : ∀ y ∈ score :: rest, score ≤ y := by
      intro y hy
      rcases List.mem_cons.mp hy with rfl | hy
      · exact le_refl _
      · have h2 : (score :: rest).Pairwise (fun x y => x ≤ y) := by
          rw [hL] at hs
          exact (List.pairwise_append.mp hs).2.1
        exact (List.pairwise_cons.mp h2).1 y hy
    have hle : ∀ x ∈ pre, x ≤ score := by
      intro x hx
      rw [hL] at hs
      exact (List.pairwise_append.mp hs).2.2 x hx score (List.mem_cons_self _ _)
    have htail : List.countP (fun y => decide (y < score)) (score :: rest) = 0 := by
      rw [List.countP_eq_zero]
      intro y hy
      have := hge y hy
      simp only [decide_eq_true_eq]
      omega
    have ih : ∀ s1 : Int, s1 = (countSmaller L score : Int) →
        calculateRankingsLoop (some score) (pre.length + 1) s1 rest =
          rest.map (fun v => (countSmaller L v : Int)) := by
      intro s1 hs1
      have := calculateRankingsLoop_countSmaller L hs rest (pre ++ [score]) (some score) s1
        hsplit (by simp) (by
          intro p hp
          simp only [Option.some.injEq] at hp
          rw [← hp]
          exact hs1) (by simp)
      rw [List.length_append, List.length_singleton] at this
      exact this
    cases prev with
    | none =>
      have hpre : pre = [] := List.getLast?_eq_none_iff.mp hprev.symm
      have hs1 : s = (countSmaller L score : Int) := by
        simp only [hnil hpre, countSmaller, hL, hpre, List.nil_append, htail, Nat.cast_zero]
      simp only [calculateRankingsLoop, List.map_cons]
      rw [ih s hs1, hs1]
    | some before =>
      have hmem : before ∈ pre := List.mem_of_getLast?_eq_some hprev.symm
      simp only [calculateRankingsLoop, List.map_cons]
      by_cases hlt : before < score
      · have hcount : ((pre.length : Nat) : Int) = (countSmaller L score : Int) := by
          simp only [countSmaller, hL, List.countP_append, htail, Nat.add_zero, Nat.cast_inj]
          symm
          rw [List.countP_eq_length]
          intro x hx
          simp only [decide_eq_true_eq]
          have hxb : x ≤ before := by
            obtain ⟨front, hfront⟩ : ∃ front, pre = front ++ [before] :=
              List.getLast?_eq_some_iff.mp hprev.symm
            rw [hL, hfront] at hs
            rw [hfront] at hx
            rcases List.mem_append.mp hx with hx | hx
            · have h3 := (List.pairwise_append.mp (List.pairwise_append.mp hs).1).2.2
              exact h3 x hx before (by simp)
            · simp only [List.mem_singleton] at hx
              rw [hx]
          omega
        simp only [hlt, ↓reduceIte]
        rw [ih _ hcount, hcount]
      · have heq : before = score := by
          have := hle before hmem
          omega
        have hs1 : s = (countSmaller L score : Int) := by
          rw [hsome before rfl, heq]
        simp only [hlt, ↓reduceIte]
        rw [ih s hs1, hs1]

/-- Entries of `rangeInt n` smaller than `k`, for `k ≤ n`: there are `k`. -/
theorem countSmaller_rangeInt (n k : Nat) (hk : k ≤ n) : countSmaller (rangeInt n) (k : Int) = k := by
  induction n with
  | zero =>
    have : k = 0 := by omega
    subst this
    rfl
  | succ n ih =>
    unfold countSmaller rangeInt at *
    rw [List.range_succ, List.map_append, List.countP_append]
    by_cases hkn : k ≤ n
    · rw [ih hkn]
      have : ¬ ((n : Int) < (k : Int)) := by omega
      simp [this]
    · have hk1 : k = n + 1 := by omega
      subst hk1
      have hall : List.countP (fun y => decide (y < ((n + 1 : Nat) : Int)))
          (List.map (fun (i : Nat) => (i : Int)) (List.range n)) = n := by
        have h1 : List.countP (fun y => decide (y < ((n + 1 : Nat) : Int)))
            (List.map (fun (i : Nat) => (i : Int)) (List.range n)) =
            (List.map (fun (i : Nat) => (i : Int)) (List.range n)).length := by
          rw [List.countP_eq_length]
          intro x hx
          rw [List.mem_map] at hx
          obtain ⟨i, hi, rfl⟩ := hx
          have := List.mem_range.mp hi
          simp only [decide_eq_true_eq]
          omega
        rw [h1]
        simp
      rw [hall]
      simp

/-- With one rank per team the first loop of `calculateRankings` copies the ranks. -/
theorem traverseIdx_rankAt {F : Type} (teams : List (List (Rating F))) (ranks : List Int)
    (hlen : teams.length = ranks.length) :
    traverseIdx (rankAt ranks) 0 teams = .ok ranks := by
  obtain ⟨ts, hts⟩ := traverseIdx_ok (rankAt (F := F) ranks) teams 0 (by
    intro k team hk
    have hk1 : k < ranks.length := by
      have := getElem?_lt_of_eq_some hk
      omega
    exact ⟨ranks[k], by simp [rankAt, List.getElem?_eq_getElem hk1]⟩)
  obtain ⟨hl, he⟩ := traverseIdx_getElem _ teams 0 ts hts
  rw [hts]
  congr 1
  apply List.ext_getElem?
  intro k
  by_cases hk : k < teams.length
  · have h1 := he k teams[k] ts[k] (List.getElem?_eq_getElem hk)
      (List.getElem?_eq_getElem (by omega))
    have hk1 : 0 + k < ranks.length := by omega
    simp only [rankAt, List.getElem?_eq_getElem hk1, Except.ok.injEq] at h1
    rw [List.getElem?_eq_getElem (by omega : k < ts.length),
      List.getElem?_eq_getElem (by omega : k < ranks.length), ← h1]
    simp
  · rw [List.getElem?_eq_none (by omega), List.getElem?_eq_none (by omega)]

/-- On a non-decreasing list of ranks, one per team, `calculateRankings` returns at every
position the number of ranks that are strictly smaller. -/
theorem calculateRankings_countSmaller {F : Type} (teams : List (List (Rating F)))
    (ranks : List Int) (hlen : teams.length = ranks.length)
    (hsorted : ranks.Pairwise (fun x y => x ≤ y)) :
    calculateRankings teams (some ranks) =
      .ok (ranks.map (fun v => (countSmaller ranks v : Int))) := by
  unfold calculateRankings
  simp only []
  rw [traverseIdx_rankAt teams ranks hlen]
  simp only []
  have := calculateRankingsLoop_countSmaller ranks hsorted ranks [] none 0 rfl rfl
    (fun p hp => Option.noConfusion hp) (fun _ => rfl)
  rw [List.length_nil] at this
  rw [this]

/-- Without ranks `calculateRankings` returns the positions `0, 1, ..., n-1`. -/
theorem calculateRankings_nil {F : Type} (teams : List (List (Rating F))) :
    calculateRankings teams none = .ok (rangeInt teams.length) := by
  unfold calculateRankings
  simp only []
  have := calculateRankingsLoop_countSmaller (rangeInt teams.length) (rangeInt_sorted _)
    (rangeInt teams.length) [] none 0 rfl rfl (fun p hp => Option.noConfusion hp) (fun _ => rfl)
  rw [List.length_nil] at this
  rw [this]
  congr 1
  apply List.ext_getElem?
  intro k
  by_cases hk : k < teams.length
  · rw [List.getElem?_map, rangeInt_getElem? _ _ hk]
    simp [countSmaller_rangeInt _ _ (le_of_lt hk)]
  · rw [List.getElem?_eq_none (by simp [rangeInt]; omega),
      List.getElem?_eq_none (by simp [rangeInt]; omega)]

/-- In a non-decreasing list the number of entries smaller than the entry at `i` is the
smallest position that holds the same value. -/
theorem countSmaller_first_position (ranks : List Int)
    (hsorted : ranks.Pairwise (fun x y => x ≤ y)) (i : Nat) (hi : i < ranks.length) :
    countSmaller ranks ranks[i] ≤ i ∧
      ranks[countSmaller ranks ranks[i]]? = some ranks[i] ∧
      ∀ j, j < countSmaller ranks ranks[i] → ranks[j]? ≠ some ranks[i] := by
  have hpre := countP_initial_part (fun y => decide (y < ranks[i])) ranks
    (sorted_closed ranks hsorted ranks[i])
  have hki : countSmaller ranks ranks[i] ≤ i := by
    by_contra hcon
    have := (hpre i hi).mpr (by unfold countSmaller at hcon; omega)
    simp at this
  have hk : countSmaller ranks ranks[i] < ranks.length := by omega
  refine ⟨hki, ?_, ?_⟩
  · rw [List.getElem?_eq_getElem hk]
    congr 1
    have h1 : ¬ ranks[countSmaller ranks ranks[i]] < ranks[i] := by
      intro hlt
      have := (hpre _ hk).mp (by simpa using hlt)
      unfold countSmaller at this
      omega
    have h2 : ranks[countSmaller ranks ranks[i]] ≤ ranks[i] := by
      rcases Nat.lt_or_eq_of_le hki with hlt | heq
      · exact (List.pairwise_iff_getElem.mp hsorted) _ _ hk hi hlt
      · simp only [heq, le_refl]
    omega
  · intro j hj hcon
    have hjl : j < ranks.length := by omega
    have := (hpre j hjl).mpr (by unfold countSmaller at hj; exact hj)
    rw [List.getElem?_eq_getElem hjl] at hcon
    simp only [Option.some.injEq] at hcon
    simp only [decide_eq_true_eq, hcon, lt_self_iff_false] at this

end RankClasses

section RankClassesClaim

/-- C29: for a non-decreasing list of ranks with one rank per team, `calculateRankings`
returns at position `i` the number `k` of ranks strictly smaller than `ranks[i]`, which is
the smallest position whose rank equals `ranks[i]`; two positions get the same output
exactly when their ranks are equal. Without ranks the output at position `i` is `i`. -/
theorem calculateRankings_rank_classes {F : Type} (teams : List (List (Rating F)))
    (ranks : List Int) (hlen : teams.length = ranks.length)
    (hsorted : ranks.Pairwise (fun x y => x ≤ y)) :
    (∃ out : List Int, calculateRankings teams (some ranks) = .ok out ∧
      out.length = ranks.length ∧
      (∀ (i : Nat) (hi : i < ranks.length), ∃ k : Nat,
        out[i]? = some (k : Int) ∧ k = countSmaller ranks ranks[i] ∧ k ≤ i ∧
        ranks[k]? = some ranks[i] ∧ ∀ j, j < k → ranks[j]? ≠ some ranks[i]) ∧
      (∀ (i j : Nat) (hi : i < ranks.length) (hj : j < ranks.length),
        out[i]? = out[j]? ↔ ranks[i] = ranks[j])) ∧
    calculateRankings teams none = .ok (rangeInt teams.length) := by
  refine ⟨⟨_, calculateRankings_countSmaller teams ranks hlen hsorted, by simp, ?_, ?_⟩,
    calculateRankings_nil teams⟩
  · intro i hi
    obtain ⟨h1, h2, h3⟩ := countSmaller_first_position ranks hsorted i hi
    refine ⟨countSmaller ranks ranks[i], ?_, rfl, h1, h2, h3⟩
    rw [List.getElem?_map, List.getElem?_eq_getElem hi]
    rfl
  · intro i j hi hj
    rw [List.getElem?_map, List.getElem?_map, List.getElem?_eq_getElem hi,
      List.getElem?_eq_getElem hj]
    simp only [Option.map_some', Option.some.injEq, Nat.cast_inj]
    constructor
    · intro h
      obtain ⟨-, h2, -⟩ := countSmaller_first_position ranks hsorted i hi
      obtain ⟨-, h4, -⟩ := countSmaller_first_position ranks hsorted j hj
      rw [h] at h2
      rw [h2] at h4
      exact Option.some.inj h4
    · intro h
      rw [h]

theorem calculateRankings_rank_classes_witness :
    [[Rating.mk (25 : ℚ) 8], [Rating.mk 25 8], [Rating.mk 25 8], [Rating.mk 25 8]].length =
        ([1, 1, 1, 4] : List Int).length ∧
      ([1, 1, 1, 4] : List Int).Pairwise (fun x y => x ≤ y) ∧
      calculateRankings
          [[Rating.mk (25 : ℚ) 8], [Rating.mk 25 8], [Rating.mk 25 8], [Rating.mk 25 8]]
          (some [1, 1, 1, 4]) = .ok [0, 0, 0, 3] ∧
      calculateRankings
          [[Rating.mk (25 : ℚ) 8], [Rating.mk 25 8], [Rating.mk 25 8], [Rating.mk 25 8]]
          none = .ok [0, 1, 2, 3] := by
  have hs : ([1, 1, 1, 4] : List Int).Pairwise (fun x y => x ≤ y) := by decide
  obtain ⟨⟨out, h1, -, -, -⟩, h2⟩ := calculateRankings_rank_classes
    [[Rating.mk (25 : ℚ) 8], [Rating.mk 25 8], [Rating.mk 25 8], [Rating.mk 25 8]]
    [1, 1, 1, 4] rfl hs
  refine ⟨rfl, hs, ?_, ?_⟩
  · simp [calculateRankings, traverseIdx, rankAt, calculateRankingsLoop]
  · rw [h2]
    rfl

end RankClassesClaim

section BalanceFacts

variable {F : Type} [LinearOrderedField F]

theorem ordinalOrder_total :
    IsTotal (Rating F) (fun x y => decide (y.Ordinal > x.Ordinal) = false) :=
  ⟨fun x y => by
    simp only [gt_iff_lt, decide_eq_false_iff_not, not_lt]
    exact le_total _ _⟩

theorem ordinalOrder_trans :
    IsTrans (Rating F) (fun x y => decide (y.Ordinal > x.Ordinal) = false) :=
  ⟨fun x y z => by
    simp only [gt_iff_lt, decide_eq_false_iff_not, not_lt]
    intro h1 h2
    exact le_trans h2 h1⟩

/-- The first player of the team sorted by `calculateTeamRatings` has the largest ordinal. -/
theorem sortedTeam_head_max (team : List (Rating F)) (best : Rating F)
    (h : (sortSliceStable (fun x y => decide (x.Ordinal > y.Ordinal)) team)[0]? = some best) :
    best ∈ team ∧ ∀ p ∈ team, p.Ordinal ≤ best.Ordinal := by
  have hperm := sortSliceStable_perm (fun (x y : Rating F) => decide (x.Ordinal > y.Ordinal)) team
  have hsorted : (sortSliceStable (fun x y => decide (x.Ordinal > y.Ordinal)) team).Pairwise
      (fun x y => decide (y.Ordinal > x.Ordinal) = false) :=
    @List.sorted_insertionSort (Rating F) (fun x y => decide (y.Ordinal > x.Ordinal) = false) _
      ordinalOrder_total ordinalOrder_trans team
  cases hs : sortSliceStable (fun x y => decide (x.Ordinal > y.Ordinal)) team with
  | nil => simp [hs] at h
  | cons b rest =>
    rw [hs] at h hperm hsorted
    simp only [List.getElem?_cons_zero, Option.some.injEq] at h
    subst h
    refine ⟨hperm.mem_iff.mp (List.mem_cons_self _ _), ?_⟩
    intro p hp
    rcases List.mem_cons.mp (hperm.mem_iff.mpr hp) with rfl | hp
    · exact le_refl _
    · have := (List.pairwise_cons.mp hsorted).1 p hp
      simpa using this

/-- The sums of `sumTeam` as sums over the list. -/
theorem sumTeam_eq (balance : Bool) (kappa maxOrdinal : F) (players : List (Rating F)) :
    sumTeam balance kappa maxOrdinal players =
      ((players.map (fun p => p.Mu *
          (if balance then balanceWeight kappa maxOrdinal p else 1))).sum,
        (players.map (fun p => (p.Sigma * (if balance then balanceWeight kappa maxOrdinal p else 1)) *
          (p.Sigma * (if balance then balanceWeight kappa maxOrdinal p else 1)))).sum) := by
  have gen : ∀ (ps : List (Rating F)) (acc : F × F),
      ps.foldl (fun acc player =>
        (acc.1 + player.Mu * (if balance then
            1 + ((maxOrdinal - player.Ordinal) / (maxOrdinal + kappa)) else 1),
          acc.2 + (player.Sigma * (if balance then
            1 + ((maxOrdinal - player.Ordinal) / (maxOrdinal + kappa)) else 1)) *
            (player.Sigma * (if balance then
              1 + ((maxOrdinal - player.Ordinal) / (maxOrdinal + kappa)) else 1)))) acc =
      (acc.1 + (ps.map (fun p => p.Mu *
          (if balance then balanceWeight kappa maxOrdinal p else 1))).sum,
        acc.2 + (ps.map (fun p =>
          (p.Sigma * (if balance then balanceWeight kappa maxOrdinal p else 1)) *
          (p.Sigma * (if balance then balanceWeight kappa maxOrdinal p else 1)))).sum) := by
    intro ps
    induction ps with
    | nil => intro acc; simp
    | cons p ps ih =>
      intro acc
      rw [List.foldl_cons, ih]
      simp only [List.map_cons, List.sum_cons, balanceWeight, Prod.mk.injEq]
      constructor <;> ring
  have := gen players (0, 0)
  simp only [zero_add] at this
  exact this

/-- The team rating that `teamRatingOf` builds, with the sums taken over the team in the
caller's order; `maxOrdinal` is the largest ordinal of the team. -/
theorem teamRatingOf_sums (rank : List Int) (balance : Bool) (kappa maxOrdinal : F) (i : Nat)
    (team : List (Rating F)) (rk : Int) (hrk : rank[i]? = some rk)
    (hmax : ∃ best ∈ team, best.Ordinal = maxOrdinal)
    (hle : ∀ p ∈ team, p.Ordinal ≤ maxOrdinal) :
    teamRatingOf rank balance kappa i team =
      .ok (teamRating.mk
        (team.map (fun p => p.Mu * (if balance then balanceWeight kappa maxOrdinal p else 1))).sum
        (team.map (fun p => (p.Sigma * (if balance then balanceWeight kappa maxOrdinal p else 1)) *
          (p.Sigma * (if balance then balanceWeight kappa maxOrdinal p else 1)))).sum
        team rk) := by
  obtain ⟨best0, hb0, hbo⟩ := hmax
  have hperm := sortSliceStable_perm (fun (x y : Rating F) => decide (x.Ordinal > y.Ordinal)) team
  cases hs : (sortSliceStable (fun x y => decide (x.Ordinal > y.Ordinal)) team)[0]? with
  | none =>
    have hlen : (sortSliceStable (fun x y => decide (x.Ordinal > y.Ordinal)) team).length = 0 := by
      by_contra hcon
      rw [List.getElem?_eq_getElem (by omega)] at hs
      exact Option.noConfusion hs
    have : team.length = 0 := by rw [← hperm.length_eq, hlen]
    rw [List.length_eq_zero] at this
    rw [this] at hb0
    simp at hb0
  | some best =>
    obtain ⟨hbm, hbl⟩ := sortedTeam_head_max team best hs
    have hbest : best.Ordinal = maxOrdinal :=
      le_antisymm (hle best hbm) (by rw [← hbo]; exact hbl best0 hb0)
    unfold teamRatingOf
    simp only [hs, hrk, hbest, sumTeam_eq]
    congr 2
    · exact (hperm.map _).sum_eq
    · exact (hperm.map _).sum_eq

/-- With a positive `maxOrdinal + kappa` the balance weight of a player whose ordinal is at
most `maxOrdinal` is at least 1. -/
theorem one_le_balanceWeight (kappa maxOrdinal : F) (p : Rating F)
    (hle : p.Ordinal ≤ maxOrdinal) (hpos : 0 < maxOrdinal + kappa) :
    1 ≤ balanceWeight kappa maxOrdinal p := by
  unfold balanceWeight
  have : 0 ≤ (maxOrdinal - p.Ordinal) / (maxOrdinal + kappa) :=
    div_nonneg (sub_nonneg.mpr hle) hpos.le
  linarith

theorem balanceWeight_of_max (kappa maxOrdinal : F) (p : Rating F)
    (h : p.Ordinal = maxOrdinal) : balanceWeight kappa maxOrdinal p = 1 := by
  simp [balanceWeight, h]

theorem sum_sq_le_balanced (kappa maxOrdinal : F) (team : List (Rating F))
    (hle : ∀ p ∈ team, p.Ordinal ≤ maxOrdinal) (hpos : 0 < maxOrdinal + kappa) :
    (team.map (fun p => (p.Sigma * 1) * (p.Sigma * 1))).sum ≤
      (team.map (fun p => (p.Sigma * balanceWeight kappa maxOrdinal p) *
        (p.Sigma * balanceWeight kappa maxOrdinal p))).sum := by
  apply List.sum_le_sum
  intro p hp
  have hw := one_le_balanceWeight kappa maxOrdinal p (hle p hp) hpos
  have h1 : p.Sigma * 1 * (p.Sigma * 1) = p.Sigma * p.Sigma := by ring
  have h2 : p.Sigma * balanceWeight kappa maxOrdinal p * (p.Sigma * balanceWeight kappa maxOrdinal p) =
      p.Sigma * p.Sigma * (balanceWeight kappa maxOrdinal p * balanceWeight kappa maxOrdinal p) := by
    ring
  rw [h1, h2]
  have hww : 1 ≤ balanceWeight kappa maxOrdinal p * balanceWeight kappa maxOrdinal p := by
    nlinarith
  have hss : 0 ≤ p.Sigma * p.Sigma := mul_self_nonneg _
  nlinarith

end BalanceFacts

section BalanceClaim

variable {F : Type} [LinearOrderedField F]

/-- C30, counterexample: with balance on and `kappa = 1 > 0`, the team of the players
`(2, 4)` and `(-7, 4)` has the largest ordinal `-10` and the denominator `-9`; the weight of
the second player is `0`, below 1, and the balanced `SigmaSquared` is `16`, below the sum
`32` of the squared sigmas. For the one-player team `(2, 1)` the largest ordinal is `-1` and
the denominator `maxOrdinal + kappa` is zero. -/
theorem balance_weight_below_one :
    calculateTeamRatings [[Rating.mk (2 : ℚ) 4, Rating.mk (-7) 4]] none true 1 =
        .ok [teamRating.mk 2 16 [Rating.mk 2 4, Rating.mk (-7) 4] 0] ∧
      calculateTeamRatings [[Rating.mk (2 : ℚ) 4, Rating.mk (-7) 4]] none false 1 =
        .ok [teamRating.mk (-5) 32 [Rating.mk 2 4, Rating.mk (-7) 4] 0] ∧
      (Rating.mk (2 : ℚ) 4).Ordinal = -10 ∧ (Rating.mk (-7 : ℚ) 4).Ordinal = -19 ∧
      balanceWeight 1 (-10) (Rating.mk (-7 : ℚ) 4) = 0 ∧
      (Rating.mk (2 : ℚ) 1).Ordinal + 1 = 0 := by
  have hmax : ∃ best ∈ [Rating.mk (2 : ℚ) 4, Rating.mk (-7) 4], best.Ordinal = -10 :=
    ⟨Rating.mk 2 4, by simp, by norm_num [Rating.Ordinal]⟩
  have hle : ∀ p ∈ [Rating.mk (2 : ℚ) 4, Rating.mk (-7) 4], p.Ordinal ≤ -10 := by
    intro p hp
    simp only [List.mem_cons, List.mem_singleton, List.not_mem_nil, or_false] at hp
    rcases hp with rfl | rfl <;> norm_num [Rating.Ordinal]
  have hrk : (rangeInt 1)[0]? = some 0 := rfl
  refine ⟨?_, ?_, by norm_num [Rating.Ordinal], by norm_num [Rating.Ordinal],
    by norm_num [balanceWeight, Rating.Ordinal], by norm_num [Rating.Ordinal]⟩
  · unfold calculateTeamRatings
    rw [calculateRankings_nil]
    simp only [traverseIdx, List.length_singleton]
    rw [teamRatingOf_sums (rangeInt 1) true 1 (-10) 0 _ 0 hrk hmax hle]
    norm_num [balanceWeight, Rating.Ordinal]
  · unfold calculateTeamRatings
    rw [calculateRankings_nil]
    simp only [traverseIdx, List.length_singleton]
    rw [teamRatingOf_sums (rangeInt 1) false 1 (-10) 0 _ 0 hrk hmax hle]
    norm_num

/-- C30, amended: in `calculateTeamRatings` with balance on, for a team whose largest
ordinal `maxOrdinal` satisfies `maxOrdinal + kappa > 0`, the team rating is built from the
weights `w = 1 + (maxOrdinal - ordinal) / (maxOrdinal + kappa)`; every weight is at least 1,
the weight of a player of largest ordinal is 1, the balanced `SigmaSquared` is at least the
`SigmaSquared` computed with balance off, and the denominator is not zero. -/
theorem balance_weight_at_least_one_of_pos (kappa maxOrdinal : F) (team : List (Rating F))
    (rank : List Int) (i : Nat) (rk : Int) (hrk : rank[i]? = some rk)
    (hmax : ∃ best ∈ team, best.Ordinal = maxOrdinal)
    (hle : ∀ p ∈ team, p.Ordinal ≤ maxOrdinal) (hpos : 0 < maxOrdinal + kappa) :
    ∃ balanced plain : teamRating F,
      teamRatingOf rank true kappa i team = .ok balanced ∧
      teamRatingOf rank false kappa i team = .ok plain ∧
      balanced.Mu = (team.map (fun p => p.Mu * balanceWeight kappa maxOrdinal p)).sum ∧
      balanced.SigmaSquared = (team.map (fun p => (p.Sigma * balanceWeight kappa maxOrdinal p) *
        (p.Sigma * balanceWeight kappa maxOrdinal p))).sum ∧
      plain.SigmaSquared = (team.map (fun p => (p.Sigma * 1) * (p.Sigma * 1))).sum ∧
      (∀ p ∈ team, 1 ≤ balanceWeight kappa maxOrdinal p) ∧
      (∀ p ∈ team, p.Ordinal = maxOrdinal → balanceWeight kappa maxOrdinal p = 1) ∧
      plain.SigmaSquared ≤ balanced.SigmaSquared ∧
      maxOrdinal + kappa ≠ 0 := by
  refine ⟨_, _, teamRatingOf_sums rank true kappa maxOrdinal i team rk hrk hmax hle,
    teamRatingOf_sums rank false kappa maxOrdinal i team rk hrk hmax hle, ?_, ?_, ?_,
    fun p hp => one_le_balanceWeight kappa maxOrdinal p (hle p hp) hpos,
    fun p _ h => balanceWeight_of_max kappa maxOrdinal p h, ?_, ne_of_gt hpos⟩
  · simp
  · simp
  · simp
  · simpa using sum_sq_le_balanced kappa maxOrdinal team hle hpos

theorem balance_weight_at_least_one_of_pos_witness :
    ([0] : List Int)[0]? = some 0 ∧
      (∃ best ∈ [Rating.mk (30 : ℚ) 5, Rating.mk 25 8], best.Ordinal = 15) ∧
      (∀ p ∈ [Rating.mk (30 : ℚ) 5, Rating.mk 25 8], p.Ordinal ≤ 15) ∧
      (0 : ℚ) < 15 + 1 / 10000 ∧
      ∃ balanced plain : teamRating ℚ,
        teamRatingOf [0] true (1 / 10000) 0 [Rating.mk (30 : ℚ) 5, Rating.mk 25 8] =
          .ok balanced ∧
        teamRatingOf [0] false (1 / 10000) 0 [Rating.mk (30 : ℚ) 5, Rating.mk 25 8] =
          .ok plain ∧
        plain.SigmaSquared ≤ balanced.SigmaSquared := by
  have hmax : ∃ best ∈ [Rating.mk (30 : ℚ) 5, Rating.mk 25 8], best.Ordinal = 15 :=
    ⟨Rating.mk 30 5, by simp, by norm_num [Rating.Ordinal]⟩
  have hle : ∀ p ∈ [Rating.mk (30 : ℚ) 5, Rating.mk 25 8], p.Ordinal ≤ 15 := by
    intro p hp
    simp only [List.mem_cons, List.mem_singleton, List.not_mem_nil, or_false] at hp
    rcases hp with rfl | rfl <;> norm_num [Rating.Ordinal]
  obtain ⟨balanced, plain, h1, h2, -, -, -, -, -, h3, -⟩ :=
    balance_weight_at_least_one_of_pos (1 / 10000 : ℚ) 15
      [Rating.mk (30 : ℚ) 5, Rating.mk 25 8] [0] 0 0 rfl hmax hle (by norm_num)
  exact ⟨rfl, hmax, hle, by norm_num, balanced, plain, h1, h2, h3⟩

end BalanceClaim

section PlackettLuceWinner
variable {F : Type} [LinearOrderedField F]

/-- The method `PlackettLuceModel.compute` on two solo teams of ranks `1` and `2`, without
weights: both players. -/
theorem plackettLuce_compute_two_solo_both (m : MathFns F) (p : PlackettLuceModel F)
    (x y : Rating F) :
    ∃ delta : F, p.compute m [[x], [y]] (some [1, 2]) none =
      .ok [[p.updatePlayer (soloTeamRating x 0) (p.firstSoloOmega m x y)
          (p.firstSoloDelta m x y) 1 x],
        [p.updatePlayer (soloTeamRating y 1) (p.secondSoloOmega m x y) delta 1 y]] := by
  have hcalc := calculateTeamRatings_two_solo p.balance p.kappa x y 1 2
  simp only [show (1 : Int) < 2 from by decide, ↓reduceIte] at hcalc
  change calculateTeamRatings [[x], [y]] (some [1, 2]) p.balance p.kappa =
    .ok [soloTeamRating x 0, soloTeamRating y 1] at hcalc
  unfold PlackettLuceModel.compute
  rw [hcalc]
  dsimp only
  rw [a_two_solo, sumQ_two_solo]
  simp only [traverseIdx]
  simp only [PlackettLuceModel.computeTeam, plackettLuce_players_no_weights]
  have hr : ¬ (soloTeamRating y 1).Rank ≤ (soloTeamRating x 0).Rank := by
    simp [soloTeamRating]
  simp only [List.zip_cons_cons, List.zip_nil_right, List.enum,
    List.enumFrom, List.foldl, PlackettLuceModel.accumulate, List.map,
    hr, ↓reduceIte, le_refl, Nat.zero_add, show (1 : Nat) = 0 ↔ False from by simp,
    show (0 : Nat) = 1 ↔ False from by simp,
    Int.cast_one, div_one, zero_add, Except.ok.injEq, List.cons.injEq, and_true]
  exact ⟨_, ⟨rfl, rfl⟩⟩

/-- The method `PlackettLuceModel.Rate` with `limitSigma` off on two solo teams with ranks
`[1, 2]` and no weights: both players. -/
theorem plackettLuce_Rate_two_solo_both (m : MathFns F) (p : PlackettLuceModel F)
    (hl : p.limitSigma = false) (x y : Rating F) :
    ∃ delta : F, p.Rate m [[x], [y]] (some [1, 2]) none none =
      .ok (.ratings [[p.updatePlayer (soloTeamRating x 0) (p.firstSoloOmega m x y)
          (p.firstSoloDelta m x y) 1 x],
        [p.updatePlayer (soloTeamRating y 1) (p.secondSoloOmega m x y) delta 1 y]]) := by
  obtain ⟨mux, sx⟩ := x
  obtain ⟨muy, sy⟩ := y
  obtain ⟨delta, hcomp⟩ :=
    plackettLuce_compute_two_solo_both m p (Rating.mk mux sx) (Rating.mk muy sy)
  have hord := (computeInRankOrder_two (p.compute m) _ _ _ _ 1 2 none).1 (by decide) hcomp
  refine ⟨delta, ?_⟩
  unfold PlackettLuceModel.Rate
  rw [checkRateParameters_two _ _ (by simp) (by simp)]
  simp only [normalizeWeights, ranksFromScores, List.map]
  rw [hord, hl]
  rfl

end PlackettLuceWinner

section PlackettLuceWinnerReal

/-- For two default solo players the Plackett-Luce `omega` of the second is
`-(1/2) * ((25/3)^2 / c)`, the same as that of the first. -/
theorem default_secondSoloOmega :
    (DefaultPlackettLuceModel (F := ℝ)).secondSoloOmega RealMath
      (Rating.mk 25 (25 / 3)) (Rating.mk 25 (25 / 3)) =
        -(1 / 2) * (25 / 3 * (25 / 3) / Real.sqrt (3125 / 18)) := by
  have he := Real.exp_pos (25 / Real.sqrt (3125 / 18))
  simp only [PlackettLuceModel.secondSoloOmega, DefaultPlackettLuceModel, default_solo_c,
    realMath_exp]
  have h1 : Real.exp (25 / Real.sqrt (3125 / 18)) /
      (Real.exp (25 / Real.sqrt (3125 / 18)) + Real.exp (25 / Real.sqrt (3125 / 18))) = 1 / 2 := by
    field_simp
    ring
  have h2 : Real.exp (25 / Real.sqrt (3125 / 18)) / Real.exp (25 / Real.sqrt (3125 / 18)) = 1 :=
    div_self (ne_of_gt he)
  rw [h1, h2]
  norm_num

/-- The mu that `PlackettLuceModel.updatePlayer` returns for a default player with
`omega = -(1/2) * ((25/3)^2 / C)`, whatever `delta` and the rank class are. -/
theorem default_plackettLuce_updatePlayer_mu (C delta : ℝ) (hC : 1 ≤ C) (rank : Int) :
    ((DefaultPlackettLuceModel (F := ℝ)).updatePlayer (soloTeamRating (Rating.mk 25 (25 / 3)) rank)
        (-(1 / 2) * (25 / 3 * (25 / 3) / C)) delta 1 (Rating.mk 25 (25 / 3))).Mu =
      25 - 25 / 6 / C := by
  have hC0 : 0 < C := lt_of_lt_of_le one_pos hC
  have hneg : ¬ (-(1 / 2) * (25 / 3 * (25 / 3) / C) > 0) := by
    have : 0 < 25 / 3 * (25 / 3) / C := by positivity
    linarith
  simp only [PlackettLuceModel.updatePlayer, soloTeamRating, hneg, ↓reduceIte]
  field_simp
  ring

/-- C28 (the code departs from the claim): under Plackett-Luce with default parameters, for
two solo players `(25, 25/3)` with ranks `[1, 2]` and no weights, both returned mus are
`25 - (25/6)/c` with `c = sqrt (3125/18)`: the mu of the first-ranked player is smaller than
25, as is the mu of the second-ranked player. -/
theorem plackettLuce_winner_mu_goes_down :
    ∃ x1 y1 : Rating ℝ,
      (DefaultPlackettLuceModel (F := ℝ)).Rate RealMath
          [[Rating.mk 25 (25 / 3)], [Rating.mk 25 (25 / 3)]] (some [1, 2]) none none =
        .ok (.ratings [[x1], [y1]]) ∧
      x1.Mu = 25 - 25 / 6 / Real.sqrt (3125 / 18) ∧
      y1.Mu = 25 - 25 / 6 / Real.sqrt (3125 / 18) ∧
      x1.Mu < 25 ∧ y1.Mu < 25 := by
  obtain ⟨delta, hrate⟩ := plackettLuce_Rate_two_solo_both RealMath
    (DefaultPlackettLuceModel (F := ℝ)) rfl (Rating.mk 25 (25 / 3)) (Rating.mk 25 (25 / 3))
  have hc := one_le_sqrt_default
  have hlt : (25 : ℝ) - 25 / 6 / Real.sqrt (3125 / 18) < 25 := by
    have : (0 : ℝ) < 25 / 6 / Real.sqrt (3125 / 18) := by positivity
    linarith
  have hx := default_plackettLuce_updatePlayer_mu (Real.sqrt (3125 / 18))
    ((DefaultPlackettLuceModel (F := ℝ)).firstSoloDelta RealMath
      (Rating.mk 25 (25 / 3)) (Rating.mk 25 (25 / 3))) hc 0
  have hy := default_plackettLuce_updatePlayer_mu (Real.sqrt (3125 / 18)) delta hc 1
  rw [← default_firstSoloOmega] at hx
  rw [← default_secondSoloOmega] at hy
  exact ⟨_, _, hrate, hx, hy, by rw [hx]; exact hlt, by rw [hy]; exact hlt⟩

end PlackettLuceWinnerReal

section PartialNeighbours
variable {F : Type} [LinearOrderedField F]

theorem calculateTeamRatings_three_solo (balance : Bool) (kappa : F) (x y z : Rating F) :
    calculateTeamRatings [[x], [y], [z]] (some [1, 2, 3]) balance kappa =
      .ok [soloTeamRating x 0, soloTeamRating y 1, soloTeamRating z 2] := by
  have hr : calculateRankings [[x], [y], [z]] (some [1, 2, 3]) = .ok [0, 1, 2] := by
    simp [calculateRankings, traverseIdx, rankAt, calculateRankingsLoop]
  unfold calculateTeamRatings
  rw [hr]
  simp only [traverseIdx]
  rw [teamRatingOf_solo _ _ _ 0 x 0 (by simp), teamRatingOf_solo _ _ _ (0 + 1) y 1 (by simp),
    teamRatingOf_solo _ _ _ (0 + 1 + 1) z 2 (by simp)]
  rfl

theorem calculateTeamRatings_two_solo_ranked (balance : Bool) (kappa : F) (x y : Rating F) :
    calculateTeamRatings [[x], [y]] (some [1, 2]) balance kappa =
      .ok [soloTeamRating x 0, soloTeamRating y 1] := by
  have hcalc := calculateTeamRatings_two_solo balance kappa x y 1 2
  simp only [show (1 : Int) < 2 from by decide, ↓reduceIte] at hcalc
  exact hcalc

theorem ladderPairs_two {α : Type} (u v : α) : ladderPairs [u, v] = [[v], [u]] := by
  simp [ladderPairs, List.range_succ]

theorem ladderPairs_three {α : Type} (u v w : α) :
    ladderPairs [u, v, w] = [[v], [u, w], [v]] := by
  simp [ladderPairs, List.range_succ]

/-- The partial Bradley-Terry `compute` on two and on three solo teams without weights. The
test `q == i` compares the position `q` inside the neighbour list with the position `i` of
the team: the first team skips its only neighbour, and the team at position 1 skips its
second neighbour. -/
theorem bradlyTerryPartial_compute_solo (m : MathFns F) (b : BradlyTerryPartialModel F)
    (x y z : Rating F) :
    b.compute m [[x], [y]] (some [1, 2]) none =
        .ok [[b.updatePlayer m (soloTeamRating x 0) 0 0 1 x],
          [b.updatePlayer m (soloTeamRating y 1)
            (b.accumulate m 1 (soloTeamRating y 1) (0, 0) (0, soloTeamRating x 0)).1
            (b.accumulate m 1 (soloTeamRating y 1) (0, 0) (0, soloTeamRating x 0)).2 1 y]] ∧
      b.compute m [[x], [y], [z]] (some [1, 2, 3]) none =
        .ok [[b.updatePlayer m (soloTeamRating x 0) 0 0 1 x],
          [b.updatePlayer m (soloTeamRating y 1)
            (b.accumulate m 1 (soloTeamRating y 1) (0, 0) (0, soloTeamRating x 0)).1
            (b.accumulate m 1 (soloTeamRating y 1) (0, 0) (0, soloTeamRating x 0)).2 1 y],
          [b.updatePlayer m (soloTeamRating z 2)
            (b.accumulate m 2 (soloTeamRating z 2) (0, 0) (0, soloTeamRating y 1)).1
            (b.accumulate m 2 (soloTeamRating z 2) (0, 0) (0, soloTeamRating y 1)).2 1 z]] := by
  have h0 : ∀ (t t2 : teamRating F) (acc : F × F), b.accumulate m 0 t acc (0, t2) = acc := by
    intro t t2 acc
    simp [BradlyTerryPartialModel.accumulate]
  have h1 : ∀ (t t2 : teamRating F) (acc : F × F), b.accumulate m 1 t acc (1, t2) = acc := by
    intro t t2 acc
    simp [BradlyTerryPartialModel.accumulate]
  constructor
  · unfold BradlyTerryPartialModel.compute
    rw [calculateTeamRatings_two_solo_ranked]
    dsimp only
    rw [ladderPairs_two]
    simp only [traverseIdx, BradlyTerryPartialModel.computeTeam, List.getElem?_cons_zero,
      List.getElem?_cons_succ, Nat.zero_add, List.enum, List.enumFrom, List.foldl, h0, h1,
      soloTeamRating, List.map, guardedWeight]
  · unfold BradlyTerryPartialModel.compute
    rw [calculateTeamRatings_three_solo]
    dsimp only
    rw [ladderPairs_three]
    simp only [traverseIdx, BradlyTerryPartialModel.computeTeam, List.getElem?_cons_zero,
      List.getElem?_cons_succ, Nat.zero_add, List.enum, List.enumFrom, List.foldl, h0, h1,
      soloTeamRating, List.map, guardedWeight]

/-- The partial Thurstone-Mosteller `compute` on two and on three solo teams without
weights: the same neighbours are skipped. -/
theorem thurstoneMostellerPartial_compute_solo (m : MathFns F)
    (t : ThurstoneMostellerPartialModel F) (x y z : Rating F) :
    t.compute m [[x], [y]] (some [1, 2]) none =
        .ok [[thurstoneMostellerUpdatePlayer m t.kappa (soloTeamRating x 0) 0 0 1 x],
          [thurstoneMostellerUpdatePlayer m t.kappa (soloTeamRating y 1)
            (t.accumulate m 1 (soloTeamRating y 1) (0, 0) (0, soloTeamRating x 0)).1
            (t.accumulate m 1 (soloTeamRating y 1) (0, 0) (0, soloTeamRating x 0)).2 1 y]] ∧
      t.compute m [[x], [y], [z]] (some [1, 2, 3]) none =
        .ok [[thurstoneMostellerUpdatePlayer m t.kappa (soloTeamRating x 0) 0 0 1 x],
          [thurstoneMostellerUpdatePlayer m t.kappa (soloTeamRating y 1)
            (t.accumulate m 1 (soloTeamRating y 1) (0, 0) (0, soloTeamRating x 0)).1
            (t.accumulate m 1 (soloTeamRating y 1) (0, 0) (0, soloTeamRating x 0)).2 1 y],
          [thurstoneMostellerUpdatePlayer m t.kappa (soloTeamRating z 2)
            (t.accumulate m 2 (soloTeamRating z 2) (0, 0) (0, soloTeamRating y 1)).1
            (t.accumulate m 2 (soloTeamRating z 2) (0, 0) (0, soloTeamRating y 1)).2 1 z]] := by
  have h0 : ∀ (t1 t2 : teamRating F) (acc : F × F), t.accumulate m 0 t1 acc (0, t2) = acc := by
    intro t1 t2 acc
    simp [ThurstoneMostellerPartialModel.accumulate]
  have h1 : ∀ (t1 t2 : teamRating F) (acc : F × F), t.accumulate m 1 t1 acc (1, t2) = acc := by
    intro t1 t2 acc
    simp [ThurstoneMostellerPartialModel.accumulate]
  constructor
  · unfold ThurstoneMostellerPartialModel.compute
    rw [calculateTeamRatings_two_solo_ranked]
    dsimp only
    rw [ladderPairs_two]
    simp only [traverseIdx, ThurstoneMostellerPartialModel.computeTeam, List.getElem?_cons_zero,
      List.getElem?_cons_succ, Nat.zero_add, List.enum, List.enumFrom, List.foldl, h0, h1,
      soloTeamRating, List.map, guardedWeight]
  · unfold ThurstoneMostellerPartialModel.compute
    rw [calculateTeamRatings_three_solo]
    dsimp only
    rw [ladderPairs_three]
    simp only [traverseIdx, ThurstoneMostellerPartialModel.computeTeam, List.getElem?_cons_zero,
      List.getElem?_cons_succ, Nat.zero_add, List.enum, List.enumFrom, List.foldl, h0, h1,
      soloTeamRating, List.map, guardedWeight]

theorem bradlyTerryPartial_updatePlayer_zero (m : MathFns F) (b : BradlyTerryPartialModel F)
    (t1 : teamRating F) (x : Rating F) : (b.updatePlayer m t1 0 0 1 x).Mu = x.Mu := by
  simp [BradlyTerryPartialModel.updatePlayer]

theorem thurstoneMostellerUpdatePlayer_zero (m : MathFns F) (kappa : F)
    (t1 : teamRating F) (x : Rating F) :
    (thurstoneMostellerUpdatePlayer m kappa t1 0 0 1 x).Mu = x.Mu := by
  simp [thurstoneMostellerUpdatePlayer]

end PartialNeighbours

section PartialNeighboursClaim

/-- The term that a comparison of the first of two default solo teams with the second adds
to `omega` in the partial Bradley-Terry model is positive. -/
theorem bradlyTerryPartial_first_term_pos :
    0 < ((DefaultBradlyTerryPartialModel (F := ℝ)).accumulate RealMath 0
      (soloTeamRating (Rating.mk 25 (25 / 3)) 0) (0, 0)
      (1, soloTeamRating (Rating.mk 25 (25 / 3)) 1)).1 := by
  have hc : 0 < Real.sqrt (25 / 3 * (25 / 3) + 25 / 3 * (25 / 3) + 2 * (25 / 6) ^ 2) :=
    Real.sqrt_pos.mpr (by norm_num)
  simp only [BradlyTerryPartialModel.accumulate, soloTeamRating, DefaultBradlyTerryPartialModel,
    show (1 : Nat) = 0 ↔ False from by simp, ↓reduceIte, gt_iff_lt,
    show (0 : Int) < 1 from by decide, realMath_sqrt, realMath_exp, sub_self, zero_div,
    Real.exp_zero, zero_add]
  have : 0 < 25 / 3 * (25 / 3) /
      Real.sqrt (25 / 3 * (25 / 3) + 25 / 3 * (25 / 3) + 2 * (25 / 6) ^ 2) := by positivity
  norm_num

/-- C27 (the code departs from the claim): in the partial `compute` functions the test
`q == i` compares the position `q` inside the neighbour list with the position `i` of the
team. On two solo teams the first team is compared against nobody: its `omega` and `delta`
are 0 and its player's mu is returned unchanged, although the term of a comparison with the
second team is positive for two default players. On three solo teams the team at position 1
is compared against position 0 only; the team at position 2 is compared against
position 1. -/
theorem partial_compute_skips_ladder_neighbours (x y z : Rating ℝ) :
    (∀ b : BradlyTerryPartialModel ℝ,
      b.compute RealMath [[x], [y]] (some [1, 2]) none =
        .ok [[b.updatePlayer RealMath (soloTeamRating x 0) 0 0 1 x],
          [b.updatePlayer RealMath (soloTeamRating y 1)
            (b.accumulate RealMath 1 (soloTeamRating y 1) (0, 0) (0, soloTeamRating x 0)).1
            (b.accumulate RealMath 1 (soloTeamRating y 1) (0, 0) (0, soloTeamRating x 0)).2
            1 y]] ∧
      b.compute RealMath [[x], [y], [z]] (some [1, 2, 3]) none =
        .ok [[b.updatePlayer RealMath (soloTeamRating x 0) 0 0 1 x],
          [b.updatePlayer RealMath (soloTeamRating y 1)
            (b.accumulate RealMath 1 (soloTeamRating y 1) (0, 0) (0, soloTeamRating x 0)).1
            (b.accumulate RealMath 1 (soloTeamRating y 1) (0, 0) (0, soloTeamRating x 0)).2
            1 y],
          [b.updatePlayer RealMath (soloTeamRating z 2)
            (b.accumulate RealMath 2 (soloTeamRating z 2) (0, 0) (0, soloTeamRating y 1)).1
            (b.accumulate RealMath 2 (soloTeamRating z 2) (0, 0) (0, soloTeamRating y 1)).2
            1 z]] ∧
      (b.updatePlayer RealMath (soloTeamRating x 0) 0 0 1 x).Mu = x.Mu) ∧
    (∀ t : ThurstoneMostellerPartialModel ℝ,
      t.compute RealMath [[x], [y]] (some [1, 2]) none =
        .ok [[thurstoneMostellerUpdatePlayer RealMath t.kappa (soloTeamRating x 0) 0 0 1 x],
          [thurstoneMostellerUpdatePlayer RealMath t.kappa (soloTeamRating y 1)
            (t.accumulate RealMath 1 (soloTeamRating y 1) (0, 0) (0, soloTeamRating x 0)).1
            (t.accumulate RealMath 1 (soloTeamRating y 1) (0, 0) (0, soloTeamRating x 0)).2
            1 y]] ∧
      t.compute RealMath [[x], [y], [z]] (some [1, 2, 3]) none =
        .ok [[thurstoneMostellerUpdatePlayer RealMath t.kappa (soloTeamRating x 0) 0 0 1 x],
          [thurstoneMostellerUpdatePlayer RealMath t.kappa (soloTeamRating y 1)
            (t.accumulate RealMath 1 (soloTeamRating y 1) (0, 0) (0, soloTeamRating x 0)).1
            (t.accumulate RealMath 1 (soloTeamRating y 1) (0, 0) (0, soloTeamRating x 0)).2
            1 y],
          [thurstoneMostellerUpdatePlayer RealMath t.kappa (soloTeamRating z 2)
            (t.accumulate RealMath 2 (soloTeamRating z 2) (0, 0) (0, soloTeamRating y 1)).1
            (t.accumulate RealMath 2 (soloTeamRating z 2) (0, 0) (0, soloTeamRating y 1)).2
            1 z]] ∧
      (thurstoneMostellerUpdatePlayer RealMath t.kappa (soloTeamRating x 0) 0 0 1 x).Mu =
        x.Mu) ∧
    0 < ((DefaultBradlyTerryPartialModel (F := ℝ)).accumulate RealMath 0
      (soloTeamRating (Rating.mk 25 (25 / 3)) 0) (0, 0)
      (1, soloTeamRating (Rating.mk 25 (25 / 3)) 1)).1 :=
  ⟨fun b => ⟨(bradlyTerryPartial_compute_solo RealMath b x y z).1,
      (bradlyTerryPartial_compute_solo RealMath b x y z).2,
      bradlyTerryPartial_updatePlayer_zero RealMath b _ x⟩,
    fun t => ⟨(thurstoneMostellerPartial_compute_solo RealMath t x y z).1,
      (thurstoneMostellerPartial_compute_solo RealMath t x y z).2,
      thurstoneMostellerUpdatePlayer_zero RealMath t.kappa _ x⟩,
    bradlyTerryPartial_first_term_pos⟩

end PartialNeighboursClaim

section ErfFacts

open MeasureTheory

/-- The error function is odd. -/
theorem realErf_neg (x : ℝ) : realErf (-x) = -realErf x := by
  unfold realErf
  rw [← mul_neg, ← tsum_neg]
  congr 1
  apply tsum_congr
  intro n
  rw [Odd.neg_pow (⟨n, rfl⟩ : Odd (2 * n + 1))]
  ring

/-- The power series of `realErf` is the integral of the Gaussian: the series of
`exp (-(t^2))` is integrated term by term over `[0, x]`. -/
theorem realErf_eq_integral (x : ℝ) :
    realErf x = 2 / Real.sqrt Real.pi * ∫ t in (0 : ℝ)..x, Real.exp (-(t ^ 2)) := by
  let f : ℕ → C(ℝ, ℝ) := fun n =>
    ⟨fun t => (-(t ^ 2)) ^ n / (n.factorial : ℝ), by continuity⟩
  have hsum : Summable fun n : ℕ =>
      ‖(f n).restrict (⟨Set.uIcc 0 x, isCompact_uIcc⟩ : TopologicalSpace.Compacts ℝ)‖ := by
    refine Summable.of_nonneg_of_le (fun n => norm_nonneg _) (fun n => ?_)
      (Real.summable_pow_div_factorial (x ^ 2))
    rw [ContinuousMap.norm_le _ (by positivity)]
    intro t
    have ht : |(t : ℝ)| ≤ |x| := by
      have := t.2
      rcases Set.mem_uIcc.mp this with h | h
      · rw [abs_of_nonneg h.1, abs_of_nonneg (le_trans h.1 h.2)]
        exact h.2
      · rw [abs_of_nonpos h.2, abs_of_nonpos (le_trans h.1 h.2)]
        linarith [h.1]
    have hsq : (t : ℝ) ^ 2 ≤ x ^ 2 := sq_le_sq.mpr ht
    show ‖(-((t : ℝ) ^ 2)) ^ n / (n.factorial : ℝ)‖ ≤ (x ^ 2) ^ n / (n.factorial : ℝ)
    rw [norm_div, norm_pow, norm_neg, Real.norm_of_nonneg (sq_nonneg _),
      Real.norm_of_nonneg (by positivity : (0 : ℝ) ≤ (n.factorial : ℝ))]
    exact div_le_div_of_nonneg_right (pow_le_pow_left₀ (sq_nonneg _) hsq n) (by positivity)
  have h := intervalIntegral.hasSum_intervalIntegral_of_summable_norm hsum
  have hexp : ∀ t : ℝ, tsum (fun n : ℕ => f n t) = Real.exp (-(t ^ 2)) := by
    intro t
    rw [Real.exp_eq_exp_ℝ, NormedSpace.exp_eq_tsum_div]
    rfl
  have hint : ∀ n : ℕ, ∫ t in (0 : ℝ)..x, f n t =
      (-1 : ℝ) ^ n * x ^ (2 * n + 1) / ((n.factorial : ℝ) * (2 * n + 1)) := by
    intro n
    have h1 : ∀ t : ℝ, f n t = ((-1 : ℝ) ^ n / (n.factorial : ℝ)) * t ^ (2 * n) := by
      intro t
      show (-(t ^ 2)) ^ n / (n.factorial : ℝ) = _
      rw [neg_pow, ← pow_mul]
      ring
    simp only [h1]
    rw [intervalIntegral.integral_const_mul, integral_pow]
    have hn : ((2 * n : ℕ) : ℝ) + 1 ≠ 0 := by positivity
    have hf : (n.factorial : ℝ) ≠ 0 := by positivity
    push_cast
    field_simp
  simp only [hexp, hint] at h
  unfold realErf
  rw [h.tsum_eq]

/-- The normal distribution function `phiMajor` over the reals lies strictly between 0 and
1 and is non-decreasing: the error function is non-decreasing and below 1, because the
integral of the Gaussian over `[0, x]` stays below its integral `sqrt pi / 2` over the half
line. -/
theorem phiMajor_facts :
    (∀ x : ℝ, 0 < phiMajor RealMath x) ∧ (∀ x : ℝ, phiMajor RealMath x < 1) ∧
    (∀ x y : ℝ, x ≤ y → phiMajor RealMath x ≤ phiMajor RealMath y) := by
  have hgauss : ∀ a b : ℝ, IntervalIntegrable (fun t : ℝ => Real.exp (-(t ^ 2))) volume a b :=
    fun a b => (by fun_prop : Continuous (fun t : ℝ => Real.exp (-(t ^ 2)))).intervalIntegrable a b
  have hfactor : (0 : ℝ) < 2 / Real.sqrt Real.pi :=
    div_pos two_pos (Real.sqrt_pos.mpr Real.pi_pos)
  have herfMono : ∀ x y : ℝ, x ≤ y → realErf x ≤ realErf y := by
    intro x y h
    rw [realErf_eq_integral, realErf_eq_integral]
    have hsub := intervalIntegral.integral_interval_sub_left (hgauss 0 y) (hgauss 0 x)
    have hnn : 0 ≤ ∫ t in x..y, Real.exp (-(t ^ 2)) :=
      intervalIntegral.integral_nonneg h (fun u _ => (Real.exp_pos _).le)
    have : (∫ t in (0 : ℝ)..x, Real.exp (-(t ^ 2))) ≤ ∫ t in (0 : ℝ)..y, Real.exp (-(t ^ 2)) := by
      linarith
    exact mul_le_mul_of_nonneg_left this hfactor.le
  have hon : ∀ s : Set ℝ, IntegrableOn (fun t : ℝ => Real.exp (-(t ^ 2))) s := by
    intro s
    have h := (integrable_exp_neg_mul_sq (b := 1) one_pos).integrableOn (s := s)
    simpa using h
  have hIoi : ∫ t in Set.Ioi (0 : ℝ), Real.exp (-(t ^ 2)) = Real.sqrt Real.pi / 2 := by
    have h := integral_gaussian_Ioi 1
    simpa using h
  have hlt : ∀ x : ℝ, 0 ≤ x →
      ∫ t in (0 : ℝ)..x, Real.exp (-(t ^ 2)) < Real.sqrt Real.pi / 2 := by
    intro x hx
    rw [← hIoi, intervalIntegral.integral_of_le hx]
    have hsplit1 : ∫ t in Set.Ioi (0 : ℝ), Real.exp (-(t ^ 2)) =
        (∫ t in Set.Ioc 0 x, Real.exp (-(t ^ 2))) + ∫ t in Set.Ioi x, Real.exp (-(t ^ 2)) := by
      rw [← Set.Ioc_union_Ioi_eq_Ioi hx]
      exact setIntegral_union (Set.Ioc_disjoint_Ioi le_rfl) measurableSet_Ioi (hon _) (hon _)
    have hsplit2 : ∫ t in Set.Ioi x, Real.exp (-(t ^ 2)) =
        (∫ t in Set.Ioc x (x + 1), Real.exp (-(t ^ 2))) +
          ∫ t in Set.Ioi (x + 1), Real.exp (-(t ^ 2)) := by
      rw [← Set.Ioc_union_Ioi_eq_Ioi (by linarith : x ≤ x + 1)]
      exact setIntegral_union (Set.Ioc_disjoint_Ioi le_rfl) measurableSet_Ioi (hon _) (hon _)
    have hpos : 0 < ∫ t in Set.Ioc x (x + 1), Real.exp (-(t ^ 2)) := by
      rw [← intervalIntegral.integral_of_le (by linarith : x ≤ x + 1)]
      exact intervalIntegral.intervalIntegral_pos_of_pos_on (hgauss _ _)
        (fun u _ => Real.exp_pos _) (by linarith)
    have hnn : 0 ≤ ∫ t in Set.Ioi (x + 1), Real.exp (-(t ^ 2)) :=
      setIntegral_nonneg measurableSet_Ioi (fun u _ => (Real.exp_pos _).le)
    linarith
  have herfLt : ∀ x : ℝ, realErf x < 1 := by
    intro x
    have hpi : 0 < Real.sqrt Real.pi := Real.sqrt_pos.mpr Real.pi_pos
    rcases le_total 0 x with hx | hx
    · rw [realErf_eq_integral]
      have h := hlt x hx
      have : 2 / Real.sqrt Real.pi * ∫ t in (0 : ℝ)..x, Real.exp (-(t ^ 2)) <
          2 / Real.sqrt Real.pi * (Real.sqrt Real.pi / 2) :=
        mul_lt_mul_of_pos_left h hfactor
      have h1 : 2 / Real.sqrt Real.pi * (Real.sqrt Real.pi / 2) = 1 := by
        field_simp
      linarith
    · have h0 : realErf 0 = 0 := by
        rw [realErf_eq_integral]
        simp
      have := herfMono x 0 hx
      linarith
  have herfGt : ∀ x : ℝ, -1 < realErf x := by
    intro x
    have := herfLt (-x)
    rw [realErf_neg] at this
    linarith
  have herf : ∀ x : ℝ, RealMath.erf x = realErf x := fun _ => rfl
  refine ⟨?_, ?_, ?_⟩
  · intro x
    unfold phiMajor
    have := herfGt (x / RealMath.sqrt 2)
    rw [herf]
    linarith
  · intro x
    unfold phiMajor
    have := herfLt (x / RealMath.sqrt 2)
    rw [herf]
    linarith
  · intro x y h
    unfold phiMajor
    have hs : (0 : ℝ) ≤ RealMath.sqrt 2 := Real.sqrt_nonneg 2
    have := herfMono _ _ (div_le_div_of_nonneg_right h hs)
    rw [herf, herf]
    linarith

end ErfFacts

section PredictorParts

variable {F : Type} [LinearOrderedField F]

/-- A loop whose body succeeds with `g index element` at every element returns the list of
these values. -/
theorem traverseIdx_eq_map {α β : Type} (f : Nat → α → Except Panic β) (g : Nat → α → β) :
    ∀ (xs : List α) (i : Nat),
      (∀ (k : Nat) (x : α), xs[k]? = some x → f (i + k) x = .ok (g (i + k) x)) →
      traverseIdx f i xs = .ok ((xs.enumFrom i).map (fun it => g it.1 it.2))
  | [], _, _ => rfl
  | x :: xs, i, h => by
    have h0 := h 0 x (by simp)
    simp only [Nat.add_zero] at h0
    have ih := traverseIdx_eq_map f g xs (i + 1) (by
      intro k y hy
      have := h (k + 1) y (by simpa using hy)
      rwa [show i + (k + 1) = i + 1 + k by omega] at this)
    simp only [traverseIdx, h0, ih, List.enumFrom_cons, List.map_cons]

theorem checkTeams_none_iff (teams : List (List (Rating F))) :
    checkTeams teams = none ↔ 2 ≤ teams.length ∧ ∀ team ∈ teams, team ≠ [] := by
  unfold checkTeams
  by_cases h1 : teams.length < 2
  · simp only [h1, ↓reduceIte]
    constructor
    · intro h
      exact Option.noConfusion h
    · intro h
      omega
  · simp only [h1, ↓reduceIte]
    by_cases h2 : teams.any (fun team => decide (team.length < 1)) = true
    · simp only [h2, ↓reduceIte]
      constructor
      · intro h
        exact Option.noConfusion h
      · intro h
        rw [List.any_eq_true] at h2
        obtain ⟨team, hm, hl⟩ := h2
        simp only [decide_eq_true_eq, Nat.lt_one_iff, List.length_eq_zero] at hl
        exact absurd hl (h.2 team hm)
    · simp only [h2, Bool.false_eq_true, ↓reduceIte, true_iff]
      refine ⟨by omega, ?_⟩
      intro team hm he
      apply h2
      rw [List.any_eq_true]
      exact ⟨team, hm, by simp [he]⟩

/-- The team rating of a non-empty team carries the sums `teamSums` of the team. -/
theorem teamRatingOf_teamSums (rank : List Int) (balance : Bool) (kappa : F) (i : Nat)
    (team : List (Rating F)) (rk : Int) (hne : team ≠ []) (hrk : rank[i]? = some rk) :
    teamRatingOf rank balance kappa i team =
      .ok (teamRating.mk (teamSums balance kappa team).1 (teamSums balance kappa team).2
        team rk) := by
  have hsl : 0 < (sortSliceStable (fun x y => decide (x.Ordinal > y.Ordinal)) team).length := by
    have : 0 < team.length := List.length_pos.mpr hne
    simpa [sortSliceStable] using this
  simp only [teamRatingOf, teamSums, List.getElem?_eq_getElem hsl, hrk]

/-- Without ranks `calculateTeamRatings` gives every team its sums and its position as
rank. -/
theorem calculateTeamRatings_nil (balance : Bool) (kappa : F) (teams : List (List (Rating F)))
    (hne : ∀ team ∈ teams, team ≠ []) :
    calculateTeamRatings teams none balance kappa =
      .ok (teams.enum.map (fun it =>
        teamRating.mk (teamSums balance kappa it.2).1 (teamSums balance kappa it.2).2 it.2
          (it.1 : Int))) := by
  unfold calculateTeamRatings
  rw [calculateRankings_nil]
  simp only []
  have := traverseIdx_eq_map (teamRatingOf (rangeInt teams.length) balance kappa)
    (fun k team => teamRating.mk (teamSums balance kappa team).1 (teamSums balance kappa team).2
      team (k : Int)) teams 0 (by
      intro k team hk
      have hkl : k < teams.length := getElem?_lt_of_eq_some hk
      rw [Nat.zero_add]
      exact teamRatingOf_teamSums _ balance kappa k team k (hne team (List.getElem?_mem hk))
        (rangeInt_getElem? _ _ hkl))
  rw [this]
  rfl

/-- The value appended for a pair of non-empty teams is their `pairProbability`. -/
theorem pairwiseWin_eq (m : MathFns F) (p : predictor F) (teamA teamB : List (Rating F))
    (hA : teamA ≠ []) (hB : teamB ≠ []) :
    p.pairwiseWin m teamA teamB = .ok (p.pairProbability m teamA teamB) := by
  have hA1 := calculateTeamRatings_nil p.balance p.kappa [teamA] (by simpa using hA)
  have hB1 := calculateTeamRatings_nil p.balance p.kappa [teamB] (by simpa using hB)
  unfold predictor.pairwiseWin
  rw [hA1, hB1]
  rfl

end PredictorParts

section PredictorWin

variable {F : Type} [LinearOrderedField F]

theorem reduceOption_map_ite {α β : Type} (c : α → Bool) (g : α → β) (xs : List α) :
    (xs.map (fun x => if c x = true then some (g x) else none)).reduceOption =
      (xs.filter c).map g := by
  induction xs with
  | nil => rfl
  | cons x xs ih =>
    by_cases h : c x = true
    · simp only [List.map_cons, h, ↓reduceIte, List.reduceOption_cons_of_some, ih,
        List.filter_cons_of_pos]
    · simp only [List.map_cons, h, ↓reduceIte, List.reduceOption_cons_of_none, ih,
        List.filter_cons_of_neg, not_false_eq_true, Bool.false_eq_true]

/-- The loop over the other teams appends the `pairProbability` against each team at
another position. -/
theorem pairwiseRow_eq (m : MathFns F) (p : predictor F) (teams : List (List (Rating F)))
    (hne : ∀ team ∈ teams, team ≠ []) (i : Nat) (teamA : List (Rating F)) (hA : teamA ≠ []) :
    p.pairwiseRow m teams i teamA =
      .ok ((teams.enum.filter (fun jt => decide (i ≠ jt.1))).map
        (fun jt => p.pairProbability m teamA jt.2)) := by
  have h := traverseIdx_eq_map (p.pairwiseEntry m i teamA)
    (fun j teamB =>
      if decide (i ≠ j) = true then some (p.pairProbability m teamA teamB) else none) teams 0 (by
      intro k teamB hk
      rw [Nat.zero_add]
      unfold predictor.pairwiseEntry
      by_cases hik : i ≠ k
      · rw [if_pos hik, pairwiseWin_eq m p teamA teamB hA (hne teamB (List.getElem?_mem hk))]
        simp only [hik, decide_True, ↓reduceIte, ne_eq, not_false_eq_true]
      · rw [if_neg hik]
        simp only [hik, decide_False, Bool.false_eq_true, ↓reduceIte])
  unfold predictor.pairwiseRow
  rw [h]
  simp only []
  exact congrArg Except.ok (reduceOption_map_ite (fun jt : Nat × List (Rating F) =>
    decide (i ≠ jt.1)) (fun jt => p.pairProbability m teamA jt.2) teams.enum)

theorem enumFrom_filter_ne_length {α : Type} (i : Nat) : ∀ (xs : List α) (k : Nat),
    ((xs.enumFrom k).filter (fun jt => decide (i ≠ jt.1))).length =
      if k ≤ i ∧ i < k + xs.length then xs.length - 1 else xs.length
  | [], k => by simp
  | x :: xs, k => by
    have ih := enumFrom_filter_ne_length i xs (k + 1)
    by_cases hik : i = k
    · subst hik
      rw [List.enumFrom_cons, List.filter_cons_of_neg (by simp), ih]
      simp
    · rw [List.enumFrom_cons, List.filter_cons_of_pos (by simpa using hik), List.length_cons, ih]
      simp only [List.length_cons]
      split_ifs <;> omega

theorem enum_filter_ne_length {α : Type} (xs : List α) (i : Nat) (hi : i < xs.length) :
    ((xs.enum.filter (fun jt => decide (i ≠ jt.1)))).length = xs.length - 1 := by
  have := enumFrom_filter_ne_length i xs 0
  rw [if_pos ⟨Nat.zero_le _, by omega⟩] at this
  exact this

theorem flatten_drop_take {α : Type} (L : Nat) : ∀ (rows : List (List α)) (i : Nat),
    (∀ row ∈ rows, row.length = L) → ∀ row, rows[i]? = some row →
    (rows.flatten.drop (i * L)).take L = row
  | [], i, _, row, h => by simp at h
  | r :: rs, 0, hall, row, h => by
    simp only [List.getElem?_cons_zero, Option.some.injEq] at h
    subst h
    simp only [Nat.zero_mul, List.drop_zero, List.flatten_cons]
    exact List.take_left' (hall r (List.mem_cons_self _ _))
  | r :: rs, i + 1, hall, row, h => by
    simp only [List.getElem?_cons_succ] at h
    have ih := flatten_drop_take L rs i (fun row hr => hall row (List.mem_cons_of_mem _ hr)) row h
    have hr : r.length = L := hall r (List.mem_cons_self _ _)
    rw [List.flatten_cons, show (i + 1) * L = r.length + i * L by rw [hr, Nat.succ_mul]; omega,
      List.drop_append]
    exact ih

theorem sumFrom_ok (xs : List F) : ∀ (k j : Nat) (acc : F),
    ((xs.drop j).take k).length = k →
    sumFrom xs j k acc = .ok (acc + ((xs.drop j).take k).sum)
  | 0, j, acc, _ => by simp [sumFrom]
  | k + 1, j, acc, h => by
    have hj : j < xs.length := by
      by_contra hc
      rw [List.drop_eq_nil_of_le (by omega)] at h
      simp at h
    have hd : xs.drop j = xs[j] :: xs.drop (j + 1) := List.drop_eq_getElem_cons hj
    rw [hd, List.take_succ_cons, List.length_cons] at h
    have ih := sumFrom_ok xs k (j + 1) (acc + xs[j]) (by omega)
    rw [sumFrom, List.getElem?_eq_getElem hj]
    simp only []
    rw [ih, hd, List.take_succ_cons, List.sum_cons, add_assoc]

theorem winProbabilityAt_eq (rows : List (List F)) (n i : Nat) (team : List (Rating F))
    (row : List F) (huni : ∀ row ∈ rows, row.length = n - 1) (hrow : rows[i]? = some row) :
    predictor.winProbabilityAt rows.flatten n i team = .ok (row.sum / ((n - 1 : Nat) : F)) := by
  have hdt := flatten_drop_take (n - 1) rows i huni row hrow
  have hk : (i + 1) * (n - 1) - i * (n - 1) = n - 1 := by
    rw [Nat.succ_mul]
    omega
  have hl : ((rows.flatten.drop (i * (n - 1))).take (n - 1)).length = n - 1 := by
    rw [hdt]
    exact huni row (List.getElem?_mem hrow)
  unfold predictor.winProbabilityAt
  rw [hk, sumFrom_ok rows.flatten (n - 1) (i * (n - 1)) 0 hl, hdt, zero_add]

theorem foldl_add_eq_sum (xs : List F) : ∀ (a : F),
    xs.foldl (fun total prob => total + prob) a = a + xs.sum := by
  induction xs with
  | nil => intro a; simp
  | cons x xs ih =>
    intro a
    rw [List.foldl_cons, ih, List.sum_cons, add_assoc]

theorem normalizeProbabilities_eq (ws : List F) :
    normalizeProbabilities ws = ws.map (fun prob => prob / ws.sum) := by
  unfold normalizeProbabilities
  simp only [foldl_add_eq_sum, zero_add]

theorem normalizeProbabilities_length (ws : List F) :
    (normalizeProbabilities ws).length = ws.length := by
  rw [normalizeProbabilities_eq, List.length_map]

/-- With two non-empty teams `ChanceOfWinning` returns `[p, 1 - p]`. -/
theorem ChanceOfWinning_two (m : MathFns F) (p : predictor F) (teamA teamB : List (Rating F))
    (hA : teamA ≠ []) (hB : teamB ≠ []) :
    p.ChanceOfWinning m [teamA, teamB] =
      .ok (.value [p.pairProbability m teamA teamB, 1 - p.pairProbability m teamA teamB]) := by
  have hne : ∀ team ∈ [teamA, teamB], team ≠ [] := by
    intro team ht
    simp only [List.mem_cons, List.mem_singleton, List.not_mem_nil, or_false] at ht
    rcases ht with rfl | rfl
    · exact hA
    · exact hB
  have hck : checkTeams [teamA, teamB] = none :=
    (checkTeams_none_iff _).mpr ⟨by simp, hne⟩
  unfold predictor.ChanceOfWinning
  rw [hck]
  simp only [List.length_cons, List.length_nil, ↓reduceIte]
  rw [calculateTeamRatings_nil p.balance p.kappa [teamA, teamB] hne]
  rfl

/-- With a number of non-empty teams other than two `ChanceOfWinning` returns the
normalized per-team averages. -/
theorem ChanceOfWinning_many (m : MathFns F) (p : predictor F) (teams : List (List (Rating F)))
    (hlen : 2 ≤ teams.length) (hne : ∀ team ∈ teams, team ≠ []) (h2 : teams.length ≠ 2) :
    p.ChanceOfWinning m teams =
      .ok (.value (normalizeProbabilities
        (teams.enum.map (fun it => p.averageWin m teams it.1 it.2)))) := by
  have hck : checkTeams teams = none := (checkTeams_none_iff _).mpr ⟨hlen, hne⟩
  have hrows := traverseIdx_eq_map (p.pairwiseRow m teams)
    (fun i teamA => (teams.enum.filter (fun jt => decide (i ≠ jt.1))).map
        (fun jt => p.pairProbability m teamA jt.2)) teams 0 (by
      intro k team hk
      rw [Nat.zero_add]
      exact pairwiseRow_eq m p teams hne k team (hne team (List.getElem?_mem hk)))
  have hpp : p.pairwiseProbabilities m teams = .ok
      ((teams.enum.map (fun it => (teams.enum.filter (fun jt => decide (it.1 ≠ jt.1))).map
        (fun jt => p.pairProbability m it.2 jt.2))).flatten) := by
    unfold predictor.pairwiseProbabilities
    rw [hrows]
    rfl
  have huni : ∀ row ∈ teams.enum.map (fun it =>
      (teams.enum.filter (fun jt => decide (it.1 ≠ jt.1))).map
        (fun jt => p.pairProbability m it.2 jt.2)), row.length = teams.length - 1 := by
    intro row hr
    rw [List.mem_map] at hr
    obtain ⟨it, hit, rfl⟩ := hr
    rw [List.length_map]
    exact enum_filter_ne_length teams it.1 (List.fst_lt_of_mem_enum hit)
  have hwin := traverseIdx_eq_map
    (predictor.winProbabilityAt ((teams.enum.map (fun it =>
      (teams.enum.filter (fun jt => decide (it.1 ≠ jt.1))).map
        (fun jt => p.pairProbability m it.2 jt.2))).flatten) teams.length)
    (fun i teamA => p.averageWin m teams i teamA) teams 0 (by
      intro k team hk
      rw [Nat.zero_add]
      refine winProbabilityAt_eq _ teams.length k team _ huni ?_
      rw [List.getElem?_map, List.getElem?_enum, hk]
      rfl)
  unfold predictor.ChanceOfWinning
  rw [hck]
  simp only [h2, ↓reduceIte]
  rw [hpp]
  simp only []
  rw [hwin]
  rfl

end PredictorWin

section PredictorDraw

variable {F : Type} [LinearOrderedField F]

theorem pairwiseDraw_eq (m : MathFns F) (p : predictor F) (drawMargin : F)
    (pairA pairB : List (Rating F)) (j : Nat) (hA : pairA ≠ []) (hB : pairB ≠ []) :
    p.pairwiseDraw m drawMargin pairA j pairB = .ok (p.drawTerm m drawMargin pairA pairB) := by
  have hA1 := calculateTeamRatings_nil p.balance p.kappa [pairA] (by simpa using hA)
  have hB1 := calculateTeamRatings_nil p.balance p.kappa [pairB] (by simpa using hB)
  unfold predictor.pairwiseDraw
  rw [hA1, hB1]
  rfl

theorem enumFrom_map_snd {α β : Type} (g : α → β) : ∀ (xs : List α) (i : Nat),
    (xs.enumFrom i).map (fun it => g it.2) = xs.map g
  | [], _ => rfl
  | x :: xs, i => by
    rw [List.enumFrom_cons, List.map_cons, List.map_cons, enumFrom_map_snd g xs (i + 1)]

/-- The two loops of `ChanceOfDraw` return the terms of all pairs. -/
theorem drawPairs_eq (m : MathFns F) (p : predictor F) (drawMargin : F) :
    ∀ (teams : List (List (Rating F))), (∀ team ∈ teams, team ≠ []) →
      p.drawPairs m drawMargin teams = .ok (p.drawTerms m drawMargin teams)
  | [], _ => rfl
  | pairA :: later, hne => by
    have hA : pairA ≠ [] := hne pairA (List.mem_cons_self _ _)
    have hl : ∀ team ∈ later, team ≠ [] := fun team ht => hne team (List.mem_cons_of_mem _ ht)
    have hrow := traverseIdx_eq_map (p.pairwiseDraw m drawMargin pairA)
      (fun _ pairB => p.drawTerm m drawMargin pairA pairB) later 0 (by
        intro k pairB hk
        exact pairwiseDraw_eq m p drawMargin pairA pairB _ hA (hl pairB (List.getElem?_mem hk)))
    rw [enumFrom_map_snd (fun pairB => p.drawTerm m drawMargin pairA pairB)] at hrow
    rw [predictor.drawPairs, hrow]
    simp only []
    rw [drawPairs_eq m p drawMargin later hl]
    rfl

/-- With at least two non-empty teams `ChanceOfDraw` returns the average of the terms of all
pairs. -/
theorem ChanceOfDraw_eq (m : MathFns F) (p : predictor F) (teams : List (List (Rating F)))
    (hlen : 2 ≤ teams.length) (hne : ∀ team ∈ teams, team ≠ []) :
    p.ChanceOfDraw m teams =
      .ok (.value ((p.drawTerms m (p.drawMargin m teams) teams).sum /
        ((p.drawTerms m (p.drawMargin m teams) teams).length : F))) := by
  have hck : checkTeams teams = none := (checkTeams_none_iff _).mpr ⟨hlen, hne⟩
  unfold predictor.ChanceOfDraw
  rw [hck]
  simp only []
  rw [drawPairs_eq m p _ teams hne]
  simp only [foldl_add_eq_sum, zero_add]

/-- With at least two non-empty teams `ChanceOfRanks` returns the normalized probabilities
of the teams and the ranks of their rounded values. -/
theorem ChanceOfRanks_eq (m : MathFns F) (round : F → Int) (p : predictor F)
    (teams : List (List (Rating F))) (hlen : 2 ≤ teams.length)
    (hne : ∀ team ∈ teams, team ≠ []) :
    ∃ probs : List F, probs.length = teams.length ∧
      p.ChanceOfRanks m round teams =
        .ok (.value (ranksOfRounded (probs.map (fun prob => round (prob * 1000000))), probs)) := by
  have hck : checkTeams teams = none := (checkTeams_none_iff _).mpr ⟨hlen, hne⟩
  unfold predictor.ChanceOfRanks
  rw [hck]
  simp only []
  rw [calculateTeamRatings_nil p.balance p.kappa teams hne]
  simp only []
  refine ⟨_, ?_, rfl⟩
  simp only [normalizeProbabilities_length, List.length_map, List.enum_length]

theorem predictor_err_of_checkTeams (m : MathFns F) (round : F → Int) (p : predictor F)
    (teams : List (List (Rating F))) (e : RateError) (h : checkTeams teams = some e) :
    p.ChanceOfWinning m teams = .ok (.err e) ∧ p.ChanceOfDraw m teams = .ok (.err e) ∧
      p.ChanceOfRanks m round teams = .ok (.err e) := by
  unfold predictor.ChanceOfWinning predictor.ChanceOfDraw predictor.ChanceOfRanks
  rw [h]
  exact ⟨rfl, rfl, rfl⟩

theorem checkTeams_lt_two (teams : List (List (Rating F))) (h : teams.length < 2) :
    checkTeams teams = some .ErrLessThanTwoTeams := by
  unfold checkTeams
  rw [if_pos h]

theorem checkTeams_empty_team (teams : List (List (Rating F))) (h : 2 ≤ teams.length)
    (he : ∃ team ∈ teams, team = []) : checkTeams teams = some .ErrEmptyTeam := by
  unfold checkTeams
  rw [if_neg (by omega), if_pos]
  rw [List.any_eq_true]
  obtain ⟨team, hm, rfl⟩ := he
  exact ⟨[], hm, by simp⟩

theorem ChanceOfWinning_ok (m : MathFns F) (p : predictor F) (teams : List (List (Rating F)))
    (hlen : 2 ≤ teams.length) (hne : ∀ team ∈ teams, team ≠ []) :
    ∃ probs, p.ChanceOfWinning m teams = .ok (.value probs) := by
  by_cases h2 : teams.length = 2
  · obtain ⟨teamA, teamB, hteams⟩ := List.length_eq_two.mp h2
    subst hteams
    exact ⟨_, ChanceOfWinning_two m p teamA teamB (hne teamA (by simp)) (hne teamB (by simp))⟩
  · exact ⟨_, ChanceOfWinning_many m p teams hlen hne h2⟩

end PredictorDraw

section RankFacts

theorem roundedOrder_total :
    IsTotal (Nat × Int) (fun x y => decide (y.2 > x.2) = false) :=
  ⟨fun x y => by
    simp only [gt_iff_lt, decide_eq_false_iff_not, not_lt]
    exact le_total _ _⟩

theorem roundedOrder_trans :
    IsTrans (Nat × Int) (fun x y => decide (y.2 > x.2) = false) :=
  ⟨fun x y z => by
    simp only [gt_iff_lt, decide_eq_false_iff_not, not_lt]
    intro h1 h2
    exact le_trans h2 h1⟩

theorem countGreater_map_snd (S : List (Nat × Int)) (v : Int) :
    countGreater (S.map (fun t => t.2)) v = S.countP (fun t => decide (t.2 > v)) := by
  unfold countGreater
  rw [List.countP_map]
  rfl

/-- The loop of `ChanceOfRanks` on the rest `xs` of a list `pre ++ xs` that is non-increasing
in the rounded value: when the running rank is one more than the number of entries greater
than the previous value, every write is one more than the number of entries greater than the
value at its position. -/
theorem rankLoop_countGreater (S : List (Nat × Int))
    (hs : S.Pairwise (fun x y => y.2 ≤ x.2)) :
    ∀ (xs pre : List (Nat × Int)) (prev : Option Int) (cur : Int), S = pre ++ xs →
      prev = pre.getLast?.map (fun t => t.2) →
      (∀ b, prev = some b → cur = 1 + (countGreater (S.map (fun t => t.2)) b : Int)) →
      (pre = [] → cur = 1) →
      rankLoop prev pre.length cur xs =
        xs.map (fun t => (t.1, 1 + (countGreater (S.map (fun t => t.2)) t.2 : Int)))
  | [], _, _, _, _, _, _, _ => rfl
  | team :: rest, pre, prev, cur, hS, hprev, hsome, hnil => by
    have hsplit : S = (pre ++ [team]) ++ rest := by simp [hS]
    have hge : ∀ y ∈ team :: rest, y.2 ≤ team.2 := by
      intro y hy
      rcases List.mem_cons.mp hy with rfl | hy
      · exact le_refl _
      · have h2 : (team :: rest).Pairwise (fun x y => y.2 ≤ x.2) := by
          rw [hS] at hs
          exact (List.pairwise_append.mp hs).2.1
        exact (List.pairwise_cons.mp h2).1 y hy
    have hle : ∀ x ∈ pre, team.2 ≤ x.2 := by
      intro x hx
      rw [hS] at hs
      exact (List.pairwise_append.mp hs).2.2 x hx team (List.mem_cons_self _ _)
    have htail : List.countP (fun t : Nat × Int => decide (t.2 > team.2)) (team :: rest) = 0 := by
      rw [List.countP_eq_zero]
      intro y hy
      have := hge y hy
      simp only [decide_eq_true_eq]
      omega
    have ih : ∀ s1 : Int, s1 = 1 + (countGreater (S.map (fun t => t.2)) team.2 : Int) →
        rankLoop (some team.2) (pre.length + 1) s1 rest =
          rest.map (fun t => (t.1, 1 + (countGreater (S.map (fun t => t.2)) t.2 : Int))) := by
      intro s1 hs1
      have := rankLoop_countGreater S hs rest (pre ++ [team]) (some team.2) s1
        hsplit (by simp) (by
          intro b hb
          simp only [Option.some.injEq] at hb
          rw [← hb]
          exact hs1) (by simp)
      rw [List.length_append, List.length_singleton] at this
      exact this
    cases prev with
    | none =>
      have hpre : pre = [] := by
        cases hp : pre.getLast? with
        | none => exact List.getLast?_eq_none_iff.mp hp
        | some last => rw [hp] at hprev; exact Option.noConfusion hprev
      have hs1 : cur = 1 + (countGreater (S.map (fun t => t.2)) team.2 : Int) := by
        rw [countGreater_map_snd, hS, hpre, List.nil_append, htail, hnil hpre]
        rfl
      simp only [rankLoop, List.map_cons]
      rw [ih cur hs1, hs1]
    | some before =>
      obtain ⟨last, hlast, hlb⟩ : ∃ last, pre.getLast? = some last ∧ last.2 = before := by
        cases hp : pre.getLast? with
        | none => rw [hp] at hprev; exact Option.noConfusion hprev
        | some last =>
          rw [hp] at hprev
          simp only [Option.map_some', Option.some.injEq] at hprev
          exact ⟨last, rfl, hprev.symm⟩
      have hmem : last ∈ pre := List.mem_of_getLast?_eq_some hlast
      simp only [rankLoop, List.map_cons]
      by_cases hlt : team.2 < before
      · have hcount : ((pre.length : Nat) : Int) + 1 =
            1 + (countGreater (S.map (fun t => t.2)) team.2 : Int) := by
          rw [countGreater_map_snd, hS, List.countP_append, htail, Nat.add_zero]
          have : List.countP (fun t : Nat × Int => decide (t.2 > team.2)) pre = pre.length := by
            rw [List.countP_eq_length]
            intro x hx
            simp only [decide_eq_true_eq]
            have hxb : last.2 ≤ x.2 := by
              obtain ⟨front, hfront⟩ : ∃ front, pre = front ++ [last] :=
                List.getLast?_eq_some_iff.mp hlast
              rw [hS, hfront] at hs
              rw [hfront] at hx
              rcases List.mem_append.mp hx with hx | hx
              · have h3 := (List.pairwise_append.mp (List.pairwise_append.mp hs).1).2.2
                exact h3 x hx last (by simp)
              · simp only [List.mem_singleton] at hx
                rw [hx]
            omega
          rw [this]
          omega
        simp only [hlt, ↓reduceIte]
        rw [ih _ hcount, hcount]
      · have heq : before = team.2 := by
          have := hle last hmem
          omega
        have hs1 : cur = 1 + (countGreater (S.map (fun t => t.2)) team.2 : Int) := by
          rw [hsome before rfl, heq]
        simp only [hlt, ↓reduceIte]
        rw [ih cur hs1, hs1]

theorem foldl_set_length {α : Type} : ∀ (W : List (Nat × α)) (init : List α),
    (W.foldl (fun ranks w => ranks.set w.1 w.2) init).length = init.length
  | [], _ => rfl
  | w :: W, init => by
    rw [List.foldl_cons, foldl_set_length W, List.length_set]

/-- Writes that all store `g k` at their position `k` leave `g i` at every position `i` that
is written or already holds `g i`. -/
theorem foldl_set_consistent {α : Type} (g : Nat → α) : ∀ (W : List (Nat × α)) (init : List α),
    (∀ w ∈ W, w.2 = g w.1) → ∀ i, i < init.length →
    (i ∈ W.map (fun w => w.1) ∨ init[i]? = some (g i)) →
    (W.foldl (fun ranks w => ranks.set w.1 w.2) init)[i]? = some (g i)
  | [], init, _, i, _, h => by
    rcases h with h | h
    · simp at h
    · exact h
  | w :: W, init, hW, i, hi, h => by
    rw [List.foldl_cons]
    apply foldl_set_consistent g W (init.set w.1 w.2)
      (fun u hu => hW u (List.mem_cons_of_mem _ hu)) i (by rw [List.length_set]; exact hi)
    by_cases hwi : w.1 = i
    · right
      rw [List.getElem?_set, if_pos hwi, if_pos (by rw [hwi]; exact hi),
        hW w (List.mem_cons_self _ _), hwi]
    · rcases h with h | h
      · left
        simp only [List.map_cons, List.mem_cons] at h
        rcases h with h | h
        · exact absurd h.symm hwi
        · exact h
      · right
        rw [List.getElem?_set, if_neg hwi]
        exact h

/-- The ranks of `ChanceOfRanks`: at every position one more than the number of rounded
values greater than the value at that position. -/
theorem ranksOfRounded_spec (rs : List Int) :
    (ranksOfRounded rs).length = rs.length ∧
    ∀ (i : Nat) (r : Int), rs[i]? = some r →
      (ranksOfRounded rs)[i]? = some (1 + (countGreater rs r : Int)) := by
  have hperm := sortSliceStable_perm (fun (x y : Nat × Int) => decide (x.2 > y.2)) rs.enum
  have hsorted : (sortSliceStable (fun (x y : Nat × Int) => decide (x.2 > y.2)) rs.enum).Pairwise
      (fun x y => y.2 ≤ x.2) := by
    have h := @List.sorted_insertionSort (Nat × Int) (fun x y => decide (y.2 > x.2) = false) _
      roundedOrder_total roundedOrder_trans rs.enum
    refine List.Pairwise.imp ?_ h
    intro x y hxy
    simpa using hxy
  have hloop := rankLoop_countGreater _ hsorted
    (sortSliceStable (fun (x y : Nat × Int) => decide (x.2 > y.2)) rs.enum) [] none 1
    rfl rfl (fun b hb => Option.noConfusion hb) (fun _ => rfl)
  have hcg : ∀ v, countGreater ((sortSliceStable (fun (x y : Nat × Int) => decide (x.2 > y.2))
      rs.enum).map (fun t => t.2)) v = countGreater rs v := by
    intro v
    unfold countGreater
    rw [(hperm.map (fun t => t.2)).countP_eq, List.enum_map_snd]
  simp only [hcg, List.length_nil] at hloop
  unfold ranksOfRounded
  simp only []
  rw [hloop]
  constructor
  · rw [foldl_set_length, List.length_replicate]
  · intro i r hir
    have hi : i < rs.length := getElem?_lt_of_eq_some hir
    have hmem : (i, r) ∈ sortSliceStable (fun (x y : Nat × Int) => decide (x.2 > y.2)) rs.enum :=
      hperm.mem_iff.mpr (List.mk_mem_enum_iff_getElem?.mpr hir)
    have := foldl_set_consistent (fun k => 1 + (countGreater rs (rs.getD k 0) : Int))
      ((sortSliceStable (fun (x y : Nat × Int) => decide (x.2 > y.2)) rs.enum).map
        (fun t => (t.1, 1 + (countGreater rs t.2 : Int))))
      (List.replicate rs.length 0) (by
        intro w hw
        rw [List.mem_map] at hw
        obtain ⟨t, ht, rfl⟩ := hw
        have h1 : rs[t.1]? = some t.2 :=
          List.mk_mem_enum_iff_getElem?.mp (hperm.mem_iff.mp ht)
        simp only [List.getD_eq_getElem?_getD, h1, Option.getD_some])
      i (by rw [List.length_replicate]; exact hi) (by
        left
        rw [List.map_map, List.mem_map]
        exact ⟨(i, r), hmem, rfl⟩)
    rw [this]
    simp only [List.getD_eq_getElem?_getD, hir, Option.getD_some]

theorem countP_lt_countP {α : Type} (p q : α → Bool) : ∀ (l : List α),
    (∀ x ∈ l, p x = true → q x = true) → (∃ x ∈ l, p x = false ∧ q x = true) →
    l.countP p < l.countP q
  | [], _, h => by
    obtain ⟨x, hx, _⟩ := h
    simp at hx
  | a :: l, himp, hex => by
    have hmono : l.countP p ≤ l.countP q :=
      List.countP_mono_left (fun x hx hp => himp x (List.mem_cons_of_mem _ hx) hp)
    have hhead := himp a (List.mem_cons_self _ _)
    obtain ⟨x, hx, hpx, hqx⟩ := hex
    rw [List.countP_cons, List.countP_cons]
    rcases List.mem_cons.mp hx with rfl | hx
    · simp only [hpx, hqx, Bool.false_eq_true, ↓reduceIte]
      omega
    · have ih := countP_lt_countP p q l
        (fun y hy hp => himp y (List.mem_cons_of_mem _ hy) hp) ⟨x, hx, hpx, hqx⟩
      by_cases hpa : p a = true
      · simp only [hpa, hhead hpa, ↓reduceIte]
        omega
      · simp only [hpa, Bool.false_eq_true, ↓reduceIte]
        split <;> omega

theorem countGreater_lt (rs : List Int) (a b : Int) (ha : a ∈ rs) (hab : b < a) :
    countGreater rs a < countGreater rs b := by
  unfold countGreater
  apply countP_lt_countP
  · intro x _ hx
    simp only [decide_eq_true_eq] at hx ⊢
    omega
  · exact ⟨a, ha, by simp, by simpa using hab⟩

theorem exists_max_mem : ∀ (rs : List Int), rs ≠ [] → ∃ x ∈ rs, ∀ y ∈ rs, y ≤ x
  | [], h => absurd rfl h
  | [a], _ => ⟨a, by simp, by simp⟩
  | a :: b :: rest, _ => by
    obtain ⟨x, hx, hmax⟩ := exists_max_mem (b :: rest) (by simp)
    by_cases hax : a ≤ x
    · refine ⟨x, List.mem_cons_of_mem _ hx, ?_⟩
      intro y hy
      rcases List.mem_cons.mp hy with rfl | hy
      · exact hax
      · exact hmax y hy
    · refine ⟨a, List.mem_cons_self _ _, ?_⟩
      intro y hy
      rcases List.mem_cons.mp hy with rfl | hy
      · exact le_refl _
      · have := hmax y hy
        omega

theorem countGreater_of_max (rs : List Int) (x : Int) (h : ∀ y ∈ rs, y ≤ x) :
    countGreater rs x = 0 := by
  unfold countGreater
  rw [List.countP_eq_zero]
  intro y hy
  have := h y hy
  simp only [decide_eq_true_eq]
  omega

/-- The ranks of `ChanceOfRanks` are at least 1 and, for a non-empty list, 1 is among
them. -/
theorem ranksOfRounded_smallest (rs : List Int) (hne : rs ≠ []) :
    (∀ rank ∈ ranksOfRounded rs, 1 ≤ rank) ∧ 1 ∈ ranksOfRounded rs := by
  obtain ⟨hlen, hspec⟩ := ranksOfRounded_spec rs
  constructor
  · intro rank hr
    obtain ⟨i, hi⟩ := List.getElem?_of_mem hr
    have hil : i < rs.length := by
      rw [← hlen]
      exact getElem?_lt_of_eq_some hi
    have := hspec i rs[i] (List.getElem?_eq_getElem hil)
    rw [hi] at this
    simp only [Option.some.injEq] at this
    omega
  · obtain ⟨x, hx, hmax⟩ := exists_max_mem rs hne
    obtain ⟨i, hi⟩ := List.getElem?_of_mem hx
    have := hspec i x hi
    rw [countGreater_of_max rs x hmax] at this
    exact List.getElem?_mem this

end RankFacts

section RanksAndWinning

variable {F : Type} [LinearOrderedField F]

end RanksAndWinning

section RanksAndWinningTotal

variable {F : Type} [LinearOrderedField F]

end RanksAndWinningTotal

section PredictorClaims

/-- C26: each of `ChanceOfWinning`, `ChanceOfDraw` and `ChanceOfRanks` returns
`ErrLessThanTwoTeams` when given fewer than two teams (among them no teams at all and a
single empty team), otherwise `ErrEmptyTeam` when some team has no players, and otherwise a
value with no error; `checkTeams` decides exactly these three cases. -/
theorem predictor_methods_follow_checkTeams {F : Type} [LinearOrderedField F] (m : MathFns F)
    (round : F → Int) (p : predictor F) (teams : List (List (Rating F))) :
    (teams.length < 2 →
      checkTeams teams = some .ErrLessThanTwoTeams ∧
      p.ChanceOfWinning m teams = .ok (.err .ErrLessThanTwoTeams) ∧
      p.ChanceOfDraw m teams = .ok (.err .ErrLessThanTwoTeams) ∧
      p.ChanceOfRanks m round teams = .ok (.err .ErrLessThanTwoTeams)) ∧
    (2 ≤ teams.length → (∃ team ∈ teams, team = []) →
      checkTeams teams = some .ErrEmptyTeam ∧
      p.ChanceOfWinning m teams = .ok (.err .ErrEmptyTeam) ∧
      p.ChanceOfDraw m teams = .ok (.err .ErrEmptyTeam) ∧
      p.ChanceOfRanks m round teams = .ok (.err .ErrEmptyTeam)) ∧
    (2 ≤ teams.length → (∀ team ∈ teams, team ≠ []) →
      checkTeams teams = none ∧
      (∃ probs, p.ChanceOfWinning m teams = .ok (.value probs)) ∧
      (∃ prob, p.ChanceOfDraw m teams = .ok (.value prob)) ∧
      (∃ ranks probs, p.ChanceOfRanks m round teams = .ok (.value (ranks, probs)))) ∧
    checkTeams ([] : List (List (Rating F))) = some .ErrLessThanTwoTeams ∧
    checkTeams ([[]] : List (List (Rating F))) = some .ErrLessThanTwoTeams := by
  refine ⟨?_, ?_, ?_, rfl, rfl⟩
  · intro h
    exact ⟨checkTeams_lt_two teams h,
      predictor_err_of_checkTeams m round p teams _ (checkTeams_lt_two teams h)⟩
  · intro h he
    exact ⟨checkTeams_empty_team teams h he,
      predictor_err_of_checkTeams m round p teams _ (checkTeams_empty_team teams h he)⟩
  · intro h hne
    refine ⟨(checkTeams_none_iff teams).mpr ⟨h, hne⟩, ChanceOfWinning_ok m p teams h hne,
      ⟨_, ChanceOfDraw_eq m p teams h hne⟩, ?_⟩
    obtain ⟨probs, _, hr⟩ := ChanceOfRanks_eq m round p teams h hne
    exact ⟨_, probs, hr⟩

theorem predictor_methods_follow_checkTeams_witness :
    ((DefaultPredictor : predictor ℝ).ChanceOfWinning RealMath [[Rating.mk 25 (25 / 3)]] =
        .ok (.err .ErrLessThanTwoTeams) ∧
      (DefaultPredictor : predictor ℝ).ChanceOfDraw RealMath [[Rating.mk 25 (25 / 3)]] =
        .ok (.err .ErrLessThanTwoTeams) ∧
      (DefaultPredictor : predictor ℝ).ChanceOfRanks RealMath roundHalfAway
        [[Rating.mk 25 (25 / 3)]] = .ok (.err .ErrLessThanTwoTeams)) ∧
    ((DefaultPredictor : predictor ℝ).ChanceOfWinning RealMath [[Rating.mk 25 (25 / 3)], []] =
        .ok (.err .ErrEmptyTeam) ∧
      (DefaultPredictor : predictor ℝ).ChanceOfDraw RealMath [[Rating.mk 25 (25 / 3)], []] =
        .ok (.err .ErrEmptyTeam) ∧
      (DefaultPredictor : predictor ℝ).ChanceOfRanks RealMath roundHalfAway
        [[Rating.mk 25 (25 / 3)], []] = .ok (.err .ErrEmptyTeam)) ∧
    ((∃ probs, (DefaultPredictor : predictor ℝ).ChanceOfWinning RealMath
        [[Rating.mk 25 (25 / 3)], [Rating.mk 30 5]] = .ok (.value probs)) ∧
      (∃ prob, (DefaultPredictor : predictor ℝ).ChanceOfDraw RealMath
        [[Rating.mk 25 (25 / 3)], [Rating.mk 30 5]] = .ok (.value prob)) ∧
      (∃ ranks probs, (DefaultPredictor : predictor ℝ).ChanceOfRanks RealMath roundHalfAway
        [[Rating.mk 25 (25 / 3)], [Rating.mk 30 5]] = .ok (.value (ranks, probs)))) :=
  ⟨((predictor_methods_follow_checkTeams RealMath roundHalfAway DefaultPredictor
      [[Rating.mk 25 (25 / 3)]]).1 (by simp)).2,
    ((predictor_methods_follow_checkTeams RealMath roundHalfAway DefaultPredictor
      [[Rating.mk 25 (25 / 3)], []]).2.1 (by simp) ⟨[], by simp, rfl⟩).2,
    ((predictor_methods_follow_checkTeams RealMath roundHalfAway DefaultPredictor
      [[Rating.mk 25 (25 / 3)], [Rating.mk 30 5]]).2.2.1 (by simp) (by simp)).2⟩

/-- C24: for at least two non-empty teams the ranks returned by `ChanceOfRanks` are a
competition ranking of the returned probabilities rounded to 6 decimals: with
`r_i = round (prob_i * 1000000)` the rank at every position `i` is
`1 + #{ j : r_j > r_i }`; so equal rounded probabilities share a rank, a strictly larger
rounded probability has a strictly smaller rank, every rank is at least 1 and the rank 1
occurs. -/
theorem ChanceOfRanks_competition_ranking {F : Type} [LinearOrderedField F] (m : MathFns F)
    (round : F → Int) (p : predictor F) (teams : List (List (Rating F)))
    (hlen : 2 ≤ teams.length) (hne : ∀ team ∈ teams, team ≠ []) :
    ∃ ranks probs, p.ChanceOfRanks m round teams = .ok (.value (ranks, probs)) ∧
      ranks.length = teams.length ∧ probs.length = teams.length ∧
      (∀ (i : Nat) (x : F), probs[i]? = some x →
        ranks[i]? = some (1 + (countGreater (probs.map (fun prob => round (prob * 1000000)))
          (round (x * 1000000)) : Int))) ∧
      (∀ (i j : Nat) (x y : F) (ri rj : Int), probs[i]? = some x → probs[j]? = some y →
        ranks[i]? = some ri → ranks[j]? = some rj →
        (round (x * 1000000) = round (y * 1000000) → ri = rj) ∧
        (round (x * 1000000) > round (y * 1000000) → ri < rj)) ∧
      (∀ rank ∈ ranks, 1 ≤ rank) ∧ 1 ∈ ranks := by
  obtain ⟨probs, hpl, hr⟩ := ChanceOfRanks_eq m round p teams hlen hne
  obtain ⟨hrl, hspec⟩ := ranksOfRounded_spec (probs.map (fun prob => round (prob * 1000000)))
  have hat : ∀ (i : Nat) (x : F), probs[i]? = some x →
      (ranksOfRounded (probs.map (fun prob => round (prob * 1000000))))[i]? =
        some (1 + (countGreater (probs.map (fun prob => round (prob * 1000000)))
          (round (x * 1000000)) : Int)) := by
    intro i x hx
    exact hspec i _ (by rw [List.getElem?_map, hx]; rfl)
  have hnil : probs.map (fun prob => round (prob * 1000000)) ≠ [] := by
    intro h
    have := congrArg List.length h
    rw [List.length_map, hpl] at this
    simp only [List.length_nil] at this
    omega
  obtain ⟨hge, hone⟩ := ranksOfRounded_smallest _ hnil
  refine ⟨_, probs, hr, ?_, hpl, hat, ?_, hge, hone⟩
  · rw [hrl, List.length_map, hpl]
  · intro i j x y ri rj hx hy hri hrj
    rw [hat i x hx] at hri
    rw [hat j y hy] at hrj
    simp only [Option.some.injEq] at hri hrj
    constructor
    · intro h
      rw [← hri, ← hrj, h]
    · intro h
      have hmem : round (x * 1000000) ∈ probs.map (fun prob => round (prob * 1000000)) :=
        List.mem_map.mpr ⟨x, List.getElem?_mem hx, rfl⟩
      have := countGreater_lt _ _ _ hmem h
      omega

theorem ChanceOfRanks_competition_ranking_witness :
    2 ≤ [[Rating.mk (25 : ℝ) (25 / 3)], [Rating.mk 30 5], [Rating.mk 20 4, Rating.mk 22 6]].length ∧
    (∀ team ∈ [[Rating.mk (25 : ℝ) (25 / 3)], [Rating.mk 30 5], [Rating.mk 20 4, Rating.mk 22 6]],
      team ≠ []) ∧
    ∃ ranks probs, (DefaultPredictor : predictor ℝ).ChanceOfRanks RealMath roundHalfAway
        [[Rating.mk (25 : ℝ) (25 / 3)], [Rating.mk 30 5], [Rating.mk 20 4, Rating.mk 22 6]] =
          .ok (.value (ranks, probs)) ∧
      ranks.length = 3 ∧ (∀ rank ∈ ranks, 1 ≤ rank) ∧ 1 ∈ ranks := by
  have hne : ∀ team ∈
      [[Rating.mk (25 : ℝ) (25 / 3)], [Rating.mk 30 5], [Rating.mk 20 4, Rating.mk 22 6]],
      team ≠ [] := by
    intro team ht
    simp only [List.mem_cons, List.mem_singleton, List.not_mem_nil, or_false] at ht
    rcases ht with rfl | rfl | rfl <;> simp
  obtain ⟨ranks, probs, h1, h2, -, -, -, h6, h7⟩ :=
    ChanceOfRanks_competition_ranking RealMath roundHalfAway DefaultPredictor
      [[Rating.mk (25 : ℝ) (25 / 3)], [Rating.mk 30 5], [Rating.mk 20 4, Rating.mk 22 6]]
      (by simp) hne
  exact ⟨by simp, hne, ranks, probs, h1, h2, h6, h7⟩

end PredictorClaims

section LadderFacts

theorem ladderPairs_getElem? {α : Type} (list : List α) (h : 2 ≤ list.length) (i : Nat)
    (hi : i < list.length) :
    (ladderPairs list)[i]? = some (if i = 0 then list[1]?.toList
      else if i < list.length - 1 then list[i - 1]?.toList ++ list[i + 1]?.toList
      else list[list.length - 2]?.toList) := by
  unfold ladderPairs
  simp only []
  rw [if_neg (by omega), List.getElem?_map, List.getElem?_range hi]
  rfl

/-- C32: for a list of length `n ≥ 2`, `ladderPairs` has length `n`, its first entry is
`[list[1]]`, its last entry is `[list[n-2]]` and the entry at `0 < i < n-1` is
`[list[i-1], list[i+1]]`; for a list of length 0 or 1 it is `[[]]`. -/
theorem ladderPairs_neighbours {α : Type} (list : List α) :
    (∀ h : 2 ≤ list.length,
      (ladderPairs list).length = list.length ∧
      (ladderPairs list)[0]? = some [list[1]] ∧
      (ladderPairs list)[list.length - 1]? = some [list[list.length - 2]] ∧
      ∀ (i : Nat) (h0 : 0 < i) (hi : i < list.length - 1),
        (ladderPairs list)[i]? = some [list[i - 1], list[i + 1]]) ∧
    (list.length ≤ 1 → ladderPairs list = [[]]) := by
  constructor
  · intro h
    refine ⟨?_, ?_, ?_, ?_⟩
    · unfold ladderPairs
      simp only []
      rw [if_neg (by omega), List.length_map, List.length_range]
    · rw [ladderPairs_getElem? list h 0 (by omega), if_pos rfl,
        List.getElem?_eq_getElem (by omega)]
      rfl
    · rw [ladderPairs_getElem? list h (list.length - 1) (by omega)]
      by_cases h2 : list.length - 1 = 0
      · have h3 : list.length - 2 = 0 := by omega
        have h4 : list.length = 2 := by omega
        rw [if_pos h2, List.getElem?_eq_getElem (by omega)]
        simp only [Option.toList_some, Option.some.injEq, List.cons.injEq, and_true]
        congr 1
        omega
      · rw [if_neg h2, if_neg (by omega), List.getElem?_eq_getElem (by omega)]
        rfl
    · intro i h0 hi
      rw [ladderPairs_getElem? list h i (by omega), if_neg (by omega), if_pos hi,
        List.getElem?_eq_getElem (by omega), List.getElem?_eq_getElem (by omega)]
      rfl
  · intro h
    unfold ladderPairs
    simp only []
    rw [if_pos h]

theorem ladderPairs_neighbours_witness :
    ladderPairs [(1 : Int), 2, 3, 4] = [[2], [1, 3], [2, 4], [3]] ∧
    ladderPairs [(1 : Int), 2] = [[2], [1]] ∧
    ladderPairs [(1 : Int)] = [[]] ∧ ladderPairs ([] : List Int) = [[]] ∧
    (ladderPairs [(1 : Int), 2, 3, 4]).length = 4 ∧
    (ladderPairs [(1 : Int), 2, 3, 4])[0]? = some [2] ∧
    (ladderPairs [(1 : Int), 2, 3, 4])[3]? = some [3] ∧
    (ladderPairs [(1 : Int), 2, 3, 4])[1]? = some [1, 3] ∧
    (ladderPairs [(1 : Int), 2, 3, 4])[2]? = some [2, 4] :=
  ⟨by decide, by decide,
    (ladderPairs_neighbours [(1 : Int)]).2 (by decide),
    (ladderPairs_neighbours ([] : List Int)).2 (by decide),
    ((ladderPairs_neighbours [(1 : Int), 2, 3, 4]).1 (by decide)).1,
    ((ladderPairs_neighbours [(1 : Int), 2, 3, 4]).1 (by decide)).2.1,
    ((ladderPairs_neighbours [(1 : Int), 2, 3, 4]).1 (by decide)).2.2.1,
    ((ladderPairs_neighbours [(1 : Int), 2, 3, 4]).1 (by decide)).2.2.2 1 (by decide) (by decide),
    ((ladderPairs_neighbours [(1 : Int), 2, 3, 4]).1 (by decide)).2.2.2 2 (by decide) (by decide)⟩

end LadderFacts

section TieFallbacks

/-- C33: for every `x` and every margin `t ≤ 0` over the reals the difference
`b = phiMajor (t - |x|) - phiMajor (-t - |x|)` is not positive, so `vt x t` is `-x - t` for
`x < 0` and `-x + t` for `x ≥ 0`, and `wt x t` is 1. -/
theorem vt_wt_fallback_of_nonpos_margin (x t : ℝ) (ht : t ≤ 0) :
    phiMajor RealMath (t - |x|) - phiMajor RealMath (-t - |x|) ≤ 0 ∧
    (x < 0 → vt RealMath x t = -x - t) ∧
    (0 ≤ x → vt RealMath x t = -x + t) ∧
    wt RealMath x t = 1 := by
  have hb : phiMajor RealMath (t - |x|) - phiMajor RealMath (-t - |x|) ≤ 0 := by
    have := phiMajor_facts.2.2 (t - |x|) (-t - |x|) (by linarith)
    linarith
  have h1 : phiMajor RealMath (t - |x|) - phiMajor RealMath (-t - |x|) < 1 / 100000 :=
    lt_of_le_of_lt hb (by norm_num)
  have h2 : phiMajor RealMath (t - |x|) - phiMajor RealMath (-t - |x|) <
      SmallestNonzeroFloat64 := lt_of_le_of_lt hb smallestNonzeroFloat64_pos
  refine ⟨hb, ?_, ?_, ?_⟩
  · intro hx
    unfold vt
    simp only []
    rw [if_pos h1, if_pos hx]
  · intro hx
    unfold vt
    simp only []
    rw [if_pos h1, if_neg (not_lt.mpr hx)]
  · unfold wt
    simp only []
    rw [if_pos h2]

theorem vt_wt_fallback_of_nonpos_margin_witness :
    (-100 : ℝ) ≤ 0 ∧ (-1 : ℝ) ≤ 0 ∧ (0 : ℝ) ≤ 0 ∧
    vt RealMath (-1000) (-100) = 1100 ∧ vt RealMath 1000 (-100) = -1100 ∧
    wt RealMath 0 (-1) = 1 ∧ wt RealMath 0 0 = 1 := by
  refine ⟨by norm_num, by norm_num, le_refl _, ?_, ?_, ?_, ?_⟩
  · rw [(vt_wt_fallback_of_nonpos_margin (-1000) (-100) (by norm_num)).2.1 (by norm_num)]
    norm_num
  · rw [(vt_wt_fallback_of_nonpos_margin 1000 (-100) (by norm_num)).2.2.1 (by norm_num)]
    norm_num
  · exact (vt_wt_fallback_of_nonpos_margin 0 (-1) (by norm_num)).2.2.2
  · exact (vt_wt_fallback_of_nonpos_margin 0 0 (le_refl _)).2.2.2

end TieFallbacks

section SumQFacts

variable {F : Type} [LinearOrderedField F]

/-- The outer loop of `sumQ` over the teams `ks`, started with the entries `g t`: every
entry grows by the sum of `exp (Mu_k / c)` over the teams `k` of `ks` whose rank is at least
the rank at the entry. -/
theorem sumQ_loop (m : MathFns F) (teamRatings : List (teamRating F)) (c : F) :
    ∀ (ks : List (teamRating F)) (g : teamRating F → F),
      ks.foldl (fun acc t1 =>
        (acc.zip teamRatings).map
          (fun e => if t1.Rank ≥ e.2.Rank then e.1 + m.exp (t1.Mu / c) else e.1))
        (teamRatings.map g) =
      teamRatings.map (fun t => g t + sumQAt m ks c t.Rank)
  | [], g => by simp [sumQAt]
  | k :: ks, g => by
    have hzip : (teamRatings.map g).zip teamRatings = teamRatings.map (fun t => (g t, t)) := by
      have := List.zip_map' g id teamRatings
      rw [List.map_id] at this
      rw [this]
      rfl
    rw [List.foldl_cons, hzip, List.map_map]
    have ih := sumQ_loop m teamRatings c ks
      (fun t => if k.Rank ≥ t.Rank then g t + m.exp (k.Mu / c) else g t)
    refine Eq.trans ih ?_
    apply List.map_congr_left
    intro t _
    unfold sumQAt
    by_cases hk : k.Rank ≥ t.Rank
    · rw [if_pos hk, List.filter_cons_of_pos (by simpa using hk), List.map_cons, List.sum_cons,
        add_assoc]
    · rw [if_neg hk, List.filter_cons_of_neg (by simpa using hk)]

theorem sumQ_eq (m : MathFns F) (teamRatings : List (teamRating F)) (c : F) :
    sumQ m teamRatings c = teamRatings.map (fun t => sumQAt m teamRatings c t.Rank) := by
  have := sumQ_loop m teamRatings c teamRatings (fun _ => 0)
  unfold sumQ
  simp only [] at this ⊢
  rw [this]
  apply List.map_congr_left
  intro t _
  rw [zero_add]

theorem sumQAt_antitone (m : MathFns F) (hexp : ∀ x, 0 ≤ m.exp x) (c : F) (r1 r2 : Int)
    (h : r1 ≤ r2) : ∀ (teamRatings : List (teamRating F)),
      sumQAt m teamRatings c r2 ≤ sumQAt m teamRatings c r1
  | [] => by simp [sumQAt]
  | t :: ts => by
    have ih := sumQAt_antitone m hexp c r1 r2 h ts
    unfold sumQAt at ih ⊢
    by_cases h2 : t.Rank ≥ r2
    · have h1 : t.Rank ≥ r1 := le_trans h h2
      rw [List.filter_cons_of_pos (by simpa using h2), List.filter_cons_of_pos (by simpa using h1),
        List.map_cons, List.map_cons, List.sum_cons, List.sum_cons]
      linarith
    · rw [List.filter_cons_of_neg (by simpa using h2)]
      by_cases h1 : t.Rank ≥ r1
      · rw [List.filter_cons_of_pos (by simpa using h1), List.map_cons, List.sum_cons]
        have := hexp (t.Mu / c)
        linarith
      · rw [List.filter_cons_of_neg (by simpa using h1)]
        exact ih

/-- C31: `sumQ` returns one entry per team rating, and the entry at `j` is the sum of
`exp (Mu_k / c)` over the teams `k` with `Rank_k ≥ Rank_j`; so teams of equal rank have
equal entries, and when `exp` is non-negative a team of lower rank has an entry at least as
large. -/
theorem sumQ_sums_over_ranks_at_least (m : MathFns F) (teamRatings : List (teamRating F))
    (c : F) :
    (sumQ m teamRatings c).length = teamRatings.length ∧
    (∀ (j : Nat) (tj : teamRating F), teamRatings[j]? = some tj →
      (sumQ m teamRatings c)[j]? = some (sumQAt m teamRatings c tj.Rank)) ∧
    (∀ (i j : Nat) (ti tj : teamRating F) (qi qj : F),
      teamRatings[i]? = some ti → teamRatings[j]? = some tj →
      (sumQ m teamRatings c)[i]? = some qi → (sumQ m teamRatings c)[j]? = some qj →
      (ti.Rank = tj.Rank → qi = qj) ∧
      ((∀ x, 0 ≤ m.exp x) → ti.Rank ≤ tj.Rank → qj ≤ qi)) := by
  have hat : ∀ (j : Nat) (tj : teamRating F), teamRatings[j]? = some tj →
      (sumQ m teamRatings c)[j]? = some (sumQAt m teamRatings c tj.Rank) := by
    intro j tj hj
    rw [sumQ_eq, List.getElem?_map, hj]
    rfl
  refine ⟨by rw [sumQ_eq, List.length_map], hat, ?_⟩
  intro i j ti tj qi qj hi hj hqi hqj
  rw [hat i ti hi] at hqi
  rw [hat j tj hj] at hqj
  simp only [Option.some.injEq] at hqi hqj
  subst hqi hqj
  exact ⟨fun h => by rw [h], fun hexp h => sumQAt_antitone m hexp c _ _ h teamRatings⟩

theorem sumQ_sums_over_ranks_at_least_witness :
    calculateTeamRatings [[Rating.mk (25 : ℝ) (25 / 3)],
        [Rating.mk 25 (25 / 3), Rating.mk 25 (25 / 3)]] none false (1 / 10000) =
      .ok [teamRating.mk 25 (25 / 3 * (25 / 3)) [Rating.mk 25 (25 / 3)] 0,
        teamRating.mk (25 + 25) (25 / 3 * (25 / 3) + 25 / 3 * (25 / 3))
          [Rating.mk 25 (25 / 3), Rating.mk 25 (25 / 3)] 1] ∧
    ∀ c : ℝ,
      (sumQ RealMath [teamRating.mk 25 (25 / 3 * (25 / 3)) [Rating.mk 25 (25 / 3)] 0,
        teamRating.mk (25 + 25) (25 / 3 * (25 / 3) + 25 / 3 * (25 / 3))
          [Rating.mk 25 (25 / 3), Rating.mk 25 (25 / 3)] 1] c)[0]? =
        some (Real.exp (25 / c) + Real.exp ((25 + 25) / c)) ∧
      (sumQ RealMath [teamRating.mk 25 (25 / 3 * (25 / 3)) [Rating.mk 25 (25 / 3)] 0,
        teamRating.mk (25 + 25) (25 / 3 * (25 / 3) + 25 / 3 * (25 / 3))
          [Rating.mk 25 (25 / 3), Rating.mk 25 (25 / 3)] 1] c)[1]? =
        some (Real.exp ((25 + 25) / c)) := by
  constructor
  · unfold calculateTeamRatings
    rw [calculateRankings_nil]
    simp only [traverseIdx, List.length_cons, List.length_nil]
    rw [teamRatingOf_solo _ false _ 0 _ 0 rfl, teamRatingOf_twins _ false _ 1 _ 1 rfl]
  · intro c
    constructor
    · rw [(sumQ_sums_over_ranks_at_least RealMath _ c).2.1 0 _ rfl]
      simp [sumQAt, RealMath]
    · rw [(sumQ_sums_over_ranks_at_least RealMath _ c).2.1 1 _ rfl]
      simp [sumQAt, RealMath]

end SumQFacts

section RanksAndWinningReal

end RanksAndWinningReal

section RoundingFacts

variable {F : Type} [LinearOrderedField F]

theorem OrdinalFl_id (r : Rating F) : r.OrdinalFl id = r.Ordinal := rfl

theorem normalizeFl_id (vector : List F) (lo hi : F) :
    normalizeFl id vector lo hi = normalize vector lo hi := rfl

end RoundingFacts

section Binary64Facts

theorem log2Halving_spec : ∀ (fuel n : Nat), 0 < n → n < 2 ^ fuel →
    2 ^ log2Halving fuel n ≤ n ∧ n < 2 ^ (log2Halving fuel n + 1)
  | 0, n, h0, h => by
    simp only [pow_zero, Nat.lt_one_iff] at h
    omega
  | fuel + 1, n, h0, h => by
    unfold log2Halving
    by_cases h2 : 2 ≤ n
    · rw [if_pos h2]
      have hlt : n / 2 < 2 ^ fuel := by
        rw [pow_succ] at h
        omega
      obtain ⟨ih1, ih2⟩ := log2Halving_spec fuel (n / 2) (by omega) hlt
      rw [pow_succ] at ih2
      constructor
      · rw [pow_succ]
        omega
      · rw [pow_succ, pow_succ]
        omega
    · rw [if_neg h2]
      simp only [pow_zero, zero_add, pow_one]
      omega

/-- The halvings of `n` itself give the integer part of its binary logarithm. -/
theorem log2Halving_self (n : Nat) (h0 : 0 < n) :
    2 ^ log2Halving n n ≤ n ∧ n < 2 ^ (log2Halving n n + 1) :=
  log2Halving_spec n n h0 (Nat.lt_two_pow n)

/-- The binade of a non-zero rational holds its magnitude. -/
theorem binadeOf_spec (q : ℚ) (hq : q ≠ 0) :
    (2 : ℚ) ^ binadeOf q ≤ |q| ∧ |q| < (2 : ℚ) ^ (binadeOf q + 1) := by
  have hn0 : 0 < q.num.natAbs := Int.natAbs_pos.mpr (Rat.num_ne_zero.mpr hq)
  have hd0 : 0 < q.den := q.den_pos
  obtain ⟨hn1, hn2⟩ := log2Halving_self q.num.natAbs hn0
  obtain ⟨hd1, hd2⟩ := log2Halving_self q.den hd0
  have habs : |q| = (q.num.natAbs : ℚ) / (q.den : ℚ) := by
    rw [Rat.abs_def, Rat.divInt_eq_div, Int.cast_natCast, Int.cast_natCast]
  unfold binadeOf
  simp only []
  generalize log2Halving q.num.natAbs q.num.natAbs = a at hn1 hn2 ⊢
  generalize log2Halving q.den q.den = b at hd1 hd2 ⊢
  have hn1' : (2 : ℚ) ^ a ≤ (q.num.natAbs : ℚ) := by exact_mod_cast hn1
  have hn2' : (q.num.natAbs : ℚ) < (2 : ℚ) ^ (a + 1) := by exact_mod_cast hn2
  have hd1' : (2 : ℚ) ^ b ≤ (q.den : ℚ) := by exact_mod_cast hd1
  have hd2' : (q.den : ℚ) < (2 : ℚ) ^ (b + 1) := by exact_mod_cast hd2
  have hdpos : (0 : ℚ) < (q.den : ℚ) := by exact_mod_cast hd0
  have h2a : (0 : ℚ) < (2 : ℚ) ^ a := by positivity
  have h2b : (0 : ℚ) < (2 : ℚ) ^ b := by positivity
  have he0 : (2 : ℚ) ^ ((a : Int) - (b : Int)) = (2 : ℚ) ^ a / (2 : ℚ) ^ b := by
    rw [zpow_sub₀ (by norm_num), zpow_natCast, zpow_natCast]
  by_cases hc : (2 : ℚ) ^ ((a : Int) - (b : Int)) ≤ |q|
  · rw [if_pos hc]
    refine ⟨hc, ?_⟩
    rw [zpow_add_one₀ (by norm_num), he0, habs, div_lt_iff₀ hdpos]
    have : (2 : ℚ) ^ a / (2 : ℚ) ^ b * 2 * (q.den : ℚ) =
        (2 : ℚ) ^ (a + 1) * ((q.den : ℚ) / (2 : ℚ) ^ b) := by
      rw [pow_succ]
      field_simp
    rw [this]
    have h1 : (1 : ℚ) ≤ (q.den : ℚ) / (2 : ℚ) ^ b := by
      rw [le_div_iff₀ h2b]
      linarith
    nlinarith
  · rw [if_neg hc]
    have hlt : |q| < (2 : ℚ) ^ ((a : Int) - (b : Int)) := not_le.mp hc
    refine ⟨?_, by rw [sub_add_cancel]; exact hlt⟩
    rw [zpow_sub_one₀ (by norm_num), he0, habs, le_div_iff₀ hdpos]
    have : (2 : ℚ) ^ a / (2 : ℚ) ^ b * 2⁻¹ * (q.den : ℚ) =
        (2 : ℚ) ^ a * ((q.den : ℚ) / (2 : ℚ) ^ (b + 1)) := by
      rw [pow_succ]
      field_simp
    rw [this]
    have h1 : (q.den : ℚ) / (2 : ℚ) ^ (b + 1) ≤ 1 := by
      rw [div_le_one (by positivity)]
      exact hd2'.le
    have h0 : 0 ≤ (q.den : ℚ) / (2 : ℚ) ^ (b + 1) := by positivity
    nlinarith

/-- The binade is the only exponent that holds the magnitude. -/
theorem binadeOf_eq (q : ℚ) (hq : q ≠ 0) (k : Int) (h1 : (2 : ℚ) ^ k ≤ |q|)
    (h2 : |q| < (2 : ℚ) ^ (k + 1)) : binadeOf q = k := by
  obtain ⟨s1, s2⟩ := binadeOf_spec q hq
  have a1 : k < binadeOf q + 1 :=
    (zpow_lt_zpow_iff_right₀ (by norm_num : (1 : ℚ) < 2)).mp (lt_of_le_of_lt h1 s2)
  have a2 : binadeOf q < k + 1 :=
    (zpow_lt_zpow_iff_right₀ (by norm_num : (1 : ℚ) < 2)).mp (lt_of_le_of_lt s1 h2)
  omega

/-- The rounded value is within one half of the argument. -/
theorem roundHalfEven_near (t : ℚ) :
    t - 1 / 2 ≤ (roundHalfEven t : ℚ) ∧ (roundHalfEven t : ℚ) ≤ t + 1 / 2 := by
  have hf1 : ((⌊t⌋ : Int) : ℚ) ≤ t := Int.floor_le t
  have hf2 : t < ((⌊t⌋ : Int) : ℚ) + 1 := Int.lt_floor_add_one t
  unfold roundHalfEven
  simp only []
  split_ifs with h1 h2 h3
  · constructor <;> linarith
  · push_cast
    constructor <;> linarith
  · constructor <;> linarith
  · push_cast
    constructor <;> linarith

theorem roundHalfEven_intCast (k : Int) : roundHalfEven (k : ℚ) = k := by
  unfold roundHalfEven
  simp only [Int.floor_intCast, sub_self]
  norm_num

theorem roundHalfEven_mono (s t : ℚ) (h : s ≤ t) : roundHalfEven s ≤ roundHalfEven t := by
  rcases eq_or_lt_of_le h with rfl | hlt
  · exact le_refl _
  · by_contra hc
    have hc1 : roundHalfEven t + 1 ≤ roundHalfEven s := by omega
    have hc2 : ((roundHalfEven t : Int) : ℚ) + 1 ≤ (roundHalfEven s : ℚ) := by exact_mod_cast hc1
    have := (roundHalfEven_near s).2
    have := (roundHalfEven_near t).1
    linarith

/-- The unit in the last place of the binade of `q`. -/
theorem ulp_pos (q : ℚ) : (0 : ℚ) < (2 : ℚ) ^ (binadeOf q - 52) :=
  zpow_pos (by norm_num) _

theorem two_zpow_split (e : Int) : (2 : ℚ) ^ e = 2 ^ 52 * (2 : ℚ) ^ (e - 52) := by
  have : e = 52 + (e - 52) := by omega
  conv_lhs => rw [this]
  rw [zpow_add₀ (by norm_num)]
  norm_num

theorem two_zpow_split_succ (e : Int) : (2 : ℚ) ^ (e + 1) = 2 ^ 53 * (2 : ℚ) ^ (e - 52) := by
  have : e + 1 = 53 + (e - 52) := by omega
  conv_lhs => rw [this]
  rw [zpow_add₀ (by norm_num)]
  norm_num

/-- The significand of a positive number lies between `2^52` and `2^53`. -/
theorem significand_pos (q : ℚ) (hq : 0 < q) :
    (2 : Int) ^ 52 ≤ roundHalfEven (q / 2 ^ (binadeOf q - 52)) ∧
      roundHalfEven (q / 2 ^ (binadeOf q - 52)) ≤ (2 : Int) ^ 53 := by
  obtain ⟨s1, s2⟩ := binadeOf_spec q hq.ne'
  rw [abs_of_pos hq] at s1 s2
  have hu := ulp_pos q
  have h1 : ((2 ^ 52 : Int) : ℚ) ≤ q / 2 ^ (binadeOf q - 52) := by
    rw [le_div_iff₀ hu]
    rw [two_zpow_split] at s1
    exact_mod_cast s1
  have h2 : q / 2 ^ (binadeOf q - 52) ≤ ((2 ^ 53 : Int) : ℚ) := by
    rw [div_le_iff₀ hu]
    rw [two_zpow_split_succ] at s2
    exact_mod_cast s2.le
  have m1 := roundHalfEven_mono _ _ h1
  have m2 := roundHalfEven_mono _ _ h2
  rw [roundHalfEven_intCast] at m1 m2
  exact ⟨m1, m2⟩

/-- The significand of a negative number lies between `-2^53` and `-2^52`. -/
theorem significand_neg (q : ℚ) (hq : q < 0) :
    -(2 : Int) ^ 53 ≤ roundHalfEven (q / 2 ^ (binadeOf q - 52)) ∧
      roundHalfEven (q / 2 ^ (binadeOf q - 52)) ≤ -(2 : Int) ^ 52 := by
  obtain ⟨s1, s2⟩ := binadeOf_spec q hq.ne
  rw [abs_of_neg hq] at s1 s2
  have hu := ulp_pos q
  have h1 : q / 2 ^ (binadeOf q - 52) ≤ ((-(2 ^ 52) : Int) : ℚ) := by
    rw [div_le_iff₀ hu]
    rw [two_zpow_split] at s1
    push_cast
    linarith
  have h2 : ((-(2 ^ 53) : Int) : ℚ) ≤ q / 2 ^ (binadeOf q - 52) := by
    rw [le_div_iff₀ hu]
    rw [two_zpow_split_succ] at s2
    push_cast
    linarith
  have m1 := roundHalfEven_mono _ _ h1
  have m2 := roundHalfEven_mono _ _ h2
  rw [roundHalfEven_intCast] at m1 m2
  exact ⟨m2, m1⟩

theorem binary64_of_ne (q : ℚ) (hq : q ≠ 0) :
    binary64 q = (roundHalfEven (q / 2 ^ (binadeOf q - 52)) : ℚ) * 2 ^ (binadeOf q - 52) := by
  unfold binary64
  rw [if_neg hq]

/-- A positive number rounds into the closure of its binade. -/
theorem binary64_pos_bounds (q : ℚ) (hq : 0 < q) :
    (2 : ℚ) ^ binadeOf q ≤ binary64 q ∧ binary64 q ≤ (2 : ℚ) ^ (binadeOf q + 1) := by
  obtain ⟨m1, m2⟩ := significand_pos q hq
  have hu := ulp_pos q
  rw [binary64_of_ne q hq.ne', two_zpow_split_succ (binadeOf q), two_zpow_split (binadeOf q)]
  have c1 : ((2 : ℚ) ^ 52) ≤ (roundHalfEven (q / 2 ^ (binadeOf q - 52)) : ℚ) := by
    exact_mod_cast m1
  have c2 : (roundHalfEven (q / 2 ^ (binadeOf q - 52)) : ℚ) ≤ (2 : ℚ) ^ 53 := by
    exact_mod_cast m2
  exact ⟨mul_le_mul_of_nonneg_right c1 hu.le, mul_le_mul_of_nonneg_right c2 hu.le⟩

/-- A negative number rounds into the closure of its binade. -/
theorem binary64_neg_bounds (q : ℚ) (hq : q < 0) :
    -(2 : ℚ) ^ (binadeOf q + 1) ≤ binary64 q ∧ binary64 q ≤ -(2 : ℚ) ^ binadeOf q := by
  obtain ⟨m1, m2⟩ := significand_neg q hq
  have hu := ulp_pos q
  rw [binary64_of_ne q hq.ne, two_zpow_split_succ (binadeOf q), two_zpow_split (binadeOf q)]
  have c1 : -((2 : ℚ) ^ 53) ≤ (roundHalfEven (q / 2 ^ (binadeOf q - 52)) : ℚ) := by
    exact_mod_cast m1
  have c2 : (roundHalfEven (q / 2 ^ (binadeOf q - 52)) : ℚ) ≤ -((2 : ℚ) ^ 52) := by
    exact_mod_cast m2
  constructor
  · have := mul_le_mul_of_nonneg_right c1 hu.le
    linarith
  · have := mul_le_mul_of_nonneg_right c2 hu.le
    linarith

theorem binary64_pos (q : ℚ) (hq : 0 < q) : 0 < binary64 q :=
  lt_of_lt_of_le (zpow_pos (by norm_num) _) (binary64_pos_bounds q hq).1

theorem binary64_neg (q : ℚ) (hq : q < 0) : binary64 q < 0 := by
  have := (binary64_neg_bounds q hq).2
  have h2 : (0 : ℚ) < (2 : ℚ) ^ binadeOf q := zpow_pos (by norm_num) _
  linarith

theorem binary64_zero : binary64 0 = 0 := by
  unfold binary64
  rw [if_pos rfl]

/-- Rounding to float64 is monotone. -/
theorem binary64_mono (x y : ℚ) (h : x ≤ y) : binary64 x ≤ binary64 y := by
  rcases lt_trichotomy x 0 with hx | hx | hx
  · rcases lt_trichotomy y 0 with hy | hy | hy
    · -- both negative
      obtain ⟨sx1, sx2⟩ := binadeOf_spec x hx.ne
      obtain ⟨sy1, sy2⟩ := binadeOf_spec y hy.ne
      rw [abs_of_neg hx] at sx1 sx2
      rw [abs_of_neg hy] at sy1 sy2
      have hle : binadeOf y ≤ binadeOf x := by
        have : (2 : ℚ) ^ binadeOf y < (2 : ℚ) ^ (binadeOf x + 1) := by linarith
        have := (zpow_lt_zpow_iff_right₀ (by norm_num : (1 : ℚ) < 2)).mp this
        omega
      rcases eq_or_lt_of_le hle with heq | hlt
      · rw [binary64_of_ne x hx.ne, binary64_of_ne y hy.ne, heq]
        apply mul_le_mul_of_nonneg_right _ (ulp_pos x).le
        have : roundHalfEven (x / 2 ^ (binadeOf x - 52)) ≤
            roundHalfEven (y / 2 ^ (binadeOf x - 52)) :=
          roundHalfEven_mono _ _ (div_le_div_of_nonneg_right h (ulp_pos x).le)
        exact_mod_cast this
      · have b1 := (binary64_neg_bounds x hx).2
        have b2 := (binary64_neg_bounds y hy).1
        have : (2 : ℚ) ^ (binadeOf y + 1) ≤ (2 : ℚ) ^ binadeOf x :=
          zpow_le_zpow_right₀ (by norm_num) (by omega)
        linarith
    · subst hy
      rw [binary64_zero]
      exact (binary64_neg x hx).le
    · exact ((binary64_neg x hx).trans (binary64_pos y hy)).le
  · subst hx
    rw [binary64_zero]
    rcases eq_or_lt_of_le h with heq | hlt
    · rw [← heq, binary64_zero]
    · exact (binary64_pos y hlt).le
  · have hy : 0 < y := lt_of_lt_of_le hx h
    obtain ⟨sx1, sx2⟩ := binadeOf_spec x hx.ne'
    obtain ⟨sy1, sy2⟩ := binadeOf_spec y hy.ne'
    rw [abs_of_pos hx] at sx1 sx2
    rw [abs_of_pos hy] at sy1 sy2
    have hle : binadeOf x ≤ binadeOf y := by
      have : (2 : ℚ) ^ binadeOf x < (2 : ℚ) ^ (binadeOf y + 1) := by linarith
      have := (zpow_lt_zpow_iff_right₀ (by norm_num : (1 : ℚ) < 2)).mp this
      omega
    rcases eq_or_lt_of_le hle with heq | hlt
    · rw [binary64_of_ne x hx.ne', binary64_of_ne y hy.ne', heq]
      apply mul_le_mul_of_nonneg_right _ (ulp_pos y).le
      have : roundHalfEven (x / 2 ^ (binadeOf y - 52)) ≤
          roundHalfEven (y / 2 ^ (binadeOf y - 52)) :=
        roundHalfEven_mono _ _ (div_le_div_of_nonneg_right h (ulp_pos y).le)
      exact_mod_cast this
    · have b1 := (binary64_pos_bounds x hx).2
      have b2 := (binary64_pos_bounds y hy).1
      have : (2 : ℚ) ^ (binadeOf x + 1) ≤ (2 : ℚ) ^ binadeOf y :=
        zpow_le_zpow_right₀ (by norm_num) (by omega)
      linarith

/-- A significand of 53 bits times a power of two is a float64 value. -/
theorem binary64_significand_mul (m k : Int) (h1 : 2 ^ 52 ≤ |m|) (h2 : |m| ≤ 2 ^ 53) :
    binary64 ((m : ℚ) * 2 ^ k) = (m : ℚ) * 2 ^ k := by
  have hk : (0 : ℚ) < (2 : ℚ) ^ k := zpow_pos (by norm_num) _
  have hm0 : m ≠ 0 := by
    intro h
    rw [h] at h1
    norm_num at h1
  have hv0 : (m : ℚ) * 2 ^ k ≠ 0 := mul_ne_zero (by exact_mod_cast hm0) hk.ne'
  have habs : |(m : ℚ) * 2 ^ k| = ((|m| : Int) : ℚ) * 2 ^ k := by
    rw [abs_mul, abs_of_pos hk, Int.cast_abs]
  have c1 : ((2 : ℚ) ^ 52) ≤ ((|m| : Int) : ℚ) := by exact_mod_cast h1
  rcases lt_or_eq_of_le h2 with hlt | heq
  · have c2 : ((|m| : Int) : ℚ) < (2 : ℚ) ^ 53 := by exact_mod_cast hlt
    have hb : binadeOf ((m : ℚ) * 2 ^ k) = k + 52 := by
      apply binadeOf_eq _ hv0
      · rw [habs, two_zpow_split (k + 52), add_sub_cancel_right]
        exact mul_le_mul_of_nonneg_right c1 hk.le
      · rw [habs, two_zpow_split_succ (k + 52), add_sub_cancel_right]
        exact mul_lt_mul_of_pos_right c2 hk
    rw [binary64_of_ne _ hv0, hb, add_sub_cancel_right, mul_div_assoc, div_self hk.ne', mul_one,
      roundHalfEven_intCast]
  · have hcases : m = 2 ^ 53 ∨ m = -2 ^ 53 := by
      rcases abs_cases m with ⟨ha, -⟩ | ⟨ha, -⟩
      · left
        rw [← ha, heq]
      · right
        rw [ha] at heq
        omega
    have hc : ∃ c : Int, m = 2 * c := by
      rcases hcases with h | h
      · exact ⟨2 ^ 52, by rw [h]; norm_num⟩
      · exact ⟨-2 ^ 52, by rw [h]; norm_num⟩
    obtain ⟨c, hc⟩ := hc
    have c3 : ((|m| : Int) : ℚ) = (2 : ℚ) ^ 53 := by exact_mod_cast heq
    have e1 : (2 : ℚ) ^ (k + 53) = 2 ^ 53 * 2 ^ k := by
      rw [zpow_add₀ (by norm_num), mul_comm]
      norm_num
    have hb : binadeOf ((m : ℚ) * 2 ^ k) = k + 53 := by
      apply binadeOf_eq _ hv0
      · rw [habs, c3, e1]
      · rw [habs, c3, zpow_add_one₀ (by norm_num), e1]
        nlinarith
    have hdiv : (m : ℚ) * 2 ^ k / 2 ^ (k + 53 - 52) = ((c : Int) : ℚ) := by
      rw [show k + 53 - 52 = k + 1 by ring, zpow_add_one₀ (by norm_num), hc]
      push_cast
      field_simp
      ring
    rw [binary64_of_ne _ hv0, hb, hdiv, roundHalfEven_intCast,
      show k + 53 - 52 = k + 1 by ring, zpow_add_one₀ (by norm_num), hc]
    push_cast
    ring

/-- A value of `binary64` rounds to itself. -/
theorem binary64_idem (q : ℚ) : binary64 (binary64 q) = binary64 q := by
  rcases lt_trichotomy q 0 with hq | hq | hq
  · obtain ⟨m1, m2⟩ := significand_neg q hq
    rw [binary64_of_ne q hq.ne]
    apply binary64_significand_mul
    · rw [abs_of_neg (by omega)]
      omega
    · rw [abs_of_neg (by omega)]
      omega
  · subst hq
    rw [binary64_zero, binary64_zero]
  · obtain ⟨m1, m2⟩ := significand_pos q hq
    rw [binary64_of_ne q hq.ne']
    apply binary64_significand_mul
    · rw [abs_of_pos (by omega)]
      exact m1
    · rw [abs_of_pos (by omega)]
      exact m2

/-- The rounding of float64 is a rounding in the sense of `RoundsToNearest`. -/
theorem roundsToNearest_binary64 : RoundsToNearest binary64 :=
  ⟨binary64_mono, binary64_idem, binary64_zero, by decide!⟩

/-- The value `binary64 q` is a nearest float64 to `q`: it is within half a unit in the
last place of the binade of `q`. -/
theorem binary64_near (q : ℚ) : |binary64 q - q| ≤ 2 ^ (binadeOf q - 52) / 2 := by
  by_cases hq : q = 0
  · subst hq
    rw [binary64_zero, sub_zero, abs_zero]
    exact (div_pos (ulp_pos 0) two_pos).le
  · have hu := ulp_pos q
    obtain ⟨n1, n2⟩ := roundHalfEven_near (q / 2 ^ (binadeOf q - 52))
    have hq' : q = q / 2 ^ (binadeOf q - 52) * 2 ^ (binadeOf q - 52) := by
      field_simp
    rw [binary64_of_ne q hq, abs_le]
    constructor
    · nlinarith
    · nlinarith

end Binary64Facts

section OrdinalClaim2

variable {F : Type} [LinearOrderedField F]

/-- C22, as the code has it: `Rating.Ordinal` is `Mu - 3 * Sigma` computed in float64
arithmetic, the rounded difference of `Mu` and the rounded product `3 * Sigma`.  For every
rounding that is monotone it is non-decreasing in mu for a fixed sigma and non-increasing
in sigma for a fixed mu.  When the operations are exact (`fl = id`) it is `Mu - 3 * Sigma`
and strictly monotone. -/
theorem Ordinal_rounded_monotone (fl : F → F) (hfl : RoundsToNearest fl)
    (mu1 mu2 sigma1 sigma2 : F) :
    (Rating.mk mu1 sigma1).OrdinalFl fl = fl (mu1 - fl (3 * sigma1)) ∧
      (mu1 ≤ mu2 → (Rating.mk mu1 sigma1).OrdinalFl fl ≤ (Rating.mk mu2 sigma1).OrdinalFl fl) ∧
      (sigma1 ≤ sigma2 →
        (Rating.mk mu1 sigma2).OrdinalFl fl ≤ (Rating.mk mu1 sigma1).OrdinalFl fl) ∧
      (Rating.mk mu1 sigma1).OrdinalFl id = (Rating.mk mu1 sigma1).Ordinal ∧
      (Rating.mk mu1 sigma1).Ordinal = mu1 - 3 * sigma1 ∧
      (mu1 < mu2 → (Rating.mk mu1 sigma1).Ordinal < (Rating.mk mu2 sigma1).Ordinal) ∧
      (sigma1 < sigma2 → (Rating.mk mu1 sigma2).Ordinal < (Rating.mk mu1 sigma1).Ordinal) := by
  refine ⟨rfl, ?_, ?_, rfl, rfl, ?_, ?_⟩
  · intro h
    apply hfl.mono
    simp only
    linarith
  · intro h
    apply hfl.mono
    have := hfl.mono (3 * sigma1) (3 * sigma2) (by linarith)
    simp only
    linarith
  · intro h
    simp only [Rating.Ordinal]
    linarith
  · intro h
    simp only [Rating.Ordinal]
    linarith

theorem Ordinal_rounded_monotone_witness :
    RoundsToNearest binary64 ∧
      (Rating.mk (25 : ℚ) (25 / 3)).OrdinalFl binary64 =
        binary64 (25 - binary64 (3 * (25 / 3))) ∧
      ((25 : ℚ) ≤ 30 →
        (Rating.mk (25 : ℚ) (25 / 3)).OrdinalFl binary64 ≤
          (Rating.mk 30 (25 / 3)).OrdinalFl binary64) ∧
      ((25 / 3 : ℚ) ≤ 9 →
        (Rating.mk (25 : ℚ) 9).OrdinalFl binary64 ≤
          (Rating.mk 25 (25 / 3)).OrdinalFl binary64) ∧
      (Rating.mk (25 : ℚ) (25 / 3)).OrdinalFl id = (Rating.mk (25 : ℚ) (25 / 3)).Ordinal ∧
      (Rating.mk (25 : ℚ) (25 / 3)).Ordinal = 25 - 3 * (25 / 3) ∧
      ((25 : ℚ) < 30 → (Rating.mk (25 : ℚ) (25 / 3)).Ordinal < (Rating.mk 30 (25 / 3)).Ordinal) ∧
      ((25 / 3 : ℚ) < 9 → (Rating.mk (25 : ℚ) 9).Ordinal < (Rating.mk 25 (25 / 3)).Ordinal) :=
  ⟨roundsToNearest_binary64,
    Ordinal_rounded_monotone binary64 roundsToNearest_binary64 25 30 (25 / 3) 9⟩

/-- C22, the claim as stated fails in float64: the ratings `{1e-20, 1}` and `{2e-20, 1}`
differ in mu and have the same ordinal `-3`, and the ratings `{1e6, 8.333333333333334}` and
`{1e6, 8.333333333333336}` differ in sigma and have the same ordinal. -/
theorem Ordinal_not_strictly_monotone_in_float64 :
    binary64 (1 / 10 ^ 20) < binary64 (2 / 10 ^ 20) ∧
      (Rating.mk (binary64 (1 / 10 ^ 20)) 1).OrdinalFl binary64 = -3 ∧
      (Rating.mk (binary64 (2 / 10 ^ 20)) 1).OrdinalFl binary64 = -3 ∧
      binary64 (8333333333333334 / 10 ^ 15) < binary64 (8333333333333336 / 10 ^ 15) ∧
      (Rating.mk 1000000 (binary64 (8333333333333334 / 10 ^ 15))).OrdinalFl binary64 =
        (Rating.mk 1000000 (binary64 (8333333333333336 / 10 ^ 15))).OrdinalFl binary64 := by
  decide!

end OrdinalClaim2

section NormalizeRounded

variable {F : Type} [LinearOrderedField F]

end NormalizeRounded

section NormalizeClaims2

variable {F : Type} [LinearOrderedField F]

end NormalizeClaims2

section RoundedIsExact

variable {F : Type} [LinearOrderedField F]

end RoundedIsExact

section RoundedTwoTeams

variable {F : Type} [LinearOrderedField F]

end RoundedTwoTeams

section RoundedBradlyTerryClaim

variable {F : Type} [LinearOrderedField F]

end RoundedBradlyTerryClaim

section RoundedPredictor

variable {F : Type} [LinearOrderedField F]

end RoundedPredictor

section RoundedPredictorClaim

end RoundedPredictorClaim

section ZeroOverZero

variable {F : Type} [LinearOrderedField F]

end ZeroOverZero

section ZeroOverZeroClaims

end ZeroOverZeroClaims

section RoundedPredictorMany

variable {F : Type} [LinearOrderedField F]

end RoundedPredictorMany

section RoundedPredictorTwo

variable {F : Type} [LinearOrderedField F]

end RoundedPredictorTwo

section RoundedPredictorClaims

variable {F : Type} [LinearOrderedField F]

end RoundedPredictorClaims

end OpenSkill
